import Mathlib

/-!
# Front end of the toy language: tokenizer (HW1) and parser (HW1_bystep/Parser)

Shallow embedding of

* `HW1_bystep/Parser/src/parser.cpp`, `ast.h`, `lexer.h`, `lexer.cpp` (namespace `Bystep`),
* `HW1/src/lexer.cpp`, `HW1/include/lexer/token.h` (namespace `HW1`),

followed by theorems about them.

Conventions of the embedding.

* A `std::string` is a Lean `String`; one `Char` stands for one C++ `char`.
* `int` / `size_t` counters (`pos_`, `line_`, `column_`) are `Nat`: the inputs
  considered are shorter than `2^31`, so no counter wraps.
* The cursor `pos_` is kept as an index. In the parser a read `(*tokens_)[pos_]`
  outside the vector is the explicit failure `out_of_range`; in the tokenizer an
  unguarded read `source_[pos_]` outside the string makes the function return
  `none`. `Lexer::peek` and `Lexer::peekNext` test the bound themselves before they
  read, so their read is in range.
* `throw std::runtime_error(msg)` is the result `Except.error (.runtime_error msg)`.
* Every `while` loop and the recursion `statement -> block -> statement` take a
  `fuel : Nat` that decreases at each iteration or nested call. The entry points
  `Bystep.parse` and `HW1.tokenize` supply the fuel themselves; running out of it
  is the failure `out_of_fuel` of the parser and `none` of the tokenizer.

The file has two parts: the definitions (the two programs, the grammar of the
specification, and the vocabulary of the statements), then the theorems.
-/

namespace Bystep

/-! ## Data model (`lexer.h`, `ast.h`) -/

/-- The `Token` of `HW1_bystep/Parser/src/lexer.h`: a type string and a value string. -/
structure Token where
  type : String
  value : String
deriving DecidableEq, Repr

/-- The nine node classes of `ast.h`; a `std::vector<std::unique_ptr<ASTNode>>`
is a `List ASTNode`. -/
inductive ASTNode where
  | NumberLiteral (value : String)
  | Identifier (name : String)
  | StringLiteral (value : String)
  | BinaryExpr (op : String) (left : ASTNode) (right : ASTNode)
  | LetDecl (name : String) (isMut : Bool) (value : ASTNode)
  | FunctionDecl (name : String) (body : List ASTNode)
  | IfStatement (condition : ASTNode) (thenBody : List ASTNode) (elseBody : List ASTNode)
  | WhileStatement (condition : ASTNode) (body : List ASTNode)
  | ReturnStatement (value : ASTNode)
deriving Repr

/-- The ways a call into the parser can end without a value. -/
inductive Failure where
  /-- A `throw std::runtime_error(what)`. -/
  | runtime_error (what : String)
  /-- A read `(*tokens_)[pos_]` with `pos_` outside the vector. -/
  | out_of_range
  /-- The fuel of the embedding ran out. -/
  | out_of_fuel
deriving DecidableEq, Repr

/-! ## Utility methods (`parser.cpp` lines 6-33) -/

/-- Method `Parser::current`: `(*tokens_)[pos_]`. -/
def current (tokens : List Token) (pos : Nat) : Except Failure Token :=
  match tokens[pos]? with
  | some tok => .ok tok
  | none => .error .out_of_range

/-- Method `Parser::atEnd`: `pos_ >= (int)tokens_->size()`. -/
def atEnd (tokens : List Token) (pos : Nat) : Bool :=
  decide (pos ≥ tokens.length)

/-- Method `Parser::advance`: read `(*tokens_)[pos_]`, then `pos_++`. -/
def advance (tokens : List Token) (pos : Nat) : Except Failure (Token × Nat) :=
  match tokens[pos]? with
  | some tok => .ok (tok, pos + 1)
  | none => .error .out_of_range

/-- Method `Parser::expect`: returns the new `pos_`. -/
def expect (tokens : List Token) (pos : Nat) (type value : String) : Except Failure Nat :=
  if atEnd tokens pos then
    .error (.runtime_error ("Expected " ++ type ++ " '" ++ value ++ "' but reached end of input"))
  else
    match current tokens pos with
    | .error e => .error e
    | .ok tok =>
      if tok.type != type || tok.value != value then
        .error (.runtime_error
          ("Expected " ++ type ++ " '" ++ value ++ "' but got " ++ tok.type ++ " '" ++ tok.value ++ "'"))
      else
        match advance tokens pos with
        | .error e => .error e
        | .ok (_, pos1) => .ok pos1

/-! ## Expressions (`parser.cpp` lines 114-137 and 177-189) -/

/-- Method `Parser::parsePrimary`. -/
def parsePrimary (tokens : List Token) (pos : Nat) : Except Failure (ASTNode × Nat) :=
  if atEnd tokens pos then
    .error (.runtime_error "Unexpected end of input while parsing expression")
  else
    match current tokens pos with
    | .error e => .error e
    | .ok tok =>
      if tok.type == "NUMBER" then
        match advance tokens pos with
        | .error e => .error e
        | .ok (_, pos1) => .ok (.NumberLiteral tok.value, pos1)
      else if tok.type == "STRING" then
        match advance tokens pos with
        | .error e => .error e
        | .ok (_, pos1) => .ok (.StringLiteral tok.value, pos1)
      else if tok.type == "IDENTIFIER" then
        match advance tokens pos with
        | .error e => .error e
        | .ok (_, pos1) => .ok (.Identifier tok.value, pos1)
      else
        .error (.runtime_error ("Unexpected token: " ++ tok.type ++ " '" ++ tok.value ++ "'"))

/-- The loop condition `!atEnd() && current().type == type` (short-circuit). -/
def currentHasType (tokens : List Token) (pos : Nat) (type : String) : Except Failure Bool :=
  if atEnd tokens pos then .ok false
  else
    match current tokens pos with
    | .error e => .error e
    | .ok tok => .ok (tok.type == type)

/-- The condition `!atEnd() && current().type == type && current().value == value`
(short-circuit). -/
def currentIs (tokens : List Token) (pos : Nat) (type value : String) : Except Failure Bool :=
  if atEnd tokens pos then .ok false
  else
    match current tokens pos with
    | .error e => .error e
    | .ok tok => .ok (tok.type == type && tok.value == value)

/-- The `while` loop of `Parser::parseExpression` (lines 181-186), `left` being the
accumulated node. -/
def parseExpressionLoop : Nat → List Token → Nat → ASTNode → Except Failure (ASTNode × Nat)
  | 0, _, _, _ => .error .out_of_fuel
  | fuel + 1, tokens, pos, left =>
    match currentHasType tokens pos "OPERATOR" with
    | .error e => .error e
    | .ok false => .ok (left, pos)
    | .ok true =>
      match current tokens pos with
      | .error e => .error e
      | .ok optok =>
        match advance tokens pos with
        | .error e => .error e
        | .ok (_, pos1) =>
          match parsePrimary tokens pos1 with
          | .error e => .error e
          | .ok (right, pos2) =>
            parseExpressionLoop fuel tokens pos2 (.BinaryExpr optok.value left right)

/-- Method `Parser::parseExpression`. -/
def parseExpression (fuel : Nat) (tokens : List Token) (pos : Nat) :
    Except Failure (ASTNode × Nat) :=
  match parsePrimary tokens pos with
  | .error e => .error e
  | .ok (left, pos1) => parseExpressionLoop fuel tokens pos1 left

/-! ## Statements (`parser.cpp` lines 37-174) -/

/-- Method `Parser::parseLetDecl`. -/
def parseLetDecl (fuel : Nat) (tokens : List Token) (pos : Nat) :
    Except Failure (ASTNode × Nat) :=
  match expect tokens pos "KEYWORD" "let" with
  | .error e => .error e
  | .ok pos1 =>
    -- if (!atEnd() && current().type == "KEYWORD" && current().value == "mut")
    match currentIs tokens pos1 "KEYWORD" "mut" with
    | .error e => .error e
    | .ok isMut =>
      match (if isMut then (advance tokens pos1).map Prod.snd else .ok pos1) with
      | .error e => .error e
      | .ok pos2 =>
        -- if (atEnd() || current().type != "IDENTIFIER") throw
        match currentHasType tokens pos2 "IDENTIFIER" with
        | .error e => .error e
        | .ok false => .error (.runtime_error "Expected variable name after 'let'")
        | .ok true =>
          match current tokens pos2 with
          | .error e => .error e
          | .ok nameTok =>
            match advance tokens pos2 with
            | .error e => .error e
            | .ok (_, pos3) =>
              match expect tokens pos3 "OPERATOR" "=" with
              | .error e => .error e
              | .ok pos4 =>
                match parseExpression fuel tokens pos4 with
                | .error e => .error e
                | .ok (value, pos5) =>
                  match expect tokens pos5 "PUNCTUATION" ";" with
                  | .error e => .error e
                  | .ok pos6 => .ok (.LetDecl nameTok.value isMut value, pos6)

/-- Method `Parser::parseReturnStatement`. -/
def parseReturnStatement (fuel : Nat) (tokens : List Token) (pos : Nat) :
    Except Failure (ASTNode × Nat) :=
  match expect tokens pos "KEYWORD" "return" with
  | .error e => .error e
  | .ok pos1 =>
    match parseExpression fuel tokens pos1 with
    | .error e => .error e
    | .ok (value, pos2) =>
      match expect tokens pos2 "PUNCTUATION" ";" with
      | .error e => .error e
      | .ok pos3 => .ok (.ReturnStatement value, pos3)

/-- The condition of the loop of `Parser::parseBlock`:
`!atEnd() && !(current().type == "PUNCTUATION" && current().value == "}")`. -/
def blockContinues (tokens : List Token) (pos : Nat) : Except Failure Bool :=
  if atEnd tokens pos then .ok false
  else
    match current tokens pos with
    | .error e => .error e
    -- "\x7d" is the closing brace
    | .ok tok => .ok (!(tok.type == "PUNCTUATION" && tok.value == "\x7d"))

mutual

/-- Method `Parser::parseStatement`. -/
def parseStatement (fuel : Nat) (tokens : List Token) (pos : Nat) :
    Except Failure (ASTNode × Nat) :=
  match fuel with
  | 0 => .error .out_of_fuel
  | fuel + 1 =>
    match currentHasType tokens pos "KEYWORD" with
    | .error e => .error e
    | .ok false => parseExpression fuel tokens pos
    | .ok true =>
      match current tokens pos with
      | .error e => .error e
      | .ok tok =>
        if tok.value == "let" then parseLetDecl fuel tokens pos
        else if tok.value == "fn" then parseFunctionDecl fuel tokens pos
        else if tok.value == "if" then parseIfStatement fuel tokens pos
        else if tok.value == "while" then parseWhileStatement fuel tokens pos
        else if tok.value == "return" then parseReturnStatement fuel tokens pos
        else parseExpression fuel tokens pos
termination_by structural fuel

/-- The `while` loop of `Parser::parseBlock` (lines 63-65), `body` being the vector
built so far. -/
def parseBlockLoop (fuel : Nat) (tokens : List Token) (pos : Nat) (body : List ASTNode) :
    Except Failure (List ASTNode × Nat) :=
  match fuel with
  | 0 => .error .out_of_fuel
  | fuel + 1 =>
    match blockContinues tokens pos with
    | .error e => .error e
    | .ok false => .ok (body, pos)
    | .ok true =>
      match parseStatement fuel tokens pos with
      | .error e => .error e
      | .ok (stmt, pos1) => parseBlockLoop fuel tokens pos1 (body ++ [stmt])
termination_by structural fuel

/-- Method `Parser::parseBlock`. -/
def parseBlock (fuel : Nat) (tokens : List Token) (pos : Nat) :
    Except Failure (List ASTNode × Nat) :=
  match fuel with
  | 0 => .error .out_of_fuel
  | fuel + 1 =>
    -- expect("PUNCTUATION", "{"): "\x7b" is the opening brace
    match expect tokens pos "PUNCTUATION" "\x7b" with
    | .error e => .error e
    | .ok pos1 =>
      match parseBlockLoop fuel tokens pos1 [] with
      | .error e => .error e
      | .ok (body, pos2) =>
        -- expect("PUNCTUATION", "}")
        match expect tokens pos2 "PUNCTUATION" "\x7d" with
        | .error e => .error e
        | .ok pos3 => .ok (body, pos3)
termination_by structural fuel

/-- Method `Parser::parseFunctionDecl`. -/
def parseFunctionDecl (fuel : Nat) (tokens : List Token) (pos : Nat) :
    Except Failure (ASTNode × Nat) :=
  match fuel with
  | 0 => .error .out_of_fuel
  | fuel + 1 =>
    match expect tokens pos "KEYWORD" "fn" with
    | .error e => .error e
    | .ok pos1 =>
      -- if (atEnd() || current().type != "IDENTIFIER") throw
      match currentHasType tokens pos1 "IDENTIFIER" with
      | .error e => .error e
      | .ok false => .error (.runtime_error "Expected function name after 'fn'")
      | .ok true =>
        match current tokens pos1 with
        | .error e => .error e
        | .ok nameTok =>
          match advance tokens pos1 with
          | .error e => .error e
          | .ok (_, pos2) =>
            match expect tokens pos2 "PUNCTUATION" "(" with
            | .error e => .error e
            | .ok pos3 =>
              match expect tokens pos3 "PUNCTUATION" ")" with
              | .error e => .error e
              | .ok pos4 =>
                match parseBlock fuel tokens pos4 with
                | .error e => .error e
                | .ok (body, pos5) => .ok (.FunctionDecl nameTok.value body, pos5)
termination_by structural fuel

/-- Method `Parser::parseIfStatement`. -/
def parseIfStatement (fuel : Nat) (tokens : List Token) (pos : Nat) :
    Except Failure (ASTNode × Nat) :=
  match fuel with
  | 0 => .error .out_of_fuel
  | fuel + 1 =>
    match expect tokens pos "KEYWORD" "if" with
    | .error e => .error e
    | .ok pos1 =>
      match parseExpression fuel tokens pos1 with
      | .error e => .error e
      | .ok (condition, pos2) =>
        match parseBlock fuel tokens pos2 with
        | .error e => .error e
        | .ok (thenBody, pos3) =>
          -- if (!atEnd() && current().type == "KEYWORD" && current().value == "else")
          match currentIs tokens pos3 "KEYWORD" "else" with
          | .error e => .error e
          | .ok false => .ok (.IfStatement condition thenBody [], pos3)
          | .ok true =>
            match advance tokens pos3 with
            | .error e => .error e
            | .ok (_, pos4) =>
              match parseBlock fuel tokens pos4 with
              | .error e => .error e
              | .ok (elseBody, pos5) => .ok (.IfStatement condition thenBody elseBody, pos5)
termination_by structural fuel

/-- Method `Parser::parseWhileStatement`. -/
def parseWhileStatement (fuel : Nat) (tokens : List Token) (pos : Nat) :
    Except Failure (ASTNode × Nat) :=
  match fuel with
  | 0 => .error .out_of_fuel
  | fuel + 1 =>
    match expect tokens pos "KEYWORD" "while" with
    | .error e => .error e
    | .ok pos1 =>
      match parseExpression fuel tokens pos1 with
      | .error e => .error e
      | .ok (condition, pos2) =>
        match parseBlock fuel tokens pos2 with
        | .error e => .error e
        | .ok (body, pos3) => .ok (.WhileStatement condition body, pos3)

termination_by structural fuel

end

/-- The `while (!atEnd())` loop of `Parser::parse` (lines 42-44). -/
def parseLoop : Nat → List Token → Nat → List ASTNode → Except Failure (List ASTNode)
  | 0, _, _, _ => .error .out_of_fuel
  | fuel + 1, tokens, pos, program =>
    if atEnd tokens pos then .ok program
    else
      match parseStatement fuel tokens pos with
      | .error e => .error e
      | .ok (stmt, pos1) => parseLoop fuel tokens pos1 (program ++ [stmt])

/-- Method `Parser::parse`: `pos_ = 0`, then the loop. -/
def parse (tokens : List Token) : Except Failure (List ASTNode) :=
  parseLoop (4 * tokens.length + 4) tokens 0 []

end Bystep

namespace HW1

/-! ## Data model (`token.h`) -/

/-- The enumeration `TokenType` of `HW1/include/lexer/token.h`. -/
inductive TokenType where
  | KW_FN | KW_LET | KW_MUT | KW_IF | KW_ELSE | KW_WHILE | KW_RETURN
  | IDENTIFIER | INTEGER | STRING
  | PLUS | MINUS | STAR | SLASH | ASSIGN | EQ | NEQ | LT | GT | LTE | GTE
  | LPAREN | RPAREN | LBRACE | RBRACE | SEMICOLON | COLON | COMMA
  | END_OF_FILE | ERROR
deriving DecidableEq, Repr

/-- The `Token` of `token.h`. -/
structure Token where
  type : TokenType
  lexeme : String
  line : Nat
  column : Nat
deriving DecidableEq, Repr

/-- The table `keywords` of `lexer.cpp` (lines 4-12). -/
def keywords : List (String × TokenType) :=
  [("fn", .KW_FN), ("let", .KW_LET), ("mut", .KW_MUT), ("if", .KW_IF),
   ("else", .KW_ELSE), ("while", .KW_WHILE), ("return", .KW_RETURN)]

/-- The lookup `keywords.find(lexeme)`: `none` stands for `keywords.end()`. -/
def keywordsFind (lexeme : String) : Option TokenType :=
  keywords.lookup lexeme

/-- The state of a `Lexer` object (`lexer.h`). -/
structure Lexer where
  source_ : String
  pos_ : Nat
  line_ : Nat
  column_ : Nat
deriving DecidableEq, Repr

/-- The constructor `Lexer::Lexer(source)`. -/
def Lexer.new (source : String) : Lexer :=
  { source_ := source, pos_ := 0, line_ := 1, column_ := 1 }

/-! ## Character classes of `<cctype>` in the "C" locale -/

/-- Function `std::isalpha`. -/
def isalpha (c : Char) : Bool := c.isAlpha

/-- Function `std::isdigit`. -/
def isdigit (c : Char) : Bool := c.isDigit

/-- Function `std::isalnum`. -/
def isalnum (c : Char) : Bool := c.isAlphanum

/-! ## Cursor primitives (`lexer.cpp` lines 28-57)

A value `none` of a function below is a read of `source_` outside the string or the
exhaustion of the fuel of a loop. -/

/-- Method `Lexer::isAtEnd`: `pos_ >= source_.size()`. -/
def Lexer.isAtEnd (lx : Lexer) : Bool :=
  decide (lx.pos_ ≥ lx.source_.data.length)

/-- Method `Lexer::peek`: the read is guarded by `isAtEnd`, so the last branch is dead. -/
def Lexer.peek (lx : Lexer) : Char :=
  if lx.isAtEnd then '\x00'
  else
    match lx.source_.data[lx.pos_]? with
    | some c => c
    | none => '\x00'

/-- Method `Lexer::peekNext`: the read is guarded by `pos_ + 1 >= source_.size()`, so the
last branch is dead. -/
def Lexer.peekNext (lx : Lexer) : Char :=
  if lx.pos_ + 1 ≥ lx.source_.data.length then '\x00'
  else
    match lx.source_.data[lx.pos_ + 1]? with
    | some c => c
    | none => '\x00'

/-- Method `Lexer::advance`: `char c = source_[pos_++]`, then the line and column update. -/
def Lexer.advance (lx : Lexer) : Option (Char × Lexer) :=
  match lx.source_.data[lx.pos_]? with
  | none => none
  | some c =>
    if c = '\n' then
      some (c, { lx with pos_ := lx.pos_ + 1, line_ := lx.line_ + 1, column_ := 1 })
    else
      some (c, { lx with pos_ := lx.pos_ + 1, column_ := lx.column_ + 1 })

/-- Method `Lexer::match(expected)` (`match` is reserved in Lean). -/
def Lexer.matchChar (lx : Lexer) (expected : Char) : Option (Bool × Lexer) :=
  if lx.isAtEnd || lx.peek != expected then some (false, lx)
  else
    match lx.advance with
    | none => none
    | some (_, lx1) => some (true, lx1)

/-- The loop `while (!isAtEnd() && p(peek())) advance();` of lines 68-70, 143-145 and
161-163. -/
def Lexer.advanceWhile (p : Char → Bool) : Nat → Lexer → Option Lexer
  | 0, _ => none
  | fuel + 1, lx =>
    if !lx.isAtEnd && p lx.peek then
      match lx.advance with
      | none => none
      | some (_, lx1) => Lexer.advanceWhile p fuel lx1
    else some lx

/-- The fuel given to a loop that starts in state `lx`: one more than the length of
the source, every iteration consuming at least one character. -/
def Lexer.fuel (lx : Lexer) : Nat := lx.source_.data.length + 1

/-! ## Whitespace and comments (`lexer.cpp` lines 59-75) -/

/-- The loop of `Lexer::skipWhitespace`. -/
def Lexer.skipWhitespaceLoop : Nat → Lexer → Option Lexer
  | 0, _ => none
  | fuel + 1, lx =>
    if lx.isAtEnd then some lx
    else
      let c := lx.peek
      if c = ' ' || c = '\t' || c = '\r' || c = '\n' then
        match lx.advance with
        | none => none
        | some (_, lx1) => Lexer.skipWhitespaceLoop fuel lx1
      else if c = '/' && lx.peekNext = '/' then
        match lx.advance with
        | none => none
        | some (_, lx1) =>
          match lx1.advance with
          | none => none
          | some (_, lx2) =>
            match Lexer.advanceWhile (fun d => d != '\n') lx2.fuel lx2 with
            | none => none
            | some lx3 => Lexer.skipWhitespaceLoop fuel lx3
      else some lx

/-- Method `Lexer::skipWhitespace`. -/
def Lexer.skipWhitespace (lx : Lexer) : Option Lexer :=
  Lexer.skipWhitespaceLoop lx.fuel lx

/-! ## Tokens (`lexer.cpp` lines 77-186) -/

/-- Method `Lexer::makeToken`. -/
def makeToken (type : TokenType) (lexeme : String) (startLine startCol : Nat) : Token :=
  { type := type, lexeme := lexeme, line := startLine, column := startCol }

/-- The call `source_.substr(start, len)`. -/
def substr (s : String) (start len : Nat) : String :=
  String.mk ((s.data.drop start).take len)

/-- Method `Lexer::scanIdentifierOrKeyword`; the first character is already consumed, so
`pos_` and `column_` are at least `1` and the subtractions are exact. -/
def Lexer.scanIdentifierOrKeyword (lx : Lexer) : Option (Token × Lexer) :=
  let startLine := lx.line_
  let startCol := lx.column_ - 1
  let start := lx.pos_ - 1
  match Lexer.advanceWhile (fun c => isalnum c || c = '_') lx.fuel lx with
  | none => none
  | some lx1 =>
    let lexeme := substr lx1.source_ start (lx1.pos_ - start)
    match keywordsFind lexeme with
    | some type => some (makeToken type lexeme startLine startCol, lx1)
    | none => some (makeToken .IDENTIFIER lexeme startLine startCol, lx1)

/-- Method `Lexer::scanNumber`. -/
def Lexer.scanNumber (lx : Lexer) : Option (Token × Lexer) :=
  let startLine := lx.line_
  let startCol := lx.column_ - 1
  let start := lx.pos_ - 1
  match Lexer.advanceWhile isdigit lx.fuel lx with
  | none => none
  | some lx1 =>
    let lexeme := substr lx1.source_ start (lx1.pos_ - start)
    some (makeToken .INTEGER lexeme startLine startCol, lx1)

/-- The loop `while (!isAtEnd() && peek() != '"') value += advance();` of
`Lexer::scanString`. -/
def Lexer.scanStringLoop : Nat → Lexer → String → Option (String × Lexer)
  | 0, _, _ => none
  | fuel + 1, lx, value =>
    if !lx.isAtEnd && lx.peek != '"' then
      match lx.advance with
      | none => none
      | some (c, lx1) => Lexer.scanStringLoop fuel lx1 (value.push c)
    else some (value, lx)

/-- Method `Lexer::scanString`; the opening quote is already consumed. -/
def Lexer.scanString (lx : Lexer) : Option (Token × Lexer) :=
  let startLine := lx.line_
  let startCol := lx.column_ - 1
  match Lexer.scanStringLoop lx.fuel lx "" with
  | none => none
  | some (value, lx1) =>
    if lx1.isAtEnd then
      some (makeToken .ERROR ("\"" ++ value) startLine startCol, lx1)
    else
      match lx1.advance with
      | none => none
      | some (_, lx2) => some (makeToken .STRING value startLine startCol, lx2)

/-- The two-character operators of `Lexer::scanToken`: `if (match('=')) return two;
return one;`. -/
def Lexer.scanTwoChar (lx : Lexer) (two : Token) (one : Token) : Option (Token × Lexer) :=
  match lx.matchChar '=' with
  | none => none
  | some (true, lx1) => some (two, lx1)
  | some (false, lx1) => some (one, lx1)

/-- Method `Lexer::scanToken`. -/
def Lexer.scanToken (lx : Lexer) : Option (Token × Lexer) :=
  let startLine := lx.line_
  let startCol := lx.column_
  match lx.advance with
  | none => none
  | some (c, lx1) =>
    if c = '(' then some (makeToken .LPAREN "(" startLine startCol, lx1)
    else if c = ')' then some (makeToken .RPAREN ")" startLine startCol, lx1)
    -- case '{' and case '}'
    else if c = '\x7b' then some (makeToken .LBRACE "\x7b" startLine startCol, lx1)
    else if c = '\x7d' then some (makeToken .RBRACE "\x7d" startLine startCol, lx1)
    else if c = ';' then some (makeToken .SEMICOLON ";" startLine startCol, lx1)
    else if c = ':' then some (makeToken .COLON ":" startLine startCol, lx1)
    else if c = ',' then some (makeToken .COMMA "," startLine startCol, lx1)
    else if c = '+' then some (makeToken .PLUS "+" startLine startCol, lx1)
    else if c = '-' then some (makeToken .MINUS "-" startLine startCol, lx1)
    else if c = '*' then some (makeToken .STAR "*" startLine startCol, lx1)
    else if c = '/' then some (makeToken .SLASH "/" startLine startCol, lx1)
    else if c = '=' then
      lx1.scanTwoChar (makeToken .EQ "==" startLine startCol)
        (makeToken .ASSIGN "=" startLine startCol)
    else if c = '!' then
      lx1.scanTwoChar (makeToken .NEQ "!=" startLine startCol)
        (makeToken .ERROR "!" startLine startCol)
    else if c = '<' then
      lx1.scanTwoChar (makeToken .LTE "<=" startLine startCol)
        (makeToken .LT "<" startLine startCol)
    else if c = '>' then
      lx1.scanTwoChar (makeToken .GTE ">=" startLine startCol)
        (makeToken .GT ">" startLine startCol)
    else if c = '"' then lx1.scanString
    else if isalpha c || c = '_' then lx1.scanIdentifierOrKeyword
    else if isdigit c then lx1.scanNumber
    else some (makeToken .ERROR (String.singleton c) startLine startCol, lx1)

/-- The loop of `Lexer::tokenize` (lines 19-23). -/
def Lexer.tokenizeLoop : Nat → Lexer → List Token → Option (List Token × Lexer)
  | 0, _, _ => none
  | fuel + 1, lx, tokens =>
    if lx.isAtEnd then some (tokens, lx)
    else
      match lx.skipWhitespace with
      | none => none
      | some lx1 =>
        if lx1.isAtEnd then some (tokens, lx1)
        else
          match lx1.scanToken with
          | none => none
          | some (tok, lx2) => Lexer.tokenizeLoop fuel lx2 (tokens ++ [tok])

/-- The call `Lexer(source).tokenize()`. -/
def tokenize (source : String) : Option (List Token) :=
  let lx := Lexer.new source
  match Lexer.tokenizeLoop lx.fuel lx [] with
  | none => none
  | some (tokens, lx1) =>
    some (tokens ++ [makeToken .END_OF_FILE "" lx1.line_ lx1.column_])

end HW1

namespace Bystep

/-! ## Vocabulary of the statements about the parser -/

/-- A token of type NUMBER, STRING or IDENTIFIER. -/
def isPrimaryToken (t : Token) : Bool :=
  t.type == "NUMBER" || t.type == "STRING" || t.type == "IDENTIFIER"

/-- The literal or identifier node that carries the text of a primary token. -/
def primaryNode (t : Token) : ASTNode :=
  if t.type == "NUMBER" then .NumberLiteral t.value
  else if t.type == "STRING" then .StringLiteral t.value
  else .Identifier t.value

/-- The token sequence `p0 op1 p1 ... opn pn`, given `p0` and the pairs `(opi, pi)`. -/
def chainTokens (p0 : Token) (ops : List (Token × Token)) : List Token :=
  p0 :: ops.flatMap (fun q => [q.1, q.2])

/-- Every `pi` is a primary token and every `opi` has type OPERATOR. -/
def isChain (p0 : Token) (ops : List (Token × Token)) : Prop :=
  isPrimaryToken p0 = true ∧ ∀ q ∈ ops, q.1.type = "OPERATOR" ∧ isPrimaryToken q.2 = true

/-- The left fold `BinaryExpr(opn, ... BinaryExpr(op1, P0, P1) ..., Pn)` starting from
the node `left`. -/
def foldOps (left : ASTNode) (ops : List (Token × Token)) : ASTNode :=
  ops.foldl (fun acc q => .BinaryExpr q.1.value acc (primaryNode q.2)) left

end Bystep

/-! ## The grammar of section 4.2 of the specification

Written from the productions of the specification, independently of the parser.
Each relation `X ts a` reads: the token sequence `ts` derives from the
nonterminal `X`, and `a` is the syntax tree of the derivation. Quoted terminals
are compared by token type and exact lexeme; NUMBER, STRING, IDENTIFIER and
OPERATOR are compared by type only. -/

namespace Grammar

open Bystep

/-- The terminal `'v'` of keyword type. -/
def kw (v : String) : Token := ⟨"KEYWORD", v⟩

/-- The terminal `'v'` of punctuation type. -/
def punct (v : String) : Token := ⟨"PUNCTUATION", v⟩

/-- The terminal `'='`. -/
def assign : Token := ⟨"OPERATOR", "="⟩

/-- Production `primary := NUMBER | STRING | IDENTIFIER`. -/
inductive primary : List Token → ASTNode → Prop
  | number (t : Token) : t.type = "NUMBER" → primary [t] (.NumberLiteral t.value)
  | string (t : Token) : t.type = "STRING" → primary [t] (.StringLiteral t.value)
  | identifier (t : Token) : t.type = "IDENTIFIER" → primary [t] (.Identifier t.value)

/-- Production `expression := primary (OPERATOR primary)*`, left-folded, no precedence. -/
inductive expression : List Token → ASTNode → Prop
  | first (p : List Token) (a : ASTNode) : primary p a → expression p a
  | more (e : List Token) (left : ASTNode) (op : Token) (p : List Token) (right : ASTNode) :
      expression e left → op.type = "OPERATOR" → primary p right →
      expression (e ++ op :: p) (.BinaryExpr op.value left right)

mutual

/-- Production `statement := letDecl | fnDecl | ifStmt | whileStmt | returnStmt | expression`. -/
inductive statement : List Token → ASTNode → Prop
  /-- Production `letDecl := 'let' IDENTIFIER '=' expression ';'` (without `mut`). -/
  | letDecl (x : Token) (e : List Token) (v : ASTNode) :
      x.type = "IDENTIFIER" → expression e v →
      statement (kw "let" :: x :: assign :: e ++ [punct ";"]) (.LetDecl x.value false v)
  /-- Production `letDecl := 'let' 'mut' IDENTIFIER '=' expression ';'`. -/
  | letMutDecl (x : Token) (e : List Token) (v : ASTNode) :
      x.type = "IDENTIFIER" → expression e v →
      statement (kw "let" :: kw "mut" :: x :: assign :: e ++ [punct ";"]) (.LetDecl x.value true v)
  /-- Production `fnDecl := 'fn' IDENTIFIER '(' ')' block`. -/
  | fnDecl (f : Token) (b : List Token) (body : List ASTNode) :
      f.type = "IDENTIFIER" → block b body →
      statement (kw "fn" :: f :: punct "(" :: punct ")" :: b) (.FunctionDecl f.value body)
  /-- Production `ifStmt := 'if' expression block` (no `else`). -/
  | ifStmt (c : List Token) (cond : ASTNode) (b : List Token) (thenBody : List ASTNode) :
      expression c cond → block b thenBody →
      statement (kw "if" :: c ++ b) (.IfStatement cond thenBody [])
  /-- Production `ifStmt := 'if' expression block 'else' block`. -/
  | ifElseStmt (c : List Token) (cond : ASTNode) (b1 : List Token) (thenBody : List ASTNode)
      (b2 : List Token) (elseBody : List ASTNode) :
      expression c cond → block b1 thenBody → block b2 elseBody →
      statement (kw "if" :: c ++ b1 ++ kw "else" :: b2) (.IfStatement cond thenBody elseBody)
  /-- Production `whileStmt := 'while' expression block`. -/
  | whileStmt (c : List Token) (cond : ASTNode) (b : List Token) (body : List ASTNode) :
      expression c cond → block b body →
      statement (kw "while" :: c ++ b) (.WhileStatement cond body)
  /-- Production `returnStmt := 'return' expression ';'`. -/
  | returnStmt (e : List Token) (v : ASTNode) :
      expression e v →
      statement (kw "return" :: e ++ [punct ";"]) (.ReturnStatement v)
  /-- A bare expression. -/
  | expr (e : List Token) (a : ASTNode) : expression e a → statement e a

/-- Production `block := '{' statement* '}'`. -/
inductive block : List Token → List ASTNode → Prop
  | braces (ss : List Token) (body : List ASTNode) :
      statements ss body → block (punct "\x7b" :: ss ++ [punct "\x7d"]) body

/-- Sequence `statement*`: the concatenation of zero or more statements. -/
inductive statements : List Token → List ASTNode → Prop
  | none : statements [] []
  | cons (s : List Token) (a : ASTNode) (ss : List Token) (rest : List ASTNode) :
      statement s a → statements ss rest → statements (s ++ ss) (a :: rest)

end

/-- Production `program := statement*`. -/
def program (ts : List Token) (nodes : List ASTNode) : Prop := statements ts nodes

end Grammar

namespace Bystep

/-- The head of `r`, if any, is not of type OPERATOR. -/
def noOperatorAhead (r : List Token) : Prop :=
  ∀ t r1, r = t :: r1 → t.type ≠ "OPERATOR"

/-- The head of `r`, if any, is neither of type OPERATOR nor the keyword `else`. -/
def statementMayEnd (r : List Token) : Prop :=
  ∀ t r1, r = t :: r1 → t.type ≠ "OPERATOR" ∧ ¬ (t.type = "KEYWORD" ∧ t.value = "else")

/-- The list `r` is empty or starts with the closing brace. -/
def blockMayEnd (r : List Token) : Prop :=
  r = [] ∨ ∃ r1, r = ⟨"PUNCTUATION", "\x7d"⟩ :: r1

/-- A token that can begin a statement of the grammar. -/
def startsStatement (t : Token) : Prop :=
  isPrimaryToken t = true ∨
    (t.type = "KEYWORD" ∧
      (t.value = "let" ∨ t.value = "fn" ∨ t.value = "if" ∨ t.value = "while" ∨ t.value = "return"))

end Bystep

namespace Bystep

/-- The parser runs a derivation of `statement`: wherever the tokens `s` stand in the
input, followed by something a statement may end before, `parseStatement` with
enough fuel returns the tree `a` and stops right after `s`. -/
def RunsStatement (s : List Token) (a : ASTNode) : Prop :=
  ∀ (fuel : Nat) (tokens : List Token) (pos : Nat) (r : List Token),
    tokens.drop pos = s ++ r → statementMayEnd r → 4 * s.length ≤ fuel →
    parseStatement fuel tokens pos = .ok (a, pos + s.length)

/-- The parser runs a derivation of `block`. -/
def RunsBlock (b : List Token) (body : List ASTNode) : Prop :=
  ∀ (fuel : Nat) (tokens : List Token) (pos : Nat) (r : List Token),
    tokens.drop pos = b ++ r → 4 * b.length ≤ fuel →
    parseBlock fuel tokens pos = .ok (body, pos + b.length)

/-- The loop of `parseBlock` runs a derivation of `statement*`. -/
def RunsStatements (ss : List Token) (body : List ASTNode) : Prop :=
  ∀ (fuel : Nat) (tokens : List Token) (pos : Nat) (acc : List ASTNode) (r : List Token),
    tokens.drop pos = ss ++ r → blockMayEnd r → 4 * ss.length + 1 ≤ fuel →
    parseBlockLoop fuel tokens pos acc = .ok (acc ++ body, pos + ss.length)

end Bystep

namespace Bystep

/-- A successful run of `run` (one of the statement parsers, at some fuel) consumed
the tokens of a derivation of `statement` and returned its tree. -/
def SoundStatementParser (run : List Token → Nat → Except Failure (ASTNode × Nat)) : Prop :=
  ∀ (tokens : List Token) (pos : Nat) (a : ASTNode) (pos1 : Nat),
    run tokens pos = .ok (a, pos1) →
    ∃ s, Grammar.statement s a ∧ tokens.drop pos = s ++ tokens.drop pos1

/-- A successful run of `parseBlock` consumed the tokens of a derivation of `block`. -/
def SoundBlock (fuel : Nat) : Prop :=
  ∀ (tokens : List Token) (pos : Nat) (body : List ASTNode) (pos1 : Nat),
    parseBlock fuel tokens pos = .ok (body, pos1) →
    ∃ b, Grammar.block b body ∧ tokens.drop pos = b ++ tokens.drop pos1

/-- A successful run of the loop of `parseBlock` consumed the tokens of a derivation of
`statement*`, appended its trees to the vector, and stopped at the end of the input
or in front of a closing brace. -/
def SoundBlockLoop (fuel : Nat) : Prop :=
  ∀ (tokens : List Token) (pos : Nat) (acc body : List ASTNode) (pos1 : Nat),
    parseBlockLoop fuel tokens pos acc = .ok (body, pos1) →
    ∃ ss more, Grammar.statements ss more ∧ body = acc ++ more ∧
      tokens.drop pos = ss ++ tokens.drop pos1

end Bystep

namespace HW1

/-! ## Vocabulary of the statements about the tokenizer -/

/-- The characters not yet consumed. -/
def Lexer.rest (lx : Lexer) : List Char := lx.source_.data.drop lx.pos_

/-- The state after the character `c` is consumed: `'\n'` increments the line and
resets the column to 1, any other character increments the column. -/
def Lexer.step (lx : Lexer) (c : Char) : Lexer :=
  if c = '\n' then { lx with pos_ := lx.pos_ + 1, line_ := lx.line_ + 1, column_ := 1 }
  else { lx with pos_ := lx.pos_ + 1, column_ := lx.column_ + 1 }

/-- The state after the characters `w` are consumed, one by one. -/
def Lexer.stepAll (lx : Lexer) (w : List Char) : Lexer := w.foldl Lexer.step lx

/-- A run of the loop of `Lexer::tokenize` from the state `lx`: the tokens pushed, in
order, and the state in which the loop is left. -/
inductive Lexer.Run : Lexer → List Token → Lexer → Prop
  /-- The loop condition `!isAtEnd()` fails. -/
  | done (lx : Lexer) : lx.isAtEnd = true → Lexer.Run lx [] lx
  /-- Only whitespace and comments are left: `break`. -/
  | blank (lx lx1 : Lexer) :
      lx.isAtEnd = false → lx.skipWhitespace = some lx1 → lx1.isAtEnd = true →
      Lexer.Run lx [] lx1
  /-- One iteration that pushes a token. -/
  | token (lx lx1 lx2 : Lexer) (tok : Token) (toks : List Token) (lxf : Lexer) :
      lx.isAtEnd = false → lx.skipWhitespace = some lx1 → lx1.isAtEnd = false →
      lx1.scanToken = some (tok, lx2) → Lexer.Run lx2 toks lxf →
      Lexer.Run lx (tok :: toks) lxf

end HW1

namespace HW1

/-- The source text a token stands for: its lexeme, between quotes for a string
literal. -/
def Token.text (t : Token) : List Char :=
  if t.type = .STRING then '"' :: t.lexeme.data ++ ['"'] else t.lexeme.data

/-- A character of an identifier after the first: `isalnum(c) || c == '_'`. -/
def isIdentChar (c : Char) : Bool := isalnum c || c = '_'

/-- A character that begins an identifier: `isalpha(c) || c == '_'`. -/
def isIdentStart (c : Char) : Bool := isalpha c || c = '_'

/-- The token kind of an identifier-class lexeme: the keyword kind of the table, or
IDENTIFIER. -/
def wordType (lexeme : String) : TokenType :=
  match keywordsFind lexeme with
  | some type => type
  | none => .IDENTIFIER

end HW1

namespace HW1

/-- The number of characters after the last `'\n'` of `w`, or in the whole of `w` if
it has none. -/
def charsAfterLastNewline (w : List Char) : Nat :=
  (w.reverse.takeWhile (fun c => c != '\n')).length

/-- The 1-based line of the character at offset `p` of `src`: one more than the number
of `'\n'` before it. -/
def lineAt (src : List Char) (p : Nat) : Nat := 1 + (src.take p).count '\n'

/-- The 1-based column of the character at offset `p` of `src`: one more than the
number of characters between the last `'\n'` before it (or the start) and it. -/
def columnAt (src : List Char) (p : Nat) : Nat := 1 + charsAfterLastNewline (src.take p)

/-- The tokens `toks` stand in `src` in order, from offset `start` on, without
overlap, each at some offset `p` where its text occurs and positioned at the line
and column of `p`. -/
def TokensFrom (src : List Char) : Nat → List Token → Prop
  | _, [] => True
  | start, t :: ts =>
    ∃ p, start ≤ p ∧ p < src.length ∧ t.text <+: src.drop p ∧
      t.line = lineAt src p ∧ t.column = columnAt src p ∧
      TokensFrom src (p + t.text.length) ts

/-- The counters of the state are those of its offset in the source. -/
def Lexer.InSync (lx : Lexer) : Prop :=
  lx = (Lexer.new lx.source_).stepAll (lx.source_.data.take lx.pos_)

end HW1

namespace HW1

/-- The kind expected of an identifier-class word: the keyword kind when the word is
exactly one of `fn`, `let`, `mut`, `if`, `else`, `while`, `return`, IDENTIFIER
otherwise. -/
def expectedWordType (w : String) : TokenType :=
  if w = "fn" then .KW_FN
  else if w = "let" then .KW_LET
  else if w = "mut" then .KW_MUT
  else if w = "if" then .KW_IF
  else if w = "else" then .KW_ELSE
  else if w = "while" then .KW_WHILE
  else if w = "return" then .KW_RETURN
  else .IDENTIFIER

/-- The first token of the sequence returned by `tokenize`. -/
def firstToken (source : String) : Option Token :=
  match tokenize source with
  | none => none
  | some tokens => tokens.head?

end HW1

namespace Bystep

/-- The message of `Parser::expect(type, value)` when it throws, given the current
token (`none` at the end of the input). -/
def expectMessage (type value : String) (found : Option Token) : String :=
  match found with
  | none => "Expected " ++ type ++ " '" ++ value ++ "' but reached end of input"
  | some tok =>
    "Expected " ++ type ++ " '" ++ value ++ "' but got " ++ tok.type ++ " '" ++ tok.value ++ "'"

/-- The message of `Parser::parsePrimary` when it throws on the current token `tok`. -/
def unexpectedMessage (tok : Token) : String :=
  "Unexpected token: " ++ tok.type ++ " '" ++ tok.value ++ "'"

end Bystep

namespace Bystep

/-- The pairs `(type, value)` with which `parser.cpp` calls `Parser::expect`. -/
def expectedTerminals : List (String × String) :=
  [("PUNCTUATION", "\x7b"), ("PUNCTUATION", "\x7d"), ("KEYWORD", "fn"), ("PUNCTUATION", "("),
   ("PUNCTUATION", ")"), ("KEYWORD", "let"), ("OPERATOR", "="), ("PUNCTUATION", ";"),
   ("KEYWORD", "if"), ("KEYWORD", "return"), ("KEYWORD", "while")]

/-- The messages of the `throw` statements of `parser.cpp` on the input `tokens`, one
constructor for each `throw`. -/
inductive ThrownMessage (tokens : List Token) : String → Prop
  /-- Line 26, `expect` at the end of the input: names the expected type and lexeme and
  states that the input ended. -/
  | expect_end (type value : String) :
      (type, value) ∈ expectedTerminals →
      ThrownMessage tokens (expectMessage type value none)
  /-- Line 30, `expect` on another token: names the expected type and lexeme and the
  type and lexeme of the token found. -/
  | expect_got (type value : String) (tok : Token) :
      (type, value) ∈ expectedTerminals → tok ∈ tokens →
      (tok.type ≠ type ∨ tok.value ≠ value) →
      ThrownMessage tokens (expectMessage type value (some tok))
  /-- Line 99, the variable-name check of `parseLetDecl`: a fixed text. -/
  | variable_name : ThrownMessage tokens "Expected variable name after 'let'"
  /-- Line 75, the function-name check of `parseFunctionDecl`: a fixed text. -/
  | function_name : ThrownMessage tokens "Expected function name after 'fn'"
  /-- Line 116, `parsePrimary` at the end of the input: a fixed text. -/
  | primary_end : ThrownMessage tokens "Unexpected end of input while parsing expression"
  /-- Line 136, `parsePrimary` on a token that is no primary: names the type and lexeme
  of the token found. -/
  | primary_got (tok : Token) :
      tok ∈ tokens → isPrimaryToken tok = false →
      ThrownMessage tokens (unexpectedMessage tok)

/-- The failure `e` is a `std::runtime_error` thrown by the parser on `tokens`. -/
def GoodFailure (tokens : List Token) (e : Failure) : Prop :=
  ∃ msg, e = .runtime_error msg ∧ ThrownMessage tokens msg

/-- The result `r` of a call started at `pos` is a value with a cursor strictly further,
inside the vector, or a `std::runtime_error` of the parser. -/
def Progress {α : Type} (tokens : List Token) (pos : Nat) (r : Except Failure (α × Nat)) :
    Prop :=
  match r with
  | .ok (_, pos1) => pos < pos1 ∧ pos1 ≤ tokens.length
  | .error e => GoodFailure tokens e

/-- The result `r` of a loop started at `pos` is a value with a cursor not before `pos`,
inside the vector, or a `std::runtime_error` of the parser. -/
def Advance {α : Type} (tokens : List Token) (pos : Nat) (r : Except Failure (α × Nat)) :
    Prop :=
  match r with
  | .ok (_, pos1) => pos ≤ pos1 ∧ pos1 ≤ tokens.length
  | .error e => GoodFailure tokens e

/-- With fuel `fuel` and `slack` more, the statement parser `run` makes progress from
every position that leaves at most `(fuel + slack) / 4` tokens. -/
def ProgressStatement (run : List Token → Nat → Except Failure (ASTNode × Nat))
    (fuel slack : Nat) : Prop :=
  ∀ (tokens : List Token) (pos : Nat), pos < tokens.length →
    4 * (tokens.length - pos) ≤ fuel + slack → Progress tokens pos (run tokens pos)

/-- With fuel `fuel`, `parseBlock` makes progress. -/
def ProgressBlock (fuel : Nat) : Prop :=
  ∀ (tokens : List Token) (pos : Nat), pos ≤ tokens.length →
    4 * (tokens.length - pos) + 1 ≤ fuel → Progress tokens pos (parseBlock fuel tokens pos)

/-- With fuel `fuel`, the loop of `parseBlock` returns. -/
def AdvanceBlockLoop (fuel : Nat) : Prop :=
  ∀ (tokens : List Token) (pos : Nat) (body : List ASTNode), pos ≤ tokens.length →
    4 * (tokens.length - pos) + 1 ≤ fuel →
    Advance tokens pos (parseBlockLoop fuel tokens pos body)

/-- The text `part` occurs in the message `msg`. -/
def mentions (msg part : String) : Prop := part.data <:+: msg.data

end Bystep

namespace HW1

/-- The whitespace of `Lexer::skipWhitespace`: space, tab, `'\r'` and `'\n'`. -/
def isBlankChar (c : Char) : Bool := c = ' ' || c = '\t' || c = '\r' || c = '\n'

/-- What `Lexer::skipWhitespace` consumes: `Skips rest w` reads "in front of the
characters `rest`, the loop consumes exactly the prefix `w`". -/
inductive Skips : List Char → List Char → Prop
  /-- At the end of the source the loop stops. -/
  | done : Skips [] []
  /-- In front of a character that is neither whitespace nor the start of `//`, the loop
  stops. -/
  | stop (c : Char) (r : List Char) :
      isBlankChar c = false → ¬ (c = '/' ∧ r.head? = some '/') → Skips (c :: r) []
  /-- A whitespace character is consumed. -/
  | blank (c : Char) (r w : List Char) :
      isBlankChar c = true → Skips r w → Skips (c :: r) (c :: w)
  /-- A line comment is consumed up to, and without, the next `'\n'` or the end. -/
  | comment (body r w : List Char) :
      (∀ d ∈ body, d ≠ '\n') → (∀ d r1, r = d :: r1 → d = '\n') → Skips r w →
      Skips ('/' :: '/' :: (body ++ r)) ('/' :: '/' :: (body ++ w))

/-- A text made only of whitespace characters and of complete line comments: `//`,
characters other than `'\n'`, then `'\n'`. -/
inductive BlankPrefix : List Char → Prop
  | nil : BlankPrefix []
  | space (c : Char) (w : List Char) :
      isBlankChar c = true → BlankPrefix w → BlankPrefix (c :: w)
  | comment (body w : List Char) :
      (∀ d ∈ body, d ≠ '\n') → BlankPrefix w →
      BlankPrefix ('/' :: '/' :: (body ++ '\n' :: w))

/-- A text made only of whitespace characters and of line comments, each running to
the next `'\n'`; the last comment may end the text without a `'\n'`. -/
inductive BlankText : List Char → Prop
  | nil : BlankText []
  | space (c : Char) (w : List Char) :
      isBlankChar c = true → BlankText w → BlankText (c :: w)
  | comment (body w : List Char) :
      (∀ d ∈ body, d ≠ '\n') → (∀ d w1, w = d :: w1 → d = '\n') → BlankText w →
      BlankText ('/' :: '/' :: (body ++ w))

/-- The kind and the lexeme of a token, without its position. -/
def Token.key (t : Token) : TokenType × String := (t.type, t.lexeme)

/-- The (kind, lexeme) pairs of the tokens of a source. -/
def tokenKeys (source : String) : Option (List (TokenType × String)) :=
  match tokenize source with
  | none => none
  | some tokens => some (tokens.map Token.key)

/-- The characters `src` are the texts of the tokens `toks`, in order, with nothing
but whitespace and line comments before, between and after them. -/
def Interleaved : List Char → List Token → Prop
  | src, [] => BlankText src
  | src, t :: ts => ∃ gap r, BlankText gap ∧ src = gap ++ t.text ++ r ∧ Interleaved r ts

/-- The concatenation of the lexemes of the tokens. -/
def concatLexemes (toks : List Token) : List Char :=
  (toks.map (fun t => t.lexeme.data)).flatten

/-- The characters of a source with every whitespace character and every line comment
(from `//` up to, and without, the next `'\n'` or the end) removed; `inComment` tells
that the characters read are those of a comment. -/
def stripBlanks : Bool → List Char → List Char
  | _, [] => []
  | true, c :: r => if c = '\n' then stripBlanks false r else stripBlanks true r
  | false, c :: r =>
    if c = '/' ∧ r.head? = some '/' then stripBlanks true r
    else if isBlankChar c then stripBlanks false r
    else c :: stripBlanks false r

/-- The position of `a` is not after the position of `b`, lines first. -/
def Token.posLe (a b : Token) : Prop :=
  a.line < b.line ∨ (a.line = b.line ∧ a.column ≤ b.column)

/-- The line and column of the state `a` are not after those of the state `b`. -/
def Lexer.posLe (a b : Lexer) : Prop :=
  a.line_ < b.line_ ∨ (a.line_ = b.line_ ∧ a.column_ ≤ b.column_)

/-- A token placed at the line and column of a state. -/
def Lexer.mark (lx : Lexer) : Token := makeToken .END_OF_FILE "" lx.line_ lx.column_

end HW1

namespace Bystep

/-- The nodes `nodes` are the statements parsed one after another from the cursor
`pos`: each is returned by a call of `parseStatement` that moves the cursor strictly
forward, and after the last one the cursor is the number of tokens. -/
def ConsumedBy (tokens : List Token) : Nat → List ASTNode → Prop
  | pos, [] => pos = tokens.length
  | pos, n :: ns =>
    ∃ fuel pos1, parseStatement fuel tokens pos = .ok (n, pos1) ∧ pos < pos1 ∧
      ConsumedBy tokens pos1 ns

end Bystep

namespace Bystep

/-- Every occurrence of the token `k` in `tokens` stands directly after a run of tokens
`w` that satisfies `R`. -/
def precededBy (tokens : List Token) (k : Token) (R : List Token → Prop) : Prop :=
  ∀ pre post, tokens = pre ++ k :: post → ∃ pre1 w, pre = pre1 ++ w ∧ R w

/-- The tokens `w` are the keyword `let` alone. -/
def isLet (w : List Token) : Prop := w = [Grammar.kw "let"]

/-- The tokens `w` are `if`, an expression and a block: the last token of `w` is the
closing brace of the block of an `if`. -/
def isIfBlock (w : List Token) : Prop :=
  ∃ c cond b body, w = Grammar.kw "if" :: c ++ b ∧ Grammar.expression c cond ∧
    Grammar.block b body

/-- No token of `tokens` has type UNKNOWN or is the punctuation `:` or `,`, every
keyword `mut` stands directly after `let`, and every keyword `else` stands directly
after the closing brace of the block of an `if`. -/
def lexicallyClean (tokens : List Token) : Prop :=
  (∀ t ∈ tokens, t.type ≠ "UNKNOWN" ∧ t ≠ Grammar.punct ":" ∧ t ≠ Grammar.punct ",") ∧
    precededBy tokens (Grammar.kw "mut") isLet ∧
    precededBy tokens (Grammar.kw "else") isIfBlock

end Bystep

namespace Bystep

/-! ## Rendering of the syntax tree (`ast.h`) -/

/-- Function `indentStr`: `std::string(level * 2, ' ')`. -/
def indentStr (level : Nat) : String := String.mk (List.replicate (level * 2) ' ')

/-- The call `result.pop_back()`, on a string that is not empty. -/
def popBack (s : String) : String := String.mk s.data.dropLast

/-- The test `!result.empty() && result.back() == '\n'`. -/
def endsWithNewline (s : String) : Bool :=
  !s.data.isEmpty && s.data.getLast? == some '\n'

mutual

/-- The nine overrides of `ASTNode::toString(int indent)`. -/
def ASTNode.toString : ASTNode → Nat → String
  | .NumberLiteral value, indent => indentStr indent ++ "NumberLiteral(" ++ value ++ ")"
  | .Identifier name, indent => indentStr indent ++ "Identifier(" ++ name ++ ")"
  | .StringLiteral value, indent => indentStr indent ++ "StringLiteral(\"" ++ value ++ "\")"
  | .BinaryExpr op left right, indent =>
    let result := indentStr indent ++ "BinaryExpr(" ++ op ++ ")\n"
    let result := result ++ (left.toString (indent + 1) ++ "\n")
    result ++ right.toString (indent + 1)
  | .LetDecl name isMut value, indent =>
    let mutStr := if isMut then "mut " else ""
    let result := indentStr indent ++ "LetDecl(" ++ mutStr ++ name ++ ")\n"
    result ++ value.toString (indent + 1)
  | .FunctionDecl name body, indent =>
    let result := indentStr indent ++ "FunctionDecl(" ++ name ++ ")\n"
    let result := ASTNode.appendAll body (indent + 1) result
    -- if (!body.empty()) result.pop_back();
    if !body.isEmpty then popBack result else result
  | .IfStatement condition thenBody elseBody, indent =>
    let result := indentStr indent ++ "IfStatement\n"
    let result := result ++ (indentStr (indent + 1) ++ "Condition:\n")
    let result := result ++ (condition.toString (indent + 2) ++ "\n")
    let result := result ++ (indentStr (indent + 1) ++ "Then:\n")
    let result := ASTNode.appendAll thenBody (indent + 2) result
    let result :=
      if !elseBody.isEmpty then
        ASTNode.appendAll elseBody (indent + 2)
          (result ++ (indentStr (indent + 1) ++ "Else:\n"))
      else result
    if endsWithNewline result then popBack result else result
  | .WhileStatement condition body, indent =>
    let result := indentStr indent ++ "WhileStatement\n"
    let result := result ++ (indentStr (indent + 1) ++ "Condition:\n")
    let result := result ++ (condition.toString (indent + 2) ++ "\n")
    let result := result ++ (indentStr (indent + 1) ++ "Body:\n")
    let result := ASTNode.appendAll body (indent + 2) result
    if endsWithNewline result then popBack result else result
  | .ReturnStatement value, indent =>
    let result := indentStr indent ++ "ReturnStatement\n"
    result ++ value.toString (indent + 1)
termination_by structural n => n

/-- The loop `for (stmt : body) result += stmt->toString(indent) + "\n"`. -/
def ASTNode.appendAll : List ASTNode → Nat → String → String
  | [], _, result => result
  | stmt :: rest, indent, result =>
    ASTNode.appendAll rest indent (result ++ (stmt.toString indent ++ "\n"))
termination_by structural body => body

end

/-! ## Vocabulary of the statements about the rendering -/

/-- The number of `'\n'` of a text. -/
def newlines (s : String) : Nat := s.data.count '\n'

/-- The number of lines of a text: one more than its number of `'\n'`. -/
def lineCount (s : String) : Nat := newlines s + 1

/-- The text is not empty and its last character is not `'\n'`. -/
def endsInText (s : String) : Prop := s.data ≠ [] ∧ s.data.getLast? ≠ some '\n'

/-- The statements `body`, each on new lines at the level `indent`. -/
def below : List ASTNode → Nat → String
  | [], _ => ""
  | stmt :: rest, indent => "\n" ++ stmt.toString indent ++ below rest indent

mutual

/-- The number of nodes of the tree rooted at a node. -/
def ASTNode.size : ASTNode → Nat
  | .NumberLiteral _ => 1
  | .Identifier _ => 1
  | .StringLiteral _ => 1
  | .BinaryExpr _ left right => 1 + left.size + right.size
  | .LetDecl _ _ value => 1 + value.size
  | .FunctionDecl _ body => 1 + ASTNode.sizeAll body
  | .IfStatement condition thenBody elseBody =>
    1 + condition.size + ASTNode.sizeAll thenBody + ASTNode.sizeAll elseBody
  | .WhileStatement condition body => 1 + condition.size + ASTNode.sizeAll body
  | .ReturnStatement value => 1 + value.size
termination_by structural n => n

/-- The number of nodes of the trees rooted at the nodes of a list. -/
def ASTNode.sizeAll : List ASTNode → Nat
  | [] => 0
  | stmt :: rest => stmt.size + ASTNode.sizeAll rest
termination_by structural body => body

end

mutual

/-- The number of label lines in the rendering of a node: `Condition:` and `Then:`,
and `Else:` when the `else` body is not empty, for each `IfStatement`; `Condition:` and
`Body:` for each `WhileStatement`. -/
def ASTNode.labels : ASTNode → Nat
  | .NumberLiteral _ => 0
  | .Identifier _ => 0
  | .StringLiteral _ => 0
  | .BinaryExpr _ left right => left.labels + right.labels
  | .LetDecl _ _ value => value.labels
  | .FunctionDecl _ body => ASTNode.labelsAll body
  | .IfStatement condition thenBody elseBody =>
    2 + (if elseBody.isEmpty then 0 else 1) + condition.labels + ASTNode.labelsAll thenBody
      + ASTNode.labelsAll elseBody
  | .WhileStatement condition body => 2 + condition.labels + ASTNode.labelsAll body
  | .ReturnStatement value => value.labels
termination_by structural n => n

/-- The number of label lines in the renderings of the nodes of a list. -/
def ASTNode.labelsAll : List ASTNode → Nat
  | [] => 0
  | stmt :: rest => stmt.labels + ASTNode.labelsAll rest
termination_by structural body => body

end

/-- The text has no `'\n'`. -/
def oneLine (s : String) : Bool := !s.data.contains '\n'

mutual

/-- No text carried by a node of the tree (value, name, operator) has a `'\n'`. -/
def ASTNode.plain : ASTNode → Bool
  | .NumberLiteral value => oneLine value
  | .Identifier name => oneLine name
  | .StringLiteral value => oneLine value
  | .BinaryExpr op left right => oneLine op && left.plain && right.plain
  | .LetDecl name _ value => oneLine name && value.plain
  | .FunctionDecl name body => oneLine name && ASTNode.plainAll body
  | .IfStatement condition thenBody elseBody =>
    condition.plain && ASTNode.plainAll thenBody && ASTNode.plainAll elseBody
  | .WhileStatement condition body => condition.plain && ASTNode.plainAll body
  | .ReturnStatement value => value.plain
termination_by structural n => n

/-- Every node of the list is plain. -/
def ASTNode.plainAll : List ASTNode → Bool
  | [] => true
  | stmt :: rest => stmt.plain && ASTNode.plainAll rest
termination_by structural body => body

end

mutual

/-- No `FunctionDecl` of the tree has an empty body. -/
def ASTNode.bodiesNonEmpty : ASTNode → Bool
  | .NumberLiteral _ => true
  | .Identifier _ => true
  | .StringLiteral _ => true
  | .BinaryExpr _ left right => left.bodiesNonEmpty && right.bodiesNonEmpty
  | .LetDecl _ _ value => value.bodiesNonEmpty
  | .FunctionDecl _ body => !body.isEmpty && ASTNode.bodiesNonEmptyAll body
  | .IfStatement condition thenBody elseBody =>
    condition.bodiesNonEmpty && ASTNode.bodiesNonEmptyAll thenBody
      && ASTNode.bodiesNonEmptyAll elseBody
  | .WhileStatement condition body =>
    condition.bodiesNonEmpty && ASTNode.bodiesNonEmptyAll body
  | .ReturnStatement value => value.bodiesNonEmpty
termination_by structural n => n

/-- No `FunctionDecl` of the trees of the list has an empty body. -/
def ASTNode.bodiesNonEmptyAll : List ASTNode → Bool
  | [] => true
  | stmt :: rest => stmt.bodiesNonEmpty && ASTNode.bodiesNonEmptyAll rest
termination_by structural body => body

end

/-- The levels at which a node rendered at level `k` renders what it holds: the
children of `BinaryExpr`, `LetDecl`, `FunctionDecl` and `ReturnStatement` at level
`k + 1`; the label lines of `IfStatement` and `WhileStatement` at level `k + 1` and
their condition and statements at level `k + 2`. -/
def ASTNode.layout : ASTNode → Nat → Prop
  | .NumberLiteral value, k =>
    (ASTNode.NumberLiteral value).toString k = indentStr k ++ "NumberLiteral(" ++ value ++ ")"
  | .Identifier name, k =>
    (ASTNode.Identifier name).toString k = indentStr k ++ "Identifier(" ++ name ++ ")"
  | .StringLiteral value, k =>
    (ASTNode.StringLiteral value).toString k
      = indentStr k ++ "StringLiteral(\"" ++ value ++ "\")"
  | .BinaryExpr op left right, k =>
    (ASTNode.BinaryExpr op left right).toString k
      = indentStr k ++ "BinaryExpr(" ++ op ++ ")" ++ "\n" ++ left.toString (k + 1)
        ++ "\n" ++ right.toString (k + 1)
  | .LetDecl name isMut value, k =>
    (ASTNode.LetDecl name isMut value).toString k
      = indentStr k ++ "LetDecl(" ++ (if isMut then "mut " else "") ++ name ++ ")" ++ "\n"
        ++ value.toString (k + 1)
  | .FunctionDecl name body, k =>
    (ASTNode.FunctionDecl name body).toString k
      = indentStr k ++ "FunctionDecl(" ++ name ++ ")" ++ below body (k + 1)
  | .IfStatement condition thenBody elseBody, k =>
    (ASTNode.IfStatement condition thenBody elseBody).toString k
      = indentStr k ++ "IfStatement" ++ "\n" ++ indentStr (k + 1) ++ "Condition:" ++ "\n"
        ++ condition.toString (k + 2) ++ "\n" ++ indentStr (k + 1) ++ "Then:"
        ++ below thenBody (k + 2)
        ++ (if elseBody.isEmpty then ""
            else "\n" ++ indentStr (k + 1) ++ "Else:" ++ below elseBody (k + 2))
  | .WhileStatement condition body, k =>
    (ASTNode.WhileStatement condition body).toString k
      = indentStr k ++ "WhileStatement" ++ "\n" ++ indentStr (k + 1) ++ "Condition:" ++ "\n"
        ++ condition.toString (k + 2) ++ "\n" ++ indentStr (k + 1) ++ "Body:"
        ++ below body (k + 2)
  | .ReturnStatement value, k =>
    (ASTNode.ReturnStatement value).toString k
      = indentStr k ++ "ReturnStatement" ++ "\n" ++ value.toString (k + 1)

end Bystep

namespace Bystep

/-! ## The tokenizer of `HW1_bystep/Parser/src/lexer.cpp`

The cursor `pos` is an index into the characters of the source; a read `source[pos]`
outside the source, and the exhaustion of the fuel of a loop, make the function
return `none`. -/

/-- The test `ch == ' ' || ch == '\n' || ch == '\t' || ch == '\r'` (line 12). -/
def isSpaceChar (ch : Char) : Bool := ch = ' ' || ch = '\n' || ch = '\t' || ch = '\r'

/-- The test `(ch >= 'a' && ch <= 'z') || (ch >= 'A' && ch <= 'Z') || ch == '_'`
(line 18). -/
def isWordStart (ch : Char) : Bool :=
  ('a' ≤ ch && ch ≤ 'z') || ('A' ≤ ch && ch ≤ 'Z') || ch = '_'

/-- The test of lines 22-23: a letter, a digit or `_`. -/
def isWordChar (c : Char) : Bool :=
  ('a' ≤ c && c ≤ 'z') || ('A' ≤ c && c ≤ 'Z') || ('0' ≤ c && c ≤ '9') || c = '_'

/-- The test `ch >= '0' && ch <= '9'` (lines 43 and 45). -/
def isDigitChar (ch : Char) : Bool := '0' ≤ ch && ch ≤ '9'

/-- The test of lines 32-34: the word is one of the seven keywords. -/
def isKeyword (word : String) : Bool :=
  word = "fn" || word = "let" || word = "mut" || word = "if" || word = "else" ||
    word = "while" || word = "return"

/-- The test `pos + 1 < length && source[pos + 1] == x` (lines 67 and 75). -/
def nextIs (source : List Char) (pos : Nat) (x : Char) : Bool :=
  decide (pos + 1 < source.length) && source[pos + 1]? == some x

/-- The test `ch == '=' || ch == '!' || ch == '<' || ch == '>'` (line 76). -/
def startsComparison (ch : Char) : Bool := ch = '=' || ch = '!' || ch = '<' || ch = '>'

/-- The test of lines 87-88: one of `+ - * / = < >`. -/
def isOperatorChar (ch : Char) : Bool :=
  ch = '+' || ch = '-' || ch = '*' || ch = '/' || ch = '=' || ch = '<' || ch = '>'

/-- The test of lines 95-96: one of `( ) { } ; : ,`. -/
def isPunctuationChar (ch : Char) : Bool :=
  ch = '(' || ch = ')' || ch = '\x7b' || ch = '\x7d' || ch = ';' || ch = ':' || ch = ','

/-- The inner loops `while (pos < length && p(source[pos])) { text += source[pos]; pos++; }`
of lines 20-29 (word), 45-48 (number), 57-60 (string) and 68-70 (comment, where no
text is kept): returns the text and the cursor. -/
def scanWhile (p : Char → Bool) : Nat → List Char → Nat → String → Option (String × Nat)
  | 0, _, _, _ => none
  | fuel + 1, source, pos, text =>
    if pos < source.length then
      match source[pos]? with
      | none => none
      | some c =>
        if p c then scanWhile p fuel source (pos + 1) (text.push c)
        else some (text, pos)
    else some (text, pos)

/-- The loop `while (pos < length)` of `Lexer::tokenize` (lines 8-105), `tokens` being
the vector built so far. -/
def tokenizeLoop : Nat → List Char → Nat → List Token → Option (List Token)
  | 0, _, _, _ => none
  | fuel + 1, source, pos, tokens =>
    if pos < source.length then
      match source[pos]? with
      | none => none
      | some ch =>
        if isSpaceChar ch then tokenizeLoop fuel source (pos + 1) tokens
        else if isWordStart ch then
          match scanWhile isWordChar (source.length + 1) source pos "" with
          | none => none
          | some (word, pos1) =>
            if isKeyword word then
              tokenizeLoop fuel source pos1 (tokens ++ [⟨"KEYWORD", word⟩])
            else tokenizeLoop fuel source pos1 (tokens ++ [⟨"IDENTIFIER", word⟩])
        else if isDigitChar ch then
          match scanWhile isDigitChar (source.length + 1) source pos "" with
          | none => none
          | some (number, pos1) =>
            tokenizeLoop fuel source pos1 (tokens ++ [⟨"NUMBER", number⟩])
        else if ch = '"' then
          -- pos++, the loop, then pos++ again, also when the loop stopped at the end
          match scanWhile (fun c => c != '"') (source.length + 1) source (pos + 1) "" with
          | none => none
          | some (str, pos1) =>
            tokenizeLoop fuel source (pos1 + 1) (tokens ++ [⟨"STRING", str⟩])
        else if ch = '/' && nextIs source pos '/' then
          match scanWhile (fun c => c != '\n') (source.length + 1) source pos "" with
          | none => none
          | some (_, pos1) => tokenizeLoop fuel source pos1 tokens
        -- lines 75-76: the two nested tests; when the inner one fails, control falls through
        else if nextIs source pos '=' && startsComparison ch then
          tokenizeLoop fuel source (pos + 2) (tokens ++ [⟨"OPERATOR", String.mk [ch, '=']⟩])
        else if isOperatorChar ch then
          tokenizeLoop fuel source (pos + 1) (tokens ++ [⟨"OPERATOR", String.singleton ch⟩])
        else if isPunctuationChar ch then
          tokenizeLoop fuel source (pos + 1) (tokens ++ [⟨"PUNCTUATION", String.singleton ch⟩])
        else
          tokenizeLoop fuel source (pos + 1) (tokens ++ [⟨"UNKNOWN", String.singleton ch⟩])
    else some tokens

/-- Method `Lexer::tokenize` of `HW1_bystep`: `pos = 0`, then the loop. -/
def tokenize (source : String) : Option (List Token) :=
  tokenizeLoop (source.data.length + 1) source.data 0 []

/-! ## Vocabulary of the comparison of the two tokenizers -/

/-- The type string of `HW1_bystep` that stands for a token kind of `HW1`. -/
def kindName : HW1.TokenType → String
  | .KW_FN | .KW_LET | .KW_MUT | .KW_IF | .KW_ELSE | .KW_WHILE | .KW_RETURN => "KEYWORD"
  | .IDENTIFIER => "IDENTIFIER"
  | .INTEGER => "NUMBER"
  | .STRING => "STRING"
  | .PLUS | .MINUS | .STAR | .SLASH | .ASSIGN | .EQ | .NEQ | .LT | .GT | .LTE | .GTE =>
    "OPERATOR"
  | .LPAREN | .RPAREN | .LBRACE | .RBRACE | .SEMICOLON | .COLON | .COMMA => "PUNCTUATION"
  | .ERROR => "UNKNOWN"
  | .END_OF_FILE => "END_OF_FILE"

/-- A token of `HW1` with its position dropped and its kind renamed. -/
def ofHW1 (t : HW1.Token) : Token := ⟨kindName t.type, t.lexeme⟩

/-- The token is the ERROR token of an unterminated string literal: its lexeme starts
with the opening quote. -/
def isUnterminatedString (t : HW1.Token) : Prop :=
  t.type = .ERROR ∧ t.lexeme.data.head? = some '"'

/-- One iteration of the loop of `HW1_bystep` at the cursor `pos` pushes the token `tok`
of `HW1`, renamed, and moves the cursor over the text of `tok`. -/
def pushesLike (source : List Char) (pos : Nat) (tok : HW1.Token) : Prop :=
  ∀ (fuel : Nat) (tokens : List Token),
    tokenizeLoop (fuel + 1) source pos tokens =
      tokenizeLoop fuel source (pos + tok.text.length) (tokens ++ [ofHW1 tok])

/-- The tokens `front` stand for a source prefix `p` that ends at a token boundary
before a quote: `p` alone gives `front`, and `p` followed by a text that starts with
a quote gives `front` followed by the tokens of that text. -/
def endsAtBoundary (p : List Char) (front : List Token) : Prop :=
  tokenize (String.mk p) = some front ∧
    ∀ rest toks, tokenize (String.mk ('"' :: rest)) = some toks →
      tokenize (String.mk (p ++ '"' :: rest)) = some (front ++ toks)

end Bystep

/-! ## Where a failure of the parser is thrown -/

namespace Bystep

/-- The failure `e` is thrown by one of the four places of `parser.cpp` that throw, with
the cursor at `q`: by a call of `expect`, by `parsePrimary`, or by one of the two name
checks. -/
inductive ThrownAt (tokens : List Token) (q : Nat) (e : Failure) : Prop
  /-- Lines 24-33: a call `expect(type, value)` of the parser, with the cursor at `q`,
  fails with `e`. -/
  | expect (type value : String) :
      (type, value) ∈ expectedTerminals → expect tokens q type value = .error e →
      ThrownAt tokens q e
  /-- Lines 114-137: `parsePrimary`, with the cursor at `q`, fails with `e`. -/
  | primary : parsePrimary tokens q = .error e → ThrownAt tokens q e
  /-- Line 99, the variable-name check of `parseLetDecl`, called where `let` stands, at
  `p`: the cursor `q` is after `let`, or after `let mut`, no IDENTIFIER stands there,
  and `parseLetDecl` fails with `e`. -/
  | variable_name (fuel p : Nat) :
      tokens[p]? = some ⟨"KEYWORD", "let"⟩ →
      ((q = p + 1 ∧ tokens[p + 1]? ≠ some ⟨"KEYWORD", "mut"⟩) ∨
        (q = p + 2 ∧ tokens[p + 1]? = some ⟨"KEYWORD", "mut"⟩)) →
      (∀ tok, tokens[q]? = some tok → tok.type ≠ "IDENTIFIER") →
      parseLetDecl fuel tokens p = .error e →
      ThrownAt tokens q e
  /-- Line 75, the function-name check of `parseFunctionDecl`, called where `fn` stands,
  at `p`: the cursor `q` is after `fn`, no IDENTIFIER stands there, and
  `parseFunctionDecl` fails with `e`. -/
  | function_name (fuel p : Nat) :
      tokens[p]? = some ⟨"KEYWORD", "fn"⟩ → q = p + 1 →
      (∀ tok, tokens[q]? = some tok → tok.type ≠ "IDENTIFIER") →
      parseFunctionDecl (fuel + 1) tokens p = .error e →
      ThrownAt tokens q e

/-- The call `run fuel tokens`, started with the cursor at `pos`, is determined by the
tokens it has read. A value comes with a cursor `pos1` inside the vector, and the call
returns the same on every vector that has the same tokens up to and including the one
at `pos1`, with any larger fuel. A `std::runtime_error` is thrown at a cursor `q`
inside the vector or at its end (`ThrownAt`), and the same is thrown on every vector
that has the same tokens up to and including the one at `q`. -/
def Determined {α : Type} (run : Nat → List Token → Except Failure (α × Nat))
    (fuel : Nat) (tokens : List Token) (pos : Nat) : Prop :=
  match run fuel tokens with
  | .ok (a, pos1) =>
    pos ≤ pos1 ∧ pos1 ≤ tokens.length ∧
      ∀ fuel1 tokens1, fuel ≤ fuel1 → List.take (pos1 + 1) tokens1 = tokens.take (pos1 + 1) →
        run fuel1 tokens1 = .ok (a, pos1)
  | .error (.runtime_error msg) =>
    ∃ q, pos ≤ q ∧ q ≤ tokens.length ∧ ThrownAt tokens q (.runtime_error msg) ∧
      ∀ fuel1 tokens1, fuel ≤ fuel1 → List.take (q + 1) tokens1 = tokens.take (q + 1) →
        run fuel1 tokens1 = .error (.runtime_error msg)
  | .error _ => True

/-- The loop of `parse`, as `Determined`: a value is returned with any larger fuel, a
`std::runtime_error` is thrown at a cursor `q` and again on every vector that has the
same tokens up to and including the one at `q`. -/
def DeterminedLoop (fuel : Nat) (tokens : List Token) (pos : Nat) (program : List ASTNode) :
    Prop :=
  match parseLoop fuel tokens pos program with
  | .ok nodes => ∀ fuel1, fuel ≤ fuel1 → parseLoop fuel1 tokens pos program = .ok nodes
  | .error (.runtime_error msg) =>
    ∃ q, pos ≤ q ∧ q ≤ tokens.length ∧ ThrownAt tokens q (.runtime_error msg) ∧
      ∀ fuel1 tokens1, fuel ≤ fuel1 → List.take (q + 1) tokens1 = tokens.take (q + 1) →
        parseLoop fuel1 tokens1 pos program = .error (.runtime_error msg)
  | .error _ => True

end Bystep

/-! # Theorems -/

namespace Bystep

/-! ## Reading the token vector at a cursor -/

theorem getElem?_of_drop {α : Type} {l : List α} {n : Nat} {a : α} {r : List α}
    (h : l.drop n = a :: r) : l[n]? = some a := by
  have := List.getElem?_drop (L := l) (i := n) (j := 0)
  rw [h] at this
  simpa using this.symm

theorem drop_succ_of_drop {α : Type} {l : List α} {n : Nat} {a : α} {r : List α}
    (h : l.drop n = a :: r) : l.drop (n + 1) = r := by
  have : l.drop (n + 1) = (l.drop n).drop 1 := by rw [List.drop_drop]
  rw [this, h]; rfl

theorem lt_length_of_drop {α : Type} {l : List α} {n : Nat} {a : α} {r : List α}
    (h : l.drop n = a :: r) : n < l.length := by
  by_contra hc
  rw [List.drop_eq_nil_of_le (by omega)] at h
  cases h

theorem drop_add_of_drop_append {α : Type} {l : List α} {n : Nat} (s r : List α)
    (h : l.drop n = s ++ r) : l.drop (n + s.length) = r := by
  have : l.drop (n + s.length) = (l.drop n).drop s.length := by
    rw [List.drop_drop]
  rw [this, h, List.drop_left]

theorem atEnd_of_drop {tokens : List Token} {pos : Nat} {a : Token} {r : List Token}
    (h : tokens.drop pos = a :: r) : atEnd tokens pos = false := by
  have := lt_length_of_drop h
  simp [atEnd]; omega

theorem atEnd_of_drop_nil {tokens : List Token} {pos : Nat}
    (h : tokens.drop pos = []) : atEnd tokens pos = true := by
  have := List.drop_eq_nil_iff.mp h
  simp [atEnd]; omega

theorem current_of_drop {tokens : List Token} {pos : Nat} {a : Token} {r : List Token}
    (h : tokens.drop pos = a :: r) : current tokens pos = .ok a := by
  simp [current, getElem?_of_drop h]

theorem advance_of_drop {tokens : List Token} {pos : Nat} {a : Token} {r : List Token}
    (h : tokens.drop pos = a :: r) : advance tokens pos = .ok (a, pos + 1) := by
  simp [advance, getElem?_of_drop h]

theorem currentHasType_of_drop {tokens : List Token} {pos : Nat} {a : Token} {r : List Token}
    (h : tokens.drop pos = a :: r) (type : String) :
    currentHasType tokens pos type = .ok (a.type == type) := by
  simp [currentHasType, atEnd_of_drop h, current_of_drop h]

theorem currentHasType_of_drop_nil {tokens : List Token} {pos : Nat}
    (h : tokens.drop pos = []) (type : String) :
    currentHasType tokens pos type = .ok false := by
  simp [currentHasType, atEnd_of_drop_nil h]

theorem currentIs_of_drop {tokens : List Token} {pos : Nat} {a : Token} {r : List Token}
    (h : tokens.drop pos = a :: r) (type value : String) :
    currentIs tokens pos type value = .ok (a.type == type && a.value == value) := by
  simp [currentIs, atEnd_of_drop h, current_of_drop h]

theorem currentIs_of_drop_nil {tokens : List Token} {pos : Nat}
    (h : tokens.drop pos = []) (type value : String) :
    currentIs tokens pos type value = .ok false := by
  simp [currentIs, atEnd_of_drop_nil h]

theorem expect_of_drop {tokens : List Token} {pos : Nat} {r : List Token} (type value : String)
    (h : tokens.drop pos = ⟨type, value⟩ :: r) :
    expect tokens pos type value = .ok (pos + 1) := by
  simp [expect, atEnd_of_drop h, current_of_drop h, advance_of_drop h]

theorem expect_of_drop_nil {tokens : List Token} {pos : Nat} (type value : String)
    (h : tokens.drop pos = []) :
    expect tokens pos type value = .error (.runtime_error
      ("Expected " ++ type ++ " '" ++ value ++ "' but reached end of input")) := by
  simp [expect, atEnd_of_drop_nil h]

/-! ## Expressions -/

theorem parsePrimary_of_drop {tokens : List Token} {pos : Nat} {p : Token} {r : List Token}
    (h : tokens.drop pos = p :: r) (hp : isPrimaryToken p = true) :
    parsePrimary tokens pos = .ok (primaryNode p, pos + 1) := by
  simp only [isPrimaryToken, Bool.or_eq_true, beq_iff_eq] at hp
  simp only [parsePrimary, atEnd_of_drop h, current_of_drop h, advance_of_drop h, primaryNode]
  by_cases h1 : p.type = "NUMBER"
  · simp [h1]
  · by_cases h2 : p.type = "STRING"
    · simp [h2]
    · have h3 : p.type = "IDENTIFIER" := by tauto
      simp [h3]

theorem currentHasType_operator_of_noOperatorAhead {tokens : List Token} {pos : Nat}
    {r : List Token} (h : tokens.drop pos = r) (hr : noOperatorAhead r) :
    currentHasType tokens pos "OPERATOR" = .ok false := by
  cases r with
  | nil => exact currentHasType_of_drop_nil h _
  | cons t r1 =>
    rw [currentHasType_of_drop h]
    simp [hr t r1 rfl]

theorem parseExpressionLoop_chain (ops : List (Token × Token)) :
    ∀ (fuel : Nat) (tokens : List Token) (pos : Nat) (left : ASTNode) (r : List Token),
      tokens.drop pos = ops.flatMap (fun q => [q.1, q.2]) ++ r →
      (∀ q ∈ ops, q.1.type = "OPERATOR" ∧ isPrimaryToken q.2 = true) →
      noOperatorAhead r → ops.length < fuel →
      parseExpressionLoop fuel tokens pos left = .ok (foldOps left ops, pos + 2 * ops.length) := by
  induction ops with
  | nil =>
    intro fuel tokens pos left r h _ hr hf
    obtain ⟨f, rfl⟩ : ∃ f, fuel = f + 1 := ⟨fuel - 1, by simp at hf; omega⟩
    simp only [List.flatMap_nil, List.nil_append] at h
    simp [parseExpressionLoop, currentHasType_operator_of_noOperatorAhead h hr, foldOps]
  | cons q ops ih =>
    intro fuel tokens pos left r h hq hr hf
    obtain ⟨f, rfl⟩ : ∃ f, fuel = f + 1 := ⟨fuel - 1, by simp at hf; omega⟩
    simp only [List.flatMap_cons, List.cons_append, List.nil_append] at h
    have h1 := drop_succ_of_drop h
    have h2 := drop_succ_of_drop h1
    have hq1 := hq q (List.mem_cons_self _ _)
    have hrec := ih f tokens (pos + 1 + 1) (.BinaryExpr q.1.value left (primaryNode q.2)) r h2
      (fun q1 hq1 => hq q1 (List.mem_cons_of_mem _ hq1)) hr (by simp at hf; omega)
    simp only [parseExpressionLoop, currentHasType_of_drop h, hq1.1, beq_self_eq_true,
      current_of_drop h, advance_of_drop h, parsePrimary_of_drop h1 hq1.2, hrec, foldOps,
      List.foldl_cons, List.length_cons]
    congr 2
    omega

theorem parseExpression_chain {fuel : Nat} {tokens : List Token} {pos : Nat} {p0 : Token}
    {ops : List (Token × Token)} {r : List Token}
    (h : tokens.drop pos = chainTokens p0 ops ++ r) (hc : isChain p0 ops)
    (hr : noOperatorAhead r) (hf : ops.length < fuel) :
    parseExpression fuel tokens pos
      = .ok (foldOps (primaryNode p0) ops, pos + (chainTokens p0 ops).length) := by
  simp only [chainTokens, List.cons_append] at h
  have h1 := drop_succ_of_drop h
  have hl : (chainTokens p0 ops).length = 1 + 2 * ops.length := by
    simp only [chainTokens, List.length_cons]
    have : ∀ l : List (Token × Token), (l.flatMap (fun q => [q.1, q.2])).length = 2 * l.length := by
      intro l
      induction l with
      | nil => rfl
      | cons a l ih => simp only [List.flatMap_cons, List.length_append, ih, List.length_cons,
          List.length_nil]; omega
    rw [this]; omega
  simp only [parseExpression, parsePrimary_of_drop h hc.1,
    parseExpressionLoop_chain ops fuel tokens (pos + 1) _ r h1 hc.2 hr hf, hl]
  congr 2
  omega

end Bystep

namespace Bystep

theorem isPrimaryToken_type_ne {p : Token} (hp : isPrimaryToken p = true) :
    p.type ≠ "KEYWORD" ∧ p.type ≠ "OPERATOR" ∧ p.type ≠ "PUNCTUATION" := by
  simp only [isPrimaryToken, Bool.or_eq_true, beq_iff_eq] at hp
  rcases hp with (h | h) | h <;> rw [h] <;> decide

theorem parseStatement_chain {fuel : Nat} {tokens : List Token} {pos : Nat} {p0 : Token}
    {ops : List (Token × Token)} {r : List Token}
    (h : tokens.drop pos = chainTokens p0 ops ++ r) (hc : isChain p0 ops)
    (hr : noOperatorAhead r) (hf : ops.length + 1 < fuel) :
    parseStatement fuel tokens pos
      = .ok (foldOps (primaryNode p0) ops, pos + (chainTokens p0 ops).length) := by
  obtain ⟨f, rfl⟩ : ∃ f, fuel = f + 1 := ⟨fuel - 1, by omega⟩
  have h0 : tokens.drop pos = p0 :: (ops.flatMap (fun q => [q.1, q.2]) ++ r) := by
    simpa [chainTokens] using h
  have hk : (p0.type == "KEYWORD") = false := by simp [(isPrimaryToken_type_ne hc.1).1]
  rw [parseStatement, currentHasType_of_drop h0, hk]
  have hf2 : ops.length < f := by omega
  exact parseExpression_chain h hc hr hf2

theorem chainTokens_length (p0 : Token) (ops : List (Token × Token)) :
    (chainTokens p0 ops).length = 2 * ops.length + 1 := by
  simp only [chainTokens, List.length_cons]
  have : ∀ l : List (Token × Token), (l.flatMap (fun q => [q.1, q.2])).length = 2 * l.length := by
    intro l
    induction l with
    | nil => rfl
    | cons a l ih => simp only [List.flatMap_cons, List.length_append, ih, List.length_cons,
        List.length_nil]; omega
  rw [this]

theorem parseLoop_atEnd {fuel : Nat} {tokens : List Token} {pos : Nat} (program : List ASTNode)
    (h : tokens.drop pos = []) (hf : 0 < fuel) :
    parseLoop fuel tokens pos program = .ok program := by
  obtain ⟨f, rfl⟩ : ∃ f, fuel = f + 1 := ⟨fuel - 1, by omega⟩
  simp [parseLoop, atEnd_of_drop_nil h]

/-- C1. Flat, left-folded expressions: on the tokens `p0 op1 p1 ... opn pn` (each
`pi` of type NUMBER, STRING or IDENTIFIER, each `opi` of type OPERATOR, any lexeme)
`parse` returns exactly one node, the left fold of the `BinaryExpr` nodes. -/
theorem parse_expression_left_fold (p0 : Token) (ops : List (Token × Token))
    (hc : isChain p0 ops) :
    parse (chainTokens p0 ops) = .ok [foldOps (primaryNode p0) ops] := by
  have hl := chainTokens_length p0 ops
  have h : (chainTokens p0 ops).drop 0 = chainTokens p0 ops ++ [] := by simp
  have hs : parseStatement (4 * (chainTokens p0 ops).length + 3) (chainTokens p0 ops) 0 = _ :=
    parseStatement_chain h hc (fun t r1 hnil => by cases hnil) (by omega)
  have hne : atEnd (chainTokens p0 ops) 0 = false := by simp [atEnd, chainTokens]
  rw [parse, parseLoop, hne]
  simp only [Bool.false_eq_true, if_false, hs]
  exact parseLoop_atEnd _ (List.drop_eq_nil_of_le (by omega)) (by omega)

/-- Witness of C1: the tokens of `1 + 2 * 3` give `BinaryExpr(*, BinaryExpr(+, 1, 2), 3)`. -/
theorem parse_expression_left_fold_witness :
    isChain ⟨"NUMBER", "1"⟩ [(⟨"OPERATOR", "+"⟩, ⟨"NUMBER", "2"⟩), (⟨"OPERATOR", "*"⟩, ⟨"NUMBER", "3"⟩)]
    ∧ parse [⟨"NUMBER", "1"⟩, ⟨"OPERATOR", "+"⟩, ⟨"NUMBER", "2"⟩, ⟨"OPERATOR", "*"⟩, ⟨"NUMBER", "3"⟩]
      = .ok [.BinaryExpr "*" (.BinaryExpr "+" (.NumberLiteral "1") (.NumberLiteral "2"))
          (.NumberLiteral "3")] :=
  ⟨by simp [isChain, isPrimaryToken],
   parse_expression_left_fold ⟨"NUMBER", "1"⟩
     [(⟨"OPERATOR", "+"⟩, ⟨"NUMBER", "2"⟩), (⟨"OPERATOR", "*"⟩, ⟨"NUMBER", "3"⟩)]
     (by simp [isChain, isPrimaryToken])⟩

end Bystep

/-! ## The grammar of the specification and the parser: from derivations to runs -/

namespace Bystep

open Grammar

theorem primary_iff {p : List Token} {a : ASTNode} :
    Grammar.primary p a ↔ ∃ t, isPrimaryToken t = true ∧ p = [t] ∧ a = primaryNode t := by
  constructor
  · intro h
    cases h with
    | number t ht => exact ⟨t, by simp [isPrimaryToken, ht], rfl, by simp [primaryNode, ht]⟩
    | string t ht => exact ⟨t, by simp [isPrimaryToken, ht], rfl, by simp [primaryNode, ht]⟩
    | identifier t ht => exact ⟨t, by simp [isPrimaryToken, ht], rfl, by simp [primaryNode, ht]⟩
  · rintro ⟨t, ht, rfl, rfl⟩
    simp only [isPrimaryToken, Bool.or_eq_true, beq_iff_eq] at ht
    by_cases h1 : t.type = "NUMBER"
    · simpa [primaryNode, h1] using Grammar.primary.number t h1
    · by_cases h2 : t.type = "STRING"
      · simpa [primaryNode, h1, h2] using Grammar.primary.string t h2
      · have h3 : t.type = "IDENTIFIER" := by tauto
        simpa [primaryNode, h1, h2] using Grammar.primary.identifier t h3

theorem chainTokens_snoc (p0 : Token) (ops : List (Token × Token)) (q : Token × Token) :
    chainTokens p0 (ops ++ [q]) = chainTokens p0 ops ++ [q.1, q.2] := by
  simp [chainTokens, List.flatMap_append]

theorem foldOps_snoc (left : ASTNode) (ops : List (Token × Token)) (q : Token × Token) :
    foldOps left (ops ++ [q]) = .BinaryExpr q.1.value (foldOps left ops) (primaryNode q.2) := by
  simp [foldOps, List.foldl_append]

/-- An expression of the grammar is a chain `p0 op1 p1 ... opn pn` and its tree is the
left fold. -/
theorem expression_iff_chain {e : List Token} {a : ASTNode} :
    Grammar.expression e a ↔
      ∃ p0 ops, isChain p0 ops ∧ e = chainTokens p0 ops ∧ a = foldOps (primaryNode p0) ops := by
  constructor
  · intro h
    induction h with
    | first p a hp =>
      obtain ⟨t, ht, rfl, rfl⟩ := primary_iff.mp hp
      exact ⟨t, [], ⟨ht, by simp⟩, rfl, rfl⟩
    | more e left op p right _ hop hp ih =>
      obtain ⟨p0, ops, hc, rfl, rfl⟩ := ih
      obtain ⟨t, ht, rfl, rfl⟩ := primary_iff.mp hp
      refine ⟨p0, ops ++ [(op, t)], ⟨hc.1, ?_⟩, ?_, ?_⟩
      · intro q hq
        rcases List.mem_append.mp hq with hq | hq
        · exact hc.2 q hq
        · simp only [List.mem_singleton] at hq
          subst hq
          exact ⟨hop, ht⟩
      · rw [chainTokens_snoc]
      · rw [foldOps_snoc]
  · rintro ⟨p0, ops, hc, rfl, rfl⟩
    induction ops using List.reverseRecOn with
    | nil =>
      exact Grammar.expression.first _ _ (primary_iff.mpr ⟨p0, hc.1, rfl, rfl⟩)
    | append_singleton ops q ih =>
      rw [chainTokens_snoc, foldOps_snoc]
      have hq := hc.2 q (by simp)
      exact Grammar.expression.more _ _ q.1 [q.2] _
        (ih ⟨hc.1, fun q1 h1 => hc.2 q1 (List.mem_append_left _ h1)⟩) hq.1
        (primary_iff.mpr ⟨q.2, hq.2, rfl, rfl⟩)

theorem parseExpression_complete {e : List Token} {a : ASTNode} (he : Grammar.expression e a)
    {fuel : Nat} {tokens : List Token} {pos : Nat} {r : List Token}
    (h : tokens.drop pos = e ++ r) (hr : noOperatorAhead r) (hf : e.length ≤ fuel) :
    parseExpression fuel tokens pos = .ok (a, pos + e.length) := by
  obtain ⟨p0, ops, hc, rfl, rfl⟩ := expression_iff_chain.mp he
  have hl := chainTokens_length p0 ops
  have hf2 : ops.length < fuel := by omega
  exact parseExpression_chain h hc hr hf2

theorem expression_length_pos {e : List Token} {a : ASTNode} (he : Grammar.expression e a) :
    0 < e.length := by
  obtain ⟨p0, ops, _, rfl, _⟩ := expression_iff_chain.mp he
  simp [chainTokens]

theorem expression_head {e : List Token} {a : ASTNode} (he : Grammar.expression e a) :
    ∃ t e1, e = t :: e1 ∧ isPrimaryToken t = true := by
  obtain ⟨p0, ops, hc, rfl, _⟩ := expression_iff_chain.mp he
  exact ⟨p0, _, rfl, hc.1⟩

end Bystep

namespace Bystep

open Grammar

theorem startsStatement_props {t : Token} (h : startsStatement t) :
    t.type ≠ "OPERATOR" ∧ ¬ (t.type = "KEYWORD" ∧ t.value = "else") ∧
      ¬ (t.type = "PUNCTUATION" ∧ t.value = "\x7d") := by
  rcases h with h | ⟨h1, h2⟩
  · have := isPrimaryToken_type_ne h
    exact ⟨this.2.1, fun hc => this.1 hc.1, fun hc => this.2.2 hc.1⟩
  · refine ⟨by rw [h1]; decide, ?_, fun hc => by rw [h1] at hc; exact absurd hc.1 (by decide)⟩
    rintro ⟨_, h3⟩
    rw [h3] at h2
    revert h2
    decide

theorem statement_head {s : List Token} {a : ASTNode} (h : Grammar.statement s a) :
    ∃ t s1, s = t :: s1 ∧ startsStatement t := by
  cases h with
  | letDecl x e v _ _ => exact ⟨_, _, rfl, Or.inr ⟨rfl, by simp [kw]⟩⟩
  | letMutDecl x e v _ _ => exact ⟨_, _, rfl, Or.inr ⟨rfl, by simp [kw]⟩⟩
  | fnDecl f b body _ _ => exact ⟨_, _, rfl, Or.inr ⟨rfl, by simp [kw]⟩⟩
  | ifStmt c cond b thenBody _ _ => exact ⟨_, _, rfl, Or.inr ⟨rfl, by simp [kw]⟩⟩
  | ifElseStmt c cond b1 thenBody b2 elseBody _ _ _ =>
    exact ⟨_, _, rfl, Or.inr ⟨rfl, by simp [kw]⟩⟩
  | whileStmt c cond b body _ _ => exact ⟨_, _, rfl, Or.inr ⟨rfl, by simp [kw]⟩⟩
  | returnStmt e v _ => exact ⟨_, _, rfl, Or.inr ⟨rfl, by simp [kw]⟩⟩
  | expr e a he =>
    obtain ⟨t, e1, rfl, ht⟩ := expression_head he
    exact ⟨t, e1, rfl, Or.inl ht⟩

theorem statements_head {ss : List Token} {body : List ASTNode}
    (h : Grammar.statements ss body) :
    ss = [] ∨ ∃ t s1, ss = t :: s1 ∧ startsStatement t := by
  cases h with
  | none => exact Or.inl rfl
  | cons s a ss1 rest hs _ =>
    obtain ⟨t, s1, rfl, ht⟩ := statement_head hs
    exact Or.inr ⟨t, s1 ++ ss1, rfl, ht⟩

theorem block_head {b : List Token} {body : List ASTNode} (h : Grammar.block b body) :
    ∃ b1, b = punct "\x7b" :: b1 := by
  cases h with
  | braces ss body _ => exact ⟨_, rfl⟩

theorem noOperatorAhead_punct (v : String) (r : List Token) :
    noOperatorAhead (punct v :: r) := by
  intro t r1 h
  cases h
  simp [punct]

theorem noOperatorAhead_block {b : List Token} {body : List ASTNode}
    (h : Grammar.block b body) (r : List Token) : noOperatorAhead (b ++ r) := by
  obtain ⟨b1, rfl⟩ := block_head h
  exact noOperatorAhead_punct _ _

theorem noOperatorAhead_of_statementMayEnd {r : List Token} (h : statementMayEnd r) :
    noOperatorAhead r :=
  fun t r1 hr => (h t r1 hr).1

theorem blockContinues_of_drop {tokens : List Token} {pos : Nat} {a : Token} {r : List Token}
    (h : tokens.drop pos = a :: r) :
    blockContinues tokens pos = .ok (!(a.type == "PUNCTUATION" && a.value == "\x7d")) := by
  simp [blockContinues, atEnd_of_drop h, current_of_drop h]

theorem blockContinues_of_drop_nil {tokens : List Token} {pos : Nat}
    (h : tokens.drop pos = []) : blockContinues tokens pos = .ok false := by
  simp [blockContinues, atEnd_of_drop_nil h]

theorem blockContinues_of_blockMayEnd {tokens : List Token} {pos : Nat} {r : List Token}
    (h : tokens.drop pos = r) (hr : blockMayEnd r) : blockContinues tokens pos = .ok false := by
  rcases hr with rfl | ⟨r1, rfl⟩
  · exact blockContinues_of_drop_nil h
  · rw [blockContinues_of_drop h]; rfl

theorem currentIs_else_of_statementMayEnd {tokens : List Token} {pos : Nat} {r : List Token}
    (h : tokens.drop pos = r) (hr : statementMayEnd r) :
    currentIs tokens pos "KEYWORD" "else" = .ok false := by
  cases r with
  | nil => exact currentIs_of_drop_nil h _ _
  | cons t r1 =>
    rw [currentIs_of_drop h]
    have := (hr t r1 rfl).2
    congr 1
    simp only [Bool.and_eq_false_imp, beq_iff_eq, beq_eq_false_iff_ne, ne_eq]
    tauto

/-- Dispatch of `parseStatement` on a keyword token. -/
theorem parseStatement_keyword {tokens : List Token} {pos : Nat} {v : String} {r : List Token}
    (h : tokens.drop pos = kw v :: r) (fuel : Nat) :
    parseStatement (fuel + 1) tokens pos =
      if v = "let" then parseLetDecl fuel tokens pos
      else if v = "fn" then parseFunctionDecl fuel tokens pos
      else if v = "if" then parseIfStatement fuel tokens pos
      else if v = "while" then parseWhileStatement fuel tokens pos
      else if v = "return" then parseReturnStatement fuel tokens pos
      else parseExpression fuel tokens pos := by
  rw [parseStatement, currentHasType_of_drop h, current_of_drop h]
  simp [kw]

theorem parseLetDecl_complete {x : Token} {e : List Token} {v : ASTNode}
    (hx : x.type = "IDENTIFIER") (he : Grammar.expression e v)
    {fuel : Nat} {tokens : List Token} {pos : Nat} {r : List Token}
    (h : tokens.drop pos = (kw "let" :: x :: assign :: e ++ [punct ";"]) ++ r)
    (hf : e.length ≤ fuel) :
    parseLetDecl fuel tokens pos = .ok (.LetDecl x.value false v, pos + (e.length + 4)) := by
  simp only [List.cons_append, List.append_assoc, List.nil_append] at h
  have h1 := drop_succ_of_drop h
  have h2 := drop_succ_of_drop h1
  have h3 := drop_succ_of_drop h2
  have h4 := drop_add_of_drop_append _ _ h3
  have hmut : (x.type == "KEYWORD" && x.value == "mut") = false := by simp [hx]
  have hE := parseExpression_complete he h3 (noOperatorAhead_punct _ _) hf
  simp only [parseLetDecl, expect_of_drop "KEYWORD" "let" h, currentIs_of_drop h1, hmut]
  simp only [Bool.false_eq_true, if_false, currentHasType_of_drop h1, hx, beq_self_eq_true,
    current_of_drop h1, advance_of_drop h1, expect_of_drop "OPERATOR" "=" h2, hE,
    expect_of_drop "PUNCTUATION" ";" h4]
  congr 2; omega

theorem parseLetDecl_mut_complete {x : Token} {e : List Token} {v : ASTNode}
    (hx : x.type = "IDENTIFIER") (he : Grammar.expression e v)
    {fuel : Nat} {tokens : List Token} {pos : Nat} {r : List Token}
    (h : tokens.drop pos = (kw "let" :: kw "mut" :: x :: assign :: e ++ [punct ";"]) ++ r)
    (hf : e.length ≤ fuel) :
    parseLetDecl fuel tokens pos = .ok (.LetDecl x.value true v, pos + (e.length + 5)) := by
  simp only [List.cons_append, List.append_assoc, List.nil_append] at h
  have h1 := drop_succ_of_drop h
  have h2 := drop_succ_of_drop h1
  have h3 := drop_succ_of_drop h2
  have h4 := drop_succ_of_drop h3
  have h5 := drop_add_of_drop_append _ _ h4
  have hmut : ((kw "mut").type == "KEYWORD" && (kw "mut").value == "mut") = true := by decide
  have hE := parseExpression_complete he h4 (noOperatorAhead_punct _ _) hf
  simp only [parseLetDecl, expect_of_drop "KEYWORD" "let" h, currentIs_of_drop h1, hmut]
  simp only [if_true, advance_of_drop h1, Except.map, currentHasType_of_drop h2, hx,
    beq_self_eq_true, current_of_drop h2, advance_of_drop h2, expect_of_drop "OPERATOR" "=" h3,
    hE, expect_of_drop "PUNCTUATION" ";" h5]
  congr 2; omega

theorem parseReturnStatement_complete {e : List Token} {v : ASTNode}
    (he : Grammar.expression e v)
    {fuel : Nat} {tokens : List Token} {pos : Nat} {r : List Token}
    (h : tokens.drop pos = (kw "return" :: e ++ [punct ";"]) ++ r)
    (hf : e.length ≤ fuel) :
    parseReturnStatement fuel tokens pos = .ok (.ReturnStatement v, pos + (e.length + 2)) := by
  simp only [List.cons_append, List.append_assoc, List.nil_append] at h
  have h1 := drop_succ_of_drop h
  have h2 := drop_add_of_drop_append _ _ h1
  have hE := parseExpression_complete he h1 (noOperatorAhead_punct _ _) hf
  simp only [parseReturnStatement, expect_of_drop "KEYWORD" "return" h, hE,
    expect_of_drop "PUNCTUATION" ";" h2]
  congr 2; omega

end Bystep

namespace Bystep

open Grammar

theorem runsBlock_braces {ss : List Token} {body : List ASTNode}
    (ih : RunsStatements ss body) : RunsBlock (punct "\x7b" :: ss ++ [punct "\x7d"]) body := by
  intro fuel tokens pos r h hf
  obtain ⟨f, rfl⟩ : ∃ f, fuel = f + 1 := ⟨fuel - 1, by simp at hf; omega⟩
  simp only [List.cons_append, List.append_assoc, List.nil_append] at h
  have h1 := drop_succ_of_drop h
  have h2 := drop_add_of_drop_append _ _ h1
  have hL := ih f tokens (pos + 1) [] (punct "\x7d" :: r) h1 (Or.inr ⟨r, rfl⟩)
    (by simp at hf; omega)
  simp only [parseBlock, expect_of_drop "PUNCTUATION" "\x7b" h, hL,
    expect_of_drop "PUNCTUATION" "\x7d" h2, List.nil_append]
  congr 2
  simp
  omega

theorem runsStatements_none : RunsStatements [] [] := by
  intro fuel tokens pos acc r h hr hf
  obtain ⟨f, rfl⟩ : ∃ f, fuel = f + 1 := ⟨fuel - 1, by omega⟩
  simp only [List.nil_append] at h
  simp [parseBlockLoop, blockContinues_of_blockMayEnd h hr]

theorem statementMayEnd_of_statements {ss : List Token} {rest : List ASTNode}
    (hss : Grammar.statements ss rest) {r : List Token} (hr : blockMayEnd r) :
    statementMayEnd (ss ++ r) := by
  intro t r1 h
  rcases statements_head hss with rfl | ⟨t1, s1, rfl, ht1⟩
  · rcases hr with rfl | ⟨r2, rfl⟩
    · cases h
    · cases h
      exact ⟨by decide, by decide⟩
  · cases h
    have := startsStatement_props ht1
    exact ⟨this.1, this.2.1⟩

theorem runsStatements_cons {s : List Token} {a : ASTNode} {ss : List Token}
    {rest : List ASTNode} (hs : Grammar.statement s a) (hss : Grammar.statements ss rest)
    (ih1 : RunsStatement s a) (ih2 : RunsStatements ss rest) :
    RunsStatements (s ++ ss) (a :: rest) := by
  intro fuel tokens pos acc r h hr hf
  obtain ⟨f, rfl⟩ : ∃ f, fuel = f + 1 := ⟨fuel - 1, by omega⟩
  obtain ⟨t, s1, rfl, ht⟩ := statement_head hs
  rw [List.append_assoc] at h
  have hc : blockContinues tokens pos = .ok true := by
    rw [blockContinues_of_drop (a := t) (r := s1 ++ (ss ++ r)) (by simpa using h)]
    have := (startsStatement_props ht).2.2
    congr 1
    simp only [Bool.not_eq_true', Bool.and_eq_false_imp, beq_iff_eq, beq_eq_false_iff_ne, ne_eq]
    tauto
  simp only [List.length_append, List.length_cons] at hf
  have hS := ih1 f tokens pos (ss ++ r) h (statementMayEnd_of_statements hss hr)
    (by simp only [List.length_cons]; omega)
  have h2 := drop_add_of_drop_append _ _ h
  have hL := ih2 f tokens (pos + (t :: s1).length) (acc ++ [a]) r h2 hr
    (by simp only [List.length_cons] at *; omega)
  simp only [parseBlockLoop, hc, hS, hL, List.append_assoc, List.singleton_append,
    List.length_append]
  congr 2
  omega

theorem runsStatement_fnDecl {f : Token} {b : List Token} {body : List ASTNode}
    (hf : f.type = "IDENTIFIER") (ih : RunsBlock b body) :
    RunsStatement (kw "fn" :: f :: punct "(" :: punct ")" :: b) (.FunctionDecl f.value body) := by
  intro fuel tokens pos r h _ hfuel
  simp only [List.length_cons] at hfuel
  obtain ⟨f1, rfl⟩ : ∃ f1, fuel = f1 + 1 + 1 := ⟨fuel - 2, by omega⟩
  simp only [List.cons_append] at h
  have h1 := drop_succ_of_drop h
  have h2 := drop_succ_of_drop h1
  have h3 := drop_succ_of_drop h2
  have h4 := drop_succ_of_drop h3
  have hB := ih f1 tokens (pos + 1 + 1 + 1 + 1) r h4 (by omega)
  rw [parseStatement_keyword h]
  simp only [parseFunctionDecl, expect_of_drop "KEYWORD" "fn" h, currentHasType_of_drop h1, hf,
    beq_self_eq_true, current_of_drop h1, advance_of_drop h1,
    expect_of_drop "PUNCTUATION" "(" h2, expect_of_drop "PUNCTUATION" ")" h3, hB,
    List.length_cons]
  simp only [show ("fn" : String) = "let" ↔ False from by decide, if_false, if_true]
  congr 2
  omega

theorem runsStatement_whileStmt {c : List Token} {cond : ASTNode} {b : List Token}
    {body : List ASTNode} (hc : Grammar.expression c cond) (hb : Grammar.block b body)
    (ih : RunsBlock b body) :
    RunsStatement (kw "while" :: c ++ b) (.WhileStatement cond body) := by
  intro fuel tokens pos r h _ hfuel
  simp only [List.length_cons, List.length_append] at hfuel
  obtain ⟨f1, rfl⟩ : ∃ f1, fuel = f1 + 1 + 1 := ⟨fuel - 2, by omega⟩
  simp only [List.cons_append, List.append_assoc] at h
  have h1 := drop_succ_of_drop h
  have h2 := drop_add_of_drop_append _ _ h1
  have hE : parseExpression f1 tokens (pos + 1) = _ :=
    parseExpression_complete hc h1 (noOperatorAhead_block hb r) (by omega)
  have hB := ih f1 tokens (pos + 1 + c.length) r h2 (by omega)
  rw [parseStatement_keyword h]
  simp only [parseWhileStatement, expect_of_drop "KEYWORD" "while" h, hE, hB,
    List.length_cons, List.length_append]
  simp only [show ("while" : String) = "let" ↔ False from by decide,
    show ("while" : String) = "fn" ↔ False from by decide,
    show ("while" : String) = "if" ↔ False from by decide, if_false, if_true]
  congr 2
  omega

theorem runsStatement_ifStmt {c : List Token} {cond : ASTNode} {b : List Token}
    {thenBody : List ASTNode} (hc : Grammar.expression c cond) (hb : Grammar.block b thenBody)
    (ih : RunsBlock b thenBody) :
    RunsStatement (kw "if" :: c ++ b) (.IfStatement cond thenBody []) := by
  intro fuel tokens pos r h hr hfuel
  simp only [List.length_cons, List.length_append] at hfuel
  obtain ⟨f1, rfl⟩ : ∃ f1, fuel = f1 + 1 + 1 := ⟨fuel - 2, by omega⟩
  simp only [List.cons_append, List.append_assoc] at h
  have h1 := drop_succ_of_drop h
  have h2 := drop_add_of_drop_append _ _ h1
  have h3 := drop_add_of_drop_append _ _ h2
  have hE : parseExpression f1 tokens (pos + 1) = _ :=
    parseExpression_complete hc h1 (noOperatorAhead_block hb r) (by omega)
  have hB := ih f1 tokens (pos + 1 + c.length) r h2 (by omega)
  rw [parseStatement_keyword h]
  simp only [parseIfStatement, expect_of_drop "KEYWORD" "if" h, hE, hB,
    currentIs_else_of_statementMayEnd h3 hr, List.length_cons, List.length_append]
  simp only [show ("if" : String) = "let" ↔ False from by decide,
    show ("if" : String) = "fn" ↔ False from by decide, if_false, if_true]
  congr 2
  omega

theorem runsStatement_ifElseStmt {c : List Token} {cond : ASTNode} {b1 : List Token}
    {thenBody : List ASTNode} {b2 : List Token} {elseBody : List ASTNode}
    (hc : Grammar.expression c cond) (hb1 : Grammar.block b1 thenBody)
    (ih1 : RunsBlock b1 thenBody) (ih2 : RunsBlock b2 elseBody) :
    RunsStatement (kw "if" :: c ++ b1 ++ kw "else" :: b2) (.IfStatement cond thenBody elseBody) := by
  intro fuel tokens pos r h _ hfuel
  simp only [List.length_cons, List.length_append] at hfuel
  obtain ⟨f1, rfl⟩ : ∃ f1, fuel = f1 + 1 + 1 := ⟨fuel - 2, by omega⟩
  simp only [List.cons_append, List.append_assoc] at h
  have h1 := drop_succ_of_drop h
  have h2 := drop_add_of_drop_append _ _ h1
  have h3 := drop_add_of_drop_append _ _ h2
  have h4 := drop_succ_of_drop h3
  have hE : parseExpression f1 tokens (pos + 1) = _ :=
    parseExpression_complete hc h1 (noOperatorAhead_block hb1 (kw "else" :: (b2 ++ r))) (by omega)
  have hB1 := ih1 f1 tokens (pos + 1 + c.length) (kw "else" :: (b2 ++ r)) h2 (by omega)
  have hB2 := ih2 f1 tokens (pos + 1 + c.length + b1.length + 1) r h4 (by omega)
  have helse : ((kw "else").type == "KEYWORD" && (kw "else").value == "else") = true := by
    decide
  rw [parseStatement_keyword h]
  simp only [parseIfStatement, expect_of_drop "KEYWORD" "if" h, hE, hB1,
    currentIs_of_drop h3, helse, advance_of_drop h3, hB2, List.length_cons,
    List.length_append]
  simp only [show ("if" : String) = "let" ↔ False from by decide,
    show ("if" : String) = "fn" ↔ False from by decide, if_false, if_true]
  congr 2
  omega

theorem runsStatement_letDecl {x : Token} {e : List Token} {v : ASTNode}
    (hx : x.type = "IDENTIFIER") (he : Grammar.expression e v) :
    RunsStatement (kw "let" :: x :: assign :: e ++ [punct ";"]) (.LetDecl x.value false v) := by
  intro fuel tokens pos r h _ hfuel
  simp only [List.length_cons, List.length_append, List.length_nil] at hfuel
  obtain ⟨f1, rfl⟩ : ∃ f1, fuel = f1 + 1 := ⟨fuel - 1, by omega⟩
  have h0 : tokens.drop pos = kw "let" :: (x :: assign :: e ++ [punct ";"] ++ r) := by
    simpa using h
  rw [parseStatement_keyword h0, if_pos rfl, parseLetDecl_complete hx he h (by omega)]
  simp only [List.length_cons, List.length_append, List.length_nil]

theorem runsStatement_letMutDecl {x : Token} {e : List Token} {v : ASTNode}
    (hx : x.type = "IDENTIFIER") (he : Grammar.expression e v) :
    RunsStatement (kw "let" :: kw "mut" :: x :: assign :: e ++ [punct ";"])
      (.LetDecl x.value true v) := by
  intro fuel tokens pos r h _ hfuel
  simp only [List.length_cons, List.length_append, List.length_nil] at hfuel
  obtain ⟨f1, rfl⟩ : ∃ f1, fuel = f1 + 1 := ⟨fuel - 1, by omega⟩
  have h0 : tokens.drop pos = kw "let" :: (kw "mut" :: x :: assign :: e ++ [punct ";"] ++ r) := by
    simpa using h
  rw [parseStatement_keyword h0, if_pos rfl, parseLetDecl_mut_complete hx he h (by omega)]
  simp only [List.length_cons, List.length_append, List.length_nil]

theorem runsStatement_returnStmt {e : List Token} {v : ASTNode}
    (he : Grammar.expression e v) :
    RunsStatement (kw "return" :: e ++ [punct ";"]) (.ReturnStatement v) := by
  intro fuel tokens pos r h _ hfuel
  simp only [List.length_cons, List.length_append, List.length_nil] at hfuel
  obtain ⟨f1, rfl⟩ : ∃ f1, fuel = f1 + 1 := ⟨fuel - 1, by omega⟩
  have h0 : tokens.drop pos = kw "return" :: (e ++ [punct ";"] ++ r) := by
    simpa using h
  rw [parseStatement_keyword h0, parseReturnStatement_complete he h (by omega)]
  simp only [show ("return" : String) = "let" ↔ False from by decide,
    show ("return" : String) = "fn" ↔ False from by decide,
    show ("return" : String) = "if" ↔ False from by decide,
    show ("return" : String) = "while" ↔ False from by decide, if_false, if_true,
    List.length_cons, List.length_append, List.length_nil]

theorem runsStatement_expr {e : List Token} {a : ASTNode} (he : Grammar.expression e a) :
    RunsStatement e a := by
  intro fuel tokens pos r h hr hfuel
  obtain ⟨p0, ops, hc, rfl, rfl⟩ := expression_iff_chain.mp he
  have hl := chainTokens_length p0 ops
  exact parseStatement_chain h hc (noOperatorAhead_of_statementMayEnd hr) (by omega)

/-- Every derivation of `statement` is run by `parseStatement`. -/
theorem runsStatement_of_statement {s : List Token} {a : ASTNode}
    (h : Grammar.statement s a) : RunsStatement s a :=
  @Grammar.statement.rec
    (fun s a _ => RunsStatement s a) (fun b body _ => RunsBlock b body)
    (fun ss body _ => RunsStatements ss body)
    (fun _ _ _ hx he => runsStatement_letDecl hx he)
    (fun _ _ _ hx he => runsStatement_letMutDecl hx he)
    (fun _ _ _ hf _ ih => runsStatement_fnDecl hf ih)
    (fun _ _ _ _ hc hb ih => runsStatement_ifStmt hc hb ih)
    (fun _ _ _ _ _ _ hc hb1 _ ih1 ih2 => runsStatement_ifElseStmt hc hb1 ih1 ih2)
    (fun _ _ _ _ hc hb ih => runsStatement_whileStmt hc hb ih)
    (fun _ _ he => runsStatement_returnStmt he)
    (fun _ _ he => runsStatement_expr he)
    (fun _ _ _ ih => runsBlock_braces ih)
    runsStatements_none
    (fun _ _ _ _ hs hss ih1 ih2 => runsStatements_cons hs hss ih1 ih2)
    s a h

end Bystep

/-! ## The grammar of the specification and the parser: from runs to derivations -/

namespace Bystep

open Grammar

theorem drop_cases (tokens : List Token) (pos : Nat) :
    tokens.drop pos = [] ∨ ∃ t, tokens.drop pos = t :: tokens.drop (pos + 1) := by
  rcases hd : tokens.drop pos with _ | ⟨t, r⟩
  · exact Or.inl rfl
  · exact Or.inr ⟨t, by rw [drop_succ_of_drop hd]⟩

theorem expect_sound {tokens : List Token} {pos pos1 : Nat} {type value : String}
    (h : expect tokens pos type value = .ok pos1) :
    pos1 = pos + 1 ∧ tokens.drop pos = ⟨type, value⟩ :: tokens.drop (pos + 1) := by
  rcases drop_cases tokens pos with hd | ⟨t, hd⟩
  · rw [expect_of_drop_nil _ _ hd] at h; cases h
  · simp only [expect, atEnd_of_drop hd, current_of_drop hd, advance_of_drop hd,
      Bool.false_eq_true, if_false] at h
    split at h
    · cases h
    · rename_i hne
      simp only [Bool.or_eq_true, bne_iff_ne, ne_eq, not_or, not_not] at hne
      cases h
      obtain ⟨ty, v⟩ := t
      simp only at hne
      obtain ⟨rfl, rfl⟩ := hne
      exact ⟨rfl, hd⟩

theorem currentHasType_cases (tokens : List Token) (pos : Nat) (type : String) :
    currentHasType tokens pos type = .ok false ∨
      (currentHasType tokens pos type = .ok true ∧
        ∃ t, t.type = type ∧ tokens.drop pos = t :: tokens.drop (pos + 1)) := by
  rcases drop_cases tokens pos with hd | ⟨t, hd⟩
  · exact Or.inl (currentHasType_of_drop_nil hd _)
  · rw [currentHasType_of_drop hd]
    by_cases ht : t.type = type
    · exact Or.inr ⟨by simp [ht], t, ht, hd⟩
    · exact Or.inl (by simp [ht])

theorem currentIs_cases (tokens : List Token) (pos : Nat) (type value : String) :
    currentIs tokens pos type value = .ok false ∨
      (currentIs tokens pos type value = .ok true ∧
        tokens.drop pos = ⟨type, value⟩ :: tokens.drop (pos + 1)) := by
  rcases drop_cases tokens pos with hd | ⟨t, hd⟩
  · exact Or.inl (currentIs_of_drop_nil hd _ _)
  · rw [currentIs_of_drop hd]
    by_cases ht : t.type = type ∧ t.value = value
    · obtain ⟨ty, v⟩ := t
      simp only at ht
      obtain ⟨rfl, rfl⟩ := ht
      exact Or.inr ⟨by simp, hd⟩
    · refine Or.inl ?_
      congr 1
      simp only [Bool.and_eq_false_imp, beq_iff_eq, beq_eq_false_iff_ne, ne_eq]
      tauto

theorem parsePrimary_sound {tokens : List Token} {pos pos1 : Nat} {a : ASTNode}
    (h : parsePrimary tokens pos = .ok (a, pos1)) :
    ∃ t, isPrimaryToken t = true ∧ a = primaryNode t ∧ pos1 = pos + 1 ∧
      tokens.drop pos = t :: tokens.drop (pos + 1) := by
  rcases drop_cases tokens pos with hd | ⟨t, hd⟩
  · simp [parsePrimary, atEnd_of_drop_nil hd] at h
  · by_cases hp : isPrimaryToken t = true
    · rw [parsePrimary_of_drop hd hp] at h
      cases h
      exact ⟨t, hp, rfl, rfl, hd⟩
    · simp only [isPrimaryToken, Bool.or_eq_true, beq_iff_eq, not_or] at hp
      simp [parsePrimary, atEnd_of_drop hd, current_of_drop hd, hp.1.1, hp.1.2, hp.2] at h

theorem parseExpressionLoop_sound (fuel : Nat) :
    ∀ (tokens : List Token) (pos : Nat) (left a : ASTNode) (pos1 : Nat),
      parseExpressionLoop fuel tokens pos left = .ok (a, pos1) →
      ∃ ops : List (Token × Token),
        (∀ q ∈ ops, q.1.type = "OPERATOR" ∧ isPrimaryToken q.2 = true) ∧
        tokens.drop pos = ops.flatMap (fun q => [q.1, q.2]) ++ tokens.drop pos1 ∧
        a = foldOps left ops := by
  induction fuel with
  | zero => intro tokens pos left a pos1 h; simp [parseExpressionLoop] at h
  | succ f ih =>
    intro tokens pos left a pos1 h
    rw [parseExpressionLoop] at h
    rcases currentHasType_cases tokens pos "OPERATOR" with hc | ⟨hc, op, hop, hd⟩
    · simp only [hc] at h
      cases h
      exact ⟨[], by simp, by simp, rfl⟩
    · simp only [hc, current_of_drop hd, advance_of_drop hd] at h
      cases hP : parsePrimary tokens (pos + 1) with
      | error e => simp [hP] at h
      | ok res =>
        obtain ⟨right, pos2⟩ := res
        simp only [hP] at h
        obtain ⟨t, ht, rfl, rfl, hd1⟩ := parsePrimary_sound hP
        obtain ⟨ops, hops, hd2, rfl⟩ := ih tokens _ _ _ _ h
        refine ⟨(op, t) :: ops, ?_, ?_, ?_⟩
        · intro q hq
          rcases List.mem_cons.mp hq with rfl | hq
          · exact ⟨hop, ht⟩
          · exact hops q hq
        · rw [hd, hd1, hd2]; simp
        · simp [foldOps]

theorem parseExpression_sound {fuel : Nat} {tokens : List Token} {pos pos1 : Nat} {a : ASTNode}
    (h : parseExpression fuel tokens pos = .ok (a, pos1)) :
    ∃ e, Grammar.expression e a ∧ tokens.drop pos = e ++ tokens.drop pos1 := by
  rw [parseExpression] at h
  cases hP : parsePrimary tokens pos with
  | error e => simp [hP] at h
  | ok res =>
    obtain ⟨left, pos2⟩ := res
    simp only [hP] at h
    obtain ⟨t, ht, rfl, rfl, hd⟩ := parsePrimary_sound hP
    obtain ⟨ops, hops, hd1, rfl⟩ := parseExpressionLoop_sound _ _ _ _ _ _ h
    refine ⟨chainTokens t ops, expression_iff_chain.mpr ⟨t, ops, ⟨ht, hops⟩, rfl, rfl⟩, ?_⟩
    rw [hd, hd1]; simp [chainTokens]

theorem parseReturnStatement_sound {fuel : Nat} {tokens : List Token} {pos pos1 : Nat}
    {a : ASTNode} (h : parseReturnStatement fuel tokens pos = .ok (a, pos1)) :
    ∃ s, Grammar.statement s a ∧ tokens.drop pos = s ++ tokens.drop pos1 := by
  rw [parseReturnStatement] at h
  cases h1 : expect tokens pos "KEYWORD" "return" with
  | error e => simp [h1] at h
  | ok p1 =>
    obtain ⟨rfl, hd⟩ := expect_sound h1
    simp only [h1] at h
    cases h2 : parseExpression fuel tokens (pos + 1) with
    | error e => simp [h2] at h
    | ok res =>
      obtain ⟨v, p2⟩ := res
      simp only [h2] at h
      obtain ⟨e, he, hd1⟩ := parseExpression_sound h2
      cases h3 : expect tokens p2 "PUNCTUATION" ";" with
      | error e => simp [h3] at h
      | ok p3 =>
        obtain ⟨rfl, hd2⟩ := expect_sound h3
        simp only [h3] at h
        cases h
        refine ⟨_, Grammar.statement.returnStmt e v he, ?_⟩
        rw [hd, hd1, hd2]; simp [kw, punct]

theorem parseLetDecl_sound {fuel : Nat} {tokens : List Token} {pos pos1 : Nat}
    {a : ASTNode} (h : parseLetDecl fuel tokens pos = .ok (a, pos1)) :
    ∃ s, Grammar.statement s a ∧ tokens.drop pos = s ++ tokens.drop pos1 := by
  rw [parseLetDecl] at h
  cases h1 : expect tokens pos "KEYWORD" "let" with
  | error e => simp [h1] at h
  | ok p1 =>
    obtain ⟨rfl, hd⟩ := expect_sound h1
    simp only [h1] at h
    -- the rest of the function, from the position `p2` after the optional `mut`
    have key : ∀ (isMut : Bool) (p2 : Nat),
        (match currentHasType tokens p2 "IDENTIFIER" with
          | .error e => .error e
          | .ok false => .error (.runtime_error "Expected variable name after 'let'")
          | .ok true =>
            match current tokens p2 with
            | .error e => .error e
            | .ok nameTok =>
              match advance tokens p2 with
              | .error e => .error e
              | .ok (_, pos3) =>
                match expect tokens pos3 "OPERATOR" "=" with
                | .error e => .error e
                | .ok pos4 =>
                  match parseExpression fuel tokens pos4 with
                  | .error e => .error e
                  | .ok (value, pos5) =>
                    match expect tokens pos5 "PUNCTUATION" ";" with
                    | .error e => .error e
                    | .ok pos6 => .ok (.LetDecl nameTok.value isMut value, pos6))
          = (.ok (a, pos1) : Except Failure (ASTNode × Nat)) →
        ∃ x e v, x.type = "IDENTIFIER" ∧ Grammar.expression e v ∧
          a = .LetDecl x.value isMut v ∧
          tokens.drop p2 = x :: assign :: e ++ [punct ";"] ++ tokens.drop pos1 := by
      intro isMut p2 hk
      rcases currentHasType_cases tokens p2 "IDENTIFIER" with hc | ⟨hc, x, hx, hdx⟩
      · simp [hc] at hk
      · simp only [hc, current_of_drop hdx, advance_of_drop hdx] at hk
        cases h2 : expect tokens (p2 + 1) "OPERATOR" "=" with
        | error e => simp [h2] at hk
        | ok p4 =>
          obtain ⟨rfl, hd2⟩ := expect_sound h2
          simp only [h2] at hk
          cases h3 : parseExpression fuel tokens (p2 + 1 + 1) with
          | error e => simp [h3] at hk
          | ok res =>
            obtain ⟨v, p5⟩ := res
            simp only [h3] at hk
            obtain ⟨e, he, hd3⟩ := parseExpression_sound h3
            cases h4 : expect tokens p5 "PUNCTUATION" ";" with
            | error e => simp [h4] at hk
            | ok p6 =>
              obtain ⟨rfl, hd4⟩ := expect_sound h4
              simp only [h4] at hk
              cases hk
              refine ⟨x, e, v, hx, he, rfl, ?_⟩
              rw [hdx, hd2, hd3, hd4]; simp [assign, punct]
    rcases currentIs_cases tokens (pos + 1) "KEYWORD" "mut" with hm | ⟨hm, hdm⟩
    · simp only [hm, Bool.false_eq_true, if_false] at h
      obtain ⟨x, e, v, hx, he, rfl, hd2⟩ := key false (pos + 1) h
      refine ⟨_, Grammar.statement.letDecl x e v hx he, ?_⟩
      rw [hd, hd2]; simp [kw]
    · simp only [hm, if_true, advance_of_drop hdm, Except.map] at h
      obtain ⟨x, e, v, hx, he, rfl, hd2⟩ := key true (pos + 1 + 1) h
      refine ⟨_, Grammar.statement.letMutDecl x e v hx he, ?_⟩
      rw [hd, hdm, hd2]; simp [kw]

end Bystep

namespace Bystep

open Grammar

theorem blockContinues_cases (tokens : List Token) (pos : Nat) :
    blockContinues tokens pos = .ok false ∨ blockContinues tokens pos = .ok true := by
  rcases drop_cases tokens pos with hd | ⟨t, hd⟩
  · exact Or.inl (blockContinues_of_drop_nil hd)
  · rw [blockContinues_of_drop hd]
    cases (!(t.type == "PUNCTUATION" && t.value == "\x7d")) <;> simp

theorem soundBlock_succ {f : Nat} (hL : SoundBlockLoop f) : SoundBlock (f + 1) := by
  intro tokens pos body pos1 h
  rw [parseBlock] at h
  cases h1 : expect tokens pos "PUNCTUATION" "\x7b" with
  | error e => simp [h1] at h
  | ok p1 =>
    obtain ⟨rfl, hd⟩ := expect_sound h1
    simp only [h1] at h
    cases h2 : parseBlockLoop f tokens (pos + 1) [] with
    | error e => simp [h2] at h
    | ok res =>
      obtain ⟨body2, p2⟩ := res
      simp only [h2] at h
      obtain ⟨ss, more, hss, hbody, hd1⟩ := hL _ _ _ _ _ h2
      rw [List.nil_append] at hbody
      subst hbody
      cases h3 : expect tokens p2 "PUNCTUATION" "\x7d" with
      | error e => simp [h3] at h
      | ok p3 =>
        obtain ⟨rfl, hd2⟩ := expect_sound h3
        simp only [h3] at h
        cases h
        refine ⟨_, Grammar.block.braces ss _ hss, ?_⟩
        rw [hd, hd1, hd2]; simp [punct]

theorem soundFunctionDecl_succ {f : Nat} (hB : SoundBlock f) :
    SoundStatementParser (parseFunctionDecl (f + 1)) := by
  intro tokens pos a pos1 h
  rw [parseFunctionDecl] at h
  cases h1 : expect tokens pos "KEYWORD" "fn" with
  | error e => simp [h1] at h
  | ok p1 =>
    obtain ⟨rfl, hd⟩ := expect_sound h1
    simp only [h1] at h
    rcases currentHasType_cases tokens (pos + 1) "IDENTIFIER" with hc | ⟨hc, x, hx, hdx⟩
    · simp [hc] at h
    · simp only [hc, current_of_drop hdx, advance_of_drop hdx] at h
      cases h2 : expect tokens (pos + 1 + 1) "PUNCTUATION" "(" with
      | error e => simp [h2] at h
      | ok p3 =>
        obtain ⟨rfl, hd2⟩ := expect_sound h2
        simp only [h2] at h
        cases h3 : expect tokens (pos + 1 + 1 + 1) "PUNCTUATION" ")" with
        | error e => simp [h3] at h
        | ok p4 =>
          obtain ⟨rfl, hd3⟩ := expect_sound h3
          simp only [h3] at h
          cases h4 : parseBlock f tokens (pos + 1 + 1 + 1 + 1) with
          | error e => simp [h4] at h
          | ok res =>
            obtain ⟨body, p5⟩ := res
            simp only [h4] at h
            cases h
            obtain ⟨b, hb, hd4⟩ := hB _ _ _ _ h4
            refine ⟨_, Grammar.statement.fnDecl x b body hx hb, ?_⟩
            rw [hd, hdx, hd2, hd3, hd4]; simp [kw, punct]

theorem soundWhileStatement_succ {f : Nat} (hB : SoundBlock f) :
    SoundStatementParser (parseWhileStatement (f + 1)) := by
  intro tokens pos a pos1 h
  rw [parseWhileStatement] at h
  cases h1 : expect tokens pos "KEYWORD" "while" with
  | error e => simp [h1] at h
  | ok p1 =>
    obtain ⟨rfl, hd⟩ := expect_sound h1
    simp only [h1] at h
    cases h2 : parseExpression f tokens (pos + 1) with
    | error e => simp [h2] at h
    | ok res =>
      obtain ⟨cond, p2⟩ := res
      simp only [h2] at h
      obtain ⟨c, hc, hd1⟩ := parseExpression_sound h2
      cases h3 : parseBlock f tokens p2 with
      | error e => simp [h3] at h
      | ok res =>
        obtain ⟨body, p3⟩ := res
        simp only [h3] at h
        cases h
        obtain ⟨b, hb, hd2⟩ := hB _ _ _ _ h3
        refine ⟨_, Grammar.statement.whileStmt c cond b body hc hb, ?_⟩
        rw [hd, hd1, hd2]; simp [kw]

theorem soundIfStatement_succ {f : Nat} (hB : SoundBlock f) :
    SoundStatementParser (parseIfStatement (f + 1)) := by
  intro tokens pos a pos1 h
  rw [parseIfStatement] at h
  cases h1 : expect tokens pos "KEYWORD" "if" with
  | error e => simp [h1] at h
  | ok p1 =>
    obtain ⟨rfl, hd⟩ := expect_sound h1
    simp only [h1] at h
    cases h2 : parseExpression f tokens (pos + 1) with
    | error e => simp [h2] at h
    | ok res =>
      obtain ⟨cond, p2⟩ := res
      simp only [h2] at h
      obtain ⟨c, hc, hd1⟩ := parseExpression_sound h2
      cases h3 : parseBlock f tokens p2 with
      | error e => simp [h3] at h
      | ok res =>
        obtain ⟨thenBody, p3⟩ := res
        simp only [h3] at h
        obtain ⟨b1, hb1, hd2⟩ := hB _ _ _ _ h3
        rcases currentIs_cases tokens p3 "KEYWORD" "else" with he | ⟨he, hde⟩
        · simp only [he] at h
          cases h
          refine ⟨_, Grammar.statement.ifStmt c cond b1 thenBody hc hb1, ?_⟩
          rw [hd, hd1, hd2]; simp [kw]
        · simp only [he, advance_of_drop hde] at h
          cases h4 : parseBlock f tokens (p3 + 1) with
          | error e => simp [h4] at h
          | ok res =>
            obtain ⟨elseBody, p5⟩ := res
            simp only [h4] at h
            cases h
            obtain ⟨b2, hb2, hd3⟩ := hB _ _ _ _ h4
            refine ⟨_, Grammar.statement.ifElseStmt c cond b1 thenBody b2 elseBody hc hb1 hb2, ?_⟩
            rw [hd, hd1, hd2, hde, hd3]; simp [kw]

theorem soundStatement_succ {f : Nat}
    (hF : SoundStatementParser (parseFunctionDecl f))
    (hI : SoundStatementParser (parseIfStatement f))
    (hW : SoundStatementParser (parseWhileStatement f)) :
    SoundStatementParser (parseStatement (f + 1)) := by
  intro tokens pos a pos1 h
  have hexpr : parseExpression f tokens pos = .ok (a, pos1) →
      ∃ s, Grammar.statement s a ∧ tokens.drop pos = s ++ tokens.drop pos1 := by
    intro hE
    obtain ⟨e, he, hd⟩ := parseExpression_sound hE
    exact ⟨e, Grammar.statement.expr e a he, hd⟩
  rw [parseStatement] at h
  rcases currentHasType_cases tokens pos "KEYWORD" with hc | ⟨hc, t, _, hd⟩
  · simp only [hc] at h
    exact hexpr h
  · simp only [hc, current_of_drop hd] at h
    split_ifs at h
    · exact parseLetDecl_sound h
    · exact hF _ _ _ _ h
    · exact hI _ _ _ _ h
    · exact hW _ _ _ _ h
    · exact parseReturnStatement_sound h
    · exact hexpr h

theorem soundBlockLoop_succ {f : Nat} (hS : SoundStatementParser (parseStatement f))
    (hL : SoundBlockLoop f) : SoundBlockLoop (f + 1) := by
  intro tokens pos acc body pos1 h
  rw [parseBlockLoop] at h
  rcases blockContinues_cases tokens pos with hc | hc
  · simp only [hc] at h
    cases h
    exact ⟨[], [], Grammar.statements.none, by simp, by simp⟩
  · simp only [hc] at h
    cases h1 : parseStatement f tokens pos with
    | error e => simp [h1] at h
    | ok res =>
      obtain ⟨stmt, p1⟩ := res
      simp only [h1] at h
      obtain ⟨s, hs, hd⟩ := hS _ _ _ _ h1
      obtain ⟨ss, more, hss, rfl, hd1⟩ := hL _ _ _ _ _ h
      refine ⟨s ++ ss, stmt :: more, Grammar.statements.cons s stmt ss more hs hss, by simp, ?_⟩
      rw [hd, hd1]; simp

/-- Soundness of the six mutually recursive parsers, at every fuel. -/
theorem sound_all (f : Nat) :
    SoundStatementParser (parseStatement f) ∧ SoundBlockLoop f ∧ SoundBlock f ∧
      SoundStatementParser (parseFunctionDecl f) ∧ SoundStatementParser (parseIfStatement f) ∧
      SoundStatementParser (parseWhileStatement f) := by
  induction f with
  | zero =>
    refine ⟨?_, ?_, ?_, ?_, ?_, ?_⟩
    · intro tokens pos a pos1 h; simp [parseStatement] at h
    · intro tokens pos acc body pos1 h; simp [parseBlockLoop] at h
    · intro tokens pos body pos1 h; simp [parseBlock] at h
    · intro tokens pos a pos1 h; simp [parseFunctionDecl] at h
    · intro tokens pos a pos1 h; simp [parseIfStatement] at h
    · intro tokens pos a pos1 h; simp [parseWhileStatement] at h
  | succ f ih =>
    obtain ⟨hS, hL, hB, hF, hI, hW⟩ := ih
    exact ⟨soundStatement_succ hF hI hW, soundBlockLoop_succ hS hL, soundBlock_succ hL,
      soundFunctionDecl_succ hB, soundIfStatement_succ hB, soundWhileStatement_succ hB⟩

theorem parseLoop_sound (fuel : Nat) :
    ∀ (tokens : List Token) (pos : Nat) (acc nodes : List ASTNode),
      parseLoop fuel tokens pos acc = .ok nodes →
      ∃ more, Grammar.statements (tokens.drop pos) more ∧ nodes = acc ++ more := by
  induction fuel with
  | zero => intro tokens pos acc nodes h; simp [parseLoop] at h
  | succ f ih =>
    intro tokens pos acc nodes h
    rw [parseLoop] at h
    rcases drop_cases tokens pos with hd | ⟨t, hd⟩
    · simp only [atEnd_of_drop_nil hd, if_true] at h
      cases h
      exact ⟨[], by rw [hd]; exact Grammar.statements.none, by simp⟩
    · simp only [atEnd_of_drop hd, Bool.false_eq_true, if_false] at h
      cases h1 : parseStatement f tokens pos with
      | error e => simp [h1] at h
      | ok res =>
        obtain ⟨stmt, p1⟩ := res
        simp only [h1] at h
        obtain ⟨s, hs, hd1⟩ := (sound_all f).1 _ _ _ _ h1
        obtain ⟨more, hmore, rfl⟩ := ih _ _ _ _ h
        refine ⟨stmt :: more, ?_, by simp⟩
        rw [hd1]
        exact Grammar.statements.cons s stmt _ more hs hmore

theorem parseLoop_complete (body : List ASTNode) :
    ∀ (ss : List Token), Grammar.statements ss body →
      ∀ (fuel : Nat) (tokens : List Token) (pos : Nat) (acc : List ASTNode),
        tokens.drop pos = ss → 4 * ss.length + 1 ≤ fuel →
        parseLoop fuel tokens pos acc = .ok (acc ++ body) := by
  induction body with
  | nil =>
    intro ss hss fuel tokens pos acc h hf
    cases hss
    simpa using parseLoop_atEnd acc h (by omega)
  | cons a rest ih =>
    intro ss hss fuel tokens pos acc h hf
    cases hss with
    | cons s a ss1 rest hs hss1 =>
      obtain ⟨f, rfl⟩ : ∃ f, fuel = f + 1 := ⟨fuel - 1, by omega⟩
      obtain ⟨t, s1, rfl, _⟩ := statement_head hs
      simp only [List.length_append, List.length_cons] at hf
      have hS := runsStatement_of_statement hs f tokens pos (ss1 ++ [])
        (by simpa using h) (statementMayEnd_of_statements hss1 (Or.inl rfl))
        (by simp only [List.length_cons]; omega)
      have h2 := drop_add_of_drop_append _ _ h
      have hL := ih ss1 hss1 f tokens (pos + (t :: s1).length) (acc ++ [a]) h2
        (by simp only [List.length_cons] at *; omega)
      rw [parseLoop, atEnd_of_drop (a := t) (r := s1 ++ ss1) (by simpa using h)]
      simp only [Bool.false_eq_true, if_false, hS, hL, List.append_assoc, List.singleton_append]

end Bystep

namespace Bystep

open Grammar

theorem parse_of_program {ts : List Token} {nodes : List ASTNode}
    (h : Grammar.program ts nodes) : parse ts = .ok nodes := by
  have := parseLoop_complete nodes ts h (4 * ts.length + 4) ts 0 [] (by simp) (by omega)
  simpa [parse] using this

theorem program_of_parse {ts : List Token} {nodes : List ASTNode}
    (h : parse ts = .ok nodes) : Grammar.program ts nodes := by
  obtain ⟨more, hmore, rfl⟩ := parseLoop_sound _ _ _ _ _ h
  simpa [Grammar.program] using hmore

/-- C2. `parse` accepts exactly the language of the grammar of section 4.2: on every
token sequence `ts`, `parse ts` succeeds with the nodes `nodes` if and only if `ts`
derives from `program := statement*` with syntax trees `nodes`. In particular
`parse ts` succeeds exactly when `ts` is derivable, and the nodes returned are those
of the derivation. -/
theorem parse_accepts_exactly_grammar (ts : List Token) (nodes : List ASTNode) :
    parse ts = .ok nodes ↔ Grammar.program ts nodes :=
  ⟨program_of_parse, parse_of_program⟩

theorem program_single {s : List Token} {a : ASTNode} (h : Grammar.statement s a) :
    Grammar.program s [a] := by
  have := Grammar.statements.cons s a [] [] h Grammar.statements.none
  simpa [Grammar.program] using this

/-- C9. Let declarations: for every identifier token `x` and every complete
expression `p0 op1 p1 ... opn pn`, the tokens `let x = e ;` parse to exactly one node
`LetDecl(x, isMut = false, node of e)` and the tokens `let mut x = e ;` to exactly one
node `LetDecl(x, isMut = true, node of e)`. -/
theorem parse_let_decl (name : String) (p0 : Token) (ops : List (Token × Token))
    (hc : isChain p0 ops) :
    parse (⟨"KEYWORD", "let"⟩ :: ⟨"IDENTIFIER", name⟩ :: ⟨"OPERATOR", "="⟩ ::
        chainTokens p0 ops ++ [⟨"PUNCTUATION", ";"⟩])
      = .ok [.LetDecl name false (foldOps (primaryNode p0) ops)]
    ∧ parse (⟨"KEYWORD", "let"⟩ :: ⟨"KEYWORD", "mut"⟩ :: ⟨"IDENTIFIER", name⟩ ::
        ⟨"OPERATOR", "="⟩ :: chainTokens p0 ops ++ [⟨"PUNCTUATION", ";"⟩])
      = .ok [.LetDecl name true (foldOps (primaryNode p0) ops)] := by
  have he : Grammar.expression (chainTokens p0 ops) (foldOps (primaryNode p0) ops) :=
    expression_iff_chain.mpr ⟨p0, ops, hc, rfl, rfl⟩
  exact ⟨parse_of_program (program_single
      (Grammar.statement.letDecl ⟨"IDENTIFIER", name⟩ _ _ rfl he)),
    parse_of_program (program_single
      (Grammar.statement.letMutDecl ⟨"IDENTIFIER", name⟩ _ _ rfl he))⟩

/-- Witness of C9: `let mut x = 5;` gives `LetDecl(name="x", isMut=true,
value=NumberLiteral("5"))`. -/
theorem parse_let_decl_witness :
    isChain ⟨"NUMBER", "5"⟩ [] ∧
    parse [⟨"KEYWORD", "let"⟩, ⟨"KEYWORD", "mut"⟩, ⟨"IDENTIFIER", "x"⟩, ⟨"OPERATOR", "="⟩,
        ⟨"NUMBER", "5"⟩, ⟨"PUNCTUATION", ";"⟩]
      = .ok [.LetDecl "x" true (.NumberLiteral "5")] :=
  ⟨by simp [isChain, isPrimaryToken],
   (parse_let_decl "x" ⟨"NUMBER", "5"⟩ [] (by simp [isChain, isPrimaryToken])).2⟩

theorem parseLetDecl_missing_semicolon {name : String} {p0 : Token}
    {ops : List (Token × Token)} (hc : isChain p0 ops)
    {fuel : Nat} {tokens : List Token} {pos : Nat}
    (h : tokens.drop pos = ⟨"KEYWORD", "let"⟩ :: ⟨"IDENTIFIER", name⟩ :: ⟨"OPERATOR", "="⟩ ::
      chainTokens p0 ops)
    (hf : ops.length < fuel) :
    parseLetDecl fuel tokens pos
      = .error (.runtime_error "Expected PUNCTUATION ';' but reached end of input") := by
  have h1 := drop_succ_of_drop h
  have h2 := drop_succ_of_drop h1
  have h3 := drop_succ_of_drop h2
  have h3a : tokens.drop (pos + 1 + 1 + 1) = chainTokens p0 ops ++ [] := by simpa using h3
  have h4 := drop_add_of_drop_append _ _ h3a
  have hE := parseExpression_chain h3a hc (fun t r1 hnil => by cases hnil) hf
  have hmut : ((⟨"IDENTIFIER", name⟩ : Token).type == "KEYWORD"
      && (⟨"IDENTIFIER", name⟩ : Token).value == "mut") = false := by simp
  simp only [parseLetDecl, expect_of_drop "KEYWORD" "let" h, currentIs_of_drop h1, hmut]
  simp only [Bool.false_eq_true, if_false, currentHasType_of_drop h1, beq_self_eq_true,
    current_of_drop h1, advance_of_drop h1, expect_of_drop "OPERATOR" "=" h2, hE,
    expect_of_drop_nil "PUNCTUATION" ";" h4]
  rfl

/-- C10. Fast fail on a missing terminator: for every identifier `x` and every
complete expression `e`, parsing the tokens `let x = e` (input ends where `;` is
required) fails, with the message
`Expected PUNCTUATION ';' but reached end of input`; no node is returned. -/
theorem parse_let_missing_semicolon (name : String) (p0 : Token)
    (ops : List (Token × Token)) (hc : isChain p0 ops) :
    parse (⟨"KEYWORD", "let"⟩ :: ⟨"IDENTIFIER", name⟩ :: ⟨"OPERATOR", "="⟩ :: chainTokens p0 ops)
      = .error (.runtime_error "Expected PUNCTUATION ';' but reached end of input") := by
  have h : (⟨"KEYWORD", "let"⟩ :: ⟨"IDENTIFIER", name⟩ :: ⟨"OPERATOR", "="⟩ ::
      chainTokens p0 ops).drop 0 = kw "let" :: (⟨"IDENTIFIER", name⟩ :: ⟨"OPERATOR", "="⟩ ::
      chainTokens p0 ops) := rfl
  have hl := chainTokens_length p0 ops
  rw [parse, parseLoop, atEnd_of_drop h]
  simp only [Bool.false_eq_true, if_false, List.length_cons]
  rw [parseStatement_keyword h, if_pos rfl,
    parseLetDecl_missing_semicolon hc h (by omega)]

/-- Witness of C10: the tokens of `let x = 5`. -/
theorem parse_let_missing_semicolon_witness :
    isChain ⟨"NUMBER", "5"⟩ [] ∧
    parse [⟨"KEYWORD", "let"⟩, ⟨"IDENTIFIER", "x"⟩, ⟨"OPERATOR", "="⟩, ⟨"NUMBER", "5"⟩]
      = .error (.runtime_error "Expected PUNCTUATION ';' but reached end of input") :=
  ⟨by simp [isChain, isPrimaryToken],
   parse_let_missing_semicolon "x" ⟨"NUMBER", "5"⟩ [] (by simp [isChain, isPrimaryToken])⟩

end Bystep

namespace HW1

/-! ## The cursor of the tokenizer -/

theorem Lexer.step_source (lx : Lexer) (c : Char) : (lx.step c).source_ = lx.source_ := by
  unfold Lexer.step; split <;> rfl

theorem Lexer.step_pos (lx : Lexer) (c : Char) : (lx.step c).pos_ = lx.pos_ + 1 := by
  unfold Lexer.step; split <;> rfl

theorem Lexer.stepAll_nil (lx : Lexer) : lx.stepAll [] = lx := rfl

theorem Lexer.stepAll_cons (lx : Lexer) (c : Char) (w : List Char) :
    lx.stepAll (c :: w) = (lx.step c).stepAll w := rfl

theorem Lexer.stepAll_append (lx : Lexer) (w1 w2 : List Char) :
    lx.stepAll (w1 ++ w2) = (lx.stepAll w1).stepAll w2 := by
  simp [Lexer.stepAll, List.foldl_append]

theorem Lexer.stepAll_source (lx : Lexer) (w : List Char) :
    (lx.stepAll w).source_ = lx.source_ := by
  induction w generalizing lx with
  | nil => rfl
  | cons c w ih => rw [Lexer.stepAll_cons, ih, Lexer.step_source]

theorem Lexer.stepAll_pos (lx : Lexer) (w : List Char) :
    (lx.stepAll w).pos_ = lx.pos_ + w.length := by
  induction w generalizing lx with
  | nil => rfl
  | cons c w ih => rw [Lexer.stepAll_cons, ih, Lexer.step_pos, List.length_cons]; omega

theorem Lexer.fuel_step (lx : Lexer) (c : Char) : (lx.step c).fuel = lx.fuel := by
  simp [Lexer.fuel, Lexer.step_source]

theorem Lexer.fuel_stepAll (lx : Lexer) (w : List Char) : (lx.stepAll w).fuel = lx.fuel := by
  simp [Lexer.fuel, Lexer.stepAll_source]

theorem Lexer.rest_length_lt_fuel (lx : Lexer) : lx.rest.length < lx.fuel := by
  simp only [Lexer.rest, Lexer.fuel, List.length_drop]; omega

theorem Lexer.rest_step {lx : Lexer} {c : Char} {r : List Char} (h : lx.rest = c :: r) :
    (lx.step c).rest = r := by
  simp only [Lexer.rest, Lexer.step_source, Lexer.step_pos]
  exact Bystep.drop_succ_of_drop h

theorem Lexer.rest_stepAll {lx : Lexer} {w r : List Char} (h : lx.rest = w ++ r) :
    (lx.stepAll w).rest = r := by
  induction w generalizing lx with
  | nil => simpa using h
  | cons c w ih => exact ih (Lexer.rest_step h)

theorem Lexer.isAtEnd_of_rest_cons {lx : Lexer} {c : Char} {r : List Char}
    (h : lx.rest = c :: r) : lx.isAtEnd = false := by
  have := Bystep.lt_length_of_drop h
  exact decide_eq_false (by omega)

theorem Lexer.isAtEnd_of_rest_nil {lx : Lexer} (h : lx.rest = []) : lx.isAtEnd = true := by
  have := List.drop_eq_nil_iff.mp h
  exact decide_eq_true this

theorem Lexer.rest_of_isAtEnd {lx : Lexer} (h : lx.isAtEnd = true) : lx.rest = [] := by
  simp only [Lexer.isAtEnd, decide_eq_true_eq] at h
  exact List.drop_eq_nil_of_le h

theorem Lexer.rest_ne_nil_of_not_isAtEnd {lx : Lexer} (h : lx.isAtEnd = false) :
    ∃ c r, lx.rest = c :: r := by
  rcases hr : lx.rest with _ | ⟨c, r⟩
  · rw [Lexer.isAtEnd_of_rest_nil hr] at h; cases h
  · exact ⟨c, r, rfl⟩

theorem Lexer.peek_of_rest_cons {lx : Lexer} {c : Char} {r : List Char}
    (h : lx.rest = c :: r) : lx.peek = c := by
  simp [Lexer.peek, Lexer.isAtEnd_of_rest_cons h, Bystep.getElem?_of_drop h]

theorem Lexer.peekNext_of_rest_cons_cons {lx : Lexer} {c d : Char} {r : List Char}
    (h : lx.rest = c :: d :: r) : lx.peekNext = d := by
  have h1 : lx.source_.data.drop (lx.pos_ + 1) = d :: r := Bystep.drop_succ_of_drop h
  have := Bystep.lt_length_of_drop h1
  simp only [Lexer.peekNext, Bystep.getElem?_of_drop h1]
  rw [if_neg (by omega)]

theorem Lexer.peekNext_of_rest_singleton {lx : Lexer} {c : Char}
    (h : lx.rest = [c]) : lx.peekNext = '\x00' := by
  have h1 : lx.source_.data.drop (lx.pos_ + 1) = [] := Bystep.drop_succ_of_drop h
  have := List.drop_eq_nil_iff.mp h1
  simp only [Lexer.peekNext]
  rw [if_pos (by omega)]

theorem Lexer.advance_of_rest_cons {lx : Lexer} {c : Char} {r : List Char}
    (h : lx.rest = c :: r) : lx.advance = some (c, lx.step c) := by
  simp only [Lexer.advance, Bystep.getElem?_of_drop h, Lexer.step]
  split <;> rfl

theorem Lexer.matchChar_of_rest_cons_eq {lx : Lexer} {c : Char} {r : List Char}
    (h : lx.rest = c :: r) : lx.matchChar c = some (true, lx.step c) := by
  simp [Lexer.matchChar, Lexer.isAtEnd_of_rest_cons h, Lexer.peek_of_rest_cons h,
    Lexer.advance_of_rest_cons h]

theorem Lexer.matchChar_of_rest_cons_ne {lx : Lexer} {c d : Char} {r : List Char}
    (h : lx.rest = d :: r) (hne : d ≠ c) : lx.matchChar c = some (false, lx) := by
  simp [Lexer.matchChar, Lexer.isAtEnd_of_rest_cons h, Lexer.peek_of_rest_cons h, hne]

theorem Lexer.matchChar_of_rest_nil {lx : Lexer} (c : Char)
    (h : lx.rest = []) : lx.matchChar c = some (false, lx) := by
  simp [Lexer.matchChar, Lexer.isAtEnd_of_rest_nil h]

/-- The loop `while (!isAtEnd() && p(peek())) advance();` consumes the longest prefix of
the rest whose characters satisfy `p`. -/
theorem Lexer.advanceWhile_eq (p : Char → Bool) :
    ∀ (w : List Char) (fuel : Nat) (lx : Lexer) (r : List Char),
      lx.rest = w ++ r → (∀ c ∈ w, p c = true) → (∀ c r1, r = c :: r1 → p c = false) →
      w.length < fuel → Lexer.advanceWhile p fuel lx = some (lx.stepAll w) := by
  intro w
  induction w with
  | nil =>
    intro fuel lx r h _ hr hf
    obtain ⟨f, rfl⟩ : ∃ f, fuel = f + 1 := ⟨fuel - 1, by simp at hf; omega⟩
    simp only [List.nil_append] at h
    cases r with
    | nil => simp [Lexer.advanceWhile, Lexer.isAtEnd_of_rest_nil h, Lexer.stepAll_nil]
    | cons c r1 =>
      simp [Lexer.advanceWhile, Lexer.isAtEnd_of_rest_cons h, Lexer.peek_of_rest_cons h,
        hr c r1 rfl, Lexer.stepAll_nil]
  | cons c w ih =>
    intro fuel lx r h hw hr hf
    obtain ⟨f, rfl⟩ : ∃ f, fuel = f + 1 := ⟨fuel - 1, by simp at hf; omega⟩
    simp only [List.cons_append] at h
    have hrec := ih f (lx.step c) r (Lexer.rest_step h)
      (fun d hd => hw d (List.mem_cons_of_mem _ hd)) hr (by simp at hf; omega)
    simp [Lexer.advanceWhile, Lexer.isAtEnd_of_rest_cons h, Lexer.peek_of_rest_cons h,
      hw c (List.mem_cons_self _ _), Lexer.advance_of_rest_cons h, hrec, Lexer.stepAll_cons]

theorem dropWhile_head_false (p : Char → Bool) :
    ∀ (l : List Char) (c : Char) (r : List Char), l.dropWhile p = c :: r → p c = false := by
  intro l
  induction l with
  | nil => intro c r h; cases h
  | cons a l ih =>
    intro c r h
    by_cases ha : p a = true
    · rw [List.dropWhile_cons_of_pos ha] at h
      exact ih c r h
    · rw [List.dropWhile_cons_of_neg ha] at h
      cases h
      simpa using ha

theorem Lexer.advanceWhile_takeWhile (p : Char → Bool) (lx : Lexer) :
    Lexer.advanceWhile p lx.fuel lx = some (lx.stepAll (lx.rest.takeWhile p)) := by
  refine Lexer.advanceWhile_eq p _ _ lx (lx.rest.dropWhile p)
    (List.takeWhile_append_dropWhile p lx.rest).symm
    (fun c hc => List.mem_takeWhile_imp hc) ?_ ?_
  · exact dropWhile_head_false p lx.rest
  · exact lt_of_le_of_lt (List.takeWhile_prefix p).length_le lx.rest_length_lt_fuel

end HW1

namespace HW1

/-! ## The scanners -/

theorem Lexer.step_line_of_ne (lx : Lexer) {c : Char} (h : c ≠ '\n') :
    (lx.step c).line_ = lx.line_ ∧ (lx.step c).column_ = lx.column_ + 1 := by
  simp [Lexer.step, h]

theorem Lexer.scanStringLoop_eq :
    ∀ (w : List Char) (fuel : Nat) (lx : Lexer) (value : String) (r : List Char),
      lx.rest = w ++ r → '"' ∉ w → (∀ c r1, r = c :: r1 → c = '"') → w.length < fuel →
      Lexer.scanStringLoop fuel lx value = some (String.mk (value.data ++ w), lx.stepAll w) := by
  intro w
  induction w with
  | nil =>
    intro fuel lx value r h _ hr hf
    obtain ⟨f, rfl⟩ : ∃ f, fuel = f + 1 := ⟨fuel - 1, by simp at hf; omega⟩
    simp only [List.nil_append] at h
    cases r with
    | nil => simp [Lexer.scanStringLoop, Lexer.isAtEnd_of_rest_nil h, Lexer.stepAll_nil]
    | cons c r1 =>
      simp [Lexer.scanStringLoop, Lexer.isAtEnd_of_rest_cons h, Lexer.peek_of_rest_cons h,
        hr c r1 rfl, Lexer.stepAll_nil]
  | cons c w ih =>
    intro fuel lx value r h hw hr hf
    obtain ⟨f, rfl⟩ : ∃ f, fuel = f + 1 := ⟨fuel - 1, by simp at hf; omega⟩
    simp only [List.cons_append] at h
    have hc : c ≠ '"' := fun hc => hw (by simp [hc])
    have hrec := ih f (lx.step c) (value.push c) r (Lexer.rest_step h)
      (fun hd => hw (List.mem_cons_of_mem _ hd)) hr (by simp at hf; omega)
    simp [Lexer.scanStringLoop, Lexer.isAtEnd_of_rest_cons h, Lexer.peek_of_rest_cons h,
      hc, Lexer.advance_of_rest_cons h, hrec, Lexer.stepAll_cons]

/-- Function `scanString` on a terminated literal: `lx` is the state after the opening quote. -/
theorem Lexer.scanString_terminated {lx : Lexer} {s r : List Char}
    (h : lx.rest = s ++ '"' :: r) (hs : '"' ∉ s) :
    lx.scanString = some (makeToken .STRING (String.mk s) lx.line_ (lx.column_ - 1),
      lx.stepAll (s ++ ['"'])) := by
  have hL := Lexer.scanStringLoop_eq s lx.fuel lx "" ('"' :: r) h hs
    (fun c r1 hc => by cases hc; rfl)
    (lt_of_le_of_lt (by rw [h]; simp) lx.rest_length_lt_fuel)
  have hr := Lexer.rest_stepAll h
  simp [Lexer.scanString, hL, Lexer.isAtEnd_of_rest_cons hr, Lexer.advance_of_rest_cons hr,
    Lexer.stepAll_append, Lexer.stepAll_cons, Lexer.stepAll_nil, Lexer.stepAll_source]

/-- Function `scanString` on an unterminated literal. -/
theorem Lexer.scanString_unterminated {lx : Lexer} {s : List Char}
    (h : lx.rest = s) (hs : '"' ∉ s) :
    lx.scanString = some (makeToken .ERROR ("\"" ++ String.mk s) lx.line_ (lx.column_ - 1),
      lx.stepAll s) := by
  have hL := Lexer.scanStringLoop_eq s lx.fuel lx "" [] (by simpa using h) hs
    (fun c r1 hc => by cases hc)
    (lt_of_le_of_lt (by rw [h]) lx.rest_length_lt_fuel)
  have hr : (lx.stepAll s).rest = [] := Lexer.rest_stepAll (by simpa using h)
  simp [Lexer.scanString, hL, Lexer.isAtEnd_of_rest_nil hr]

theorem substr_of_drop {s : String} {start : Nat} {w r : List Char}
    (h : s.data.drop start = w ++ r) : substr s start w.length = String.mk w := by
  simp [substr, h]

/-- Function `scanIdentifierOrKeyword` after the first character `c` was consumed from `lx0`:
the lexeme is the longest identifier-class word. -/
theorem Lexer.scanIdentifierOrKeyword_eq {lx0 : Lexer} {c : Char} {w r : List Char}
    (h : lx0.rest = c :: (w ++ r)) (hw : ∀ d ∈ w, isIdentChar d = true)
    (hr : ∀ d r1, r = d :: r1 → isIdentChar d = false) :
    (lx0.step c).scanIdentifierOrKeyword =
      some (makeToken (wordType (String.mk (c :: w))) (String.mk (c :: w))
        (lx0.step c).line_ ((lx0.step c).column_ - 1), (lx0.step c).stepAll w) := by
  have h1 := Lexer.rest_step h
  have hL := Lexer.advanceWhile_eq (fun c => isalnum c || c = '_') w (lx0.step c).fuel
    (lx0.step c) r h1 (by simpa [isIdentChar] using hw) (by simpa [isIdentChar] using hr)
    (lt_of_le_of_lt (by rw [h1]; simp) (Lexer.rest_length_lt_fuel _))
  have hsub : substr ((lx0.step c).stepAll w).source_ ((lx0.step c).pos_ - 1)
      (((lx0.step c).stepAll w).pos_ - ((lx0.step c).pos_ - 1)) = String.mk (c :: w) := by
    rw [Lexer.stepAll_source, Lexer.step_source, Lexer.stepAll_pos, Lexer.step_pos]
    have hlen : lx0.pos_ + 1 + w.length - (lx0.pos_ + 1 - 1) = (c :: w).length := by
      simp only [List.length_cons]; omega
    rw [hlen, show lx0.pos_ + 1 - 1 = lx0.pos_ from by omega]
    exact substr_of_drop (r := r) (by simpa [Lexer.rest] using h)
  simp only [Lexer.scanIdentifierOrKeyword, hL, hsub, wordType]
  cases keywordsFind (String.mk (c :: w)) <;> rfl

/-- Function `scanNumber` after the first digit `c` was consumed from `lx0`. -/
theorem Lexer.scanNumber_eq {lx0 : Lexer} {c : Char} {w r : List Char}
    (h : lx0.rest = c :: (w ++ r)) (hw : ∀ d ∈ w, isdigit d = true)
    (hr : ∀ d r1, r = d :: r1 → isdigit d = false) :
    (lx0.step c).scanNumber =
      some (makeToken .INTEGER (String.mk (c :: w))
        (lx0.step c).line_ ((lx0.step c).column_ - 1), (lx0.step c).stepAll w) := by
  have h1 := Lexer.rest_step h
  have hL := Lexer.advanceWhile_eq isdigit w (lx0.step c).fuel
    (lx0.step c) r h1 hw hr
    (lt_of_le_of_lt (by rw [h1]; simp) (Lexer.rest_length_lt_fuel _))
  have hsub : substr ((lx0.step c).stepAll w).source_ ((lx0.step c).pos_ - 1)
      (((lx0.step c).stepAll w).pos_ - ((lx0.step c).pos_ - 1)) = String.mk (c :: w) := by
    rw [Lexer.stepAll_source, Lexer.step_source, Lexer.stepAll_pos, Lexer.step_pos]
    have hlen : lx0.pos_ + 1 + w.length - (lx0.pos_ + 1 - 1) = (c :: w).length := by
      simp only [List.length_cons]; omega
    rw [hlen, show lx0.pos_ + 1 - 1 = lx0.pos_ from by omega]
    exact substr_of_drop (r := r) (by simpa [Lexer.rest] using h)
  simp only [Lexer.scanNumber, hL, hsub]

theorem Lexer.scanTwoChar_eq {lx : Lexer} {r : List Char} (two one : Token)
    (h : lx.rest = '=' :: r) : lx.scanTwoChar two one = some (two, lx.step '=') := by
  simp [Lexer.scanTwoChar, Lexer.matchChar_of_rest_cons_eq h]

theorem Lexer.scanTwoChar_ne {lx : Lexer} (two one : Token)
    (h : ∀ r, lx.rest ≠ '=' :: r) : lx.scanTwoChar two one = some (one, lx) := by
  rcases hr : lx.rest with _ | ⟨d, r⟩
  · simp [Lexer.scanTwoChar, Lexer.matchChar_of_rest_nil '=' hr]
  · have hd : d ≠ '=' := fun hd => h r (by rw [hr, hd])
    simp [Lexer.scanTwoChar, Lexer.matchChar_of_rest_cons_ne hr hd]

end HW1

namespace HW1

theorem span_exists (p : Char → Bool) (l : List Char) :
    ∃ w r, l = w ++ r ∧ (∀ d ∈ w, p d = true) ∧ (∀ d r1, r = d :: r1 → p d = false) :=
  ⟨l.takeWhile p, l.dropWhile p, (List.takeWhile_append_dropWhile p l).symm,
    fun _ hd => List.mem_takeWhile_imp hd, dropWhile_head_false p l⟩

theorem keywordsFind_ne_eof {lexeme : String} {type : TokenType}
    (h : keywordsFind lexeme = some type) : type ≠ .END_OF_FILE := by
  simp only [keywordsFind, keywords, List.lookup] at h
  repeat' split at h
  all_goals first | (cases h; decide) | cases h

theorem wordType_ne_eof (lexeme : String) : wordType lexeme ≠ .END_OF_FILE := by
  unfold wordType
  cases h : keywordsFind lexeme with
  | none => simp
  | some type => exact keywordsFind_ne_eof h

theorem wordType_ne_string (lexeme : String) : wordType lexeme ≠ .STRING := by
  unfold wordType
  cases h : keywordsFind lexeme with
  | none => simp
  | some type =>
    simp only [keywordsFind, keywords, List.lookup] at h
    repeat' split at h
    all_goals first | (cases h; decide) | cases h

/-- The body of `scanToken` once the first character is read. -/
theorem Lexer.scanToken_of_rest_cons {lx : Lexer} {c : Char} {r : List Char}
    (h : lx.rest = c :: r) :
    lx.scanToken =
      if c = '(' then some (makeToken .LPAREN "(" lx.line_ lx.column_, lx.step c)
      else if c = ')' then some (makeToken .RPAREN ")" lx.line_ lx.column_, lx.step c)
      else if c = '\x7b' then some (makeToken .LBRACE "\x7b" lx.line_ lx.column_, lx.step c)
      else if c = '\x7d' then some (makeToken .RBRACE "\x7d" lx.line_ lx.column_, lx.step c)
      else if c = ';' then some (makeToken .SEMICOLON ";" lx.line_ lx.column_, lx.step c)
      else if c = ':' then some (makeToken .COLON ":" lx.line_ lx.column_, lx.step c)
      else if c = ',' then some (makeToken .COMMA "," lx.line_ lx.column_, lx.step c)
      else if c = '+' then some (makeToken .PLUS "+" lx.line_ lx.column_, lx.step c)
      else if c = '-' then some (makeToken .MINUS "-" lx.line_ lx.column_, lx.step c)
      else if c = '*' then some (makeToken .STAR "*" lx.line_ lx.column_, lx.step c)
      else if c = '/' then some (makeToken .SLASH "/" lx.line_ lx.column_, lx.step c)
      else if c = '=' then
        (lx.step c).scanTwoChar (makeToken .EQ "==" lx.line_ lx.column_)
          (makeToken .ASSIGN "=" lx.line_ lx.column_)
      else if c = '!' then
        (lx.step c).scanTwoChar (makeToken .NEQ "!=" lx.line_ lx.column_)
          (makeToken .ERROR "!" lx.line_ lx.column_)
      else if c = '<' then
        (lx.step c).scanTwoChar (makeToken .LTE "<=" lx.line_ lx.column_)
          (makeToken .LT "<" lx.line_ lx.column_)
      else if c = '>' then
        (lx.step c).scanTwoChar (makeToken .GTE ">=" lx.line_ lx.column_)
          (makeToken .GT ">" lx.line_ lx.column_)
      else if c = '"' then (lx.step c).scanString
      else if isalpha c || c = '_' then (lx.step c).scanIdentifierOrKeyword
      else if isdigit c then (lx.step c).scanNumber
      else some (makeToken .ERROR (String.singleton c) lx.line_ lx.column_, lx.step c) := by
  unfold Lexer.scanToken
  rw [Lexer.advance_of_rest_cons h]

/-- What one call of `scanToken` does, whatever the first character: it consumes the
text of the token it returns, which is not END_OF_FILE and is positioned at the line
and column of the state in which the call started. -/
theorem Lexer.scanToken_spec {lx : Lexer} {c : Char} {r : List Char}
    (h : lx.rest = c :: r) :
    ∃ tok w r1, r = w ++ r1 ∧ lx.scanToken = some (tok, lx.stepAll (c :: w)) ∧
      tok.line = lx.line_ ∧ tok.column = lx.column_ ∧ tok.type ≠ .END_OF_FILE ∧
      tok.text = c :: w := by
  have single : ∀ (type : TokenType) (lexeme : String), type ≠ .END_OF_FILE →
      type ≠ .STRING → lexeme.data = [c] →
      ∃ tok w r1, r = w ++ r1 ∧
        some (makeToken type lexeme lx.line_ lx.column_, lx.step c)
          = some (tok, lx.stepAll (c :: w)) ∧
        tok.line = lx.line_ ∧ tok.column = lx.column_ ∧ tok.type ≠ .END_OF_FILE ∧
        tok.text = c :: w := by
    intro type lexeme h1 h2 h3
    exact ⟨_, [], r, rfl, rfl, rfl, rfl, h1, by simp [Token.text, makeToken, h2, h3]⟩
  have two : ∀ (t2 t1 : TokenType) (l2 l1 : String), t2 ≠ .END_OF_FILE → t2 ≠ .STRING →
      t1 ≠ .END_OF_FILE → t1 ≠ .STRING → l2.data = [c, '='] → l1.data = [c] →
      ∃ tok w r1, r = w ++ r1 ∧
        (lx.step c).scanTwoChar (makeToken t2 l2 lx.line_ lx.column_)
          (makeToken t1 l1 lx.line_ lx.column_) = some (tok, lx.stepAll (c :: w)) ∧
        tok.line = lx.line_ ∧ tok.column = lx.column_ ∧ tok.type ≠ .END_OF_FILE ∧
        tok.text = c :: w := by
    intro t2 t1 l2 l1 h2 h2s h1 h1s hl2 hl1
    have hr := Lexer.rest_step h
    by_cases he : ∃ r2, r = '=' :: r2
    · obtain ⟨r2, rfl⟩ := he
      exact ⟨_, ['='], r2, rfl, Lexer.scanTwoChar_eq _ _ hr, rfl, rfl, h2,
        by simp [Token.text, makeToken, h2s, hl2]⟩
    · refine ⟨_, [], r, rfl, Lexer.scanTwoChar_ne _ _ ?_, rfl, rfl, h1,
        by simp [Token.text, makeToken, h1s, hl1]⟩
      intro r2 hr2
      exact he ⟨r2, by rw [← hr, hr2]⟩
  rw [Lexer.scanToken_of_rest_cons h]
  by_cases h1 : c = '('
  · rw [if_pos h1]
    exact single _ _ (by decide) (by decide) (by rw [h1])
  rw [if_neg h1]
  by_cases h2 : c = ')'
  · rw [if_pos h2]
    exact single _ _ (by decide) (by decide) (by rw [h2])
  rw [if_neg h2]
  by_cases h3 : c = '\x7b'
  · rw [if_pos h3]
    exact single _ _ (by decide) (by decide) (by rw [h3])
  rw [if_neg h3]
  by_cases h4 : c = '\x7d'
  · rw [if_pos h4]
    exact single _ _ (by decide) (by decide) (by rw [h4])
  rw [if_neg h4]
  by_cases h5 : c = ';'
  · rw [if_pos h5]
    exact single _ _ (by decide) (by decide) (by rw [h5])
  rw [if_neg h5]
  by_cases h6 : c = ':'
  · rw [if_pos h6]
    exact single _ _ (by decide) (by decide) (by rw [h6])
  rw [if_neg h6]
  by_cases h7 : c = ','
  · rw [if_pos h7]
    exact single _ _ (by decide) (by decide) (by rw [h7])
  rw [if_neg h7]
  by_cases h8 : c = '+'
  · rw [if_pos h8]
    exact single _ _ (by decide) (by decide) (by rw [h8])
  rw [if_neg h8]
  by_cases h9 : c = '-'
  · rw [if_pos h9]
    exact single _ _ (by decide) (by decide) (by rw [h9])
  rw [if_neg h9]
  by_cases h10 : c = '*'
  · rw [if_pos h10]
    exact single _ _ (by decide) (by decide) (by rw [h10])
  rw [if_neg h10]
  by_cases h11 : c = '/'
  · rw [if_pos h11]
    exact single _ _ (by decide) (by decide) (by rw [h11])
  rw [if_neg h11]
  by_cases h12 : c = '='
  · rw [if_pos h12]
    exact two _ _ _ _ (by decide) (by decide) (by decide) (by decide)
      (by rw [h12]) (by rw [h12])
  rw [if_neg h12]
  by_cases h13 : c = '!'
  · rw [if_pos h13]
    exact two _ _ _ _ (by decide) (by decide) (by decide) (by decide)
      (by rw [h13]) (by rw [h13])
  rw [if_neg h13]
  by_cases h14 : c = '<'
  · rw [if_pos h14]
    exact two _ _ _ _ (by decide) (by decide) (by decide) (by decide)
      (by rw [h14]) (by rw [h14])
  rw [if_neg h14]
  by_cases h15 : c = '>'
  · rw [if_pos h15]
    exact two _ _ _ _ (by decide) (by decide) (by decide) (by decide)
      (by rw [h15]) (by rw [h15])
  rw [if_neg h15]
  by_cases h16 : c = '"'
  · -- string literal
    rw [if_pos h16]
    subst h16
    have hr := Lexer.rest_step h
    have hlc : (lx.step '"').line_ = lx.line_ ∧ (lx.step '"').column_ = lx.column_ + 1 :=
      Lexer.step_line_of_ne lx (by decide)
    obtain ⟨s, r1, hsr, hs, hr1⟩ := span_exists (fun d => d != '"') r
    have hs' : '"' ∉ s := fun hm => by simpa using hs _ hm
    cases r1 with
    | nil =>
      simp only [List.append_nil] at hsr
      subst hsr
      refine ⟨makeToken .ERROR ("\"" ++ String.mk r) (lx.step '"').line_
        ((lx.step '"').column_ - 1), r, [], by simp, ?_, ?_, ?_, ?_, ?_⟩
      · rw [Lexer.scanString_unterminated hr hs']; rfl
      · simp [makeToken, hlc.1]
      · simp [makeToken, hlc.2]
      · simp [makeToken]
      · simp [Token.text, makeToken]
    | cons d r2 =>
      have hd : d = '"' := by simpa using hr1 d r2 rfl
      subst hd
      subst hsr
      refine ⟨makeToken .STRING (String.mk s) (lx.step '"').line_
        ((lx.step '"').column_ - 1), s ++ ['"'], r2, by simp, ?_, ?_, ?_, ?_, ?_⟩
      · rw [Lexer.scanString_terminated hr hs']; rfl
      · simp [makeToken, hlc.1]
      · simp [makeToken, hlc.2]
      · simp [makeToken]
      · simp [Token.text, makeToken]
  rw [if_neg h16]
  by_cases h17 : (isalpha c || c = '_') = true
  · -- identifier or keyword
    rw [if_pos h17]
    have hne : c ≠ '\n' := by
      rintro rfl
      revert h17
      decide
    have hlc := Lexer.step_line_of_ne lx hne
    obtain ⟨w, r1, hsr, hw, hr1⟩ := span_exists isIdentChar r
    subst hsr
    refine ⟨makeToken (wordType (String.mk (c :: w))) (String.mk (c :: w))
      (lx.step c).line_ ((lx.step c).column_ - 1), w, r1, rfl, ?_, ?_, ?_, ?_, ?_⟩
    · rw [Lexer.scanIdentifierOrKeyword_eq h hw hr1]; rfl
    · simp [makeToken, hlc.1]
    · simp [makeToken, hlc.2]
    · exact wordType_ne_eof _
    · simp [Token.text, makeToken, wordType_ne_string]
  rw [if_neg h17]
  by_cases h18 : isdigit c = true
  · -- number
    rw [if_pos h18]
    have hne : c ≠ '\n' := by
      rintro rfl
      revert h18
      decide
    have hlc := Lexer.step_line_of_ne lx hne
    obtain ⟨w, r1, hsr, hw, hr1⟩ := span_exists isdigit r
    subst hsr
    refine ⟨makeToken .INTEGER (String.mk (c :: w))
      (lx.step c).line_ ((lx.step c).column_ - 1), w, r1, rfl, ?_, ?_, ?_, ?_, ?_⟩
    · rw [Lexer.scanNumber_eq h hw hr1]; rfl
    · simp [makeToken, hlc.1]
    · simp [makeToken, hlc.2]
    · simp [makeToken]
    · simp [Token.text, makeToken]
  rw [if_neg h18]
  exact single _ _ (by decide) (by decide) rfl

end HW1

namespace HW1

/-! ## Whitespace, and the loop of `tokenize` -/

/-- Function `skipWhitespace` changes nothing in front of a character that is neither
whitespace nor `/`. -/
theorem Lexer.skipWhitespace_of_start {lx : Lexer} {c : Char} {r : List Char}
    (h : lx.rest = c :: r) (h1 : c ≠ ' ') (h2 : c ≠ '\t') (h3 : c ≠ '\r') (h4 : c ≠ '\n')
    (h5 : c ≠ '/') : lx.skipWhitespace = some lx := by
  simp [Lexer.skipWhitespace, Lexer.fuel, Lexer.skipWhitespaceLoop,
    Lexer.isAtEnd_of_rest_cons h, Lexer.peek_of_rest_cons h, h1, h2, h3, h4, h5]

/-- The loop of `skipWhitespace` returns, having consumed a prefix of the rest. -/
theorem Lexer.skipWhitespaceLoop_spec (fuel : Nat) :
    ∀ lx : Lexer, lx.rest.length < fuel →
      ∃ w r, lx.rest = w ++ r ∧ Lexer.skipWhitespaceLoop fuel lx = some (lx.stepAll w) := by
  induction fuel with
  | zero => intro lx h; omega
  | succ f ih =>
    intro lx hf
    rcases hrest : lx.rest with _ | ⟨c, r⟩
    · exact ⟨[], [], rfl, by simp [Lexer.skipWhitespaceLoop, Lexer.isAtEnd_of_rest_nil hrest,
        Lexer.stepAll_nil]⟩
    · rw [hrest] at hf
      simp only [List.length_cons] at hf
      by_cases hws : ((c = ' ' ∨ c = '\t') ∨ c = '\r') ∨ c = '\n'
      · obtain ⟨w, r1, hw, hL⟩ := ih (lx.step c) (by rw [Lexer.rest_step hrest]; omega)
        rw [Lexer.rest_step hrest] at hw
        refine ⟨c :: w, r1, by rw [hw]; rfl, ?_⟩
        rw [Lexer.skipWhitespaceLoop]
        simp only [Lexer.isAtEnd_of_rest_cons hrest, Lexer.peek_of_rest_cons hrest,
          Bool.false_eq_true, if_false]
        rw [if_pos (by simpa using hws)]
        simp only [Lexer.advance_of_rest_cons hrest, hL, Lexer.stepAll_cons]
      · have hws' : ¬ ((decide (c = ' ') || decide (c = '\t') || decide (c = '\r')
            || decide (c = '\n')) = true) := by simpa using hws
        by_cases hcm : c = '/' ∧ lx.peekNext = '/'
        · obtain ⟨rfl, hpn⟩ := hcm
          cases r with
          | nil =>
            rw [Lexer.peekNext_of_rest_singleton hrest] at hpn
            exact absurd hpn (by decide)
          | cons d r2 =>
            rw [Lexer.peekNext_of_rest_cons_cons hrest] at hpn
            subst hpn
            have hr1 := Lexer.rest_step hrest
            have hr2 := Lexer.rest_step hr1
            have hA := Lexer.advanceWhile_takeWhile (fun d => d != '\n')
              ((lx.step '/').step '/')
            rw [hr2] at hA
            have hsplit := (List.takeWhile_append_dropWhile (fun d => d != '\n') r2).symm
            have hr3 : (((lx.step '/').step '/').stepAll
                (r2.takeWhile (fun d => d != '\n'))).rest
                = r2.dropWhile (fun d => d != '\n') :=
              Lexer.rest_stepAll (by rw [hr2]; exact hsplit)
            obtain ⟨w, r1, hw, hL⟩ := ih (((lx.step '/').step '/').stepAll
                (r2.takeWhile (fun d => d != '\n'))) (by
              rw [hr3]
              have := (List.dropWhile_suffix (fun d => d != '\n') (l := r2)).length_le
              simp only [List.length_cons] at hf
              omega)
            rw [hr3] at hw
            refine ⟨'/' :: '/' :: (r2.takeWhile (fun d => d != '\n') ++ w), r1, ?_, ?_⟩
            · rw [List.cons_append, List.cons_append, List.append_assoc, ← hw, ← hsplit]
            · rw [Lexer.skipWhitespaceLoop]
              simp only [Lexer.isAtEnd_of_rest_cons hrest, Lexer.peek_of_rest_cons hrest,
                Bool.false_eq_true, if_false]
              rw [if_neg hws',
                if_pos (by simp [Lexer.peekNext_of_rest_cons_cons hrest])]
              simp only [Lexer.advance_of_rest_cons hrest, Lexer.advance_of_rest_cons hr1,
                hA, hL, Lexer.stepAll_cons, Lexer.stepAll_append]
        · refine ⟨[], c :: r, rfl, ?_⟩
          rw [Lexer.skipWhitespaceLoop]
          simp only [Lexer.isAtEnd_of_rest_cons hrest, Lexer.peek_of_rest_cons hrest,
            Bool.false_eq_true, if_false]
          rw [if_neg hws', if_neg (by simpa using hcm)]
          rfl

theorem Lexer.skipWhitespace_spec (lx : Lexer) :
    ∃ w r, lx.rest = w ++ r ∧ lx.skipWhitespace = some (lx.stepAll w) :=
  Lexer.skipWhitespaceLoop_spec lx.fuel lx lx.rest_length_lt_fuel

/-- A run consumes the whole rest of the source. -/
theorem Lexer.Run.final {lx : Lexer} {toks : List Token} {lxf : Lexer}
    (h : Lexer.Run lx toks lxf) : lxf = lx.stepAll lx.rest := by
  induction h with
  | done lx hend => rw [Lexer.rest_of_isAtEnd hend]; rfl
  | blank lx lx1 _ hskip hend =>
    obtain ⟨w, r, hw, hs⟩ := lx.skipWhitespace_spec
    rw [hskip] at hs
    cases hs
    have := Lexer.rest_of_isAtEnd hend
    rw [Lexer.rest_stepAll hw] at this
    subst this
    rw [hw, List.append_nil]
  | token lx lx1 lx2 tok toks lxf _ hskip hne hscan _ ih =>
    obtain ⟨w, r, hw, hs⟩ := lx.skipWhitespace_spec
    rw [hskip] at hs
    cases hs
    have hr1 := Lexer.rest_stepAll hw
    obtain ⟨c, r2, hr2⟩ := Lexer.rest_ne_nil_of_not_isAtEnd hne
    obtain ⟨tok1, w1, r3, hr3, hsc, _⟩ := Lexer.scanToken_spec hr2
    rw [hscan] at hsc
    cases hsc
    have hr4 : ((lx.stepAll w).stepAll (c :: w1)).rest = r3 :=
      Lexer.rest_stepAll (by rw [hr2, hr3]; rfl)
    have hrest : lx.rest = w ++ ((c :: w1) ++ r3) := by rw [hw, ← hr1, hr2, hr3]; rfl
    rw [ih, hr4, hrest, Lexer.stepAll_append, Lexer.stepAll_append]

/-- A run pushes at most one token per character. -/
theorem Lexer.Run.length_le {lx : Lexer} {toks : List Token} {lxf : Lexer}
    (h : Lexer.Run lx toks lxf) : toks.length ≤ lx.rest.length := by
  induction h with
  | done lx hend => simp
  | blank lx lx1 _ hskip hend => simp
  | token lx lx1 lx2 tok toks lxf _ hskip hne hscan _ ih =>
    obtain ⟨w, r, hw, hs⟩ := lx.skipWhitespace_spec
    rw [hskip] at hs
    cases hs
    have hr1 := Lexer.rest_stepAll hw
    obtain ⟨c, r2, hr2⟩ := Lexer.rest_ne_nil_of_not_isAtEnd hne
    obtain ⟨tok1, w1, r3, hr3, hsc, _⟩ := Lexer.scanToken_spec hr2
    rw [hscan] at hsc
    cases hsc
    have hr4 : ((lx.stepAll w).stepAll (c :: w1)).rest = r3 :=
      Lexer.rest_stepAll (by rw [hr2, hr3]; rfl)
    rw [hr4] at ih
    rw [hw, ← hr1, hr2, hr3]
    simp only [List.length_cons, List.length_append]
    omega

/-- The loop of `tokenize` performs the run. -/
theorem Lexer.tokenizeLoop_of_run {lx : Lexer} {toks : List Token} {lxf : Lexer}
    (h : Lexer.Run lx toks lxf) :
    ∀ (fuel : Nat) (acc : List Token), toks.length < fuel →
      Lexer.tokenizeLoop fuel lx acc = some (acc ++ toks, lxf) := by
  induction h with
  | done lx hend =>
    intro fuel acc hf
    obtain ⟨f, rfl⟩ : ∃ f, fuel = f + 1 := ⟨fuel - 1, by omega⟩
    simp [Lexer.tokenizeLoop, hend]
  | blank lx lx1 hne hskip hend =>
    intro fuel acc hf
    obtain ⟨f, rfl⟩ : ∃ f, fuel = f + 1 := ⟨fuel - 1, by omega⟩
    simp [Lexer.tokenizeLoop, hne, hskip, hend]
  | token lx lx1 lx2 tok toks lxf hne hskip hne1 hscan _ ih =>
    intro fuel acc hf
    obtain ⟨f, rfl⟩ : ∃ f, fuel = f + 1 := ⟨fuel - 1, by omega⟩
    simp only [List.length_cons] at hf
    simp [Lexer.tokenizeLoop, hne, hskip, hne1, hscan, ih f (acc ++ [tok]) (by omega)]

/-- From every state there is a run. -/
theorem Lexer.run_exists (n : Nat) :
    ∀ lx : Lexer, lx.rest.length ≤ n → ∃ toks lxf, Lexer.Run lx toks lxf := by
  induction n with
  | zero =>
    intro lx h
    exact ⟨[], lx, Lexer.Run.done lx
      (Lexer.isAtEnd_of_rest_nil (List.length_eq_zero.mp (by omega)))⟩
  | succ n ih =>
    intro lx hn
    rcases hend : lx.isAtEnd with _ | _
    · obtain ⟨w, r, hw, hs⟩ := lx.skipWhitespace_spec
      have hr1 := Lexer.rest_stepAll hw
      rcases hend1 : (lx.stepAll w).isAtEnd with _ | _
      · obtain ⟨c, r2, hr2⟩ := Lexer.rest_ne_nil_of_not_isAtEnd hend1
        obtain ⟨tok, w1, r3, hr3, hsc, _⟩ := Lexer.scanToken_spec hr2
        have hr4 : ((lx.stepAll w).stepAll (c :: w1)).rest = r3 :=
          Lexer.rest_stepAll (by rw [hr2, hr3]; rfl)
        obtain ⟨toks, lxf, hrun⟩ := ih ((lx.stepAll w).stepAll (c :: w1)) (by
          rw [hr4]
          rw [hw, ← hr1, hr2, hr3] at hn
          simp only [List.length_cons, List.length_append] at hn
          omega)
        exact ⟨tok :: toks, lxf, Lexer.Run.token lx _ _ tok toks lxf hend hs hend1 hsc hrun⟩
      · exact ⟨[], _, Lexer.Run.blank lx _ hend hs hend1⟩
    · exact ⟨[], lx, Lexer.Run.done lx hend⟩

theorem Lexer.rest_new (source : String) : (Lexer.new source).rest = source.data := rfl

/-- Function `tokenize` returns, for every source, the tokens of the run from the initial state
followed by the END_OF_FILE token placed at the final state. -/
theorem tokenize_eq_of_run {source : String} {toks : List Token} {lxf : Lexer}
    (h : Lexer.Run (Lexer.new source) toks lxf) :
    tokenize source = some (toks ++ [makeToken .END_OF_FILE "" lxf.line_ lxf.column_]) := by
  have hlen := h.length_le
  have hL := Lexer.tokenizeLoop_of_run h (Lexer.new source).fuel []
    (lt_of_le_of_lt hlen (Lexer.rest_length_lt_fuel _))
  simp only [tokenize, hL, List.nil_append]

theorem tokenize_run (source : String) :
    ∃ toks lxf, Lexer.Run (Lexer.new source) toks lxf ∧
      tokenize source = some (toks ++ [makeToken .END_OF_FILE "" lxf.line_ lxf.column_]) := by
  obtain ⟨toks, lxf, hrun⟩ := Lexer.run_exists _ (Lexer.new source) le_rfl
  exact ⟨toks, lxf, hrun, tokenize_eq_of_run hrun⟩

end HW1

namespace HW1

/-! ## Lines and columns -/

theorem charsAfterLastNewline_snoc (w : List Char) (c : Char) :
    charsAfterLastNewline (w ++ [c])
      = if c = '\n' then 0 else charsAfterLastNewline w + 1 := by
  simp only [charsAfterLastNewline, List.reverse_append, List.reverse_cons, List.reverse_nil,
    List.nil_append, List.singleton_append]
  by_cases hc : c = '\n'
  · simp [hc]
  · rw [List.takeWhile_cons_of_pos (by simpa using hc), if_neg hc]
    simp

theorem Lexer.stepAll_snoc (lx : Lexer) (w : List Char) (c : Char) :
    lx.stepAll (w ++ [c]) = (lx.stepAll w).step c := by
  rw [Lexer.stepAll_append]; rfl

/-- The counters after the characters `w`, from the initial state. -/
theorem Lexer.stepAll_new (source : String) (w : List Char) :
    ((Lexer.new source).stepAll w).line_ = 1 + w.count '\n' ∧
      ((Lexer.new source).stepAll w).column_ = 1 + charsAfterLastNewline w := by
  induction w using List.reverseRecOn with
  | nil => exact ⟨rfl, rfl⟩
  | append_singleton w c ih =>
    rw [Lexer.stepAll_snoc, charsAfterLastNewline_snoc, List.count_append]
    by_cases hc : c = '\n'
    · subst hc
      refine ⟨?_, ?_⟩
      · simp only [Lexer.step, if_true, ih.1, List.count_singleton_self]
        omega
      · simp only [Lexer.step, if_true]
    · have hcount : List.count '\n' [c] = 0 :=
        List.count_eq_zero.mpr (by simpa using fun h => hc h.symm)
      refine ⟨?_, ?_⟩
      · simp only [Lexer.step, if_neg hc, ih.1, hcount]
        omega
      · simp only [Lexer.step, if_neg hc, ih.2]
        omega

theorem Lexer.inSync_new (source : String) : (Lexer.new source).InSync := by
  simp [Lexer.InSync, Lexer.new, Lexer.stepAll_nil]

theorem take_add_of_drop {l : List Char} {n : Nat} {w r : List Char}
    (h : l.drop n = w ++ r) : l.take (n + w.length) = l.take n ++ w := by
  rw [List.take_add, h, List.take_left]

theorem Lexer.InSync.stepAll {lx : Lexer} (h : lx.InSync) {w r : List Char}
    (hw : lx.rest = w ++ r) : (lx.stepAll w).InSync := by
  unfold Lexer.InSync at *
  rw [Lexer.stepAll_source, Lexer.stepAll_pos, take_add_of_drop hw, Lexer.stepAll_append, ← h]

theorem Lexer.InSync.position {lx : Lexer} (h : lx.InSync) :
    lx.line_ = lineAt lx.source_.data lx.pos_ ∧
      lx.column_ = columnAt lx.source_.data lx.pos_ := by
  have := Lexer.stepAll_new lx.source_ (lx.source_.data.take lx.pos_)
  unfold Lexer.InSync at h
  rw [← h] at this
  exact this

/-- One iteration of the loop of `tokenize` that pushes a token: what was skipped,
what was consumed, and where the token is placed. -/
theorem Lexer.iteration_spec {lx lx1 lx2 : Lexer} {tok : Token}
    (hskip : lx.skipWhitespace = some lx1) (hne : lx1.isAtEnd = false)
    (hscan : lx1.scanToken = some (tok, lx2)) :
    ∃ w r, lx.rest = w ++ tok.text ++ r ∧ lx1 = lx.stepAll w ∧
      lx2 = lx1.stepAll tok.text ∧ tok.text ≠ [] ∧
      tok.line = lx1.line_ ∧ tok.column = lx1.column_ ∧ tok.type ≠ .END_OF_FILE := by
  obtain ⟨w, r, hw, hs⟩ := lx.skipWhitespace_spec
  rw [hskip] at hs
  cases hs
  have hr1 := Lexer.rest_stepAll hw
  obtain ⟨c, r2, hr2⟩ := Lexer.rest_ne_nil_of_not_isAtEnd hne
  obtain ⟨tok1, w1, r3, hr3, hsc, hl, hc, hty, htext⟩ := Lexer.scanToken_spec hr2
  rw [hscan] at hsc
  cases hsc
  refine ⟨w, r3, ?_, rfl, by rw [htext], by rw [htext]; simp, hl, hc, hty⟩
  rw [hw, ← hr1, hr2, hr3, htext]
  simp

theorem Lexer.Run.types_ne_eof {lx : Lexer} {toks : List Token} {lxf : Lexer}
    (h : Lexer.Run lx toks lxf) : ∀ t ∈ toks, t.type ≠ .END_OF_FILE := by
  induction h with
  | done lx hend => simp
  | blank lx lx1 _ hskip hend => simp
  | token lx lx1 lx2 tok toks lxf _ hskip hne hscan _ ih =>
    obtain ⟨w, r, _, _, _, _, _, _, hty⟩ := Lexer.iteration_spec hskip hne hscan
    intro t ht
    rcases List.mem_cons.mp ht with rfl | ht
    · exact hty
    · exact ih t ht

/-- C3. For every source, `tokenize` returns a sequence whose last element is an
END_OF_FILE token with empty lexeme, placed at line `1 + (number of '\n' in the
source)` and column `1 + (number of characters after the last '\n', or in the whole
source if it has none)`, and no earlier element has kind END_OF_FILE. -/
theorem tokenize_ends_with_eof (source : String) :
    ∃ toks, tokenize source = some (toks ++
        [{ type := .END_OF_FILE, lexeme := "", line := 1 + source.data.count '\n',
           column := 1 + charsAfterLastNewline source.data }]) ∧
      ∀ t ∈ toks, t.type ≠ .END_OF_FILE := by
  obtain ⟨toks, lxf, hrun, htok⟩ := tokenize_run source
  refine ⟨toks, ?_, hrun.types_ne_eof⟩
  have hf := hrun.final
  rw [Lexer.rest_new] at hf
  have hpos := Lexer.stepAll_new source source.data
  rw [← hf] at hpos
  rw [htok, hpos.1, hpos.2]
  rfl

theorem Lexer.Run.tokensFrom {lx : Lexer} {toks : List Token} {lxf : Lexer}
    (h : Lexer.Run lx toks lxf) :
    lx.InSync → TokensFrom lx.source_.data lx.pos_ toks := by
  induction h with
  | done lx hend => intro _; trivial
  | blank lx lx1 _ hskip hend => intro _; trivial
  | token lx lx1 lx2 tok toks lxf _ hskip hne hscan _ ih =>
    intro hsync
    obtain ⟨w, r, hrest, rfl, rfl, htext, hl, hc, _⟩ := Lexer.iteration_spec hskip hne hscan
    have hrest1 : lx.rest = w ++ (tok.text ++ r) := by rw [hrest, List.append_assoc]
    have hsync1 := hsync.stepAll hrest1
    have hr1 : (lx.stepAll w).rest = tok.text ++ r := Lexer.rest_stepAll hrest1
    have hsync2 := hsync1.stepAll hr1
    have hpos := hsync1.position
    rw [Lexer.stepAll_source, Lexer.stepAll_pos] at hpos
    have hdrop : lx.source_.data.drop (lx.pos_ + w.length) = tok.text ++ r := by
      have := hr1
      simpa [Lexer.rest, Lexer.stepAll_source, Lexer.stepAll_pos] using this
    refine ⟨lx.pos_ + w.length, by omega, ?_, ?_, by rw [hl, hpos.1], by rw [hc, hpos.2], ?_⟩
    · by_contra hlt
      rw [List.drop_eq_nil_of_le (by omega)] at hdrop
      have : tok.text = [] := by
        cases htx : tok.text with
        | nil => rfl
        | cons a l => rw [htx] at hdrop; cases hdrop
      exact htext this
    · rw [hdrop]; exact List.prefix_append _ _
    · have := ih hsync2
      simpa [Lexer.stepAll_source, Lexer.stepAll_pos] using this

/-- C4. For every source, every token that `tokenize` returns before the final
END_OF_FILE token is placed at the line and column of the offset at which its text
stands in the source (the opening quote for a string literal); the tokens stand in
order and do not overlap. Lines and columns are 1-based: the line is one more than
the number of `'\n'` before the offset, the column one more than the number of
characters since the last `'\n'`. -/
theorem tokenize_positions (source : String) :
    ∃ toks eof, tokenize source = some (toks ++ [eof]) ∧ eof.type = .END_OF_FILE ∧
      (∀ t ∈ toks, t.type ≠ .END_OF_FILE) ∧ TokensFrom source.data 0 toks := by
  obtain ⟨toks, lxf, hrun, htok⟩ := tokenize_run source
  exact ⟨toks, _, htok, rfl, hrun.types_ne_eof, hrun.tokensFrom (Lexer.inSync_new source)⟩

end HW1

namespace HW1

/-! ## Words, operators and string literals at the start of the source -/

theorem wordType_eq_expected (w : String) : wordType w = expectedWordType w := by
  simp only [wordType, keywordsFind, keywords, List.lookup, expectedWordType]
  by_cases h1 : w = "fn"
  · subst h1; rfl
  by_cases h2 : w = "let"
  · subst h2; rfl
  by_cases h3 : w = "mut"
  · subst h3; rfl
  by_cases h4 : w = "if"
  · subst h4; rfl
  by_cases h5 : w = "else"
  · subst h5; rfl
  by_cases h6 : w = "while"
  · subst h6; rfl
  by_cases h7 : w = "return"
  · subst h7; rfl
  have b1 : (w == "fn") = false := by simpa using h1
  have b2 : (w == "let") = false := by simpa using h2
  have b3 : (w == "mut") = false := by simpa using h3
  have b4 : (w == "if") = false := by simpa using h4
  have b5 : (w == "else") = false := by simpa using h5
  have b6 : (w == "while") = false := by simpa using h6
  have b7 : (w == "return") = false := by simpa using h7
  simp only [b1, b2, b3, b4, b5, b6, b7, if_neg h1, if_neg h2, if_neg h3, if_neg h4, if_neg h5,
    if_neg h6, if_neg h7]

theorem ne_of_isIdentStart {c d : Char} (hc : isIdentStart c = true)
    (hd : isIdentStart d = false) : c ≠ d := by
  rintro rfl
  rw [hd] at hc
  cases hc

theorem ne_of_isIdentChar {c d : Char} (hc : isIdentChar c = true)
    (hd : isIdentChar d = false) : c ≠ d := by
  rintro rfl
  rw [hd] at hc
  cases hc

theorem isIdentChar_of_isIdentStart {c : Char} (hc : isIdentStart c = true) :
    isIdentChar c = true := by
  simp only [isIdentStart, isalpha, Bool.or_eq_true, decide_eq_true_eq] at hc
  simp only [isIdentChar, isalnum, Char.isAlphanum, Bool.or_eq_true, decide_eq_true_eq]
  tauto

/-- On a letter or `_`, `scanToken` is `scanIdentifierOrKeyword`. -/
theorem Lexer.scanToken_identStart {lx : Lexer} {c : Char} {r : List Char}
    (h : lx.rest = c :: r) (hc : isIdentStart c = true) :
    lx.scanToken = (lx.step c).scanIdentifierOrKeyword := by
  rw [Lexer.scanToken_of_rest_cons h]
  have hne : ∀ d, isIdentStart d = false → ¬ (c = d) := fun d hd => ne_of_isIdentStart hc hd
  rw [if_neg (hne '(' (by decide)), if_neg (hne ')' (by decide)), if_neg (hne '\x7b' (by decide)),
    if_neg (hne '\x7d' (by decide)), if_neg (hne ';' (by decide)), if_neg (hne ':' (by decide)),
    if_neg (hne ',' (by decide)), if_neg (hne '+' (by decide)), if_neg (hne '-' (by decide)),
    if_neg (hne '*' (by decide)), if_neg (hne '/' (by decide)), if_neg (hne '=' (by decide)),
    if_neg (hne '!' (by decide)), if_neg (hne '<' (by decide)), if_neg (hne '>' (by decide)),
    if_neg (hne '"' (by decide)),
    if_pos (show (isalpha c || decide (c = '_')) = true from hc)]

theorem count_newline_of_not_mem {l : List Char} (h : '\n' ∉ l) :
    l.count '\n' = 0 ∧ charsAfterLastNewline l = l.length := by
  refine ⟨List.count_eq_zero.mpr h, ?_⟩
  unfold charsAfterLastNewline
  rw [List.takeWhile_eq_self_iff.mpr, List.length_reverse]
  intro c hc
  have : c ≠ '\n' := fun hcn => h (by rw [← hcn]; exact List.mem_reverse.mp hc)
  simpa using this

/-- The tokens of a source of which the run from the initial state is known. -/
theorem tokenize_of_run {source : String} {toks : List Token} {lxf : Lexer}
    (h : Lexer.Run (Lexer.new source) toks lxf) :
    tokenize source = some (toks ++
      [{ type := .END_OF_FILE, lexeme := "", line := 1 + source.data.count '\n',
         column := 1 + charsAfterLastNewline source.data }]) := by
  have hf := h.final
  rw [Lexer.rest_new] at hf
  have hpos := Lexer.stepAll_new source source.data
  rw [← hf] at hpos
  rw [tokenize_eq_of_run h, hpos.1, hpos.2]
  rfl

/-- C5. Keyword matching is on the full maximal identifier-class lexeme: a source that
is one word (a letter or `_`, then letters, digits or `_`) gives exactly two tokens,
the word at 1:1 with the whole word as lexeme, of the keyword kind when the word is
exactly one of the seven keywords and of kind IDENTIFIER otherwise, and END_OF_FILE. -/
theorem tokenize_word (c : Char) (cs : List Char)
    (hc : (c.isAlpha || c = '_') = true) (hcs : ∀ d ∈ cs, (d.isAlphanum || d = '_') = true) :
    tokenize (String.mk (c :: cs)) =
      some [{ type := expectedWordType (String.mk (c :: cs)), lexeme := String.mk (c :: cs),
              line := 1, column := 1 },
            { type := .END_OF_FILE, lexeme := "", line := 1, column := 1 + (c :: cs).length }] := by
  have hc' : isIdentStart c = true := hc
  have hcs' : ∀ d ∈ cs, isIdentChar d = true := hcs
  have hrest : (Lexer.new (String.mk (c :: cs))).rest = c :: (cs ++ []) := by
    simp [Lexer.rest_new]
  have hne : ∀ d, isIdentStart d = false → c ≠ d := fun d hd => ne_of_isIdentStart hc' hd
  have hskip := Lexer.skipWhitespace_of_start hrest (hne ' ' (by decide)) (hne '\t' (by decide))
    (hne '\r' (by decide)) (hne '\n' (by decide)) (hne '/' (by decide))
  have hscan := Lexer.scanToken_identStart hrest hc'
  rw [Lexer.scanIdentifierOrKeyword_eq hrest hcs' (fun d r1 h => by cases h)] at hscan
  have hend : (((Lexer.new (String.mk (c :: cs))).step c).stepAll cs).isAtEnd = true :=
    Lexer.isAtEnd_of_rest_nil (Lexer.rest_stepAll (Lexer.rest_step hrest))
  have hrun := Lexer.Run.token _ _ _ _ [] _ (Lexer.isAtEnd_of_rest_cons hrest) hskip
    (Lexer.isAtEnd_of_rest_cons hrest) hscan (Lexer.Run.done _ hend)
  have hnl : '\n' ∉ c :: cs := by
    intro hm
    rcases List.mem_cons.mp hm with h | h
    · exact hne '\n' (by decide) h.symm
    · exact ne_of_isIdentChar (hcs' _ h) (by decide) rfl
  have hcnt := count_newline_of_not_mem hnl
  have hlc := Lexer.step_line_of_ne (Lexer.new (String.mk (c :: cs))) (hne '\n' (by decide))
  rw [tokenize_of_run hrun, hcnt.1, hcnt.2, wordType_eq_expected, hlc.1, hlc.2]
  rfl

/-- Witness of C5: `fn_name` is one IDENTIFIER. -/
theorem tokenize_word_witness :
    (('f'.isAlpha || 'f' = '_') = true ∧
      ∀ d ∈ ['n', '_', 'n', 'a', 'm', 'e'], (d.isAlphanum || d = '_') = true) ∧
    tokenize "fn_name" =
      some [{ type := .IDENTIFIER, lexeme := "fn_name", line := 1, column := 1 },
            { type := .END_OF_FILE, lexeme := "", line := 1, column := 8 }] :=
  ⟨⟨by decide, by decide⟩,
   tokenize_word 'f' ['n', '_', 'n', 'a', 'm', 'e'] (by decide) (by decide)⟩

end HW1

namespace HW1

/-- On `"`, `scanToken` is `scanString`. -/
theorem Lexer.scanToken_quote {lx : Lexer} {r : List Char} (h : lx.rest = '"' :: r) :
    lx.scanToken = (lx.step '"').scanString := by
  rw [Lexer.scanToken_of_rest_cons h]
  rw [if_neg (by decide), if_neg (by decide), if_neg (by decide), if_neg (by decide),
    if_neg (by decide), if_neg (by decide), if_neg (by decide), if_neg (by decide),
    if_neg (by decide), if_neg (by decide), if_neg (by decide), if_neg (by decide),
    if_neg (by decide), if_neg (by decide), if_neg (by decide), if_pos rfl]

/-- The first token of a source that starts with a character which is neither
whitespace nor `/`. -/
theorem firstToken_of_scanToken {source : String} {c : Char} {r : List Char} {tok : Token}
    {lx2 : Lexer} (h : source.data = c :: r)
    (h1 : c ≠ ' ') (h2 : c ≠ '\t') (h3 : c ≠ '\r') (h4 : c ≠ '\n') (h5 : c ≠ '/')
    (hscan : (Lexer.new source).scanToken = some (tok, lx2)) :
    firstToken source = some tok := by
  have hrest : (Lexer.new source).rest = c :: r := by rw [Lexer.rest_new, h]
  have hskip := Lexer.skipWhitespace_of_start hrest h1 h2 h3 h4 h5
  obtain ⟨toks, lxf, hrun⟩ := Lexer.run_exists _ lx2 le_rfl
  have hrun1 := Lexer.Run.token _ _ _ _ _ _ (Lexer.isAtEnd_of_rest_cons hrest) hskip
    (Lexer.isAtEnd_of_rest_cons hrest) hscan hrun
  simp [firstToken, tokenize_of_run hrun1]

theorem firstToken_two {c : Char} (rest : List Char) (two one : TokenType)
    (l2 l1 : String)
    (h1 : c ≠ ' ') (h2 : c ≠ '\t') (h3 : c ≠ '\r') (h4 : c ≠ '\n') (h5 : c ≠ '/')
    (hscan : ∀ (lx : Lexer) (r : List Char), lx.rest = c :: r →
      lx.scanToken = (lx.step c).scanTwoChar (makeToken two l2 lx.line_ lx.column_)
        (makeToken one l1 lx.line_ lx.column_)) :
    firstToken (String.mk (c :: '=' :: rest))
      = some { type := two, lexeme := l2, line := 1, column := 1 } := by
  have hrest : (Lexer.new (String.mk (c :: '=' :: rest))).rest = c :: '=' :: rest := rfl
  have hs := hscan _ _ hrest
  rw [Lexer.scanTwoChar_eq _ _ (Lexer.rest_step hrest)] at hs
  exact firstToken_of_scanToken rfl h1 h2 h3 h4 h5 hs

theorem firstToken_one {c : Char} (rest : List Char) (hrest0 : rest.head? ≠ some '=')
    (two one : TokenType) (l2 l1 : String)
    (h1 : c ≠ ' ') (h2 : c ≠ '\t') (h3 : c ≠ '\r') (h4 : c ≠ '\n') (h5 : c ≠ '/')
    (hscan : ∀ (lx : Lexer) (r : List Char), lx.rest = c :: r →
      lx.scanToken = (lx.step c).scanTwoChar (makeToken two l2 lx.line_ lx.column_)
        (makeToken one l1 lx.line_ lx.column_)) :
    firstToken (String.mk (c :: rest))
      = some { type := one, lexeme := l1, line := 1, column := 1 } := by
  have hrest : (Lexer.new (String.mk (c :: rest))).rest = c :: rest := rfl
  have hs := hscan _ _ hrest
  rw [Lexer.scanTwoChar_ne _ _ (fun r hr => by
    rw [Lexer.rest_step hrest] at hr
    exact hrest0 (by rw [hr]; rfl))] at hs
  exact firstToken_of_scanToken rfl h1 h2 h3 h4 h5 hs

theorem Lexer.scanToken_eq_sign {lx : Lexer} {r : List Char} (h : lx.rest = '=' :: r) :
    lx.scanToken = (lx.step '=').scanTwoChar (makeToken .EQ "==" lx.line_ lx.column_)
      (makeToken .ASSIGN "=" lx.line_ lx.column_) := by
  rw [Lexer.scanToken_of_rest_cons h]
  rw [if_neg (by decide), if_neg (by decide), if_neg (by decide), if_neg (by decide),
    if_neg (by decide), if_neg (by decide), if_neg (by decide), if_neg (by decide),
    if_neg (by decide), if_neg (by decide), if_neg (by decide), if_pos rfl]

theorem Lexer.scanToken_bang {lx : Lexer} {r : List Char} (h : lx.rest = '!' :: r) :
    lx.scanToken = (lx.step '!').scanTwoChar (makeToken .NEQ "!=" lx.line_ lx.column_)
      (makeToken .ERROR "!" lx.line_ lx.column_) := by
  rw [Lexer.scanToken_of_rest_cons h]
  rw [if_neg (by decide), if_neg (by decide), if_neg (by decide), if_neg (by decide),
    if_neg (by decide), if_neg (by decide), if_neg (by decide), if_neg (by decide),
    if_neg (by decide), if_neg (by decide), if_neg (by decide), if_neg (by decide),
    if_pos rfl]

theorem Lexer.scanToken_less {lx : Lexer} {r : List Char} (h : lx.rest = '<' :: r) :
    lx.scanToken = (lx.step '<').scanTwoChar (makeToken .LTE "<=" lx.line_ lx.column_)
      (makeToken .LT "<" lx.line_ lx.column_) := by
  rw [Lexer.scanToken_of_rest_cons h]
  rw [if_neg (by decide), if_neg (by decide), if_neg (by decide), if_neg (by decide),
    if_neg (by decide), if_neg (by decide), if_neg (by decide), if_neg (by decide),
    if_neg (by decide), if_neg (by decide), if_neg (by decide), if_neg (by decide),
    if_neg (by decide), if_pos rfl]

theorem Lexer.scanToken_greater {lx : Lexer} {r : List Char} (h : lx.rest = '>' :: r) :
    lx.scanToken = (lx.step '>').scanTwoChar (makeToken .GTE ">=" lx.line_ lx.column_)
      (makeToken .GT ">" lx.line_ lx.column_) := by
  rw [Lexer.scanToken_of_rest_cons h]
  rw [if_neg (by decide), if_neg (by decide), if_neg (by decide), if_neg (by decide),
    if_neg (by decide), if_neg (by decide), if_neg (by decide), if_neg (by decide),
    if_neg (by decide), if_neg (by decide), if_neg (by decide), if_neg (by decide),
    if_neg (by decide), if_neg (by decide), if_pos rfl]

/-- C6. Two-character operators are recognised greedily: a source that begins with
`==`, `!=`, `<=` or `>=` has as first token one EQ, NEQ, LTE or GTE token with the
two characters as lexeme, whatever follows; a source that begins with `=`, `<` or `>`
not followed by `=` has as first token ASSIGN, LT or GT with the one-character
lexeme, and one that begins with `!` not followed by `=` has as first token an ERROR
token with lexeme `!`. -/
theorem firstToken_operators (rest rest1 : List Char) (h : rest1.head? ≠ some '=') :
    firstToken (String.mk ('=' :: '=' :: rest))
        = some { type := .EQ, lexeme := "==", line := 1, column := 1 } ∧
    firstToken (String.mk ('!' :: '=' :: rest))
        = some { type := .NEQ, lexeme := "!=", line := 1, column := 1 } ∧
    firstToken (String.mk ('<' :: '=' :: rest))
        = some { type := .LTE, lexeme := "<=", line := 1, column := 1 } ∧
    firstToken (String.mk ('>' :: '=' :: rest))
        = some { type := .GTE, lexeme := ">=", line := 1, column := 1 } ∧
    firstToken (String.mk ('=' :: rest1))
        = some { type := .ASSIGN, lexeme := "=", line := 1, column := 1 } ∧
    firstToken (String.mk ('<' :: rest1))
        = some { type := .LT, lexeme := "<", line := 1, column := 1 } ∧
    firstToken (String.mk ('>' :: rest1))
        = some { type := .GT, lexeme := ">", line := 1, column := 1 } ∧
    firstToken (String.mk ('!' :: rest1))
        = some { type := .ERROR, lexeme := "!", line := 1, column := 1 } :=
  ⟨firstToken_two rest _ _ _ _ (by decide) (by decide) (by decide) (by decide) (by decide)
      (fun _ _ hr => Lexer.scanToken_eq_sign hr),
   firstToken_two rest _ _ _ _ (by decide) (by decide) (by decide) (by decide) (by decide)
      (fun _ _ hr => Lexer.scanToken_bang hr),
   firstToken_two rest _ _ _ _ (by decide) (by decide) (by decide) (by decide) (by decide)
      (fun _ _ hr => Lexer.scanToken_less hr),
   firstToken_two rest _ _ _ _ (by decide) (by decide) (by decide) (by decide) (by decide)
      (fun _ _ hr => Lexer.scanToken_greater hr),
   firstToken_one rest1 h _ _ _ _ (by decide) (by decide) (by decide) (by decide) (by decide)
      (fun _ _ hr => Lexer.scanToken_eq_sign hr),
   firstToken_one rest1 h _ _ _ _ (by decide) (by decide) (by decide) (by decide) (by decide)
      (fun _ _ hr => Lexer.scanToken_less hr),
   firstToken_one rest1 h _ _ _ _ (by decide) (by decide) (by decide) (by decide) (by decide)
      (fun _ _ hr => Lexer.scanToken_greater hr),
   firstToken_one rest1 h _ _ _ _ (by decide) (by decide) (by decide) (by decide) (by decide)
      (fun _ _ hr => Lexer.scanToken_bang hr)⟩

/-- Witness of C6: the sources `==`, `!=`, `<=`, `>=` and `= 1`, `< 1`, `> 1`, `! 1`. -/
theorem firstToken_operators_witness :
    ([' ', '1'] : List Char).head? ≠ some '=' ∧
    firstToken "==" = some { type := .EQ, lexeme := "==", line := 1, column := 1 } ∧
    firstToken "!=" = some { type := .NEQ, lexeme := "!=", line := 1, column := 1 } ∧
    firstToken "<=" = some { type := .LTE, lexeme := "<=", line := 1, column := 1 } ∧
    firstToken ">=" = some { type := .GTE, lexeme := ">=", line := 1, column := 1 } ∧
    firstToken "= 1" = some { type := .ASSIGN, lexeme := "=", line := 1, column := 1 } ∧
    firstToken "< 1" = some { type := .LT, lexeme := "<", line := 1, column := 1 } ∧
    firstToken "> 1" = some { type := .GT, lexeme := ">", line := 1, column := 1 } ∧
    firstToken "! 1" = some { type := .ERROR, lexeme := "!", line := 1, column := 1 } :=
  ⟨by decide, firstToken_operators [] [' ', '1'] (by decide)⟩

/-- C7. Unterminated string: for every `s` without `"`, the source made of an opening
`"` followed by `s` gives exactly two tokens, one ERROR token at 1:1 whose lexeme is
the quote followed by the whole of `s`, and the END_OF_FILE token. -/
theorem tokenize_unterminated_string (s : List Char) (hs : '"' ∉ s) :
    tokenize (String.mk ('"' :: s)) =
      some [{ type := .ERROR, lexeme := String.mk ('"' :: s), line := 1, column := 1 },
            { type := .END_OF_FILE, lexeme := "", line := 1 + ('"' :: s).count '\n',
              column := 1 + charsAfterLastNewline ('"' :: s) }] := by
  have hrest : (Lexer.new (String.mk ('"' :: s))).rest = '"' :: s := rfl
  have hskip := Lexer.skipWhitespace_of_start hrest (by decide) (by decide) (by decide)
    (by decide) (by decide)
  have hscan := Lexer.scanToken_quote hrest
  rw [Lexer.scanString_unterminated (Lexer.rest_step hrest) hs] at hscan
  have hend : (((Lexer.new (String.mk ('"' :: s))).step '"').stepAll s).isAtEnd = true :=
    Lexer.isAtEnd_of_rest_nil (Lexer.rest_stepAll (by rw [Lexer.rest_step hrest]; simp))
  have hrun := Lexer.Run.token _ _ _ _ [] _ (Lexer.isAtEnd_of_rest_cons hrest) hskip
    (Lexer.isAtEnd_of_rest_cons hrest) hscan (Lexer.Run.done _ hend)
  rw [tokenize_of_run hrun]
  rfl

/-- Witness of C7: the source `"abc` gives an ERROR token that contains `abc`, then
END_OF_FILE. -/
theorem tokenize_unterminated_string_witness :
    '"' ∉ ['a', 'b', 'c'] ∧
    tokenize "\"abc" =
      some [{ type := .ERROR, lexeme := "\"abc", line := 1, column := 1 },
            { type := .END_OF_FILE, lexeme := "", line := 1, column := 5 }] :=
  ⟨by decide, tokenize_unterminated_string ['a', 'b', 'c'] (by decide)⟩

/-- C8. String literals are taken verbatim: for every `s` without `"` (backslashes and
newlines included), the source `"` + `s` + `"` gives exactly a STRING token whose
lexeme is `s`, without the quotes and without any escape processing, and the
END_OF_FILE token. -/
theorem tokenize_string_literal (s : List Char) (hs : '"' ∉ s) :
    tokenize (String.mk ('"' :: (s ++ ['"']))) =
      some [{ type := .STRING, lexeme := String.mk s, line := 1, column := 1 },
            { type := .END_OF_FILE, lexeme := "",
              line := 1 + ('"' :: (s ++ ['"'])).count '\n',
              column := 1 + charsAfterLastNewline ('"' :: (s ++ ['"'])) }] := by
  have hrest : (Lexer.new (String.mk ('"' :: (s ++ ['"'])))).rest = '"' :: (s ++ '"' :: []) :=
    rfl
  have hskip := Lexer.skipWhitespace_of_start hrest (by decide) (by decide) (by decide)
    (by decide) (by decide)
  have hscan := Lexer.scanToken_quote hrest
  rw [Lexer.scanString_terminated (Lexer.rest_step hrest) hs] at hscan
  have hend : (((Lexer.new (String.mk ('"' :: (s ++ ['"'])))).step '"').stepAll
      (s ++ ['"'])).isAtEnd = true :=
    Lexer.isAtEnd_of_rest_nil (Lexer.rest_stepAll (by rw [Lexer.rest_step hrest]; simp))
  have hrun := Lexer.Run.token _ _ _ _ [] _ (Lexer.isAtEnd_of_rest_cons hrest) hskip
    (Lexer.isAtEnd_of_rest_cons hrest) hscan (Lexer.Run.done _ hend)
  rw [tokenize_of_run hrun]
  rfl

/-- Witness of C8: `"hello"`, and a literal with a backslash and a newline. -/
theorem tokenize_string_literal_witness :
    '"' ∉ ['a', '\\', 'n', '\n', 'b'] ∧
    tokenize "\"a\\n\nb\"" =
      some [{ type := .STRING, lexeme := "a\\n\nb", line := 1, column := 1 },
            { type := .END_OF_FILE, lexeme := "", line := 2, column := 3 }] :=
  ⟨by decide, tokenize_string_literal ['a', '\\', 'n', '\n', 'b'] (by decide)⟩

end HW1

/-! ## Statements of the parser: if/else, function declarations, semicolons -/

namespace Bystep

open Grammar

theorem expect_of_drop_other {tokens : List Token} {pos : Nat} {rest : List Token}
    (type value : String) (h : tokens.drop pos = rest)
    (hne : rest.head? ≠ some ⟨type, value⟩) :
    expect tokens pos type value
      = .error (.runtime_error (expectMessage type value rest.head?)) := by
  cases rest with
  | nil => rw [expect_of_drop_nil _ _ h]; rfl
  | cons t r =>
    have ht : ¬ (t.type = type ∧ t.value = value) := by
      rintro ⟨h1, h2⟩
      apply hne
      obtain ⟨ty, v⟩ := t
      simp only at h1 h2
      subst h1 h2
      rfl
    have hb : (t.type != type || t.value != value) = true := by
      simp only [Bool.or_eq_true, bne_iff_ne, ne_eq]
      tauto
    simp only [expect, atEnd_of_drop h, current_of_drop h, Bool.false_eq_true, if_false, hb,
      if_true, expectMessage, List.head?_cons]

theorem parsePrimary_of_drop_other {tokens : List Token} {pos : Nat} {t : Token}
    {r : List Token} (h : tokens.drop pos = t :: r) (ht : isPrimaryToken t = false) :
    parsePrimary tokens pos = .error (.runtime_error (unexpectedMessage t)) := by
  simp only [isPrimaryToken, Bool.or_eq_false_iff, beq_eq_false_iff_ne, ne_eq] at ht
  simp [parsePrimary, atEnd_of_drop h, current_of_drop h, ht.1.1, ht.1.2, ht.2,
    unexpectedMessage]

theorem parsePrimary_of_drop_nil {tokens : List Token} {pos : Nat}
    (h : tokens.drop pos = []) :
    parsePrimary tokens pos
      = .error (.runtime_error "Unexpected end of input while parsing expression") := by
  simp [parsePrimary, atEnd_of_drop_nil h]

/-- One iteration of the loop of `parse`. -/
theorem parseLoop_step {tokens : List Token} {pos : Nat} {t : Token} {r : List Token}
    (h : tokens.drop pos = t :: r) (fuel : Nat) (program : List ASTNode) :
    parseLoop (fuel + 1) tokens pos program =
      match parseStatement fuel tokens pos with
      | .error e => .error e
      | .ok (stmt, pos1) => parseLoop fuel tokens pos1 (program ++ [stmt]) := by
  rw [parseLoop, atEnd_of_drop h]
  rfl

theorem parse_unfold (tokens : List Token) :
    parse tokens = parseLoop (4 * tokens.length + 3 + 1) tokens 0 [] := rfl

theorem block_of_parse {B : List Token} {body : List ASTNode} (h : parse B = .ok body) :
    Grammar.block (punct "\x7b" :: B ++ [punct "\x7d"]) body :=
  Grammar.block.braces B body (program_of_parse h)

/-- C11. "No else clause" and "else clause with empty body" give the same tree: for
every complete expression `c` and every token sequence `B` that parses as a sequence
of statements, the tokens `if c { B }` and `if c { B } else { }` both parse, to the
same single `IfStatement` whose `elseBody` is empty. -/
theorem parse_if_without_else_eq_empty_else (p0 : Token) (ops : List (Token × Token))
    (B : List Token) (body : List ASTNode) (hc : isChain p0 ops) (hB : parse B = .ok body) :
    parse (⟨"KEYWORD", "if"⟩ :: chainTokens p0 ops ++
        (⟨"PUNCTUATION", "\x7b"⟩ :: B ++ [⟨"PUNCTUATION", "\x7d"⟩]))
      = .ok [.IfStatement (foldOps (primaryNode p0) ops) body []]
    ∧ parse (⟨"KEYWORD", "if"⟩ :: chainTokens p0 ops ++
        (⟨"PUNCTUATION", "\x7b"⟩ :: B ++ [⟨"PUNCTUATION", "\x7d"⟩]) ++
        ⟨"KEYWORD", "else"⟩ :: [⟨"PUNCTUATION", "\x7b"⟩, ⟨"PUNCTUATION", "\x7d"⟩])
      = .ok [.IfStatement (foldOps (primaryNode p0) ops) body []] := by
  have he : Grammar.expression (chainTokens p0 ops) (foldOps (primaryNode p0) ops) :=
    expression_iff_chain.mpr ⟨p0, ops, hc, rfl, rfl⟩
  have hb := block_of_parse hB
  have hempty : Grammar.block [punct "\x7b", punct "\x7d"] [] :=
    Grammar.block.braces [] [] Grammar.statements.none
  exact ⟨parse_of_program (program_single (Grammar.statement.ifStmt _ _ _ _ he hb)),
    parse_of_program (program_single (Grammar.statement.ifElseStmt _ _ _ _ _ _ he hb hempty))⟩

/-- Witness of C11: `if x { } else { }` gives one `IfStatement` with empty `thenBody`
and empty `elseBody`, the tree of `if x { }`. -/
theorem parse_if_without_else_eq_empty_else_witness :
    (isChain ⟨"IDENTIFIER", "x"⟩ [] ∧ parse [] = .ok []) ∧
    parse [⟨"KEYWORD", "if"⟩, ⟨"IDENTIFIER", "x"⟩, ⟨"PUNCTUATION", "\x7b"⟩,
        ⟨"PUNCTUATION", "\x7d"⟩]
      = .ok [.IfStatement (.Identifier "x") [] []]
    ∧ parse [⟨"KEYWORD", "if"⟩, ⟨"IDENTIFIER", "x"⟩, ⟨"PUNCTUATION", "\x7b"⟩,
        ⟨"PUNCTUATION", "\x7d"⟩, ⟨"KEYWORD", "else"⟩, ⟨"PUNCTUATION", "\x7b"⟩,
        ⟨"PUNCTUATION", "\x7d"⟩]
      = .ok [.IfStatement (.Identifier "x") [] []] :=
  ⟨⟨by simp [isChain, isPrimaryToken], rfl⟩,
   parse_if_without_else_eq_empty_else ⟨"IDENTIFIER", "x"⟩ [] [] []
     (by simp [isChain, isPrimaryToken]) rfl⟩

theorem parseFunctionDecl_bad_parameters {name : String} {rest : List Token}
    (hrest : rest.head? ≠ some ⟨"PUNCTUATION", ")"⟩)
    {fuel : Nat} {tokens : List Token} {pos : Nat}
    (h : tokens.drop pos = ⟨"KEYWORD", "fn"⟩ :: ⟨"IDENTIFIER", name⟩ ::
      ⟨"PUNCTUATION", "("⟩ :: rest) :
    parseFunctionDecl (fuel + 1) tokens pos
      = .error (.runtime_error (expectMessage "PUNCTUATION" ")" rest.head?)) := by
  have h1 := drop_succ_of_drop h
  have h2 := drop_succ_of_drop h1
  have h3 := drop_succ_of_drop h2
  simp only [parseFunctionDecl, expect_of_drop "KEYWORD" "fn" h, currentHasType_of_drop h1,
    beq_self_eq_true, current_of_drop h1, advance_of_drop h1,
    expect_of_drop "PUNCTUATION" "(" h2, expect_of_drop_other "PUNCTUATION" ")" h3 hrest]

/-- C13. A function declaration requires an empty parameter list: on tokens that begin
with `fn`, an identifier, `(` and then anything but `)` (or nothing), `parse` fails,
in `expect("PUNCTUATION", ")")`, whatever follows; on the tokens `fn f ( ) { B }` with
`B` a sequence of statements it returns exactly one `FunctionDecl(f, nodes of B)`. -/
theorem parse_fn_empty_parameter_list (name : String) (rest B : List Token)
    (body : List ASTNode) (hrest : rest.head? ≠ some ⟨"PUNCTUATION", ")"⟩)
    (hB : parse B = .ok body) :
    parse (⟨"KEYWORD", "fn"⟩ :: ⟨"IDENTIFIER", name⟩ :: ⟨"PUNCTUATION", "("⟩ :: rest)
      = .error (.runtime_error (expectMessage "PUNCTUATION" ")" rest.head?))
    ∧ parse (⟨"KEYWORD", "fn"⟩ :: ⟨"IDENTIFIER", name⟩ :: ⟨"PUNCTUATION", "("⟩ ::
        ⟨"PUNCTUATION", ")"⟩ :: (⟨"PUNCTUATION", "\x7b"⟩ :: B ++ [⟨"PUNCTUATION", "\x7d"⟩]))
      = .ok [.FunctionDecl name body] := by
  refine ⟨?_, parse_of_program (program_single
    (Grammar.statement.fnDecl ⟨"IDENTIFIER", name⟩ _ _ rfl (block_of_parse hB)))⟩
  have h : (⟨"KEYWORD", "fn"⟩ :: ⟨"IDENTIFIER", name⟩ :: ⟨"PUNCTUATION", "("⟩ :: rest).drop 0
      = kw "fn" :: (⟨"IDENTIFIER", name⟩ :: ⟨"PUNCTUATION", "("⟩ :: rest) := rfl
  rw [parse_unfold, parseLoop_step h]
  simp only [List.length_cons]
  rw [show 4 * (rest.length + 1 + 1 + 1) + 3 = (4 * rest.length + 13) + 1 + 1 from by omega,
    parseStatement_keyword h, if_neg (by decide), if_pos rfl,
    parseFunctionDecl_bad_parameters hrest h]

/-- Witness of C13: `fn f ( x )` fails on the parameter, `fn f ( ) { }` parses. -/
theorem parse_fn_empty_parameter_list_witness :
    (([⟨"IDENTIFIER", "x"⟩, ⟨"PUNCTUATION", ")"⟩] : List Token).head?
        ≠ some ⟨"PUNCTUATION", ")"⟩ ∧ parse [] = .ok []) ∧
    parse [⟨"KEYWORD", "fn"⟩, ⟨"IDENTIFIER", "f"⟩, ⟨"PUNCTUATION", "("⟩,
        ⟨"IDENTIFIER", "x"⟩, ⟨"PUNCTUATION", ")"⟩]
      = .error (.runtime_error "Expected PUNCTUATION ')' but got IDENTIFIER 'x'")
    ∧ parse [⟨"KEYWORD", "fn"⟩, ⟨"IDENTIFIER", "f"⟩, ⟨"PUNCTUATION", "("⟩,
        ⟨"PUNCTUATION", ")"⟩, ⟨"PUNCTUATION", "\x7b"⟩, ⟨"PUNCTUATION", "\x7d"⟩]
      = .ok [.FunctionDecl "f" []] :=
  ⟨⟨by decide, rfl⟩,
   parse_fn_empty_parameter_list "f" [⟨"IDENTIFIER", "x"⟩, ⟨"PUNCTUATION", ")"⟩] [] []
     (by decide) rfl⟩

end Bystep

namespace Bystep

open Grammar

theorem noOperatorAhead_of_head {rest : List Token}
    (h : ∀ t, rest.head? = some t → t.type ≠ "OPERATOR") : noOperatorAhead rest := by
  intro t r1 hr
  exact h t (by rw [hr]; rfl)

theorem parseReturnStatement_no_semicolon {p0 : Token} {ops : List (Token × Token)}
    (hc : isChain p0 ops) {rest : List Token}
    (hop : ∀ t, rest.head? = some t → t.type ≠ "OPERATOR")
    (hsemi : rest.head? ≠ some ⟨"PUNCTUATION", ";"⟩)
    {fuel : Nat} {tokens : List Token} {pos : Nat}
    (h : tokens.drop pos = ⟨"KEYWORD", "return"⟩ :: (chainTokens p0 ops ++ rest))
    (hf : ops.length < fuel) :
    parseReturnStatement fuel tokens pos
      = .error (.runtime_error (expectMessage "PUNCTUATION" ";" rest.head?)) := by
  have h1 := drop_succ_of_drop h
  have h2 := drop_add_of_drop_append _ _ h1
  have hE := parseExpression_chain h1 hc (noOperatorAhead_of_head hop) hf
  simp only [parseReturnStatement, expect_of_drop "KEYWORD" "return" h, hE,
    expect_of_drop_other "PUNCTUATION" ";" h2 hsemi]

theorem parseLetDecl_no_semicolon {name : String} {p0 : Token} {ops : List (Token × Token)}
    (hc : isChain p0 ops) {rest : List Token}
    (hop : ∀ t, rest.head? = some t → t.type ≠ "OPERATOR")
    (hsemi : rest.head? ≠ some ⟨"PUNCTUATION", ";"⟩)
    {fuel : Nat} {tokens : List Token} {pos : Nat}
    (h : tokens.drop pos = ⟨"KEYWORD", "let"⟩ :: ⟨"IDENTIFIER", name⟩ :: ⟨"OPERATOR", "="⟩ ::
      (chainTokens p0 ops ++ rest))
    (hf : ops.length < fuel) :
    parseLetDecl fuel tokens pos
      = .error (.runtime_error (expectMessage "PUNCTUATION" ";" rest.head?)) := by
  have h1 := drop_succ_of_drop h
  have h2 := drop_succ_of_drop h1
  have h3 := drop_succ_of_drop h2
  have h4 := drop_add_of_drop_append _ _ h3
  have hE := parseExpression_chain h3 hc (noOperatorAhead_of_head hop) hf
  have hmut : ((⟨"IDENTIFIER", name⟩ : Token).type == "KEYWORD"
      && (⟨"IDENTIFIER", name⟩ : Token).value == "mut") = false := by simp
  simp only [parseLetDecl, expect_of_drop "KEYWORD" "let" h, currentIs_of_drop h1, hmut]
  simp only [Bool.false_eq_true, if_false, currentHasType_of_drop h1, beq_self_eq_true,
    current_of_drop h1, advance_of_drop h1, expect_of_drop "OPERATOR" "=" h2, hE,
    expect_of_drop_other "PUNCTUATION" ";" h4 hsemi]

theorem parse_expression_then_semicolon {p0 : Token} {ops : List (Token × Token)}
    (hc : isChain p0 ops) :
    parse (chainTokens p0 ops ++ [⟨"PUNCTUATION", ";"⟩])
      = .error (.runtime_error "Unexpected token: PUNCTUATION ';'") := by
  have hl := chainTokens_length p0 ops
  generalize hts : chainTokens p0 ops ++ [(⟨"PUNCTUATION", ";"⟩ : Token)] = ts
  have hlen : ts.length = (chainTokens p0 ops).length + 1 := by rw [← hts]; simp
  have h : ts.drop 0 = chainTokens p0 ops ++ [(⟨"PUNCTUATION", ";"⟩ : Token)] := by
    rw [← hts]; rfl
  have h0 : ts.drop 0
      = p0 :: (ops.flatMap (fun q => [q.1, q.2]) ++ [(⟨"PUNCTUATION", ";"⟩ : Token)]) := by
    rw [← hts]; rfl
  have h1 := drop_add_of_drop_append _ _ h
  have hS : parseStatement (4 * ts.length + 3) ts 0 = _ :=
    parseStatement_chain h hc (noOperatorAhead_punct ";" []) (by omega)
  have hsemi : ((⟨"PUNCTUATION", ";"⟩ : Token).type == "KEYWORD") = false := by decide
  rw [parse_unfold, parseLoop_step h0, hS]
  simp only
  rw [show 4 * ts.length + 3 = (4 * ts.length + 1) + 1 + 1 from by omega,
    parseLoop_step h1, parseStatement, currentHasType_of_drop h1]
  simp only [hsemi, parseExpression, parsePrimary_of_drop_other h1 (by decide)]
  rfl

/-- C14. A bare expression statement neither requires nor consumes a trailing
semicolon: the tokens of a complete expression `e` parse to exactly one node, and `e`
followed by `;` fails with `Unexpected token: PUNCTUATION ';'`; whereas `return e` and
`let x = e` parse only when a `;` follows: followed by the end of the input or by any
token that is neither an operator nor `;`, they fail in `expect("PUNCTUATION", ";")`. -/
theorem parse_semicolon_policy (name : String) (p0 : Token) (ops : List (Token × Token))
    (rest : List Token) (hc : isChain p0 ops)
    (hop : ∀ t, rest.head? = some t → t.type ≠ "OPERATOR")
    (hsemi : rest.head? ≠ some ⟨"PUNCTUATION", ";"⟩) :
    parse (chainTokens p0 ops) = .ok [foldOps (primaryNode p0) ops]
    ∧ parse (chainTokens p0 ops ++ [⟨"PUNCTUATION", ";"⟩])
      = .error (.runtime_error "Unexpected token: PUNCTUATION ';'")
    ∧ parse (⟨"KEYWORD", "return"⟩ :: chainTokens p0 ops ++ [⟨"PUNCTUATION", ";"⟩])
      = .ok [.ReturnStatement (foldOps (primaryNode p0) ops)]
    ∧ parse (⟨"KEYWORD", "return"⟩ :: (chainTokens p0 ops ++ rest))
      = .error (.runtime_error (expectMessage "PUNCTUATION" ";" rest.head?))
    ∧ parse (⟨"KEYWORD", "let"⟩ :: ⟨"IDENTIFIER", name⟩ :: ⟨"OPERATOR", "="⟩ ::
        chainTokens p0 ops ++ [⟨"PUNCTUATION", ";"⟩])
      = .ok [.LetDecl name false (foldOps (primaryNode p0) ops)]
    ∧ parse (⟨"KEYWORD", "let"⟩ :: ⟨"IDENTIFIER", name⟩ :: ⟨"OPERATOR", "="⟩ ::
        (chainTokens p0 ops ++ rest))
      = .error (.runtime_error (expectMessage "PUNCTUATION" ";" rest.head?)) := by
  have he : Grammar.expression (chainTokens p0 ops) (foldOps (primaryNode p0) ops) :=
    expression_iff_chain.mpr ⟨p0, ops, hc, rfl, rfl⟩
  have hl := chainTokens_length p0 ops
  refine ⟨parse_of_program (program_single (Grammar.statement.expr _ _ he)),
    parse_expression_then_semicolon hc,
    parse_of_program (program_single (Grammar.statement.returnStmt _ _ he)), ?_,
    parse_of_program (program_single
      (Grammar.statement.letDecl ⟨"IDENTIFIER", name⟩ _ _ rfl he)), ?_⟩
  · have h : (⟨"KEYWORD", "return"⟩ :: (chainTokens p0 ops ++ rest)).drop 0
        = kw "return" :: (chainTokens p0 ops ++ rest) := rfl
    rw [parse_unfold, parseLoop_step h]
    simp only [List.length_cons, List.length_append]
    rw [show 4 * ((chainTokens p0 ops).length + rest.length + 1) + 3
        = (4 * ((chainTokens p0 ops).length + rest.length) + 6) + 1 from by omega,
      parseStatement_keyword h, if_neg (by decide), if_neg (by decide), if_neg (by decide),
      if_neg (by decide), if_pos rfl,
      parseReturnStatement_no_semicolon hc hop hsemi h (by omega)]
  · have h : (⟨"KEYWORD", "let"⟩ :: ⟨"IDENTIFIER", name⟩ :: ⟨"OPERATOR", "="⟩ ::
        (chainTokens p0 ops ++ rest)).drop 0
        = kw "let" :: (⟨"IDENTIFIER", name⟩ :: ⟨"OPERATOR", "="⟩ ::
          (chainTokens p0 ops ++ rest)) := rfl
    rw [parse_unfold, parseLoop_step h]
    simp only [List.length_cons, List.length_append]
    rw [show 4 * ((chainTokens p0 ops).length + rest.length + 1 + 1 + 1) + 3
        = (4 * ((chainTokens p0 ops).length + rest.length) + 14) + 1 from by omega,
      parseStatement_keyword h, if_pos rfl,
      parseLetDecl_no_semicolon hc hop hsemi h (by omega)]

/-- Witness of C14: the expression `1`, with the input ending after it. -/
theorem parse_semicolon_policy_witness :
    (isChain ⟨"NUMBER", "1"⟩ [] ∧
      (∀ t, ([] : List Token).head? = some t → t.type ≠ "OPERATOR") ∧
      ([] : List Token).head? ≠ some ⟨"PUNCTUATION", ";"⟩) ∧
    parse [⟨"NUMBER", "1"⟩] = .ok [.NumberLiteral "1"]
    ∧ parse [⟨"NUMBER", "1"⟩, ⟨"PUNCTUATION", ";"⟩]
      = .error (.runtime_error "Unexpected token: PUNCTUATION ';'")
    ∧ parse [⟨"KEYWORD", "return"⟩, ⟨"NUMBER", "1"⟩, ⟨"PUNCTUATION", ";"⟩]
      = .ok [.ReturnStatement (.NumberLiteral "1")]
    ∧ parse [⟨"KEYWORD", "return"⟩, ⟨"NUMBER", "1"⟩]
      = .error (.runtime_error "Expected PUNCTUATION ';' but reached end of input")
    ∧ parse [⟨"KEYWORD", "let"⟩, ⟨"IDENTIFIER", "x"⟩, ⟨"OPERATOR", "="⟩, ⟨"NUMBER", "1"⟩,
        ⟨"PUNCTUATION", ";"⟩]
      = .ok [.LetDecl "x" false (.NumberLiteral "1")]
    ∧ parse [⟨"KEYWORD", "let"⟩, ⟨"IDENTIFIER", "x"⟩, ⟨"OPERATOR", "="⟩, ⟨"NUMBER", "1"⟩]
      = .error (.runtime_error "Expected PUNCTUATION ';' but reached end of input") :=
  ⟨⟨by simp [isChain, isPrimaryToken], by simp, by simp⟩,
   parse_semicolon_policy "x" ⟨"NUMBER", "1"⟩ [] [] (by simp [isChain, isPrimaryToken])
     (by simp) (by simp)⟩

end Bystep

/-! ## Every failure of the parser is one of its own `throw` statements -/

namespace Bystep

theorem mem_of_drop {tokens : List Token} {pos : Nat} {t : Token} {r : List Token}
    (h : tokens.drop pos = t :: r) : t ∈ tokens :=
  List.mem_of_mem_drop (by rw [h]; exact List.mem_cons_self _ _)

theorem le_length_of_drop_cases {tokens : List Token} {pos : Nat} {t : Token}
    (h : tokens.drop pos = t :: tokens.drop (pos + 1)) : pos + 1 ≤ tokens.length :=
  lt_length_of_drop h

theorem expect_cases (tokens : List Token) (pos : Nat) (type value : String)
    (he : (type, value) ∈ expectedTerminals) :
    (expect tokens pos type value = .ok (pos + 1) ∧ pos < tokens.length) ∨
      ∃ e, expect tokens pos type value = .error e ∧ GoodFailure tokens e := by
  rcases drop_cases tokens pos with hd | ⟨t, hd⟩
  · exact Or.inr ⟨_, expect_of_drop_nil _ _ hd, _, rfl, ThrownMessage.expect_end _ _ he⟩
  · by_cases ht : t = ⟨type, value⟩
    · subst ht
      exact Or.inl ⟨expect_of_drop _ _ hd, lt_length_of_drop hd⟩
    · have hne : (tokens.drop pos).head? ≠ some ⟨type, value⟩ := by
        rw [hd]
        simpa using ht
      refine Or.inr ⟨_, expect_of_drop_other type value rfl hne, _, rfl, ?_⟩
      rw [hd]
      refine ThrownMessage.expect_got _ _ t he (mem_of_drop hd) ?_
      by_contra hc
      simp only [not_or, not_not] at hc
      apply ht
      obtain ⟨ty, v⟩ := t
      simp only at hc
      rw [hc.1, hc.2]

theorem parsePrimary_cases (tokens : List Token) (pos : Nat) :
    ((∃ a, parsePrimary tokens pos = .ok (a, pos + 1)) ∧ pos < tokens.length) ∨
      ∃ e, parsePrimary tokens pos = .error e ∧ GoodFailure tokens e := by
  rcases drop_cases tokens pos with hd | ⟨t, hd⟩
  · exact Or.inr ⟨_, parsePrimary_of_drop_nil hd, _, rfl, ThrownMessage.primary_end⟩
  · rcases hp : isPrimaryToken t with _ | _
    · exact Or.inr ⟨_, parsePrimary_of_drop_other hd hp, _, rfl,
        ThrownMessage.primary_got t (mem_of_drop hd) hp⟩
    · exact Or.inl ⟨⟨_, parsePrimary_of_drop hd hp⟩, lt_length_of_drop hd⟩

theorem parseExpressionLoop_advance (fuel : Nat) :
    ∀ (tokens : List Token) (pos : Nat) (left : ASTNode), pos ≤ tokens.length →
      tokens.length - pos < fuel →
      Advance tokens pos (parseExpressionLoop fuel tokens pos left) := by
  induction fuel with
  | zero => intro tokens pos left _ hf; omega
  | succ f ih =>
    intro tokens pos left hpos hf
    rw [parseExpressionLoop]
    rcases currentHasType_cases tokens pos "OPERATOR" with hc | ⟨hc, op, _, hd⟩
    · simp only [hc]
      exact ⟨le_rfl, hpos⟩
    · have hlt := lt_length_of_drop hd
      simp only [hc, current_of_drop hd, advance_of_drop hd]
      rcases parsePrimary_cases tokens (pos + 1) with ⟨⟨a, hP⟩, hlt1⟩ | ⟨e, hP, he⟩
      · simp only [hP]
        have := ih tokens (pos + 1 + 1) (.BinaryExpr op.value left a) (by omega) (by omega)
        revert this
        cases parseExpressionLoop f tokens (pos + 1 + 1) (.BinaryExpr op.value left a) with
        | error e => exact id
        | ok res =>
          obtain ⟨b, p⟩ := res
          intro h
          exact ⟨by have := h.1; omega, h.2⟩
      · simp only [hP]
        exact he

theorem parseExpression_progress (fuel : Nat) (tokens : List Token) (pos : Nat)
    (hf : tokens.length - pos ≤ fuel) :
    Progress tokens pos (parseExpression fuel tokens pos) := by
  rw [parseExpression]
  rcases parsePrimary_cases tokens pos with ⟨⟨a, hP⟩, hlt⟩ | ⟨e, hP, he⟩
  · simp only [hP]
    have := parseExpressionLoop_advance fuel tokens (pos + 1) a (by omega) (by omega)
    revert this
    cases parseExpressionLoop fuel tokens (pos + 1) a with
    | error e => exact id
    | ok res =>
      obtain ⟨b, p⟩ := res
      intro h
      exact ⟨by have := h.1; omega, h.2⟩
  · simp only [hP]
    exact he

/-- What a successful call tells about the cursor. -/
theorem Progress.of_ok {α : Type} {tokens : List Token} {pos : Nat}
    {r : Except Failure (α × Nat)} (h : Progress tokens pos r) {a : α} {pos1 : Nat}
    (hr : r = .ok (a, pos1)) : pos < pos1 ∧ pos1 ≤ tokens.length := by
  subst hr; exact h

theorem Progress.of_error {α : Type} {tokens : List Token} {pos : Nat}
    {r : Except Failure (α × Nat)} (h : Progress tokens pos r) {e : Failure}
    (hr : r = .error e) : GoodFailure tokens e := by
  subst hr; exact h

theorem Advance.ok_le {α : Type} {tokens : List Token} {pos : Nat}
    {r : Except Failure (α × Nat)} (h : Advance tokens pos r) {a : α} {pos1 : Nat}
    (hr : r = .ok (a, pos1)) : pos ≤ pos1 ∧ pos1 ≤ tokens.length := by
  subst hr; exact h

theorem Advance.error_good {α : Type} {tokens : List Token} {pos : Nat}
    {r : Except Failure (α × Nat)} (h : Advance tokens pos r) {e : Failure}
    (hr : r = .error e) : GoodFailure tokens e := by
  subst hr; exact h

theorem parseReturnStatement_progress (fuel : Nat) (tokens : List Token) (pos : Nat)
    (hf : tokens.length - pos ≤ fuel) :
    Progress tokens pos (parseReturnStatement fuel tokens pos) := by
  rw [parseReturnStatement]
  rcases expect_cases tokens pos "KEYWORD" "return" (by decide) with ⟨h1, _⟩ | ⟨e, h1, he⟩
  · simp only [h1]
    have hE := parseExpression_progress fuel tokens (pos + 1) (by omega)
    cases h2 : parseExpression fuel tokens (pos + 1) with
    | error e => exact hE.of_error h2
    | ok res =>
      obtain ⟨v, p2⟩ := res
      have hp := hE.of_ok h2
      simp only
      rcases expect_cases tokens p2 "PUNCTUATION" ";" (by decide) with
        ⟨h3, hlt⟩ | ⟨e, h3, he⟩
      · simp only [h3]
        exact ⟨by omega, by omega⟩
      · simp only [h3]
        exact he
  · simp only [h1]
    exact he

end Bystep

namespace Bystep

theorem parseLetDecl_progress (fuel : Nat) (tokens : List Token) (pos : Nat)
    (hf : tokens.length - pos ≤ fuel) :
    Progress tokens pos (parseLetDecl fuel tokens pos) := by
  -- the rest of the function, from the position `p2` after the optional `mut`
  have key : ∀ (isMut : Bool) (p2 : Nat), pos < p2 →
      @Progress ASTNode tokens pos
        (match currentHasType tokens p2 "IDENTIFIER" with
          | .error e => .error e
          | .ok false => .error (.runtime_error "Expected variable name after 'let'")
          | .ok true =>
            match current tokens p2 with
            | .error e => .error e
            | .ok nameTok =>
              match advance tokens p2 with
              | .error e => .error e
              | .ok (_, pos3) =>
                match expect tokens pos3 "OPERATOR" "=" with
                | .error e => .error e
                | .ok pos4 =>
                  match parseExpression fuel tokens pos4 with
                  | .error e => .error e
                  | .ok (value, pos5) =>
                    match expect tokens pos5 "PUNCTUATION" ";" with
                    | .error e => .error e
                    | .ok pos6 => .ok (.LetDecl nameTok.value isMut value, pos6)) := by
    intro isMut p2 hp2
    rcases currentHasType_cases tokens p2 "IDENTIFIER" with hc | ⟨hc, x, _, hdx⟩
    · simp only [hc]
      exact ⟨_, rfl, ThrownMessage.variable_name⟩
    · simp only [hc, current_of_drop hdx, advance_of_drop hdx]
      rcases expect_cases tokens (p2 + 1) "OPERATOR" "=" (by decide) with ⟨h2, _⟩ | ⟨e, h2, he⟩
      · simp only [h2]
        have hE := parseExpression_progress fuel tokens (p2 + 1 + 1) (by omega)
        cases h3 : parseExpression fuel tokens (p2 + 1 + 1) with
        | error e => exact hE.of_error h3
        | ok res =>
          obtain ⟨v, p5⟩ := res
          have hp := hE.of_ok h3
          simp only
          rcases expect_cases tokens p5 "PUNCTUATION" ";" (by decide) with
            ⟨h4, hlt⟩ | ⟨e, h4, he⟩
          · simp only [h4]
            exact ⟨by omega, by omega⟩
          · simp only [h4]
            exact he
      · simp only [h2]
        exact he
  rw [parseLetDecl]
  rcases expect_cases tokens pos "KEYWORD" "let" (by decide) with ⟨h1, _⟩ | ⟨e, h1, he⟩
  · simp only [h1]
    rcases currentIs_cases tokens (pos + 1) "KEYWORD" "mut" with hm | ⟨hm, hdm⟩
    · simp only [hm, Bool.false_eq_true, if_false]
      exact key false (pos + 1) (by omega)
    · simp only [hm, if_true, advance_of_drop hdm, Except.map]
      exact key true (pos + 1 + 1) (by omega)
  · simp only [h1]
    exact he

theorem progressBlock_succ {f : Nat} (hL : AdvanceBlockLoop f) : ProgressBlock (f + 1) := by
  intro tokens pos hpos hf
  rw [parseBlock]
  rcases expect_cases tokens pos "PUNCTUATION" "\x7b" (by decide) with ⟨h1, hlt⟩ | ⟨e, h1, he⟩
  · simp only [h1]
    have hA := hL tokens (pos + 1) [] (by omega) (by omega)
    cases h2 : parseBlockLoop f tokens (pos + 1) [] with
    | error e => exact hA.error_good h2
    | ok res =>
      obtain ⟨body, p2⟩ := res
      have hp := hA.ok_le h2
      simp only
      rcases expect_cases tokens p2 "PUNCTUATION" "\x7d" (by decide) with
        ⟨h3, hlt3⟩ | ⟨e, h3, he⟩
      · simp only [h3]
        exact ⟨by omega, by omega⟩
      · simp only [h3]
        exact he
  · simp only [h1]
    exact he

theorem progressFunctionDecl_succ {f : Nat} (hB : ProgressBlock f) :
    ProgressStatement (parseFunctionDecl (f + 1)) (f + 1) 1 := by
  intro tokens pos hpos hf
  rw [parseFunctionDecl]
  rcases expect_cases tokens pos "KEYWORD" "fn" (by decide) with ⟨h1, _⟩ | ⟨e, h1, he⟩
  · simp only [h1]
    rcases currentHasType_cases tokens (pos + 1) "IDENTIFIER" with hc | ⟨hc, x, _, hdx⟩
    · simp only [hc]
      exact ⟨_, rfl, ThrownMessage.function_name⟩
    · simp only [hc, current_of_drop hdx, advance_of_drop hdx]
      rcases expect_cases tokens (pos + 1 + 1) "PUNCTUATION" "(" (by decide) with
        ⟨h2, _⟩ | ⟨e, h2, he⟩
      · simp only [h2]
        rcases expect_cases tokens (pos + 1 + 1 + 1) "PUNCTUATION" ")" (by decide) with
          ⟨h3, hlt3⟩ | ⟨e, h3, he⟩
        · simp only [h3]
          have hP := hB tokens (pos + 1 + 1 + 1 + 1) (by omega) (by omega)
          cases h4 : parseBlock f tokens (pos + 1 + 1 + 1 + 1) with
          | error e => exact hP.of_error h4
          | ok res =>
            obtain ⟨body, p5⟩ := res
            have hp := hP.of_ok h4
            exact ⟨by omega, hp.2⟩
        · simp only [h3]
          exact he
      · simp only [h2]
        exact he
  · simp only [h1]
    exact he

theorem progressWhileStatement_succ {f : Nat} (hB : ProgressBlock f) :
    ProgressStatement (parseWhileStatement (f + 1)) (f + 1) 1 := by
  intro tokens pos hpos hf
  rw [parseWhileStatement]
  rcases expect_cases tokens pos "KEYWORD" "while" (by decide) with ⟨h1, _⟩ | ⟨e, h1, he⟩
  · simp only [h1]
    have hE := parseExpression_progress f tokens (pos + 1) (by omega)
    cases h2 : parseExpression f tokens (pos + 1) with
    | error e => exact hE.of_error h2
    | ok res =>
      obtain ⟨cond, p2⟩ := res
      have hp2 := hE.of_ok h2
      simp only
      have hP := hB tokens p2 hp2.2 (by omega)
      cases h3 : parseBlock f tokens p2 with
      | error e => exact hP.of_error h3
      | ok res =>
        obtain ⟨body, p3⟩ := res
        have hp3 := hP.of_ok h3
        exact ⟨by omega, hp3.2⟩
  · simp only [h1]
    exact he

theorem progressIfStatement_succ {f : Nat} (hB : ProgressBlock f) :
    ProgressStatement (parseIfStatement (f + 1)) (f + 1) 1 := by
  intro tokens pos hpos hf
  rw [parseIfStatement]
  rcases expect_cases tokens pos "KEYWORD" "if" (by decide) with ⟨h1, _⟩ | ⟨e, h1, he⟩
  · simp only [h1]
    have hE := parseExpression_progress f tokens (pos + 1) (by omega)
    cases h2 : parseExpression f tokens (pos + 1) with
    | error e => exact hE.of_error h2
    | ok res =>
      obtain ⟨cond, p2⟩ := res
      have hp2 := hE.of_ok h2
      simp only
      have hP := hB tokens p2 hp2.2 (by omega)
      cases h3 : parseBlock f tokens p2 with
      | error e => exact hP.of_error h3
      | ok res =>
        obtain ⟨thenBody, p3⟩ := res
        have hp3 := hP.of_ok h3
        simp only
        rcases currentIs_cases tokens p3 "KEYWORD" "else" with hel | ⟨hel, hde⟩
        · simp only [hel]
          exact ⟨by omega, hp3.2⟩
        · simp only [hel, advance_of_drop hde]
          have hlt := lt_length_of_drop hde
          have hP2 := hB tokens (p3 + 1) (by omega) (by omega)
          cases h4 : parseBlock f tokens (p3 + 1) with
          | error e => exact hP2.of_error h4
          | ok res =>
            obtain ⟨elseBody, p5⟩ := res
            have hp5 := hP2.of_ok h4
            exact ⟨by omega, hp5.2⟩
  · simp only [h1]
    exact he

theorem progressStatement_succ {f : Nat}
    (hF : ProgressStatement (parseFunctionDecl f) f 1)
    (hI : ProgressStatement (parseIfStatement f) f 1)
    (hW : ProgressStatement (parseWhileStatement f) f 1) :
    ProgressStatement (parseStatement (f + 1)) (f + 1) 0 := by
  intro tokens pos hpos hf
  have hE := parseExpression_progress f tokens pos (by omega)
  rw [parseStatement]
  rcases currentHasType_cases tokens pos "KEYWORD" with hc | ⟨hc, t, _, hd⟩
  · simp only [hc]
    exact hE
  · simp only [hc, current_of_drop hd]
    split_ifs
    · exact parseLetDecl_progress f tokens pos (by omega)
    · exact hF tokens pos hpos (by omega)
    · exact hI tokens pos hpos (by omega)
    · exact hW tokens pos hpos (by omega)
    · exact parseReturnStatement_progress f tokens pos (by omega)
    · exact hE

theorem advanceBlockLoop_succ {f : Nat} (hS : ProgressStatement (parseStatement f) f 0)
    (hL : AdvanceBlockLoop f) : AdvanceBlockLoop (f + 1) := by
  intro tokens pos body hpos hf
  rw [parseBlockLoop]
  rcases drop_cases tokens pos with hd | ⟨t, hd⟩
  · simp only [blockContinues_of_drop_nil hd]
    exact ⟨le_rfl, hpos⟩
  · have hlt := lt_length_of_drop hd
    rw [blockContinues_of_drop hd]
    cases (!(t.type == "PUNCTUATION" && t.value == "\x7d")) with
    | false => exact ⟨le_rfl, hpos⟩
    | true =>
      simp only
      have hP := hS tokens pos hlt (by omega)
      cases h1 : parseStatement f tokens pos with
      | error e => exact hP.of_error h1
      | ok res =>
        obtain ⟨stmt, p1⟩ := res
        have hp1 := hP.of_ok h1
        simp only
        have hA := hL tokens p1 (body ++ [stmt]) hp1.2 (by omega)
        cases h2 : parseBlockLoop f tokens p1 (body ++ [stmt]) with
        | error e => exact hA.error_good h2
        | ok res =>
          obtain ⟨body2, p2⟩ := res
          have hp2 := hA.ok_le h2
          exact ⟨by omega, hp2.2⟩

/-- With enough fuel for the tokens that are left, each of the six mutually recursive
parsers returns a value or throws one of the parser's own errors. -/
theorem progress_all (f : Nat) :
    ProgressStatement (parseStatement f) f 0 ∧ AdvanceBlockLoop f ∧ ProgressBlock f ∧
      ProgressStatement (parseFunctionDecl f) f 1 ∧
      ProgressStatement (parseIfStatement f) f 1 ∧
      ProgressStatement (parseWhileStatement f) f 1 := by
  induction f with
  | zero =>
    refine ⟨?_, ?_, ?_, ?_, ?_, ?_⟩
    · intro tokens pos hpos hf; omega
    · intro tokens pos body hpos hf; omega
    · intro tokens pos hpos hf; omega
    · intro tokens pos hpos hf; omega
    · intro tokens pos hpos hf; omega
    · intro tokens pos hpos hf; omega
  | succ f ih =>
    obtain ⟨hS, hL, hB, hF, hI, hW⟩ := ih
    exact ⟨progressStatement_succ hF hI hW, advanceBlockLoop_succ hS hL,
      progressBlock_succ hL, progressFunctionDecl_succ hB, progressIfStatement_succ hB,
      progressWhileStatement_succ hB⟩

theorem parseLoop_failure (fuel : Nat) :
    ∀ (tokens : List Token) (pos : Nat) (program : List ASTNode) (e : Failure),
      pos ≤ tokens.length → 4 * (tokens.length - pos) + 1 ≤ fuel →
      parseLoop fuel tokens pos program = .error e → GoodFailure tokens e := by
  induction fuel with
  | zero => intro tokens pos program e _ hf; omega
  | succ f ih =>
    intro tokens pos program e hpos hf h
    rcases drop_cases tokens pos with hd | ⟨t, hd⟩
    · rw [parseLoop_atEnd program hd (by omega)] at h
      cases h
    · have hlt := lt_length_of_drop hd
      rw [parseLoop_step hd] at h
      have hP := (progress_all f).1 tokens pos hlt (by omega)
      cases h1 : parseStatement f tokens pos with
      | error e1 =>
        rw [h1] at h
        cases h
        exact hP.of_error h1
      | ok res =>
        obtain ⟨stmt, p1⟩ := res
        have hp1 := hP.of_ok h1
        rw [h1] at h
        exact ih tokens p1 _ e hp1.2 (by omega) h

/-- Every failure of `parse` is a `std::runtime_error` thrown by one of the `throw`
statements of the parser: the fuel never runs out and no read is out of range. -/
theorem parse_failure {tokens : List Token} {e : Failure} (h : parse tokens = .error e) :
    GoodFailure tokens e :=
  parseLoop_failure _ tokens 0 [] e (Nat.zero_le _) (by omega) h

end Bystep

/-! ## The cursor of a failure -/

namespace Bystep

/-! ## The token at the cursor -/

theorem getElem?_of_drop_nil {tokens : List Token} {pos : Nat} (h : tokens.drop pos = []) :
    tokens[pos]? = none := by
  have := List.drop_eq_nil_iff.mp h
  exact List.getElem?_eq_none this

theorem drop_of_getElem? {tokens : List Token} {pos : Nat} {t : Token}
    (h : tokens[pos]? = some t) : tokens.drop pos = t :: tokens.drop (pos + 1) := by
  rcases drop_cases tokens pos with hd | ⟨x, hd⟩
  · rw [getElem?_of_drop_nil hd] at h
    cases h
  · rw [getElem?_of_drop hd] at h
    cases h
    exact hd

theorem getElem?_of_take {tokens tokens1 : List Token} {k pos : Nat}
    (h : List.take k tokens1 = tokens.take k) (hlt : pos < k) : tokens1[pos]? = tokens[pos]? := by
  have h1 : (List.take k tokens1)[pos]? = (tokens.take k)[pos]? := by rw [h]
  rw [List.getElem?_take_of_lt hlt, List.getElem?_take_of_lt hlt] at h1
  exact h1

theorem take_of_take {tokens tokens1 : List Token} {k j : Nat}
    (h : List.take k tokens1 = tokens.take k) (hle : j ≤ k) :
    List.take j tokens1 = tokens.take j := by
  have h1 : List.take j (List.take k tokens1) = List.take j (tokens.take k) := by rw [h]
  rw [List.take_take, List.take_take, Nat.min_eq_left hle] at h1
  exact h1

/-- What the utility methods return depends on the token at the cursor only. -/
theorem atEnd_eq (tokens : List Token) (pos : Nat) :
    atEnd tokens pos = tokens[pos]?.isNone := by
  rcases drop_cases tokens pos with hd | ⟨x, hd⟩
  · rw [atEnd_of_drop_nil hd, getElem?_of_drop_nil hd]; rfl
  · rw [atEnd_of_drop hd, getElem?_of_drop hd]; rfl

theorem atEnd_of_take {tokens tokens1 : List Token} {k : Nat}
    (h : List.take k tokens1 = tokens.take k) (pos : Nat) (hlt : pos < k) :
    atEnd tokens1 pos = atEnd tokens pos := by
  rw [atEnd_eq, atEnd_eq, getElem?_of_take h hlt]

theorem current_of_take {tokens tokens1 : List Token} {k : Nat}
    (h : List.take k tokens1 = tokens.take k) (pos : Nat) (hlt : pos < k) :
    current tokens1 pos = current tokens pos := by
  rw [current, current, getElem?_of_take h hlt]

theorem advance_of_take {tokens tokens1 : List Token} {k : Nat}
    (h : List.take k tokens1 = tokens.take k) (pos : Nat) (hlt : pos < k) :
    advance tokens1 pos = advance tokens pos := by
  rw [advance, advance, getElem?_of_take h hlt]

theorem expect_of_take {tokens tokens1 : List Token} {k : Nat}
    (h : List.take k tokens1 = tokens.take k) (pos : Nat) (hlt : pos < k) (type value : String) :
    expect tokens1 pos type value = expect tokens pos type value := by
  rw [expect, expect, atEnd_of_take h pos hlt, current_of_take h pos hlt, advance_of_take h pos hlt]

theorem parsePrimary_of_take {tokens tokens1 : List Token} {k : Nat}
    (h : List.take k tokens1 = tokens.take k) (pos : Nat) (hlt : pos < k) :
    parsePrimary tokens1 pos = parsePrimary tokens pos := by
  rw [parsePrimary, parsePrimary, atEnd_of_take h pos hlt, current_of_take h pos hlt,
    advance_of_take h pos hlt]

theorem currentHasType_of_take {tokens tokens1 : List Token} {k : Nat}
    (h : List.take k tokens1 = tokens.take k) (pos : Nat) (hlt : pos < k) (type : String) :
    currentHasType tokens1 pos type = currentHasType tokens pos type := by
  rw [currentHasType, currentHasType, atEnd_of_take h pos hlt, current_of_take h pos hlt]

theorem currentIs_of_take {tokens tokens1 : List Token} {k : Nat}
    (h : List.take k tokens1 = tokens.take k) (pos : Nat) (hlt : pos < k) (type value : String) :
    currentIs tokens1 pos type value = currentIs tokens pos type value := by
  rw [currentIs, currentIs, atEnd_of_take h pos hlt, current_of_take h pos hlt]

theorem blockContinues_of_take {tokens tokens1 : List Token} {k : Nat}
    (h : List.take k tokens1 = tokens.take k) (pos : Nat) (hlt : pos < k) :
    blockContinues tokens1 pos = blockContinues tokens pos := by
  rw [blockContinues, blockContinues, atEnd_of_take h pos hlt, current_of_take h pos hlt]

/-! ## Failures of `expect` and `parsePrimary` -/

theorem expect_split (tokens : List Token) (pos : Nat) (type value : String)
    (he : (type, value) ∈ expectedTerminals) :
    (expect tokens pos type value = .ok (pos + 1) ∧ pos < tokens.length ∧
        tokens[pos]? = some ⟨type, value⟩) ∨
      ∃ msg, expect tokens pos type value = .error (.runtime_error msg) ∧
        ThrownAt tokens pos (.runtime_error msg) := by
  rcases drop_cases tokens pos with hd | ⟨x, hd⟩
  · exact Or.inr ⟨_, expect_of_drop_nil _ _ hd,
      ThrownAt.expect type value he (expect_of_drop_nil _ _ hd)⟩
  · by_cases h : x = ⟨type, value⟩
    · subst h
      exact Or.inl ⟨expect_of_drop _ _ hd, lt_length_of_drop hd, getElem?_of_drop hd⟩
    · have h1 := expect_of_drop_other type value hd (by simpa using h)
      exact Or.inr ⟨_, h1, ThrownAt.expect type value he h1⟩

theorem parsePrimary_split (tokens : List Token) (pos : Nat) :
    ((∃ a, parsePrimary tokens pos = .ok (a, pos + 1)) ∧ pos < tokens.length) ∨
      ∃ msg, parsePrimary tokens pos = .error (.runtime_error msg) ∧
        ThrownAt tokens pos (.runtime_error msg) := by
  rcases drop_cases tokens pos with hd | ⟨t, hd⟩
  · exact Or.inr ⟨_, parsePrimary_of_drop_nil hd, ThrownAt.primary (parsePrimary_of_drop_nil hd)⟩
  · rcases hp : isPrimaryToken t with _ | _
    · exact Or.inr ⟨_, parsePrimary_of_drop_other hd hp,
        ThrownAt.primary (parsePrimary_of_drop_other hd hp)⟩
    · exact Or.inl ⟨⟨_, parsePrimary_of_drop hd hp⟩, lt_length_of_drop hd⟩

/-! ## Calls determined by the tokens read -/

theorem Determined.intro_ok {α : Type} {run : Nat → List Token → Except Failure (α × Nat)}
    {fuel : Nat} {tokens : List Token} {pos : Nat} (a : α) (pos1 : Nat)
    (hle : pos ≤ pos1) (hlen : pos1 ≤ tokens.length)
    (hloc : ∀ fuel1 tokens1, fuel ≤ fuel1 →
      List.take (pos1 + 1) tokens1 = tokens.take (pos1 + 1) → run fuel1 tokens1 = .ok (a, pos1)) :
    Determined run fuel tokens pos := by
  have h := hloc fuel tokens le_rfl rfl
  unfold Determined
  rw [h]
  exact ⟨hle, hlen, hloc⟩

theorem Determined.intro_thrown {α : Type} {run : Nat → List Token → Except Failure (α × Nat)}
    {fuel : Nat} {tokens : List Token} {pos : Nat} {msg : String} (q : Nat)
    (hle : pos ≤ q) (hlen : q ≤ tokens.length) (hT : ThrownAt tokens q (.runtime_error msg))
    (hloc : ∀ fuel1 tokens1, fuel ≤ fuel1 →
      List.take (q + 1) tokens1 = tokens.take (q + 1) →
      run fuel1 tokens1 = .error (.runtime_error msg)) :
    Determined run fuel tokens pos := by
  have h := hloc fuel tokens le_rfl rfl
  unfold Determined
  rw [h]
  exact ⟨q, hle, hlen, hT, hloc⟩

theorem Determined.intro_range {α : Type} {run : Nat → List Token → Except Failure (α × Nat)}
    {fuel : Nat} {tokens : List Token} {pos : Nat}
    (h : run fuel tokens = .error .out_of_range) : Determined run fuel tokens pos := by
  unfold Determined
  rw [h]
  trivial

theorem Determined.intro_fuel {α : Type} {run : Nat → List Token → Except Failure (α × Nat)}
    {fuel : Nat} {tokens : List Token} {pos : Nat}
    (h : run fuel tokens = .error .out_of_fuel) : Determined run fuel tokens pos := by
  unfold Determined
  rw [h]
  trivial

theorem Determined.elim_ok {α : Type} {run : Nat → List Token → Except Failure (α × Nat)}
    {fuel : Nat} {tokens : List Token} {pos : Nat} {a : α} {pos1 : Nat}
    (hD : Determined run fuel tokens pos) (h : run fuel tokens = .ok (a, pos1)) :
    pos ≤ pos1 ∧ pos1 ≤ tokens.length ∧
      ∀ fuel1 tokens1, fuel ≤ fuel1 →
        List.take (pos1 + 1) tokens1 = tokens.take (pos1 + 1) → run fuel1 tokens1 = .ok (a, pos1) := by
  unfold Determined at hD
  rw [h] at hD
  exact hD

theorem Determined.elim_thrown {α : Type}
    {run : Nat → List Token → Except Failure (α × Nat)}
    {fuel : Nat} {tokens : List Token} {pos : Nat} {msg : String}
    (hD : Determined run fuel tokens pos) (h : run fuel tokens = .error (.runtime_error msg)) :
    ∃ q, pos ≤ q ∧ q ≤ tokens.length ∧ ThrownAt tokens q (.runtime_error msg) ∧
      ∀ fuel1 tokens1, fuel ≤ fuel1 → List.take (q + 1) tokens1 = tokens.take (q + 1) →
        run fuel1 tokens1 = .error (.runtime_error msg) := by
  unfold Determined at hD
  rw [h] at hD
  exact hD

/-- A call that ends with a call of `run2` from the cursor `pos2`, and returns what
that call returns, is determined if `run2` is. -/
theorem Determined.lift {α : Type} {run run2 : Nat → List Token → Except Failure (α × Nat)}
    {fuel fuel2 : Nat} {tokens : List Token} {pos pos2 : Nat}
    (hD : Determined run2 fuel2 tokens pos2) (hle : pos ≤ pos2)
    (h0 : run fuel tokens = run2 fuel2 tokens)
    (h : ∀ fuel1 tokens1, fuel ≤ fuel1 →
      List.take (pos2 + 1) tokens1 = tokens.take (pos2 + 1) →
      ∃ fuel3, fuel2 ≤ fuel3 ∧ run fuel1 tokens1 = run2 fuel3 tokens1) :
    Determined run fuel tokens pos := by
  cases hr : run2 fuel2 tokens with
  | error e =>
    cases e with
    | runtime_error msg =>
      obtain ⟨q, hq, hlen, hT, hloc⟩ := hD.elim_thrown hr
      refine Determined.intro_thrown q (by omega) hlen hT ?_
      intro fuel1 tokens1 hf hag
      obtain ⟨fuel3, hf3, h3⟩ := h fuel1 tokens1 hf (take_of_take hag (by omega))
      rw [h3]
      exact hloc fuel3 tokens1 hf3 hag
    | out_of_range => exact Determined.intro_range (h0.trans hr)
    | out_of_fuel => exact Determined.intro_fuel (h0.trans hr)
  | ok res =>
    obtain ⟨a, p1⟩ := res
    obtain ⟨hp, hlen, hloc⟩ := hD.elim_ok hr
    refine Determined.intro_ok a p1 (by omega) hlen ?_
    intro fuel1 tokens1 hf hag
    obtain ⟨fuel3, hf3, h3⟩ := h fuel1 tokens1 hf (take_of_take hag (by omega))
    rw [h3]
    exact hloc fuel3 tokens1 hf3 hag

theorem parsePrimary_determined (fuel : Nat) (tokens : List Token) (pos : Nat)
    (hpos : pos ≤ tokens.length) :
    Determined (fun _ ts => parsePrimary ts pos) fuel tokens pos := by
  rcases parsePrimary_split tokens pos with ⟨⟨a, hp⟩, hlt⟩ | ⟨msg, hp, hT⟩
  · refine Determined.intro_ok a (pos + 1) (by omega) (by omega) ?_
    intro fuel1 tokens1 _ hag
    show parsePrimary tokens1 pos = _
    rw [parsePrimary_of_take hag pos (by omega), hp]
  · refine Determined.intro_thrown pos le_rfl hpos hT ?_
    intro fuel1 tokens1 _ hag
    show parsePrimary tokens1 pos = _
    rw [parsePrimary_of_take hag pos (by omega), hp]

theorem parseExpressionLoop_determined (fuel : Nat) :
    ∀ (tokens : List Token) (pos : Nat) (left : ASTNode), pos ≤ tokens.length →
      Determined (fun f ts => parseExpressionLoop f ts pos left) fuel tokens pos := by
  induction fuel with
  | zero =>
    intro tokens pos left _
    exact Determined.intro_fuel rfl
  | succ f ih =>
    intro tokens pos left hpos
    rcases currentHasType_cases tokens pos "OPERATOR" with hc | ⟨hc, t, _, hd⟩
    · refine Determined.intro_ok left pos le_rfl hpos ?_
      intro fuel1 tokens1 hf hag
      obtain ⟨f1, rfl⟩ : ∃ f1, fuel1 = f1 + 1 := ⟨fuel1 - 1, by omega⟩
      simp only [parseExpressionLoop, currentHasType_of_take hag pos (by omega), hc]
    · have hlt := lt_length_of_drop hd
      have hcur := current_of_drop hd
      have hadv := advance_of_drop hd
      rcases parsePrimary_split tokens (pos + 1) with ⟨⟨a, hp⟩, hlt2⟩ | ⟨msg, hp, hT⟩
      · refine Determined.lift (ih tokens (pos + 1 + 1) (.BinaryExpr t.value left a) (by omega))
          (by omega) ?_ ?_
        · simp only [parseExpressionLoop, hc, hcur, hadv, hp]
        · intro fuel1 tokens1 hf hag
          obtain ⟨f1, rfl⟩ : ∃ f1, fuel1 = f1 + 1 := ⟨fuel1 - 1, by omega⟩
          refine ⟨f1, by omega, ?_⟩
          simp only [parseExpressionLoop, currentHasType_of_take hag pos (by omega), hc,
            current_of_take hag pos (by omega), hcur, advance_of_take hag pos (by omega), hadv,
            parsePrimary_of_take hag (pos + 1) (by omega), hp]
      · refine Determined.intro_thrown (pos + 1) (by omega) (by omega) hT ?_
        intro fuel1 tokens1 hf hag
        obtain ⟨f1, rfl⟩ : ∃ f1, fuel1 = f1 + 1 := ⟨fuel1 - 1, by omega⟩
        simp only [parseExpressionLoop, currentHasType_of_take hag pos (by omega), hc,
          current_of_take hag pos (by omega), hcur, advance_of_take hag pos (by omega), hadv,
          parsePrimary_of_take hag (pos + 1) (by omega), hp]

theorem parseExpression_determined (fuel : Nat) (tokens : List Token) (pos : Nat)
    (hpos : pos ≤ tokens.length) :
    Determined (fun f ts => parseExpression f ts pos) fuel tokens pos := by
  rcases parsePrimary_split tokens pos with ⟨⟨a, hp⟩, hlt⟩ | ⟨msg, hp, hT⟩
  · refine Determined.lift (parseExpressionLoop_determined fuel tokens (pos + 1) a (by omega))
      (by omega) ?_ ?_
    · simp only [parseExpression, hp]
    · intro fuel1 tokens1 hf hag
      refine ⟨fuel1, hf, ?_⟩
      simp only [parseExpression, parsePrimary_of_take hag pos (by omega), hp]
  · refine Determined.intro_thrown pos le_rfl hpos hT ?_
    intro fuel1 tokens1 hf hag
    simp only [parseExpression, parsePrimary_of_take hag pos (by omega), hp]

theorem not_type_of_currentHasType {tokens : List Token} {pos : Nat} {type : String}
    (h : currentHasType tokens pos type = .ok false) :
    ∀ tok, tokens[pos]? = some tok → tok.type ≠ type := by
  intro tok htok heq
  rw [currentHasType_of_drop (drop_of_getElem? htok), heq] at h
  simp at h

theorem not_token_of_currentIs {tokens : List Token} {pos : Nat} {type value : String}
    (h : currentIs tokens pos type value = .ok false) :
    tokens[pos]? ≠ some ⟨type, value⟩ := by
  intro htok
  rw [currentIs_of_drop (drop_of_getElem? htok)] at h
  simp at h

/-- The variable-name check of `parseLetDecl` throws its fixed text when no IDENTIFIER
stands after `let`, or after `let mut`. -/
theorem parseLetDecl_name_check (fuel : Nat) (tokens : List Token) (p q : Nat)
    (hlet : tokens[p]? = some ⟨"KEYWORD", "let"⟩)
    (hq : (q = p + 1 ∧ tokens[p + 1]? ≠ some ⟨"KEYWORD", "mut"⟩) ∨
      (q = p + 2 ∧ tokens[p + 1]? = some ⟨"KEYWORD", "mut"⟩))
    (hno : ∀ tok, tokens[q]? = some tok → tok.type ≠ "IDENTIFIER") :
    parseLetDecl fuel tokens p = .error (.runtime_error "Expected variable name after 'let'") := by
  have h1 := expect_of_drop "KEYWORD" "let" (drop_of_getElem? hlet)
  have hc : currentHasType tokens q "IDENTIFIER" = .ok false := by
    rcases currentHasType_cases tokens q "IDENTIFIER" with hc | ⟨_, t, ht, hd⟩
    · exact hc
    · exact absurd ht (hno t (getElem?_of_drop hd))
  rcases hq with ⟨rfl, hnm⟩ | ⟨rfl, hm⟩
  · have hm : currentIs tokens (p + 1) "KEYWORD" "mut" = .ok false := by
      rcases currentIs_cases tokens (p + 1) "KEYWORD" "mut" with hm | ⟨_, hd⟩
      · exact hm
      · exact absurd (getElem?_of_drop hd) hnm
    simp only [parseLetDecl, h1, hm, Bool.false_eq_true, if_false, hc]
  · have hd := drop_of_getElem? hm
    have hm1 : currentIs tokens (p + 1) "KEYWORD" "mut" = .ok true := by
      rw [currentIs_of_drop hd]
      rfl
    simp only [parseLetDecl, h1, hm1, if_true, advance_of_drop hd, Except.map, hc]

/-- The function-name check of `parseFunctionDecl` throws its fixed text when no
IDENTIFIER stands after `fn`. -/
theorem parseFunctionDecl_name_check (fuel : Nat) (tokens : List Token) (p : Nat)
    (hfn : tokens[p]? = some ⟨"KEYWORD", "fn"⟩)
    (hno : ∀ tok, tokens[p + 1]? = some tok → tok.type ≠ "IDENTIFIER") :
    parseFunctionDecl (fuel + 1) tokens p
      = .error (.runtime_error "Expected function name after 'fn'") := by
  have h1 := expect_of_drop "KEYWORD" "fn" (drop_of_getElem? hfn)
  have hc : currentHasType tokens (p + 1) "IDENTIFIER" = .ok false := by
    rcases currentHasType_cases tokens (p + 1) "IDENTIFIER" with hc | ⟨_, t, ht, hd⟩
    · exact hc
    · exact absurd ht (hno t (getElem?_of_drop hd))
  simp only [parseFunctionDecl, h1, hc]

theorem parseReturnStatement_determined (fuel : Nat) (tokens : List Token) (pos : Nat)
    (hpos : pos ≤ tokens.length) :
    Determined (fun f ts => parseReturnStatement f ts pos) fuel tokens pos := by
  rcases expect_split tokens pos "KEYWORD" "return" (by decide) with
    ⟨h1, hlt, _⟩ | ⟨msg, h1, hT⟩
  · have hE := parseExpression_determined fuel tokens (pos + 1) (by omega)
    cases h2 : parseExpression fuel tokens (pos + 1) with
    | error e =>
      cases e with
      | runtime_error msg =>
        obtain ⟨q, hq, hlen, hT, hloc⟩ := hE.elim_thrown h2
        refine Determined.intro_thrown q (by omega) hlen hT ?_
        intro fuel1 tokens1 hf hag
        have h2a := hloc fuel1 tokens1 hf hag
        simp only at h2a
        simp only [parseReturnStatement, expect_of_take hag pos (by omega), h1, h2a]
      | out_of_range =>
        exact Determined.intro_range (by simp only [parseReturnStatement, h1, h2])
      | out_of_fuel =>
        exact Determined.intro_fuel (by simp only [parseReturnStatement, h1, h2])
    | ok res =>
      obtain ⟨v, p2⟩ := res
      obtain ⟨hp, hlen, hloc⟩ := hE.elim_ok h2
      rcases expect_split tokens p2 "PUNCTUATION" ";" (by decide) with
        ⟨h3, hlt3, _⟩ | ⟨msg, h3, hT⟩
      · refine Determined.intro_ok (.ReturnStatement v) (p2 + 1) (by omega) (by omega) ?_
        intro fuel1 tokens1 hf hag
        have h2a := hloc fuel1 tokens1 hf (take_of_take hag (by omega))
        simp only at h2a
        simp only [parseReturnStatement, expect_of_take hag pos (by omega), h1, h2a,
          expect_of_take hag p2 (by omega), h3]
      · refine Determined.intro_thrown p2 (by omega) hlen hT ?_
        intro fuel1 tokens1 hf hag
        have h2a := hloc fuel1 tokens1 hf hag
        simp only at h2a
        simp only [parseReturnStatement, expect_of_take hag pos (by omega), h1, h2a,
          expect_of_take hag p2 (by omega), h3]
  · refine Determined.intro_thrown pos le_rfl hpos hT ?_
    intro fuel1 tokens1 hf hag
    simp only [parseReturnStatement, expect_of_take hag pos (by omega), h1]

theorem parseLetDecl_determined (fuel : Nat) (tokens : List Token) (pos : Nat)
    (hpos : pos ≤ tokens.length) :
    Determined (fun f ts => parseLetDecl f ts pos) fuel tokens pos := by
  rcases expect_split tokens pos "KEYWORD" "let" (by decide) with
    ⟨h1, hlt, hlet⟩ | ⟨msg, h1, hT⟩
  · -- the rest of the function, from the position `p2` after the optional `mut`
    have key : ∀ (isMut : Bool) (p2 : Nat), pos < p2 → p2 ≤ tokens.length →
        ((p2 = pos + 1 ∧ tokens[pos + 1]? ≠ some ⟨"KEYWORD", "mut"⟩) ∨
          (p2 = pos + 2 ∧ tokens[pos + 1]? = some ⟨"KEYWORD", "mut"⟩)) →
        Determined
          (fun f ts =>
            match currentHasType ts p2 "IDENTIFIER" with
            | .error e => .error e
            | .ok false => .error (.runtime_error "Expected variable name after 'let'")
            | .ok true =>
              match current ts p2 with
              | .error e => .error e
              | .ok nameTok =>
                match advance ts p2 with
                | .error e => .error e
                | .ok (_, pos3) =>
                  match expect ts pos3 "OPERATOR" "=" with
                  | .error e => .error e
                  | .ok pos4 =>
                    match parseExpression f ts pos4 with
                    | .error e => .error e
                    | .ok (value, pos5) =>
                      match expect ts pos5 "PUNCTUATION" ";" with
                      | .error e => .error e
                      | .ok pos6 => .ok (ASTNode.LetDecl nameTok.value isMut value, pos6))
          fuel tokens p2 := by
      intro isMut p2 hp2 hlen2 hq
      rcases currentHasType_cases tokens p2 "IDENTIFIER" with hc | ⟨hc, x, _, hdx⟩
      · refine Determined.intro_thrown p2 le_rfl hlen2
          (ThrownAt.variable_name fuel pos hlet hq (not_type_of_currentHasType hc)
            (parseLetDecl_name_check fuel tokens pos p2 hlet hq (not_type_of_currentHasType hc))) ?_
        intro fuel1 tokens1 hf hag
        simp only [currentHasType_of_take hag p2 (by omega), hc]
      · have hltx := lt_length_of_drop hdx
        have hcur := current_of_drop hdx
        have hadv := advance_of_drop hdx
        rcases expect_split tokens (p2 + 1) "OPERATOR" "=" (by decide) with
          ⟨h2, hlt2, _⟩ | ⟨msg, h2, hT⟩
        · have hE := parseExpression_determined fuel tokens (p2 + 1 + 1) (by omega)
          cases h3 : parseExpression fuel tokens (p2 + 1 + 1) with
          | error e =>
            cases e with
            | runtime_error msg =>
              obtain ⟨q, hq, hlen, hT, hloc⟩ := hE.elim_thrown h3
              refine Determined.intro_thrown q (by omega) hlen hT ?_
              intro fuel1 tokens1 hf hag
              have h3a := hloc fuel1 tokens1 hf hag
              simp only at h3a
              simp only [currentHasType_of_take hag p2 (by omega), hc,
                current_of_take hag p2 (by omega), hcur, advance_of_take hag p2 (by omega), hadv,
                expect_of_take hag (p2 + 1) (by omega), h2, h3a]
            | out_of_range =>
              exact Determined.intro_range (by simp only [hc, hcur, hadv, h2, h3])
            | out_of_fuel =>
              exact Determined.intro_fuel (by simp only [hc, hcur, hadv, h2, h3])
          | ok res =>
            obtain ⟨v, p5⟩ := res
            obtain ⟨hp, hlen, hloc⟩ := hE.elim_ok h3
            rcases expect_split tokens p5 "PUNCTUATION" ";" (by decide) with
              ⟨h4, hlt4, _⟩ | ⟨msg, h4, hT⟩
            · refine Determined.intro_ok (.LetDecl x.value isMut v) (p5 + 1) (by omega)
                (by omega) ?_
              intro fuel1 tokens1 hf hag
              have h3a := hloc fuel1 tokens1 hf (take_of_take hag (by omega))
              simp only at h3a
              simp only [currentHasType_of_take hag p2 (by omega), hc,
                current_of_take hag p2 (by omega), hcur, advance_of_take hag p2 (by omega), hadv,
                expect_of_take hag (p2 + 1) (by omega), h2, h3a,
                expect_of_take hag p5 (by omega), h4]
            · refine Determined.intro_thrown p5 (by omega) hlen hT ?_
              intro fuel1 tokens1 hf hag
              have h3a := hloc fuel1 tokens1 hf hag
              simp only at h3a
              simp only [currentHasType_of_take hag p2 (by omega), hc,
                current_of_take hag p2 (by omega), hcur, advance_of_take hag p2 (by omega), hadv,
                expect_of_take hag (p2 + 1) (by omega), h2, h3a,
                expect_of_take hag p5 (by omega), h4]
        · refine Determined.intro_thrown (p2 + 1) (by omega) (by omega) hT ?_
          intro fuel1 tokens1 hf hag
          simp only [currentHasType_of_take hag p2 (by omega), hc,
            current_of_take hag p2 (by omega), hcur, advance_of_take hag p2 (by omega), hadv,
            expect_of_take hag (p2 + 1) (by omega), h2]
    rcases currentIs_cases tokens (pos + 1) "KEYWORD" "mut" with hm | ⟨hm, hdm⟩
    · refine Determined.lift
        (key false (pos + 1) (by omega) (by omega) (Or.inl ⟨rfl, not_token_of_currentIs hm⟩))
        (by omega) ?_ ?_
      · simp only [parseLetDecl, h1, hm, Bool.false_eq_true, if_false]
      · intro fuel1 tokens1 hf hag
        refine ⟨fuel1, hf, ?_⟩
        simp only [parseLetDecl, expect_of_take hag pos (by omega), h1,
          currentIs_of_take hag (pos + 1) (by omega), hm, Bool.false_eq_true, if_false]
    · have hltm := lt_length_of_drop hdm
      refine Determined.lift
        (key true (pos + 1 + 1) (by omega) (by omega) (Or.inr ⟨rfl, getElem?_of_drop hdm⟩))
        (by omega) ?_ ?_
      · simp only [parseLetDecl, h1, hm, if_true, advance_of_drop hdm, Except.map]
      · intro fuel1 tokens1 hf hag
        refine ⟨fuel1, hf, ?_⟩
        simp only [parseLetDecl, expect_of_take hag pos (by omega), h1,
          currentIs_of_take hag (pos + 1) (by omega), hm, if_true,
          advance_of_take hag (pos + 1) (by omega), advance_of_drop hdm, Except.map]
  · refine Determined.intro_thrown pos le_rfl hpos hT ?_
    intro fuel1 tokens1 hf hag
    simp only [parseLetDecl, expect_of_take hag pos (by omega), h1]

/-- A call that fails because a call of `run2` from the cursor `pos2` fails, with the
same failure, is determined if `run2` is. -/
theorem Determined.lift_error {α β : Type}
    {run : Nat → List Token → Except Failure (α × Nat)}
    {run2 : Nat → List Token → Except Failure (β × Nat)}
    {fuel fuel2 : Nat} {tokens : List Token} {pos pos2 : Nat} {e : Failure}
    (hD : Determined run2 fuel2 tokens pos2) (hle : pos ≤ pos2)
    (h2 : run2 fuel2 tokens = .error e) (h0 : run fuel tokens = .error e)
    (h : ∀ fuel1 tokens1, fuel ≤ fuel1 →
      List.take (pos2 + 1) tokens1 = tokens.take (pos2 + 1) →
      ∃ fuel3, fuel2 ≤ fuel3 ∧
        ∀ e1, run2 fuel3 tokens1 = .error e1 → run fuel1 tokens1 = .error e1) :
    Determined run fuel tokens pos := by
  cases e with
  | runtime_error msg =>
    obtain ⟨q, hq, hlen, hT, hloc⟩ := hD.elim_thrown h2
    refine Determined.intro_thrown q (by omega) hlen hT ?_
    intro fuel1 tokens1 hf hag
    obtain ⟨fuel3, hf3, h3⟩ := h fuel1 tokens1 hf (take_of_take hag (by omega))
    exact h3 _ (hloc fuel3 tokens1 hf3 hag)
  | out_of_range => exact Determined.intro_range h0
  | out_of_fuel => exact Determined.intro_fuel h0

theorem fuel_succ {f fuel1 : Nat} (h : f + 1 ≤ fuel1) : ∃ f1, fuel1 = f1 + 1 ∧ f ≤ f1 :=
  ⟨fuel1 - 1, by omega, by omega⟩

theorem determinedStatement_succ {f : Nat}
    (hF : ∀ (tokens : List Token) (pos : Nat), pos ≤ tokens.length →
      Determined (fun f ts => parseFunctionDecl f ts pos) f tokens pos)
    (hI : ∀ (tokens : List Token) (pos : Nat), pos ≤ tokens.length →
      Determined (fun f ts => parseIfStatement f ts pos) f tokens pos)
    (hW : ∀ (tokens : List Token) (pos : Nat), pos ≤ tokens.length →
      Determined (fun f ts => parseWhileStatement f ts pos) f tokens pos) :
    ∀ (tokens : List Token) (pos : Nat), pos ≤ tokens.length →
      Determined (fun f ts => parseStatement f ts pos) (f + 1) tokens pos := by
  intro tokens pos hpos
  -- every branch ends with a call from the same cursor
  have tail : ∀ (run2 : Nat → List Token → Except Failure (ASTNode × Nat)),
      Determined run2 f tokens pos →
      (∀ f1 ts, List.take (pos + 1) ts = tokens.take (pos + 1) →
        parseStatement (f1 + 1) ts pos = run2 f1 ts) →
      Determined (fun f ts => parseStatement f ts pos) (f + 1) tokens pos := by
    intro run2 hD h
    refine Determined.lift hD le_rfl (h f tokens rfl) ?_
    intro fuel1 tokens1 hf hag
    obtain ⟨f1, rfl, hf1⟩ := fuel_succ hf
    exact ⟨f1, hf1, h f1 tokens1 hag⟩
  rcases currentHasType_cases tokens pos "KEYWORD" with hc | ⟨hc, t, _, hd⟩
  · refine tail _ (parseExpression_determined f tokens pos hpos) ?_
    intro f1 ts hag
    simp only [parseStatement, currentHasType_of_take hag pos (by omega), hc]
  · have hcur := current_of_drop hd
    rcases h1 : (t.value == "let") with _ | _
    · rcases h2 : (t.value == "fn") with _ | _
      · rcases h3 : (t.value == "if") with _ | _
        · rcases h4 : (t.value == "while") with _ | _
          · rcases h5 : (t.value == "return") with _ | _
            · refine tail _ (parseExpression_determined f tokens pos hpos) ?_
              intro f1 ts hag
              simp only [parseStatement, currentHasType_of_take hag pos (by omega), hc,
                current_of_take hag pos (by omega), hcur, h1, h2, h3, h4, h5,
                Bool.false_eq_true, if_false]
            · refine tail _ (parseReturnStatement_determined f tokens pos hpos) ?_
              intro f1 ts hag
              simp only [parseStatement, currentHasType_of_take hag pos (by omega), hc,
                current_of_take hag pos (by omega), hcur, h1, h2, h3, h4, h5,
                Bool.false_eq_true, if_false, if_true]
          · refine tail _ (hW tokens pos hpos) ?_
            intro f1 ts hag
            simp only [parseStatement, currentHasType_of_take hag pos (by omega), hc,
              current_of_take hag pos (by omega), hcur, h1, h2, h3, h4,
              Bool.false_eq_true, if_false, if_true]
        · refine tail _ (hI tokens pos hpos) ?_
          intro f1 ts hag
          simp only [parseStatement, currentHasType_of_take hag pos (by omega), hc,
            current_of_take hag pos (by omega), hcur, h1, h2, h3,
            Bool.false_eq_true, if_false, if_true]
      · refine tail _ (hF tokens pos hpos) ?_
        intro f1 ts hag
        simp only [parseStatement, currentHasType_of_take hag pos (by omega), hc,
          current_of_take hag pos (by omega), hcur, h1, h2,
          Bool.false_eq_true, if_false, if_true]
    · refine tail _ (parseLetDecl_determined f tokens pos hpos) ?_
      intro f1 ts hag
      simp only [parseStatement, currentHasType_of_take hag pos (by omega), hc,
        current_of_take hag pos (by omega), hcur, h1, if_true]

theorem determinedBlockLoop_succ {f : Nat}
    (hS : ∀ (tokens : List Token) (pos : Nat), pos ≤ tokens.length →
      Determined (fun f ts => parseStatement f ts pos) f tokens pos)
    (hL : ∀ (tokens : List Token) (pos : Nat) (body : List ASTNode), pos ≤ tokens.length →
      Determined (fun f ts => parseBlockLoop f ts pos body) f tokens pos) :
    ∀ (tokens : List Token) (pos : Nat) (body : List ASTNode), pos ≤ tokens.length →
      Determined (fun f ts => parseBlockLoop f ts pos body) (f + 1) tokens pos := by
  intro tokens pos body hpos
  rcases blockContinues_cases tokens pos with hb | hb
  · refine Determined.intro_ok body pos le_rfl hpos ?_
    intro fuel1 tokens1 hf hag
    obtain ⟨f1, rfl, hf1⟩ := fuel_succ hf
    simp only [parseBlockLoop, blockContinues_of_take hag pos (by omega), hb]
  · have hP := hS tokens pos hpos
    cases h1 : parseStatement f tokens pos with
    | error e =>
      refine Determined.lift_error hP le_rfl h1 (by simp only [parseBlockLoop, hb, h1]) ?_
      intro fuel1 tokens1 hf hag
      obtain ⟨f1, rfl, hf1⟩ := fuel_succ hf
      refine ⟨f1, hf1, fun e1 he1 => ?_⟩
      simp only at he1
      simp only [parseBlockLoop, blockContinues_of_take hag pos (by omega), hb, he1]
    | ok res =>
      obtain ⟨stmt, p1⟩ := res
      obtain ⟨hp, hlen, hloc⟩ := hP.elim_ok h1
      refine Determined.lift (hL tokens p1 (body ++ [stmt]) hlen) hp
        (by simp only [parseBlockLoop, hb, h1]) ?_
      intro fuel1 tokens1 hf hag
      obtain ⟨f1, rfl, hf1⟩ := fuel_succ hf
      have h1a := hloc f1 tokens1 hf1 hag
      simp only at h1a
      refine ⟨f1, hf1, ?_⟩
      simp only [parseBlockLoop, blockContinues_of_take hag pos (by omega), hb, h1a]

theorem determinedBlock_succ {f : Nat}
    (hL : ∀ (tokens : List Token) (pos : Nat) (body : List ASTNode), pos ≤ tokens.length →
      Determined (fun f ts => parseBlockLoop f ts pos body) f tokens pos) :
    ∀ (tokens : List Token) (pos : Nat), pos ≤ tokens.length →
      Determined (fun f ts => parseBlock f ts pos) (f + 1) tokens pos := by
  intro tokens pos hpos
  rcases expect_split tokens pos "PUNCTUATION" "\x7b" (by decide) with
    ⟨h1, hlt, _⟩ | ⟨msg, h1, hT⟩
  · have hA := hL tokens (pos + 1) [] (by omega)
    cases h2 : parseBlockLoop f tokens (pos + 1) [] with
    | error e =>
      refine Determined.lift_error hA (by omega) h2 (by simp only [parseBlock, h1, h2]) ?_
      intro fuel1 tokens1 hf hag
      obtain ⟨f1, rfl, hf1⟩ := fuel_succ hf
      refine ⟨f1, hf1, fun e1 he1 => ?_⟩
      simp only at he1
      simp only [parseBlock, expect_of_take hag pos (by omega), h1, he1]
    | ok res =>
      obtain ⟨body, p2⟩ := res
      obtain ⟨hp, hlen, hloc⟩ := hA.elim_ok h2
      rcases expect_split tokens p2 "PUNCTUATION" "\x7d" (by decide) with
        ⟨h3, hlt3, _⟩ | ⟨msg, h3, hT⟩
      · refine Determined.intro_ok body (p2 + 1) (by omega) (by omega) ?_
        intro fuel1 tokens1 hf hag
        obtain ⟨f1, rfl, hf1⟩ := fuel_succ hf
        have h2a := hloc f1 tokens1 hf1 (take_of_take hag (by omega))
        simp only at h2a
        simp only [parseBlock, expect_of_take hag pos (by omega), h1, h2a,
          expect_of_take hag p2 (by omega), h3]
      · refine Determined.intro_thrown p2 (by omega) hlen hT ?_
        intro fuel1 tokens1 hf hag
        obtain ⟨f1, rfl, hf1⟩ := fuel_succ hf
        have h2a := hloc f1 tokens1 hf1 hag
        simp only at h2a
        simp only [parseBlock, expect_of_take hag pos (by omega), h1, h2a,
          expect_of_take hag p2 (by omega), h3]
  · refine Determined.intro_thrown pos le_rfl hpos hT ?_
    intro fuel1 tokens1 hf hag
    obtain ⟨f1, rfl, hf1⟩ := fuel_succ hf
    simp only [parseBlock, expect_of_take hag pos (by omega), h1]

theorem determinedFunctionDecl_succ {f : Nat}
    (hB : ∀ (tokens : List Token) (pos : Nat), pos ≤ tokens.length →
      Determined (fun f ts => parseBlock f ts pos) f tokens pos) :
    ∀ (tokens : List Token) (pos : Nat), pos ≤ tokens.length →
      Determined (fun f ts => parseFunctionDecl f ts pos) (f + 1) tokens pos := by
  intro tokens pos hpos
  rcases expect_split tokens pos "KEYWORD" "fn" (by decide) with
    ⟨h1, hlt, hfn⟩ | ⟨msg, h1, hT⟩
  · rcases currentHasType_cases tokens (pos + 1) "IDENTIFIER" with hc | ⟨hc, x, _, hdx⟩
    · refine Determined.intro_thrown (pos + 1) (by omega) (by omega)
        (ThrownAt.function_name f pos hfn rfl (not_type_of_currentHasType hc)
          (parseFunctionDecl_name_check f tokens pos hfn (not_type_of_currentHasType hc))) ?_
      intro fuel1 tokens1 hf hag
      obtain ⟨f1, rfl, hf1⟩ := fuel_succ hf
      simp only [parseFunctionDecl, expect_of_take hag pos (by omega), h1,
        currentHasType_of_take hag (pos + 1) (by omega), hc]
    · have hltx := lt_length_of_drop hdx
      have hcur := current_of_drop hdx
      have hadv := advance_of_drop hdx
      rcases expect_split tokens (pos + 1 + 1) "PUNCTUATION" "(" (by decide) with
        ⟨h2, hlt2, _⟩ | ⟨msg, h2, hT⟩
      · rcases expect_split tokens (pos + 1 + 1 + 1) "PUNCTUATION" ")" (by decide) with
          ⟨h3, hlt3, _⟩ | ⟨msg, h3, hT⟩
        · have hA := hB tokens (pos + 1 + 1 + 1 + 1) (by omega)
          cases h4 : parseBlock f tokens (pos + 1 + 1 + 1 + 1) with
          | error e =>
            refine Determined.lift_error hA (by omega) h4
              (by simp only [parseFunctionDecl, h1, hc, hcur, hadv, h2, h3, h4]) ?_
            intro fuel1 tokens1 hf hag
            obtain ⟨f1, rfl, hf1⟩ := fuel_succ hf
            refine ⟨f1, hf1, fun e1 he1 => ?_⟩
            simp only at he1
            simp only [parseFunctionDecl, expect_of_take hag pos (by omega), h1,
              currentHasType_of_take hag (pos + 1) (by omega), hc,
              current_of_take hag (pos + 1) (by omega), hcur,
              advance_of_take hag (pos + 1) (by omega), hadv,
              expect_of_take hag (pos + 1 + 1) (by omega), h2,
              expect_of_take hag (pos + 1 + 1 + 1) (by omega), h3, he1]
          | ok res =>
            obtain ⟨body, p5⟩ := res
            obtain ⟨hp, hlen, hloc⟩ := hA.elim_ok h4
            refine Determined.intro_ok (.FunctionDecl x.value body) p5 (by omega) hlen ?_
            intro fuel1 tokens1 hf hag
            obtain ⟨f1, rfl, hf1⟩ := fuel_succ hf
            have h4a := hloc f1 tokens1 hf1 hag
            simp only at h4a
            simp only [parseFunctionDecl, expect_of_take hag pos (by omega), h1,
              currentHasType_of_take hag (pos + 1) (by omega), hc,
              current_of_take hag (pos + 1) (by omega), hcur,
              advance_of_take hag (pos + 1) (by omega), hadv,
              expect_of_take hag (pos + 1 + 1) (by omega), h2,
              expect_of_take hag (pos + 1 + 1 + 1) (by omega), h3, h4a]
        · refine Determined.intro_thrown (pos + 1 + 1 + 1) (by omega) (by omega) hT ?_
          intro fuel1 tokens1 hf hag
          obtain ⟨f1, rfl, hf1⟩ := fuel_succ hf
          simp only [parseFunctionDecl, expect_of_take hag pos (by omega), h1,
            currentHasType_of_take hag (pos + 1) (by omega), hc,
            current_of_take hag (pos + 1) (by omega), hcur,
            advance_of_take hag (pos + 1) (by omega), hadv,
            expect_of_take hag (pos + 1 + 1) (by omega), h2,
            expect_of_take hag (pos + 1 + 1 + 1) (by omega), h3]
      · refine Determined.intro_thrown (pos + 1 + 1) (by omega) (by omega) hT ?_
        intro fuel1 tokens1 hf hag
        obtain ⟨f1, rfl, hf1⟩ := fuel_succ hf
        simp only [parseFunctionDecl, expect_of_take hag pos (by omega), h1,
          currentHasType_of_take hag (pos + 1) (by omega), hc,
          current_of_take hag (pos + 1) (by omega), hcur,
          advance_of_take hag (pos + 1) (by omega), hadv,
          expect_of_take hag (pos + 1 + 1) (by omega), h2]
  · refine Determined.intro_thrown pos le_rfl hpos hT ?_
    intro fuel1 tokens1 hf hag
    obtain ⟨f1, rfl, hf1⟩ := fuel_succ hf
    simp only [parseFunctionDecl, expect_of_take hag pos (by omega), h1]

theorem determinedWhileStatement_succ {f : Nat}
    (hB : ∀ (tokens : List Token) (pos : Nat), pos ≤ tokens.length →
      Determined (fun f ts => parseBlock f ts pos) f tokens pos) :
    ∀ (tokens : List Token) (pos : Nat), pos ≤ tokens.length →
      Determined (fun f ts => parseWhileStatement f ts pos) (f + 1) tokens pos := by
  intro tokens pos hpos
  rcases expect_split tokens pos "KEYWORD" "while" (by decide) with
    ⟨h1, hlt, _⟩ | ⟨msg, h1, hT⟩
  · have hE := parseExpression_determined f tokens (pos + 1) (by omega)
    cases h2 : parseExpression f tokens (pos + 1) with
    | error e =>
      refine Determined.lift_error hE (by omega) h2
        (by simp only [parseWhileStatement, h1, h2]) ?_
      intro fuel1 tokens1 hf hag
      obtain ⟨f1, rfl, hf1⟩ := fuel_succ hf
      refine ⟨f1, hf1, fun e1 he1 => ?_⟩
      simp only at he1
      simp only [parseWhileStatement, expect_of_take hag pos (by omega), h1, he1]
    | ok res =>
      obtain ⟨c, p2⟩ := res
      obtain ⟨hp, hlen, hloc⟩ := hE.elim_ok h2
      have hA := hB tokens p2 hlen
      cases h3 : parseBlock f tokens p2 with
      | error e =>
        refine Determined.lift_error hA (by omega) h3
          (by simp only [parseWhileStatement, h1, h2, h3]) ?_
        intro fuel1 tokens1 hf hag
        obtain ⟨f1, rfl, hf1⟩ := fuel_succ hf
        have h2a := hloc f1 tokens1 hf1 hag
        simp only at h2a
        refine ⟨f1, hf1, fun e1 he1 => ?_⟩
        simp only at he1
        simp only [parseWhileStatement, expect_of_take hag pos (by omega), h1, h2a, he1]
      | ok res =>
        obtain ⟨body, p3⟩ := res
        obtain ⟨hp3, hlen3, hloc3⟩ := hA.elim_ok h3
        refine Determined.intro_ok (.WhileStatement c body) p3 (by omega) hlen3 ?_
        intro fuel1 tokens1 hf hag
        obtain ⟨f1, rfl, hf1⟩ := fuel_succ hf
        have h2a := hloc f1 tokens1 hf1 (take_of_take hag (by omega))
        have h3a := hloc3 f1 tokens1 hf1 hag
        simp only at h2a h3a
        simp only [parseWhileStatement, expect_of_take hag pos (by omega), h1, h2a, h3a]
  · refine Determined.intro_thrown pos le_rfl hpos hT ?_
    intro fuel1 tokens1 hf hag
    obtain ⟨f1, rfl, hf1⟩ := fuel_succ hf
    simp only [parseWhileStatement, expect_of_take hag pos (by omega), h1]

theorem determinedIfStatement_succ {f : Nat}
    (hB : ∀ (tokens : List Token) (pos : Nat), pos ≤ tokens.length →
      Determined (fun f ts => parseBlock f ts pos) f tokens pos) :
    ∀ (tokens : List Token) (pos : Nat), pos ≤ tokens.length →
      Determined (fun f ts => parseIfStatement f ts pos) (f + 1) tokens pos := by
  intro tokens pos hpos
  rcases expect_split tokens pos "KEYWORD" "if" (by decide) with
    ⟨h1, hlt, _⟩ | ⟨msg, h1, hT⟩
  · have hE := parseExpression_determined f tokens (pos + 1) (by omega)
    cases h2 : parseExpression f tokens (pos + 1) with
    | error e =>
      refine Determined.lift_error hE (by omega) h2
        (by simp only [parseIfStatement, h1, h2]) ?_
      intro fuel1 tokens1 hf hag
      obtain ⟨f1, rfl, hf1⟩ := fuel_succ hf
      refine ⟨f1, hf1, fun e1 he1 => ?_⟩
      simp only at he1
      simp only [parseIfStatement, expect_of_take hag pos (by omega), h1, he1]
    | ok res =>
      obtain ⟨c, p2⟩ := res
      obtain ⟨hp, hlen, hloc⟩ := hE.elim_ok h2
      have hA := hB tokens p2 hlen
      cases h3 : parseBlock f tokens p2 with
      | error e =>
        refine Determined.lift_error hA (by omega) h3
          (by simp only [parseIfStatement, h1, h2, h3]) ?_
        intro fuel1 tokens1 hf hag
        obtain ⟨f1, rfl, hf1⟩ := fuel_succ hf
        have h2a := hloc f1 tokens1 hf1 hag
        simp only at h2a
        refine ⟨f1, hf1, fun e1 he1 => ?_⟩
        simp only at he1
        simp only [parseIfStatement, expect_of_take hag pos (by omega), h1, h2a, he1]
      | ok res =>
        obtain ⟨thenBody, p3⟩ := res
        obtain ⟨hp3, hlen3, hloc3⟩ := hA.elim_ok h3
        rcases currentIs_cases tokens p3 "KEYWORD" "else" with hm | ⟨hm, hdm⟩
        · refine Determined.intro_ok (.IfStatement c thenBody []) p3 (by omega) hlen3 ?_
          intro fuel1 tokens1 hf hag
          obtain ⟨f1, rfl, hf1⟩ := fuel_succ hf
          have h2a := hloc f1 tokens1 hf1 (take_of_take hag (by omega))
          have h3a := hloc3 f1 tokens1 hf1 hag
          simp only at h2a h3a
          simp only [parseIfStatement, expect_of_take hag pos (by omega), h1, h2a, h3a,
            currentIs_of_take hag p3 (by omega), hm]
        · have hltm := lt_length_of_drop hdm
          have hadv := advance_of_drop hdm
          have hC := hB tokens (p3 + 1) (by omega)
          cases h5 : parseBlock f tokens (p3 + 1) with
          | error e =>
            refine Determined.lift_error hC (by omega) h5
              (by simp only [parseIfStatement, h1, h2, h3, hm, hadv, h5]) ?_
            intro fuel1 tokens1 hf hag
            obtain ⟨f1, rfl, hf1⟩ := fuel_succ hf
            have h2a := hloc f1 tokens1 hf1 (take_of_take hag (by omega))
            have h3a := hloc3 f1 tokens1 hf1 (take_of_take hag (by omega))
            simp only at h2a h3a
            refine ⟨f1, hf1, fun e1 he1 => ?_⟩
            simp only at he1
            simp only [parseIfStatement, expect_of_take hag pos (by omega), h1, h2a, h3a,
              currentIs_of_take hag p3 (by omega), hm, advance_of_take hag p3 (by omega), hadv,
              he1]
          | ok res =>
            obtain ⟨elseBody, p5⟩ := res
            obtain ⟨hp5, hlen5, hloc5⟩ := hC.elim_ok h5
            refine Determined.intro_ok (.IfStatement c thenBody elseBody) p5 (by omega) hlen5 ?_
            intro fuel1 tokens1 hf hag
            obtain ⟨f1, rfl, hf1⟩ := fuel_succ hf
            have h2a := hloc f1 tokens1 hf1 (take_of_take hag (by omega))
            have h3a := hloc3 f1 tokens1 hf1 (take_of_take hag (by omega))
            have h5a := hloc5 f1 tokens1 hf1 hag
            simp only at h2a h3a h5a
            simp only [parseIfStatement, expect_of_take hag pos (by omega), h1, h2a, h3a,
              currentIs_of_take hag p3 (by omega), hm, advance_of_take hag p3 (by omega), hadv,
              h5a]
  · refine Determined.intro_thrown pos le_rfl hpos hT ?_
    intro fuel1 tokens1 hf hag
    obtain ⟨f1, rfl, hf1⟩ := fuel_succ hf
    simp only [parseIfStatement, expect_of_take hag pos (by omega), h1]

/-- Each of the six mutually recursive parsers is determined by the tokens it reads,
with any fuel. -/
theorem determined_all (f : Nat) :
    (∀ (tokens : List Token) (pos : Nat), pos ≤ tokens.length →
      Determined (fun f ts => parseStatement f ts pos) f tokens pos) ∧
    (∀ (tokens : List Token) (pos : Nat) (body : List ASTNode), pos ≤ tokens.length →
      Determined (fun f ts => parseBlockLoop f ts pos body) f tokens pos) ∧
    (∀ (tokens : List Token) (pos : Nat), pos ≤ tokens.length →
      Determined (fun f ts => parseBlock f ts pos) f tokens pos) ∧
    (∀ (tokens : List Token) (pos : Nat), pos ≤ tokens.length →
      Determined (fun f ts => parseFunctionDecl f ts pos) f tokens pos) ∧
    (∀ (tokens : List Token) (pos : Nat), pos ≤ tokens.length →
      Determined (fun f ts => parseIfStatement f ts pos) f tokens pos) ∧
    (∀ (tokens : List Token) (pos : Nat), pos ≤ tokens.length →
      Determined (fun f ts => parseWhileStatement f ts pos) f tokens pos) := by
  induction f with
  | zero =>
    refine ⟨?_, ?_, ?_, ?_, ?_, ?_⟩
    · intro tokens pos _
      exact Determined.intro_fuel (by simp only [parseStatement])
    · intro tokens pos body _
      exact Determined.intro_fuel (by simp only [parseBlockLoop])
    · intro tokens pos _
      exact Determined.intro_fuel (by simp only [parseBlock])
    · intro tokens pos _
      exact Determined.intro_fuel (by simp only [parseFunctionDecl])
    · intro tokens pos _
      exact Determined.intro_fuel (by simp only [parseIfStatement])
    · intro tokens pos _
      exact Determined.intro_fuel (by simp only [parseWhileStatement])
  | succ f ih =>
    obtain ⟨hS, hL, hB, hF, hI, hW⟩ := ih
    exact ⟨determinedStatement_succ hF hI hW, determinedBlockLoop_succ hS hL,
      determinedBlock_succ hL, determinedFunctionDecl_succ hB, determinedIfStatement_succ hB,
      determinedWhileStatement_succ hB⟩

theorem parseLoop_determined (fuel : Nat) :
    ∀ (tokens : List Token) (pos : Nat) (program : List ASTNode), pos ≤ tokens.length →
      DeterminedLoop fuel tokens pos program := by
  induction fuel with
  | zero =>
    intro tokens pos program _
    unfold DeterminedLoop
    simp only [parseLoop]
  | succ f ih =>
    intro tokens pos program hpos
    rcases drop_cases tokens pos with hd | ⟨t, hd⟩
    · have hend := atEnd_of_drop_nil hd
      have key : ∀ fuel1, f + 1 ≤ fuel1 → parseLoop fuel1 tokens pos program = .ok program := by
        intro fuel1 hf
        obtain ⟨f1, rfl, _⟩ := fuel_succ hf
        simp only [parseLoop, hend, if_true]
      unfold DeterminedLoop
      rw [key (f + 1) le_rfl]
      exact key
    · have hend := atEnd_of_drop hd
      have hP := (determined_all f).1 tokens pos hpos
      cases h1 : parseStatement f tokens pos with
      | error e =>
        have h0 : parseLoop (f + 1) tokens pos program = .error e := by
          simp only [parseLoop, hend, Bool.false_eq_true, if_false, h1]
        cases e with
        | runtime_error msg =>
          obtain ⟨q, hq, hlen, hT, hloc⟩ := hP.elim_thrown h1
          unfold DeterminedLoop
          rw [h0]
          refine ⟨q, hq, hlen, hT, ?_⟩
          intro fuel1 tokens1 hf hag
          obtain ⟨f1, rfl, hf1⟩ := fuel_succ hf
          have h1a := hloc f1 tokens1 hf1 hag
          simp only at h1a
          simp only [parseLoop, atEnd_of_take hag pos (by omega), hend, Bool.false_eq_true,
            if_false, h1a]
        | out_of_range =>
          unfold DeterminedLoop
          rw [h0]
          trivial
        | out_of_fuel =>
          unfold DeterminedLoop
          rw [h0]
          trivial
      | ok res =>
        obtain ⟨stmt, p1⟩ := res
        obtain ⟨hp, hlen, hloc⟩ := hP.elim_ok h1
        have hI := ih tokens p1 (program ++ [stmt]) hlen
        have step : ∀ f1 tokens1, f ≤ f1 →
            List.take (p1 + 1) tokens1 = tokens.take (p1 + 1) →
            parseLoop (f1 + 1) tokens1 pos program
              = parseLoop f1 tokens1 p1 (program ++ [stmt]) := by
          intro f1 tokens1 hf1 hag
          have h1a := hloc f1 tokens1 hf1 hag
          simp only at h1a
          simp only [parseLoop, atEnd_of_take hag pos (by omega), hend, Bool.false_eq_true,
            if_false, h1a]
        unfold DeterminedLoop at hI ⊢
        rw [step f tokens le_rfl rfl]
        cases h2 : parseLoop f tokens p1 (program ++ [stmt]) with
        | ok nodes =>
          rw [h2] at hI
          intro fuel1 hf
          obtain ⟨f1, rfl, hf1⟩ := fuel_succ hf
          rw [step f1 tokens hf1 rfl]
          exact hI f1 hf1
        | error e =>
          cases e with
          | runtime_error msg =>
            rw [h2] at hI
            obtain ⟨q, hq, hlenq, hT, hlocq⟩ := hI
            refine ⟨q, by omega, hlenq, hT, ?_⟩
            intro fuel1 tokens1 hf hag
            obtain ⟨f1, rfl, hf1⟩ := fuel_succ hf
            rw [step f1 tokens1 hf1 (take_of_take hag (by omega))]
            exact hlocq f1 tokens1 hf1 hag
          | out_of_range => trivial
          | out_of_fuel => trivial

/-- Every failure of `parse` is thrown with the cursor at some `q`, on the token found
there, and is decided by the tokens up to and including that one: `parse` throws the same
on every token sequence that starts with them. -/
theorem parse_thrown {tokens : List Token} {e : Failure} (h : parse tokens = .error e) :
    ∃ q, q ≤ tokens.length ∧ ThrownAt tokens q e ∧
      ∀ tokens1, List.take (q + 1) tokens1 = tokens.take (q + 1) → parse tokens1 = .error e := by
  obtain ⟨msg, rfl, _⟩ := parse_failure h
  have hD := parseLoop_determined (4 * tokens.length + 4) tokens 0 [] (Nat.zero_le _)
  unfold DeterminedLoop at hD
  rw [show parseLoop (4 * tokens.length + 4) tokens 0 [] = _ from h] at hD
  obtain ⟨q, _, hlen, hT, hloc⟩ := hD
  refine ⟨q, hlen, hT, ?_⟩
  intro tokens1 hag
  by_cases hle : tokens.length ≤ tokens1.length
  · exact hloc (4 * tokens1.length + 4) tokens1 (by omega) hag
  · have h1 : parseLoop (4 * tokens.length + 4) tokens1 0 [] = .error (.runtime_error msg) :=
      hloc _ tokens1 le_rfl hag
    have hD1 := parseLoop_determined (4 * tokens1.length + 4) tokens1 0 [] (Nat.zero_le _)
    unfold DeterminedLoop at hD1
    cases h2 : parse tokens1 with
    | ok nodes =>
      rw [show parseLoop (4 * tokens1.length + 4) tokens1 0 [] = _ from h2] at hD1
      have h3 := hD1 (4 * tokens.length + 4) (by omega)
      rw [h1] at h3
      cases h3
    | error e1 =>
      obtain ⟨msg1, rfl, _⟩ := parse_failure h2
      rw [show parseLoop (4 * tokens1.length + 4) tokens1 0 [] = _ from h2] at hD1
      obtain ⟨q1, _, _, _, hloc1⟩ := hD1
      have h3 := hloc1 (4 * tokens.length + 4) tokens1 (by omega) rfl
      rw [h1] at h3
      rw [h3]

/-- Counterexample to C12 as stated: on `let 5` the parser fails in the variable-name
check of `parseLetDecl` with the fixed message `Expected variable name after 'let'`,
which names neither the type `NUMBER` nor the lexeme `5` of the token found; the same
message is thrown on `let` alone, where the input is exhausted, so it does not state
that either. -/
theorem parse_error_policy_counterexample :
    parse [⟨"KEYWORD", "let"⟩, ⟨"NUMBER", "5"⟩]
      = .error (.runtime_error "Expected variable name after 'let'")
    ∧ parse [⟨"KEYWORD", "let"⟩]
      = .error (.runtime_error "Expected variable name after 'let'")
    ∧ ¬ mentions "Expected variable name after 'let'" "NUMBER"
    ∧ ¬ mentions "Expected variable name after 'let'" "5"
    ∧ ¬ mentions "Expected variable name after 'let'" "end of input" := by
  refine ⟨rfl, rfl, ?_, ?_, ?_⟩ <;> unfold mentions <;> decide

/-- C12, amended. Every failure of `parse` is a `std::runtime_error` thrown by `expect`,
by `parsePrimary` or by one of the two name checks with the cursor at some `q`
(`ThrownAt`), and it is decided by the tokens up to and including the one at `q`:
`parse` throws the same on every token sequence that starts with them (first part).
What these throw, on every cursor `pos`, the token found being the one at the cursor
(`tokens[pos]?`, `none` at the end of the input): `expect(type, value)` steps over the
token `type value` and otherwise throws the message that names the expected type and
exact lexeme and either the type and lexeme of the token found or that the end of the
input was reached (second part); `parsePrimary` steps over a NUMBER, STRING or
IDENTIFIER and otherwise throws the message that names the type and lexeme of the
token found, or states that the input ended, and names no expected token (third
part); the name checks of `parseLetDecl` and `parseFunctionDecl` throw one fixed text
each, whatever token that is no IDENTIFIER, or none, stands after `let`, `let mut` or
`fn` (fourth and fifth part). -/
theorem parse_error_policy (tokens : List Token) :
    (∀ e, parse tokens = .error e →
      ∃ q, q ≤ tokens.length ∧ ThrownAt tokens q e ∧
        ∀ tokens1, List.take (q + 1) tokens1 = tokens.take (q + 1) →
          parse tokens1 = .error e) ∧
    (∀ pos type value,
      expect tokens pos type value
        = match tokens[pos]? with
          | none =>
            .error (.runtime_error
              ("Expected " ++ type ++ " '" ++ value ++ "' but reached end of input"))
          | some tok =>
            if tok = ⟨type, value⟩ then .ok (pos + 1)
            else .error (.runtime_error
              ("Expected " ++ type ++ " '" ++ value ++ "' but got " ++ tok.type ++ " '"
                ++ tok.value ++ "'"))) ∧
    (∀ pos,
      parsePrimary tokens pos
        = match tokens[pos]? with
          | none => .error (.runtime_error "Unexpected end of input while parsing expression")
          | some tok =>
            if tok.type = "NUMBER" ∨ tok.type = "STRING" ∨ tok.type = "IDENTIFIER" then
              .ok (primaryNode tok, pos + 1)
            else
              .error (.runtime_error
                ("Unexpected token: " ++ tok.type ++ " '" ++ tok.value ++ "'"))) ∧
    (∀ fuel p q, tokens[p]? = some ⟨"KEYWORD", "let"⟩ →
      ((q = p + 1 ∧ tokens[p + 1]? ≠ some ⟨"KEYWORD", "mut"⟩) ∨
        (q = p + 2 ∧ tokens[p + 1]? = some ⟨"KEYWORD", "mut"⟩)) →
      (∀ tok, tokens[q]? = some tok → tok.type ≠ "IDENTIFIER") →
      parseLetDecl fuel tokens p
        = .error (.runtime_error "Expected variable name after 'let'")) ∧
    (∀ fuel p, tokens[p]? = some ⟨"KEYWORD", "fn"⟩ →
      (∀ tok, tokens[p + 1]? = some tok → tok.type ≠ "IDENTIFIER") →
      parseFunctionDecl (fuel + 1) tokens p
        = .error (.runtime_error "Expected function name after 'fn'")) := by
  refine ⟨fun _ h => parse_thrown h, ?_, ?_, ?_, ?_⟩
  · intro pos type value
    rcases drop_cases tokens pos with hd | ⟨x, hd⟩
    · rw [getElem?_of_drop_nil hd]
      simp only [expect, atEnd_of_drop_nil hd, if_true]
    · rw [getElem?_of_drop hd]
      by_cases h : x = ⟨type, value⟩
      · subst h
        simp only [expect, atEnd_of_drop hd, current_of_drop hd, advance_of_drop hd,
          Bool.false_eq_true, if_false, bne_self_eq_false, Bool.or_self, if_true]
      · have hb : (x.type != type || x.value != value) = true := by
          simp only [Bool.or_eq_true, bne_iff_ne, ne_eq]
          by_contra hc
          simp only [not_or, not_not] at hc
          apply h
          obtain ⟨ty, v⟩ := x
          simp only at hc
          rw [hc.1, hc.2]
        simp only [expect, atEnd_of_drop hd, current_of_drop hd, Bool.false_eq_true, if_false,
          hb, if_true, h]
  · intro pos
    rcases drop_cases tokens pos with hd | ⟨x, hd⟩
    · rw [getElem?_of_drop_nil hd]
      simp only [parsePrimary, atEnd_of_drop_nil hd, if_true]
    · rw [getElem?_of_drop hd]
      simp only [parsePrimary, atEnd_of_drop hd, current_of_drop hd, advance_of_drop hd,
        Bool.false_eq_true, if_false, beq_iff_eq, primaryNode]
      by_cases h1 : x.type = "NUMBER"
      · simp only [h1, if_true, true_or]
      · by_cases h2 : x.type = "STRING"
        · simp only [h1, h2, if_true, if_false, true_or, or_true]
          rfl
        · by_cases h3 : x.type = "IDENTIFIER"
          · simp only [h1, h2, h3, if_true, if_false, or_true]
            rfl
          · simp only [h1, h2, h3, if_false, or_self]
  · intro fuel p q hlet hq hno
    have h1 := expect_of_drop "KEYWORD" "let" (drop_of_getElem? hlet)
    have hc : currentHasType tokens q "IDENTIFIER" = .ok false := by
      rcases currentHasType_cases tokens q "IDENTIFIER" with hc | ⟨_, t, ht, hd⟩
      · exact hc
      · exact absurd ht (hno t (getElem?_of_drop hd))
    rcases hq with ⟨rfl, hnm⟩ | ⟨rfl, hm⟩
    · have hm : currentIs tokens (p + 1) "KEYWORD" "mut" = .ok false := by
        rcases currentIs_cases tokens (p + 1) "KEYWORD" "mut" with hm | ⟨_, hd⟩
        · exact hm
        · exact absurd (getElem?_of_drop hd) hnm
      simp only [parseLetDecl, h1, hm, Bool.false_eq_true, if_false, hc]
    · have hd := drop_of_getElem? hm
      have hm1 : currentIs tokens (p + 1) "KEYWORD" "mut" = .ok true := by
        rw [currentIs_of_drop hd]
        rfl
      simp only [parseLetDecl, h1, hm1, if_true, advance_of_drop hd, Except.map, hc]
  · intro fuel p hfn hno
    have h1 := expect_of_drop "KEYWORD" "fn" (drop_of_getElem? hfn)
    have hc : currentHasType tokens (p + 1) "IDENTIFIER" = .ok false := by
      rcases currentHasType_cases tokens (p + 1) "IDENTIFIER" with hc | ⟨_, t, ht, hd⟩
      · exact hc
      · exact absurd ht (hno t (getElem?_of_drop hd))
    simp only [parseFunctionDecl, h1, hc]

/-- Witness of C12, amended: on the tokens `fn 1` the function-name check throws, with
the cursor at the token `1`; and the messages of `expect` and `parsePrimary` on
`fn f`, `fn f 1`, `;` and `return`. -/
theorem parse_error_policy_witness :
    (parse [⟨"KEYWORD", "fn"⟩, ⟨"NUMBER", "1"⟩]
        = .error (.runtime_error "Expected function name after 'fn'")
      ∧ ∃ q, q ≤ [(⟨"KEYWORD", "fn"⟩ : Token), ⟨"NUMBER", "1"⟩].length ∧
        ThrownAt [⟨"KEYWORD", "fn"⟩, ⟨"NUMBER", "1"⟩] q
          (.runtime_error "Expected function name after 'fn'") ∧
        ∀ tokens1, List.take (q + 1) tokens1
            = List.take (q + 1) [(⟨"KEYWORD", "fn"⟩ : Token), ⟨"NUMBER", "1"⟩] →
          parse tokens1 = .error (.runtime_error "Expected function name after 'fn'"))
    ∧ parse [⟨"KEYWORD", "fn"⟩, ⟨"IDENTIFIER", "f"⟩]
        = .error (.runtime_error "Expected PUNCTUATION '(' but reached end of input")
    ∧ parse [⟨"KEYWORD", "fn"⟩, ⟨"IDENTIFIER", "f"⟩, ⟨"NUMBER", "1"⟩]
        = .error (.runtime_error "Expected PUNCTUATION '(' but got NUMBER '1'")
    ∧ parse [⟨"PUNCTUATION", ";"⟩]
        = .error (.runtime_error "Unexpected token: PUNCTUATION ';'")
    ∧ parse [⟨"KEYWORD", "return"⟩]
        = .error (.runtime_error "Unexpected end of input while parsing expression") :=
  ⟨⟨rfl, (parse_error_policy [⟨"KEYWORD", "fn"⟩, ⟨"NUMBER", "1"⟩]).1 _ rfl⟩,
    rfl, rfl, rfl, rfl⟩

end Bystep

/-! ## The tokenizer does not depend on where the text stands -/

namespace HW1

theorem relocate_single {lx lx1 : Lexer} {c : Char} {r : List Char} {tok : Token}
    {lx2 : Lexer} (type : TokenType) (lexeme : String)
    (hscan : some (makeToken type lexeme lx.line_ lx.column_, lx.step c) = some (tok, lx2)) :
    ∃ w r1, r = w ++ r1 ∧ lx2 = lx.stepAll (c :: w) ∧
      some (makeToken type lexeme lx1.line_ lx1.column_, lx1.step c)
        = some (makeToken tok.type tok.lexeme lx1.line_ lx1.column_, lx1.stepAll (c :: w)) := by
  cases hscan
  exact ⟨[], r, rfl, rfl, rfl⟩

theorem relocate_two {lx lx1 : Lexer} {c : Char} {r : List Char} {tok : Token}
    {lx2 : Lexer} (h : lx.rest = c :: r) (h1 : lx1.rest = c :: r)
    (t2 t1 : TokenType) (l2 l1 : String)
    (hscan : (lx.step c).scanTwoChar (makeToken t2 l2 lx.line_ lx.column_)
      (makeToken t1 l1 lx.line_ lx.column_) = some (tok, lx2)) :
    ∃ w r1, r = w ++ r1 ∧ lx2 = lx.stepAll (c :: w) ∧
      (lx1.step c).scanTwoChar (makeToken t2 l2 lx1.line_ lx1.column_)
        (makeToken t1 l1 lx1.line_ lx1.column_)
        = some (makeToken tok.type tok.lexeme lx1.line_ lx1.column_, lx1.stepAll (c :: w)) := by
  have hr := Lexer.rest_step h
  have hr1 := Lexer.rest_step h1
  by_cases he : ∃ r2, r = '=' :: r2
  · obtain ⟨r2, rfl⟩ := he
    rw [Lexer.scanTwoChar_eq _ _ hr] at hscan
    cases hscan
    exact ⟨['='], r2, rfl, rfl, Lexer.scanTwoChar_eq _ _ hr1⟩
  · have hne : ∀ (l : Lexer), l.rest = r → ∀ r2, l.rest ≠ '=' :: r2 :=
      fun l hl r2 hr2 => he ⟨r2, by rw [← hl, hr2]⟩
    rw [Lexer.scanTwoChar_ne _ _ (hne _ hr)] at hscan
    cases hscan
    exact ⟨[], r, rfl, rfl, Lexer.scanTwoChar_ne _ _ (hne _ hr1)⟩

theorem relocate_string {lx lx1 : Lexer} {r : List Char} {tok : Token}
    {lx2 : Lexer} (h : lx.rest = '"' :: r) (h1 : lx1.rest = '"' :: r)
    (hscan : (lx.step '"').scanString = some (tok, lx2)) :
    ∃ w r1, r = w ++ r1 ∧ lx2 = lx.stepAll ('"' :: w) ∧
      (lx1.step '"').scanString
        = some (makeToken tok.type tok.lexeme lx1.line_ lx1.column_,
            lx1.stepAll ('"' :: w)) := by
  have hr := Lexer.rest_step h
  have hr1 := Lexer.rest_step h1
  have hlc := Lexer.step_line_of_ne lx1 (show '"' ≠ '\n' from by decide)
  obtain ⟨s, r1, hsr, hs, hr1'⟩ := span_exists (fun d => d != '"') r
  have hs' : '"' ∉ s := fun hm => by simpa using hs _ hm
  cases r1 with
  | nil =>
    simp only [List.append_nil] at hsr
    subst hsr
    rw [Lexer.scanString_unterminated hr hs'] at hscan
    cases hscan
    refine ⟨r, [], by simp, rfl, ?_⟩
    rw [Lexer.scanString_unterminated hr1 hs', hlc.1, hlc.2]
    rfl
  | cons d r2 =>
    have hd : d = '"' := by simpa using hr1' d r2 rfl
    subst hd
    subst hsr
    rw [Lexer.scanString_terminated hr hs'] at hscan
    cases hscan
    refine ⟨s ++ ['"'], r2, by simp, rfl, ?_⟩
    rw [Lexer.scanString_terminated hr1 hs', hlc.1, hlc.2]
    rfl

theorem relocate_word {lx lx1 : Lexer} {c : Char} {r : List Char} {tok : Token}
    {lx2 : Lexer} (h : lx.rest = c :: r) (h1 : lx1.rest = c :: r) (hc : c ≠ '\n')
    (hscan : (lx.step c).scanIdentifierOrKeyword = some (tok, lx2)) :
    ∃ w r1, r = w ++ r1 ∧ lx2 = lx.stepAll (c :: w) ∧
      (lx1.step c).scanIdentifierOrKeyword
        = some (makeToken tok.type tok.lexeme lx1.line_ lx1.column_,
            lx1.stepAll (c :: w)) := by
  have hlc := Lexer.step_line_of_ne lx1 hc
  obtain ⟨w, r1, hsr, hw, hr1⟩ := span_exists isIdentChar r
  subst hsr
  rw [Lexer.scanIdentifierOrKeyword_eq h hw hr1] at hscan
  cases hscan
  refine ⟨w, r1, rfl, rfl, ?_⟩
  rw [Lexer.scanIdentifierOrKeyword_eq h1 hw hr1, hlc.1, hlc.2]
  rfl

theorem relocate_number {lx lx1 : Lexer} {c : Char} {r : List Char} {tok : Token}
    {lx2 : Lexer} (h : lx.rest = c :: r) (h1 : lx1.rest = c :: r) (hc : c ≠ '\n')
    (hscan : (lx.step c).scanNumber = some (tok, lx2)) :
    ∃ w r1, r = w ++ r1 ∧ lx2 = lx.stepAll (c :: w) ∧
      (lx1.step c).scanNumber
        = some (makeToken tok.type tok.lexeme lx1.line_ lx1.column_,
            lx1.stepAll (c :: w)) := by
  have hlc := Lexer.step_line_of_ne lx1 hc
  obtain ⟨w, r1, hsr, hw, hr1⟩ := span_exists isdigit r
  subst hsr
  rw [Lexer.scanNumber_eq h hw hr1] at hscan
  cases hscan
  refine ⟨w, r1, rfl, rfl, ?_⟩
  rw [Lexer.scanNumber_eq h1 hw hr1, hlc.1, hlc.2]
  rfl

/-- A call of `scanToken` in another state with the same characters ahead returns a
token of the same kind and lexeme and consumes the same characters. -/
theorem Lexer.scanToken_relocate {lx lx1 : Lexer} {c : Char} {r : List Char} {tok : Token}
    {lx2 : Lexer} (h : lx.rest = c :: r) (h1 : lx1.rest = c :: r)
    (hscan : lx.scanToken = some (tok, lx2)) :
    ∃ w r1, r = w ++ r1 ∧ lx2 = lx.stepAll (c :: w) ∧
      lx1.scanToken
        = some (makeToken tok.type tok.lexeme lx1.line_ lx1.column_,
            lx1.stepAll (c :: w)) := by
  rw [Lexer.scanToken_of_rest_cons h] at hscan
  rw [Lexer.scanToken_of_rest_cons h1]
  by_cases c1 : c = '('
  · rw [if_pos c1] at hscan ⊢
    exact relocate_single _ _ hscan
  rw [if_neg c1] at hscan ⊢
  by_cases c2 : c = ')'
  · rw [if_pos c2] at hscan ⊢
    exact relocate_single _ _ hscan
  rw [if_neg c2] at hscan ⊢
  by_cases c3 : c = '\x7b'
  · rw [if_pos c3] at hscan ⊢
    exact relocate_single _ _ hscan
  rw [if_neg c3] at hscan ⊢
  by_cases c4 : c = '\x7d'
  · rw [if_pos c4] at hscan ⊢
    exact relocate_single _ _ hscan
  rw [if_neg c4] at hscan ⊢
  by_cases c5 : c = ';'
  · rw [if_pos c5] at hscan ⊢
    exact relocate_single _ _ hscan
  rw [if_neg c5] at hscan ⊢
  by_cases c6 : c = ':'
  · rw [if_pos c6] at hscan ⊢
    exact relocate_single _ _ hscan
  rw [if_neg c6] at hscan ⊢
  by_cases c7 : c = ','
  · rw [if_pos c7] at hscan ⊢
    exact relocate_single _ _ hscan
  rw [if_neg c7] at hscan ⊢
  by_cases c8 : c = '+'
  · rw [if_pos c8] at hscan ⊢
    exact relocate_single _ _ hscan
  rw [if_neg c8] at hscan ⊢
  by_cases c9 : c = '-'
  · rw [if_pos c9] at hscan ⊢
    exact relocate_single _ _ hscan
  rw [if_neg c9] at hscan ⊢
  by_cases c10 : c = '*'
  · rw [if_pos c10] at hscan ⊢
    exact relocate_single _ _ hscan
  rw [if_neg c10] at hscan ⊢
  by_cases c11 : c = '/'
  · rw [if_pos c11] at hscan ⊢
    exact relocate_single _ _ hscan
  rw [if_neg c11] at hscan ⊢
  by_cases c12 : c = '='
  · rw [if_pos c12] at hscan ⊢
    exact relocate_two h h1 _ _ _ _ hscan
  rw [if_neg c12] at hscan ⊢
  by_cases c13 : c = '!'
  · rw [if_pos c13] at hscan ⊢
    exact relocate_two h h1 _ _ _ _ hscan
  rw [if_neg c13] at hscan ⊢
  by_cases c14 : c = '<'
  · rw [if_pos c14] at hscan ⊢
    exact relocate_two h h1 _ _ _ _ hscan
  rw [if_neg c14] at hscan ⊢
  by_cases c15 : c = '>'
  · rw [if_pos c15] at hscan ⊢
    exact relocate_two h h1 _ _ _ _ hscan
  rw [if_neg c15] at hscan ⊢
  by_cases c16 : c = '"'
  · rw [if_pos c16] at hscan ⊢
    subst c16
    exact relocate_string h h1 hscan
  rw [if_neg c16] at hscan ⊢
  by_cases c17 : (isalpha c || decide (c = '_')) = true
  · rw [if_pos c17] at hscan ⊢
    exact relocate_word h h1 (by rintro rfl; revert c17; decide) hscan
  rw [if_neg c17] at hscan ⊢
  by_cases c18 : isdigit c = true
  · rw [if_pos c18] at hscan ⊢
    exact relocate_number h h1 (by rintro rfl; revert c18; decide) hscan
  rw [if_neg c18] at hscan ⊢
  exact relocate_single _ _ hscan

end HW1

/-! ## What `skipWhitespace` consumes -/

namespace HW1

theorem Lexer.peekNext_eq_slash_iff {lx : Lexer} {c : Char} {r : List Char}
    (h : lx.rest = c :: r) : lx.peekNext = '/' ↔ r.head? = some '/' := by
  cases r with
  | nil =>
    rw [Lexer.peekNext_of_rest_singleton h]
    simp
  | cons d r2 =>
    rw [Lexer.peekNext_of_rest_cons_cons h]
    simp

/-- The loop of `skipWhitespace` consumes exactly what `Skips` describes. -/
theorem Lexer.skipWhitespaceLoop_skips {rest w : List Char} (h : Skips rest w) :
    ∀ (fuel : Nat) (lx : Lexer), lx.rest = rest → rest.length < fuel →
      Lexer.skipWhitespaceLoop fuel lx = some (lx.stepAll w) := by
  induction h with
  | done =>
    intro fuel lx hrest hf
    obtain ⟨f, rfl⟩ : ∃ f, fuel = f + 1 := ⟨fuel - 1, by omega⟩
    simp [Lexer.skipWhitespaceLoop, Lexer.isAtEnd_of_rest_nil hrest, Lexer.stepAll_nil]
  | stop c r hb hc =>
    intro fuel lx hrest hf
    obtain ⟨f, rfl⟩ : ∃ f, fuel = f + 1 := ⟨fuel - 1, by omega⟩
    have hws : ¬ ((decide (c = ' ') || decide (c = '\t') || decide (c = '\r')
        || decide (c = '\n')) = true) := fun h => Bool.noConfusion (hb.symm.trans h)
    have hcm : ¬ (c = '/' ∧ lx.peekNext = '/') :=
      fun h => hc ⟨h.1, (Lexer.peekNext_eq_slash_iff hrest).mp h.2⟩
    rw [Lexer.skipWhitespaceLoop]
    simp only [Lexer.isAtEnd_of_rest_cons hrest, Lexer.peek_of_rest_cons hrest,
      Bool.false_eq_true, if_false]
    rw [if_neg hws, if_neg (by simpa using hcm)]
    rfl
  | blank c r w hb _ ih =>
    intro fuel lx hrest hf
    obtain ⟨f, rfl⟩ : ∃ f, fuel = f + 1 := ⟨fuel - 1, by omega⟩
    have hws : (decide (c = ' ') || decide (c = '\t') || decide (c = '\r')
        || decide (c = '\n')) = true := hb
    have hL := ih f (lx.step c) (Lexer.rest_step hrest)
      (by simp only [List.length_cons] at hf; omega)
    rw [Lexer.skipWhitespaceLoop]
    simp only [Lexer.isAtEnd_of_rest_cons hrest, Lexer.peek_of_rest_cons hrest,
      Bool.false_eq_true, if_false]
    rw [if_pos hws]
    simp only [Lexer.advance_of_rest_cons hrest, hL, Lexer.stepAll_cons]
  | comment body r w hbody hr _ ih =>
    intro fuel lx hrest hf
    obtain ⟨f, rfl⟩ : ∃ f, fuel = f + 1 := ⟨fuel - 1, by omega⟩
    simp only [List.length_cons, List.length_append] at hf
    have hws : ¬ ((decide ('/' = ' ') || decide ('/' = '\t') || decide ('/' = '\r')
        || decide ('/' = '\n')) = true) := by decide
    have hr1 := Lexer.rest_step hrest
    have hr2 := Lexer.rest_step hr1
    have hlt := ((lx.step '/').step '/').rest_length_lt_fuel
    rw [hr2, List.length_append] at hlt
    have hA := Lexer.advanceWhile_eq (fun d => d != '\n') body
      ((lx.step '/').step '/').fuel ((lx.step '/').step '/') r hr2
      (fun d hd => by simpa using hbody d hd)
      (fun d r1 h => by simp [hr d r1 h]) (by omega)
    have hr3 := Lexer.rest_stepAll hr2
    have hL := ih f _ hr3 (by omega)
    rw [Lexer.skipWhitespaceLoop]
    simp only [Lexer.isAtEnd_of_rest_cons hrest, Lexer.peek_of_rest_cons hrest,
      Bool.false_eq_true, if_false]
    rw [if_neg hws, if_pos (by simp [(Lexer.peekNext_eq_slash_iff hrest).mpr rfl])]
    simp only [Lexer.advance_of_rest_cons hrest, Lexer.advance_of_rest_cons hr1,
      hA, hL, Lexer.stepAll_cons, Lexer.stepAll_append]

theorem Lexer.skipWhitespace_skips {lx : Lexer} {w : List Char} (h : Skips lx.rest w) :
    lx.skipWhitespace = some (lx.stepAll w) :=
  Lexer.skipWhitespaceLoop_skips h lx.fuel lx rfl lx.rest_length_lt_fuel

/-- What is skipped is a prefix, and what follows is the end or the start of a token. -/
theorem Skips.split {rest w : List Char} (h : Skips rest w) :
    ∃ r, rest = w ++ r ∧ (r = [] ∨ ∃ c r1, r = c :: r1 ∧ isBlankChar c = false ∧
      ¬ (c = '/' ∧ r1.head? = some '/')) := by
  induction h with
  | done => exact ⟨[], rfl, Or.inl rfl⟩
  | stop c r hb hc => exact ⟨c :: r, rfl, Or.inr ⟨c, r, rfl, hb, hc⟩⟩
  | blank c r w _ _ ih =>
    obtain ⟨r1, h1, h2⟩ := ih
    exact ⟨r1, by rw [h1]; rfl, h2⟩
  | comment body r w _ _ _ ih =>
    obtain ⟨r1, h1, h2⟩ := ih
    exact ⟨r1, by rw [h1]; simp, h2⟩

theorem Skips.eq_nil_of_nil {w : List Char} (h : Skips [] w) : w = [] := by
  cases h
  rfl

theorem skips_exists_aux (n : Nat) : ∀ rest : List Char, rest.length ≤ n → ∃ w, Skips rest w := by
  induction n with
  | zero =>
    intro rest h
    have : rest = [] := List.length_eq_zero.mp (by omega)
    subst this
    exact ⟨[], Skips.done⟩
  | succ n ih =>
    intro rest hn
    cases rest with
    | nil => exact ⟨[], Skips.done⟩
    | cons c r =>
      simp only [List.length_cons] at hn
      rcases hb : isBlankChar c with _ | _
      · by_cases hc : c = '/' ∧ r.head? = some '/'
        · obtain ⟨rfl, hh⟩ := hc
          cases r with
          | nil => simp at hh
          | cons d r2 =>
            simp only [List.head?_cons, Option.some.injEq] at hh
            subst hh
            obtain ⟨body, r3, hsplit, hbody, hr3⟩ := span_exists (fun d => d != '\n') r2
            subst hsplit
            simp only [List.length_cons, List.length_append] at hn
            obtain ⟨w, hw⟩ := ih r3 (by omega)
            exact ⟨_, Skips.comment body r3 w (fun d hd => by simpa using hbody d hd)
              (fun d r1 h => by simpa using hr3 d r1 h) hw⟩
        · exact ⟨[], Skips.stop c r hb hc⟩
      · obtain ⟨w, hw⟩ := ih r (by omega)
        exact ⟨c :: w, Skips.blank c r w hb hw⟩

/-- In front of every text, `skipWhitespace` consumes some prefix. -/
theorem skips_exists (rest : List Char) : ∃ w, Skips rest w :=
  skips_exists_aux rest.length rest le_rfl

theorem Skips.of_blankPrefix {w0 s w : List Char} (h0 : BlankPrefix w0) (h : Skips s w) :
    Skips (w0 ++ s) (w0 ++ w) := by
  induction h0 with
  | nil => exact h
  | space c w1 hc _ ih => exact Skips.blank c _ _ hc ih
  | comment body w1 hbody _ ih =>
    have := Skips.comment body ('\n' :: (w1 ++ s)) ('\n' :: (w1 ++ w)) hbody
      (fun d r1 h => by cases h; rfl) (Skips.blank '\n' _ _ (by decide) ih)
    simpa using this

theorem Skips.head_newline {r w : List Char} (h : Skips r w)
    (hr : ∀ d r1, r = d :: r1 → d = '\n') : ∀ d w1, w = d :: w1 → d = '\n' := by
  cases h with
  | done => intro d w1 h; cases h
  | stop c r hb hc => intro d w1 h; cases h
  | blank c r w hb hs =>
    intro d w1 h
    cases h
    exact hr _ _ rfl
  | comment body r w hbody hr1 hs =>
    have := hr _ _ rfl
    exact absurd this (by decide)

theorem Skips.of_blankText {w : List Char} (h : BlankText w) : Skips w w := by
  induction h with
  | nil => exact Skips.done
  | space c w hc _ ih => exact Skips.blank c w w hc ih
  | comment body w hbody hw _ ih => exact Skips.comment body w w hbody hw ih

/-- What `skipWhitespace` consumes is made of whitespace and line comments only. -/
theorem Skips.blankText {rest w : List Char} (h : Skips rest w) : BlankText w := by
  induction h with
  | done => exact BlankText.nil
  | stop c r _ _ => exact BlankText.nil
  | blank c r w hb _ ih => exact BlankText.space c w hb ih
  | comment body r w hbody hr hs ih =>
    exact BlankText.comment body w hbody (hs.head_newline hr) ih

/-- One iteration of the loop of `tokenize` that pushes a token, with the skipped text
described by `Skips`. -/
theorem Lexer.iteration_skips {lx lx1 lx2 : Lexer} {tok : Token}
    (hskip : lx.skipWhitespace = some lx1) (hne : lx1.isAtEnd = false)
    (hscan : lx1.scanToken = some (tok, lx2)) :
    ∃ w r, Skips lx.rest w ∧ lx.rest = w ++ tok.text ++ r ∧ lx1 = lx.stepAll w ∧
      lx2 = lx1.stepAll tok.text ∧ lx1.rest = tok.text ++ r ∧ lx2.rest = r ∧
      tok.text ≠ [] ∧ tok.line = lx1.line_ ∧ tok.column = lx1.column_ := by
  obtain ⟨w, hw⟩ := skips_exists lx.rest
  obtain ⟨r, hsplit, _⟩ := hw.split
  have hs := Lexer.skipWhitespace_skips hw
  rw [hskip] at hs
  cases hs
  have hr1 := Lexer.rest_stepAll hsplit
  obtain ⟨c, r2, hr2⟩ := Lexer.rest_ne_nil_of_not_isAtEnd hne
  obtain ⟨tok1, w1, r3, hr3, hsc, hl, hc, _, htext⟩ := Lexer.scanToken_spec hr2
  rw [hscan] at hsc
  cases hsc
  have h1 : (lx.stepAll w).rest = tok.text ++ r3 := by rw [hr2, hr3, htext]; rfl
  refine ⟨w, r3, hw, ?_, rfl, by rw [htext], h1, ?_, by rw [htext]; simp, hl, hc⟩
  · rw [hsplit, ← hr1, h1, List.append_assoc]
  · rw [← htext]; exact Lexer.rest_stepAll h1

/-- The run from a state over a text made of whitespace and comments pushes no token. -/
theorem Lexer.run_of_skips_all {lx : Lexer} {w : List Char} (hs : Skips lx.rest w)
    (hr : lx.rest = w) : ∃ lxf, Lexer.Run lx [] lxf := by
  rcases hend : lx.isAtEnd with _ | _
  · exact ⟨_, Lexer.Run.blank lx _ hend (Lexer.skipWhitespace_skips hs)
      (Lexer.isAtEnd_of_rest_nil (Lexer.rest_stepAll (by rw [hr, List.append_nil])))⟩
  · exact ⟨_, Lexer.Run.done lx hend⟩

/-- A run from another state, with the same characters ahead after whitespace and
complete line comments, pushes tokens of the same kinds and lexemes. -/
theorem Lexer.Run.relocate {lx : Lexer} {toks : List Token} {lxf : Lexer}
    (h : Lexer.Run lx toks lxf) :
    ∀ (w0 : List Char) (lx0 : Lexer), BlankPrefix w0 → lx0.rest = w0 ++ lx.rest →
      ∃ toks0 lxf0, Lexer.Run lx0 toks0 lxf0 ∧ toks0.map Token.key = toks.map Token.key := by
  induction h with
  | done lx hend =>
    intro w0 lx0 hb hr
    rw [Lexer.rest_of_isAtEnd hend, List.append_nil] at hr
    have hs : Skips lx0.rest w0 := by
      have := Skips.of_blankPrefix hb Skips.done
      rw [List.append_nil] at this
      rw [hr]; exact this
    obtain ⟨lxf0, hrun⟩ := Lexer.run_of_skips_all hs hr
    exact ⟨[], lxf0, hrun, rfl⟩
  | blank lx lx1 _ hskip hend =>
    intro w0 lx0 hb hr
    obtain ⟨w, hw⟩ := skips_exists lx.rest
    obtain ⟨r, hsplit, _⟩ := hw.split
    have hs := Lexer.skipWhitespace_skips hw
    rw [hskip] at hs
    cases hs
    have hr1 := Lexer.rest_stepAll hsplit
    rw [Lexer.rest_of_isAtEnd hend] at hr1
    subst hr1
    rw [List.append_nil] at hsplit
    have hs0 : Skips lx0.rest (w0 ++ w) := by
      rw [hr]; exact Skips.of_blankPrefix hb hw
    obtain ⟨lxf0, hrun⟩ := Lexer.run_of_skips_all hs0 (by rw [hr, ← hsplit])
    exact ⟨[], lxf0, hrun, rfl⟩
  | token lx lx1 lx2 tok toks lxf _ hskip hne hscan _ ih =>
    intro w0 lx0 hb hr
    obtain ⟨w, hw⟩ := skips_exists lx.rest
    obtain ⟨r, hsplit, _⟩ := hw.split
    have hs := Lexer.skipWhitespace_skips hw
    rw [hskip] at hs
    cases hs
    have hr1 := Lexer.rest_stepAll hsplit
    obtain ⟨c, r2, hr2⟩ := Lexer.rest_ne_nil_of_not_isAtEnd hne
    have hs0 : Skips lx0.rest (w0 ++ w) := by
      rw [hr]; exact Skips.of_blankPrefix hb hw
    have hsplit0 : lx0.rest = (w0 ++ w) ++ (c :: r2) := by
      rw [hr, hsplit, hr1.symm.trans hr2, List.append_assoc]
    have hr0 := Lexer.rest_stepAll hsplit0
    obtain ⟨w1, r3, hr3, hlx2, hscan0⟩ := Lexer.scanToken_relocate hr2 hr0 hscan
    subst hlx2
    have hrest2 : ((lx.stepAll w).stepAll (c :: w1)).rest = r3 :=
      Lexer.rest_stepAll (by rw [hr2, hr3]; rfl)
    have hrest0 : ((lx0.stepAll (w0 ++ w)).stepAll (c :: w1)).rest = r3 :=
      Lexer.rest_stepAll (by rw [hr0, hr3]; rfl)
    obtain ⟨toks0, lxf0, hrun0, hkeys⟩ := ih [] _ BlankPrefix.nil
      (by rw [hrest0, hrest2]; rfl)
    refine ⟨_ :: toks0, lxf0, Lexer.Run.token lx0 _ _ _ toks0 lxf0 ?_
      (Lexer.skipWhitespace_skips hs0) (Lexer.isAtEnd_of_rest_cons hr0) hscan0 hrun0, ?_⟩
    · rcases hend0 : lx0.isAtEnd with _ | _
      · rfl
      · have := Lexer.rest_of_isAtEnd hend0
        rw [hsplit0] at this
        simp at this
    · simp only [List.map_cons, hkeys]
      rfl

end HW1

/-! ## Whitespace, comments, unknown characters, integers, single characters -/

namespace HW1

theorem Token.key_makeToken (type : TokenType) (lexeme : String) (l c : Nat) :
    (makeToken type lexeme l c).key = (type, lexeme) := rfl

theorem blankPrefix_of_all_blank {w : List Char} (h : ∀ c ∈ w, isBlankChar c = true) :
    BlankPrefix w := by
  induction w with
  | nil => exact BlankPrefix.nil
  | cons c w ih =>
    exact BlankPrefix.space c w (h c (List.mem_cons_self _ _))
      (ih (fun d hd => h d (List.mem_cons_of_mem _ hd)))

theorem blankText_of_all_blank {w : List Char} (h : ∀ c ∈ w, isBlankChar c = true) :
    BlankText w := by
  induction w with
  | nil => exact BlankText.nil
  | cons c w ih =>
    exact BlankText.space c w (h c (List.mem_cons_self _ _))
      (ih (fun d hd => h d (List.mem_cons_of_mem _ hd)))

/-- The (kind, lexeme) pairs of a source in front of which whitespace and complete
line comments are put. -/
theorem tokenKeys_blankPrefix {w : List Char} (s : List Char) (hw : BlankPrefix w) :
    ∃ keys, tokenKeys (String.mk (w ++ s)) = some keys ∧
      tokenKeys (String.mk s) = some keys := by
  obtain ⟨toks, lxf, hrun, htok⟩ := tokenize_run (String.mk s)
  obtain ⟨toks0, lxf0, hrun0, hkeys⟩ :=
    hrun.relocate w (Lexer.new (String.mk (w ++ s))) hw rfl
  have htok0 := tokenize_eq_of_run hrun0
  refine ⟨toks.map Token.key ++ [(.END_OF_FILE, "")], ?_, ?_⟩
  · simp only [tokenKeys, htok0, List.map_append, hkeys]
    rfl
  · simp only [tokenKeys, htok, List.map_append]
    rfl

/-- On a digit, `scanToken` is `scanNumber`. -/
theorem Lexer.scanToken_digit {lx : Lexer} {c : Char} {r : List Char}
    (h : lx.rest = c :: r) (hc : isdigit c = true) :
    lx.scanToken = (lx.step c).scanNumber := by
  rw [Lexer.scanToken_of_rest_cons h]
  have hne : ∀ d, isdigit d = false → ¬ (c = d) := by
    rintro d hd rfl
    rw [hd] at hc
    cases hc
  have hal : ¬ ((isalpha c || decide (c = '_')) = true) := by
    have h1 : c ≠ '_' := hne '_' (by decide)
    have h2 : isalpha c = false := by
      simp only [isdigit, Char.isDigit, Bool.and_eq_true, decide_eq_true_eq] at hc
      simp only [isalpha, Char.isAlpha, Char.isUpper, Char.isLower, Bool.or_eq_false_iff,
        Bool.and_eq_false_iff, decide_eq_false_iff_not]
      have h48 := hc.1
      have h57 := hc.2
      rw [ge_iff_le, UInt32.le_def] at h48
      rw [UInt32.le_def] at h57
      refine ⟨Or.inl ?_, Or.inl ?_⟩
      · rw [ge_iff_le, UInt32.le_def]
        intro h65
        have := Fin.le_def.mp h57
        have := Fin.le_def.mp h65
        simp at *
        omega
      · rw [ge_iff_le, UInt32.le_def]
        intro h97
        have := Fin.le_def.mp h57
        have := Fin.le_def.mp h97
        simp at *
        omega
    simp [h1, h2]
  rw [if_neg (hne '(' (by decide)), if_neg (hne ')' (by decide)), if_neg (hne '\x7b' (by decide)),
    if_neg (hne '\x7d' (by decide)), if_neg (hne ';' (by decide)), if_neg (hne ':' (by decide)),
    if_neg (hne ',' (by decide)), if_neg (hne '+' (by decide)), if_neg (hne '-' (by decide)),
    if_neg (hne '*' (by decide)), if_neg (hne '/' (by decide)), if_neg (hne '=' (by decide)),
    if_neg (hne '!' (by decide)), if_neg (hne '<' (by decide)), if_neg (hne '>' (by decide)),
    if_neg (hne '"' (by decide)), if_neg hal, if_pos hc]

end HW1

namespace HW1

/-- On a character that starts no token, `scanToken` returns an ERROR token whose
lexeme is that character. -/
theorem Lexer.scanToken_other {lx : Lexer} {c : Char} {r : List Char}
    (h : lx.rest = c :: r) (hword : isIdentChar c = false) (hquote : c ≠ '"')
    (hpunct : c ∉ ['(', ')', '\x7b', '\x7d', ';', ':', ',', '+', '-', '*', '/', '=', '!',
      '<', '>']) :
    lx.scanToken = some (makeToken .ERROR (String.singleton c) lx.line_ lx.column_,
      lx.step c) := by
  rw [Lexer.scanToken_of_rest_cons h]
  have hne : ∀ d, d ∈ ['(', ')', '\x7b', '\x7d', ';', ':', ',', '+', '-', '*', '/', '=', '!',
      '<', '>'] → ¬ (c = d) := by
    rintro d hd rfl
    exact hpunct hd
  simp only [isIdentChar, isalnum, Char.isAlphanum, Bool.or_eq_false_iff,
    decide_eq_false_iff_not] at hword
  have hal : ¬ ((isalpha c || decide (c = '_')) = true) := by
    simp [isalpha, hword.1.1, hword.2]
  have hdi : ¬ (isdigit c = true) := by
    simp [isdigit, hword.1.2]
  rw [if_neg (hne '(' (by decide)), if_neg (hne ')' (by decide)), if_neg (hne '\x7b' (by decide)),
    if_neg (hne '\x7d' (by decide)), if_neg (hne ';' (by decide)), if_neg (hne ':' (by decide)),
    if_neg (hne ',' (by decide)), if_neg (hne '+' (by decide)), if_neg (hne '-' (by decide)),
    if_neg (hne '*' (by decide)), if_neg (hne '/' (by decide)), if_neg (hne '=' (by decide)),
    if_neg (hne '!' (by decide)), if_neg (hne '<' (by decide)), if_neg (hne '>' (by decide)),
    if_neg hquote, if_neg hal, if_neg hdi]

/-- C15. Whitespace and line comments are transparent: for every source `s` and every
prefix `w` made only of space, tab, `'\r'`, `'\n'` and of complete line comments, the
(kind, lexeme) pairs of `tokenize (w ++ s)` are those of `tokenize s`; a source `blank`
made only of whitespace and line comments, the last of which may end at the end of
the input, gives exactly the END_OF_FILE token; a source of blanks around `x` gives
IDENTIFIER `x` and END_OF_FILE, and `x // this is a comment\ny` gives IDENTIFIER `x`,
IDENTIFIER `y` and END_OF_FILE. -/
theorem tokenize_blank_transparent (w s blank : List Char) (hw : BlankPrefix w)
    (hblank : BlankText blank) :
    (∃ keys, tokenKeys (String.mk (w ++ s)) = some keys ∧
      tokenKeys (String.mk s) = some keys) ∧
    tokenize (String.mk blank) =
      some [{ type := .END_OF_FILE, lexeme := "", line := 1 + blank.count '\n',
              column := 1 + charsAfterLastNewline blank }] ∧
    tokenKeys "  \t  \n  x  " = some [(.IDENTIFIER, "x"), (.END_OF_FILE, "")] ∧
    tokenKeys "x // this is a comment\ny" =
      some [(.IDENTIFIER, "x"), (.IDENTIFIER, "y"), (.END_OF_FILE, "")] := by
  refine ⟨tokenKeys_blankPrefix s hw, ?_, by decide, by decide⟩
  obtain ⟨lxf, hrun⟩ := Lexer.run_of_skips_all
    (show Skips (Lexer.new (String.mk blank)).rest blank from Skips.of_blankText hblank) rfl
  rw [tokenize_of_run hrun]
  rfl

/-- Witness of C15: two comments and blanks in front of `x  `, and a source that ends
inside a comment. -/
theorem tokenize_blank_transparent_witness :
    BlankPrefix "// a\n \t//\n\r\n".data ∧ BlankText " // b".data ∧
    (∃ keys, tokenKeys "// a\n \t//\n\r\nx  " = some keys ∧ tokenKeys "x  " = some keys) ∧
    tokenize " // b" = some [{ type := .END_OF_FILE, lexeme := "", line := 1, column := 6 }] :=
  have hw : BlankPrefix "// a\n \t//\n\r\n".data :=
    BlankPrefix.comment [' ', 'a'] _ (by decide)
      (BlankPrefix.space ' ' _ rfl (BlankPrefix.space '\t' _ rfl
        (BlankPrefix.comment [] _ (by decide)
          (blankPrefix_of_all_blank (w := ['\r', '\n']) (by decide)))))
  have hb : BlankText " // b".data :=
    BlankText.space ' ' _ rfl
      (BlankText.comment [' ', 'b'] [] (by decide) (fun _ _ h => by cases h) BlankText.nil)
  have h := tokenize_blank_transparent "// a\n \t//\n\r\n".data "x  ".data " // b".data hw hb
  ⟨hw, hb, h.1, h.2.1⟩

/-- C16. Lexical errors never abort the scan: `tokenize` returns a token sequence for
every source, and for a character `c` that is not whitespace, not a letter, digit or
`_`, not `"` and not one of `( ) { } ; : , + - * / = ! < >`, the first token of
`tokenize (c :: rest)` is an ERROR token at 1:1 whose lexeme is the single character
`c`, and the (kind, lexeme) pairs of the remaining tokens are those of `tokenize rest`. -/
theorem tokenize_error_continues (c : Char) (rest : List Char)
    (hblank : isBlankChar c = false) (hword : isIdentChar c = false) (hquote : c ≠ '"')
    (hpunct : c ∉ ['(', ')', '\x7b', '\x7d', ';', ':', ',', '+', '-', '*', '/', '=', '!',
      '<', '>']) :
    (∀ source : String, ∃ toks, tokenize source = some toks) ∧
    ∃ toks, tokenize (String.mk (c :: rest)) =
        some ({ type := .ERROR, lexeme := String.singleton c, line := 1, column := 1 } :: toks) ∧
      tokenKeys (String.mk rest) = some (toks.map Token.key) := by
  refine ⟨fun source => ?_, ?_⟩
  · obtain ⟨toks, lxf, _, htok⟩ := tokenize_run source
    exact ⟨_, htok⟩
  · have hrest : (Lexer.new (String.mk (c :: rest))).rest = c :: rest := rfl
    have hne : ∀ d, isBlankChar d = true → c ≠ d := by
      rintro d hd rfl
      rw [hd] at hblank
      cases hblank
    have hskip := Lexer.skipWhitespace_of_start hrest (hne ' ' (by decide))
      (hne '\t' (by decide)) (hne '\r' (by decide)) (hne '\n' (by decide))
      (fun h => hpunct (by rw [h]; decide))
    have hscan := Lexer.scanToken_other hrest hword hquote hpunct
    obtain ⟨toks, lxf, hrun, htok⟩ := tokenize_run (String.mk rest)
    obtain ⟨toks0, lxf0, hrun0, hkeys⟩ :=
      hrun.relocate [] ((Lexer.new (String.mk (c :: rest))).step c) BlankPrefix.nil
        (Lexer.rest_step hrest)
    have hrun1 := Lexer.Run.token _ _ _ _ toks0 lxf0 (Lexer.isAtEnd_of_rest_cons hrest) hskip
      (Lexer.isAtEnd_of_rest_cons hrest) hscan hrun0
    refine ⟨toks0 ++ [makeToken .END_OF_FILE "" lxf0.line_ lxf0.column_], ?_, ?_⟩
    · rw [tokenize_eq_of_run hrun1]
      rfl
    · simp only [tokenKeys, htok, List.map_append, hkeys]
      rfl

/-- Witness of C16: `@` in front of `x#`. -/
theorem tokenize_error_continues_witness :
    (isBlankChar '@' = false ∧ isIdentChar '@' = false ∧ '@' ≠ '"' ∧
      '@' ∉ ['(', ')', '\x7b', '\x7d', ';', ':', ',', '+', '-', '*', '/', '=', '!', '<', '>']) ∧
    (∀ source : String, ∃ toks, tokenize source = some toks) ∧
    ∃ toks, tokenize "@x#" =
        some ({ type := .ERROR, lexeme := "@", line := 1, column := 1 } :: toks) ∧
      tokenKeys "x#" = some (toks.map Token.key) :=
  ⟨⟨by decide, by decide, by decide, by decide⟩,
    tokenize_error_continues '@' ['x', '#'] (by decide) (by decide) (by decide) (by decide)⟩

/-- C19. Integer literals are accepted verbatim: a source that is a non-empty string of
digits, of any length and with or without leading zeros, gives exactly two tokens, an
INTEGER token at 1:1 whose lexeme is the whole source, and END_OF_FILE. -/
theorem tokenize_integer (c : Char) (cs : List Char) (hc : c.isDigit = true)
    (hcs : ∀ d ∈ cs, d.isDigit = true) :
    tokenize (String.mk (c :: cs)) =
      some [{ type := .INTEGER, lexeme := String.mk (c :: cs), line := 1, column := 1 },
            { type := .END_OF_FILE, lexeme := "", line := 1, column := 1 + (c :: cs).length }] := by
  have hc1 : isdigit c = true := hc
  have hcs1 : ∀ d ∈ cs, isdigit d = true := hcs
  have hrest : (Lexer.new (String.mk (c :: cs))).rest = c :: (cs ++ []) := by
    simp [Lexer.rest_new]
  have hne : ∀ d, isdigit d = false → c ≠ d := by
    rintro d hd rfl
    rw [hd] at hc1
    cases hc1
  have hskip := Lexer.skipWhitespace_of_start hrest (hne ' ' (by decide)) (hne '\t' (by decide))
    (hne '\r' (by decide)) (hne '\n' (by decide)) (hne '/' (by decide))
  have hscan := Lexer.scanToken_digit hrest hc1
  rw [Lexer.scanNumber_eq hrest hcs1 (fun d r1 h => by cases h)] at hscan
  have hend : (((Lexer.new (String.mk (c :: cs))).step c).stepAll cs).isAtEnd = true :=
    Lexer.isAtEnd_of_rest_nil (Lexer.rest_stepAll (Lexer.rest_step hrest))
  have hrun := Lexer.Run.token _ _ _ _ [] _ (Lexer.isAtEnd_of_rest_cons hrest) hskip
    (Lexer.isAtEnd_of_rest_cons hrest) hscan (Lexer.Run.done _ hend)
  have hnl : '\n' ∉ c :: cs := by
    intro hm
    rcases List.mem_cons.mp hm with h | h
    · exact hne '\n' (by decide) h.symm
    · have := hcs1 _ h
      revert this
      decide
  have hcnt := count_newline_of_not_mem hnl
  have hlc := Lexer.step_line_of_ne (Lexer.new (String.mk (c :: cs))) (hne '\n' (by decide))
  rw [tokenize_of_run hrun, hcnt.1, hcnt.2, hlc.1, hlc.2]
  rfl

/-- Witness of C19: `007` is one INTEGER token with lexeme `007`. -/
theorem tokenize_integer_witness :
    ('0'.isDigit = true ∧ ∀ d ∈ ['0', '7'], d.isDigit = true) ∧
    tokenize "007" =
      some [{ type := .INTEGER, lexeme := "007", line := 1, column := 1 },
            { type := .END_OF_FILE, lexeme := "", line := 1, column := 4 }] :=
  ⟨⟨by decide, by decide⟩, tokenize_integer '0' ['0', '7'] (by decide) (by decide)⟩

/-- C20. Each of the characters `+ - * /` and `( ) { } ; : ,`, alone in the source,
gives exactly two tokens: one token at 1:1 whose lexeme is the character and whose
kind is PLUS, MINUS, STAR, SLASH, LPAREN, RPAREN, LBRACE, RBRACE, SEMICOLON, COLON,
COMMA respectively, and END_OF_FILE; these eleven kinds are pairwise distinct. -/
theorem tokenize_single_character_kinds :
    tokenize "+" = some [⟨.PLUS, "+", 1, 1⟩, ⟨.END_OF_FILE, "", 1, 2⟩] ∧
    tokenize "-" = some [⟨.MINUS, "-", 1, 1⟩, ⟨.END_OF_FILE, "", 1, 2⟩] ∧
    tokenize "*" = some [⟨.STAR, "*", 1, 1⟩, ⟨.END_OF_FILE, "", 1, 2⟩] ∧
    tokenize "/" = some [⟨.SLASH, "/", 1, 1⟩, ⟨.END_OF_FILE, "", 1, 2⟩] ∧
    tokenize "(" = some [⟨.LPAREN, "(", 1, 1⟩, ⟨.END_OF_FILE, "", 1, 2⟩] ∧
    tokenize ")" = some [⟨.RPAREN, ")", 1, 1⟩, ⟨.END_OF_FILE, "", 1, 2⟩] ∧
    tokenize "\x7b" = some [⟨.LBRACE, "\x7b", 1, 1⟩, ⟨.END_OF_FILE, "", 1, 2⟩] ∧
    tokenize "\x7d" = some [⟨.RBRACE, "\x7d", 1, 1⟩, ⟨.END_OF_FILE, "", 1, 2⟩] ∧
    tokenize ";" = some [⟨.SEMICOLON, ";", 1, 1⟩, ⟨.END_OF_FILE, "", 1, 2⟩] ∧
    tokenize ":" = some [⟨.COLON, ":", 1, 1⟩, ⟨.END_OF_FILE, "", 1, 2⟩] ∧
    tokenize "," = some [⟨.COMMA, ",", 1, 1⟩, ⟨.END_OF_FILE, "", 1, 2⟩] ∧
    [TokenType.PLUS, .MINUS, .STAR, .SLASH, .LPAREN, .RPAREN, .LBRACE, .RBRACE, .SEMICOLON,
      .COLON, .COMMA].Nodup := by
  decide

end HW1

/-! ## Positions never go backwards; the source is the texts of its tokens -/

namespace HW1

theorem Lexer.posLe_refl (a : Lexer) : a.posLe a := Or.inr ⟨rfl, le_rfl⟩

theorem Lexer.posLe_trans {a b c : Lexer} (h1 : a.posLe b) (h2 : b.posLe c) : a.posLe c := by
  unfold Lexer.posLe at *
  omega

theorem Lexer.posLe_step (lx : Lexer) (c : Char) : lx.posLe (lx.step c) := by
  unfold Lexer.posLe Lexer.step
  by_cases hc : c = '\n'
  · rw [if_pos hc]; exact Or.inl (Nat.lt_succ_self _)
  · rw [if_neg hc]; exact Or.inr ⟨rfl, Nat.le_succ _⟩

theorem Lexer.posLe_stepAll (lx : Lexer) (w : List Char) : lx.posLe (lx.stepAll w) := by
  induction w generalizing lx with
  | nil => exact lx.posLe_refl
  | cons c w ih => exact Lexer.posLe_trans (lx.posLe_step c) (ih (lx.step c))

theorem Lexer.one_le_step {lx : Lexer} (c : Char) (h : 1 ≤ lx.line_ ∧ 1 ≤ lx.column_) :
    1 ≤ (lx.step c).line_ ∧ 1 ≤ (lx.step c).column_ := by
  unfold Lexer.step
  by_cases hc : c = '\n'
  · rw [if_pos hc]; exact ⟨Nat.le_succ_of_le h.1, le_rfl⟩
  · rw [if_neg hc]; exact ⟨h.1, Nat.le_succ_of_le h.2⟩

theorem Lexer.one_le_stepAll {lx : Lexer} (w : List Char)
    (h : 1 ≤ lx.line_ ∧ 1 ≤ lx.column_) :
    1 ≤ (lx.stepAll w).line_ ∧ 1 ≤ (lx.stepAll w).column_ := by
  induction w generalizing lx with
  | nil => exact h
  | cons c w ih => exact ih (Lexer.one_le_step c h)

/-- The tokens of a run, followed by the mark of the final state, are placed in
non-decreasing order from the mark of the first state on, at lines and columns that
are at least 1. -/
theorem Lexer.Run.positions {lx : Lexer} {toks : List Token} {lxf : Lexer}
    (h : Lexer.Run lx toks lxf) : 1 ≤ lx.line_ ∧ 1 ≤ lx.column_ →
    List.Chain Token.posLe lx.mark (toks ++ [lxf.mark]) ∧
      ∀ t ∈ toks ++ [lxf.mark], 1 ≤ t.line ∧ 1 ≤ t.column := by
  induction h with
  | done lx hend =>
    intro h1
    refine ⟨List.Chain.cons (Or.inr ⟨rfl, le_rfl⟩) List.Chain.nil, ?_⟩
    intro t ht
    simp only [List.nil_append, List.mem_singleton] at ht
    subst ht
    exact h1
  | blank lx lx1 _ hskip hend =>
    intro h1
    obtain ⟨w, r, _, hs⟩ := lx.skipWhitespace_spec
    rw [hskip] at hs
    cases hs
    refine ⟨List.Chain.cons (lx.posLe_stepAll w) List.Chain.nil, ?_⟩
    intro t ht
    simp only [List.nil_append, List.mem_singleton] at ht
    subst ht
    exact Lexer.one_le_stepAll w h1
  | token lx lx1 lx2 tok toks lxf _ hskip hne hscan _ ih =>
    intro h1
    obtain ⟨w, r, _, _, hlx1, hlx2, _, _, _, hl, hc⟩ := Lexer.iteration_skips hskip hne hscan
    have h2 : 1 ≤ lx1.line_ ∧ 1 ≤ lx1.column_ := by
      rw [hlx1]; exact Lexer.one_le_stepAll w h1
    have h3 : 1 ≤ lx2.line_ ∧ 1 ≤ lx2.column_ := by
      rw [hlx2]; exact Lexer.one_le_stepAll _ h2
    obtain ⟨hchain, hpos⟩ := ih h3
    have h01 : lx.posLe lx1 := by rw [hlx1]; exact lx.posLe_stepAll w
    have h12 : lx1.posLe lx2 := by rw [hlx2]; exact lx1.posLe_stepAll _
    have hfirst : Token.posLe lx.mark tok := by
      unfold Token.posLe
      rw [hl, hc]
      exact h01
    have hnext : ∀ {t : Token}, Token.posLe lx2.mark t → Token.posLe tok t := by
      intro t ht
      unfold Token.posLe at *
      rw [hl, hc]
      have : lx1.line_ < lx2.line_ ∨ (lx1.line_ = lx2.line_ ∧ lx1.column_ ≤ lx2.column_) := h12
      have e1 : lx2.mark.line = lx2.line_ := rfl
      have e2 : lx2.mark.column = lx2.column_ := rfl
      rw [e1, e2] at ht
      omega
    refine ⟨List.Chain.cons hfirst (List.Chain'.imp_head hnext hchain), ?_⟩
    intro t ht
    rcases List.mem_cons.mp ht with rfl | ht
    · rw [hl, hc]; exact h2
    · exact hpos t ht

/-- The characters ahead of a run are the texts of its tokens, in order, between
whitespace and line comments. -/
theorem Lexer.Run.interleaved {lx : Lexer} {toks : List Token} {lxf : Lexer}
    (h : Lexer.Run lx toks lxf) : Interleaved lx.rest toks := by
  induction h with
  | done lx hend =>
    rw [Lexer.rest_of_isAtEnd hend]
    exact BlankText.nil
  | blank lx lx1 _ hskip hend =>
    obtain ⟨w, hw⟩ := skips_exists lx.rest
    obtain ⟨r, hsplit, _⟩ := hw.split
    have hs := Lexer.skipWhitespace_skips hw
    rw [hskip] at hs
    cases hs
    have hr1 := Lexer.rest_stepAll hsplit
    rw [Lexer.rest_of_isAtEnd hend] at hr1
    subst hr1
    rw [List.append_nil] at hsplit
    have := hw.blankText
    rw [← hsplit] at this
    exact this
  | token lx lx1 lx2 tok toks lxf _ hskip hne hscan _ ih =>
    obtain ⟨w, r, hw, hsplit, _, _, _, hr2, _⟩ := Lexer.iteration_skips hskip hne hscan
    rw [hr2] at ih
    exact ⟨w, r, hw.blankText, hsplit, ih⟩

/-- C18. Token positions never go backwards: in the sequence returned by `tokenize`,
END_OF_FILE included, the (line, column) of every token is at most, in lexicographic
order, the (line, column) of the next one, and every line and column is at least 1. -/
theorem tokenize_positions_monotone (source : String) :
    ∃ toks, tokenize source = some toks ∧ toks.Chain' Token.posLe ∧
      ∀ t ∈ toks, 1 ≤ t.line ∧ 1 ≤ t.column := by
  obtain ⟨toks, lxf, hrun, htok⟩ := tokenize_run source
  obtain ⟨hchain, hpos⟩ := hrun.positions ⟨le_rfl, le_rfl⟩
  refine ⟨_, htok, ?_, hpos⟩
  exact (show List.Chain' Token.posLe ((Lexer.new source).mark :: (toks ++ [lxf.mark]))
    from hchain).tail

/-- Counterexample to C17: the source `"a"` has neither whitespace nor a comment, and
the lexemes of its tokens, put together, are `a` without the quotes. -/
theorem tokenize_lexemes_counterexample :
    tokenize "\"a\"" =
      some [{ type := .STRING, lexeme := "a", line := 1, column := 1 },
            { type := .END_OF_FILE, lexeme := "", line := 1, column := 4 }] ∧
    stripBlanks false "\"a\"".data = ['"', 'a', '"'] ∧
    concatLexemes [{ type := .STRING, lexeme := "a", line := 1, column := 1 },
      { type := .END_OF_FILE, lexeme := "", line := 1, column := 4 }] = ['a'] ∧
    ¬ (∀ source toks, tokenize source = some toks →
        concatLexemes toks = stripBlanks false source.data) := by
  refine ⟨by decide, by decide, by decide, fun h => ?_⟩
  have := h "\"a\"" _ (show tokenize "\"a\"" = some [⟨.STRING, "a", 1, 1⟩,
    ⟨.END_OF_FILE, "", 1, 4⟩] from by decide)
  revert this
  decide

/-- C17, amended. Tokens are never lexically altered: for every source, the tokens
returned by `tokenize` are some tokens followed by END_OF_FILE with empty lexeme, and
the source is the texts of these tokens, in order, with nothing but whitespace and
line comments before, between and after them; the text of a token is its lexeme,
put between double quotes for a STRING token. -/
theorem tokenize_texts_interleaved (source : String) :
    ∃ toks eof, tokenize source = some (toks ++ [eof]) ∧ eof.type = .END_OF_FILE ∧
      eof.lexeme = "" ∧ Interleaved source.data toks := by
  obtain ⟨toks, lxf, hrun, htok⟩ := tokenize_run source
  exact ⟨toks, _, htok, rfl, rfl, hrun.interleaved⟩

end HW1

/-! ## Bounds, termination, and concatenation of programs -/

namespace Bystep

open Grammar

theorem lt_of_drop_append {tokens : List Token} {pos pos1 : Nat} {s : List Token}
    (h : tokens.drop pos = s ++ tokens.drop pos1) (hs : 0 < s.length) : pos < pos1 := by
  have hl := congrArg List.length h
  simp only [List.length_drop, List.length_append] at hl
  omega

theorem statement_length_pos {s : List Token} {a : ASTNode} (h : Grammar.statement s a) :
    0 < s.length := by
  obtain ⟨t, s1, rfl, _⟩ := statement_head h
  simp

theorem block_length_pos {b : List Token} {body : List ASTNode} (h : Grammar.block b body) :
    0 < b.length := by
  cases h
  simp

/-- A read guarded by `!atEnd()` is inside the vector. -/
theorem current_of_not_atEnd {tokens : List Token} {pos : Nat} (h : atEnd tokens pos = false) :
    ∃ tok, current tokens pos = .ok tok ∧ advance tokens pos = .ok (tok, pos + 1) := by
  rcases drop_cases tokens pos with hd | ⟨t, hd⟩
  · rw [atEnd_of_drop_nil hd] at h
    cases h
  · exact ⟨t, current_of_drop hd, advance_of_drop hd⟩

theorem parseLoop_consumed (fuel : Nat) :
    ∀ (tokens : List Token) (pos : Nat) (acc nodes : List ASTNode),
      pos ≤ tokens.length → 4 * (tokens.length - pos) + 1 ≤ fuel →
      parseLoop fuel tokens pos acc = .ok nodes →
      ∃ more, nodes = acc ++ more ∧ ConsumedBy tokens pos more := by
  induction fuel with
  | zero => intro tokens pos acc nodes _ hf; omega
  | succ f ih =>
    intro tokens pos acc nodes hpos hf h
    rcases drop_cases tokens pos with hd | ⟨t, hd⟩
    · rw [parseLoop_atEnd acc hd (by omega)] at h
      cases h
      have hlen : tokens.length ≤ pos := List.drop_eq_nil_iff.mp hd
      exact ⟨[], by simp, by simp only [ConsumedBy]; omega⟩
    · have hlt := lt_length_of_drop hd
      rw [parseLoop_step hd] at h
      have hP := (progress_all f).1 tokens pos hlt (by omega)
      cases h1 : parseStatement f tokens pos with
      | error e => simp [h1] at h
      | ok res =>
        obtain ⟨stmt, pos1⟩ := res
        rw [h1] at hP
        have hp : pos < pos1 ∧ pos1 ≤ tokens.length := hP
        simp only [h1] at h
        obtain ⟨more, rfl, hmore⟩ := ih tokens pos1 (acc ++ [stmt]) nodes hp.2 (by omega) h
        exact ⟨stmt :: more, by simp, f, pos1, h1, hp.1, hmore⟩

theorem statements_append {ts1 : List Token} {A : List ASTNode}
    (h1 : Grammar.statements ts1 A) {ts2 : List Token} {B : List ASTNode}
    (h2 : Grammar.statements ts2 B) : Grammar.statements (ts1 ++ ts2) (A ++ B) :=
  @Grammar.statements.rec
    (fun _ _ _ => True) (fun _ _ _ => True)
    (fun ts A _ => Grammar.statements (ts ++ ts2) (A ++ B))
    (fun _ _ _ _ _ => trivial)
    (fun _ _ _ _ _ => trivial)
    (fun _ _ _ _ _ _ => trivial)
    (fun _ _ _ _ _ _ _ => trivial)
    (fun _ _ _ _ _ _ _ _ _ _ _ => trivial)
    (fun _ _ _ _ _ _ _ => trivial)
    (fun _ _ _ => trivial)
    (fun _ _ _ => trivial)
    (fun _ _ _ _ => trivial)
    (by simpa using h2)
    (fun s a ss rest hs _ _ ih => by
      have := Grammar.statements.cons s a (ss ++ ts2) (rest ++ B) hs ih
      simpa using this)
    ts1 A h1

/-- C22. The parser never reads the token vector out of bounds: a read guarded by
`!atEnd()` is inside the vector, and on every token sequence, the empty one included,
`parse` returns nodes or fails with one of the messages of its own `throw`
statements; the out-of-range failure of `current` and `advance` is never the result,
nor is the exhaustion of the fuel. -/
theorem parse_never_out_of_range (tokens : List Token) :
    (∀ pos, atEnd tokens pos = false →
      ∃ tok, current tokens pos = .ok tok ∧ advance tokens pos = .ok (tok, pos + 1)) ∧
    parse tokens ≠ .error .out_of_range ∧ parse tokens ≠ .error .out_of_fuel ∧
    ((∃ nodes, parse tokens = .ok nodes) ∨
      ∃ msg, parse tokens = .error (.runtime_error msg) ∧ ThrownMessage tokens msg) := by
  have key : (∃ nodes, parse tokens = .ok nodes) ∨
      ∃ msg, parse tokens = .error (.runtime_error msg) ∧ ThrownMessage tokens msg := by
    cases h : parse tokens with
    | ok nodes => exact Or.inl ⟨nodes, rfl⟩
    | error e =>
      obtain ⟨msg, rfl, hmsg⟩ := parse_failure h
      exact Or.inr ⟨msg, rfl, hmsg⟩
  refine ⟨fun pos h => current_of_not_atEnd h, ?_, ?_, key⟩
  · rcases key with ⟨nodes, h⟩ | ⟨msg, h, _⟩ <;> rw [h] <;> simp
  · rcases key with ⟨nodes, h⟩ | ⟨msg, h, _⟩ <;> rw [h] <;> simp

/-- Witness of C22: the tokens `let`, which end in the middle of a declaration. -/
theorem parse_never_out_of_range_witness :
    atEnd [⟨"KEYWORD", "let"⟩] 0 = false ∧
    (∃ tok, current [⟨"KEYWORD", "let"⟩] 0 = .ok tok ∧
      advance [⟨"KEYWORD", "let"⟩] 0 = .ok (tok, 0 + 1)) ∧
    parse [⟨"KEYWORD", "let"⟩] ≠ .error .out_of_range ∧
    parse [⟨"KEYWORD", "let"⟩]
      = .error (.runtime_error "Expected variable name after 'let'") :=
  ⟨rfl, (parse_never_out_of_range [⟨"KEYWORD", "let"⟩]).1 0 rfl,
    (parse_never_out_of_range [⟨"KEYWORD", "let"⟩]).2.1, rfl⟩

/-- C23. The parser terminates on every token sequence: the fuel that `parse` gives to
its loops and to the recursion `statement -> block -> statement` is never exhausted;
every successful call of `parsePrimary`, `parseExpression`, `parseStatement` and
`parseBlock`, at any fuel, returns a cursor strictly after the one it started from;
and when `parse` succeeds its nodes are those of successive calls of
`parseStatement` from cursor 0, the last of which ends at the number of tokens. -/
theorem parse_terminates (tokens : List Token) :
    parse tokens ≠ .error .out_of_fuel ∧
    (∀ pos a pos1, parsePrimary tokens pos = .ok (a, pos1) → pos < pos1) ∧
    (∀ fuel pos a pos1, parseExpression fuel tokens pos = .ok (a, pos1) → pos < pos1) ∧
    (∀ fuel pos a pos1, parseStatement fuel tokens pos = .ok (a, pos1) → pos < pos1) ∧
    (∀ fuel pos body pos1, parseBlock fuel tokens pos = .ok (body, pos1) → pos < pos1) ∧
    (∀ nodes, parse tokens = .ok nodes → ConsumedBy tokens 0 nodes) := by
  refine ⟨?_, ?_, ?_, ?_, ?_, ?_⟩
  · intro h
    obtain ⟨msg, hmsg, _⟩ := parse_failure h
    cases hmsg
  · intro pos a pos1 h
    obtain ⟨_, _, _, rfl, _⟩ := parsePrimary_sound h
    exact Nat.lt_succ_self _
  · intro fuel pos a pos1 h
    obtain ⟨e, he, hd⟩ := parseExpression_sound h
    exact lt_of_drop_append hd (expression_length_pos he)
  · intro fuel pos a pos1 h
    obtain ⟨s, hs, hd⟩ := (sound_all fuel).1 tokens pos a pos1 h
    exact lt_of_drop_append hd (statement_length_pos hs)
  · intro fuel pos body pos1 h
    obtain ⟨b, hb, hd⟩ := (sound_all fuel).2.2.1 tokens pos body pos1 h
    exact lt_of_drop_append hd (block_length_pos hb)
  · intro nodes h
    obtain ⟨more, rfl, hmore⟩ :=
      parseLoop_consumed _ tokens 0 [] nodes (Nat.zero_le _) (by omega) h
    simpa using hmore

/-- Witness of C23: the two statements `x` and `return 1 ;`. -/
theorem parse_terminates_witness :
    parse [⟨"IDENTIFIER", "x"⟩, ⟨"KEYWORD", "return"⟩, ⟨"NUMBER", "1"⟩, ⟨"PUNCTUATION", ";"⟩]
      = .ok [.Identifier "x", .ReturnStatement (.NumberLiteral "1")] ∧
    ConsumedBy
      [⟨"IDENTIFIER", "x"⟩, ⟨"KEYWORD", "return"⟩, ⟨"NUMBER", "1"⟩, ⟨"PUNCTUATION", ";"⟩] 0
      [.Identifier "x", .ReturnStatement (.NumberLiteral "1")] :=
  ⟨rfl, (parse_terminates
    [⟨"IDENTIFIER", "x"⟩, ⟨"KEYWORD", "return"⟩, ⟨"NUMBER", "1"⟩,
      ⟨"PUNCTUATION", ";"⟩]).2.2.2.2.2 _ rfl⟩

/-- C25. Parsing distributes over the concatenation of programs: when `parse ts1`
returns the nodes `A` and `parse ts2` returns the nodes `B`, `parse (ts1 ++ ts2)`
returns `A ++ B`. -/
theorem parse_append (ts1 ts2 : List Token) (A B : List ASTNode)
    (h1 : parse ts1 = .ok A) (h2 : parse ts2 = .ok B) :
    parse (ts1 ++ ts2) = .ok (A ++ B) :=
  parse_of_program (statements_append (program_of_parse h1) (program_of_parse h2))

/-- Witness of C25: an `if` without `else` and the bare expression `x`, followed by
the expression `y + 1`. -/
theorem parse_append_witness :
    (parse [⟨"KEYWORD", "if"⟩, ⟨"IDENTIFIER", "c"⟩, ⟨"PUNCTUATION", "\x7b"⟩,
        ⟨"PUNCTUATION", "\x7d"⟩, ⟨"IDENTIFIER", "x"⟩]
      = .ok [.IfStatement (.Identifier "c") [] [], .Identifier "x"] ∧
      parse [⟨"IDENTIFIER", "y"⟩, ⟨"OPERATOR", "+"⟩, ⟨"NUMBER", "1"⟩]
      = .ok [.BinaryExpr "+" (.Identifier "y") (.NumberLiteral "1")]) ∧
    parse [⟨"KEYWORD", "if"⟩, ⟨"IDENTIFIER", "c"⟩, ⟨"PUNCTUATION", "\x7b"⟩,
        ⟨"PUNCTUATION", "\x7d"⟩, ⟨"IDENTIFIER", "x"⟩, ⟨"IDENTIFIER", "y"⟩,
        ⟨"OPERATOR", "+"⟩, ⟨"NUMBER", "1"⟩]
      = .ok [.IfStatement (.Identifier "c") [] [], .Identifier "x",
          .BinaryExpr "+" (.Identifier "y") (.NumberLiteral "1")] :=
  ⟨⟨rfl, rfl⟩,
   parse_append
     [⟨"KEYWORD", "if"⟩, ⟨"IDENTIFIER", "c"⟩, ⟨"PUNCTUATION", "\x7b"⟩,
       ⟨"PUNCTUATION", "\x7d"⟩, ⟨"IDENTIFIER", "x"⟩]
     [⟨"IDENTIFIER", "y"⟩, ⟨"OPERATOR", "+"⟩, ⟨"NUMBER", "1"⟩]
     [.IfStatement (.Identifier "c") [] [], .Identifier "x"]
     [.BinaryExpr "+" (.Identifier "y") (.NumberLiteral "1")] rfl rfl⟩

end Bystep

/-! ## No lexical error is absorbed into a tree -/

namespace Bystep

open Grammar

theorem precededBy_nil (k : Token) (R : List Token → Prop) : precededBy [] k R := by
  intro pre post h
  have := congrArg List.length h
  simp only [List.length_nil, List.length_append, List.length_cons] at this
  omega

theorem precededBy_of_not_mem {ts : List Token} {k : Token} (R : List Token → Prop)
    (h : k ∉ ts) : precededBy ts k R := by
  intro pre post hs
  exact absurd (by rw [hs]; simp) h

theorem precededBy_append {s1 s2 : List Token} {k : Token} {R : List Token → Prop}
    (h1 : precededBy s1 k R) (h2 : precededBy s2 k R) : precededBy (s1 ++ s2) k R := by
  intro pre post h
  rcases List.append_eq_append_iff.mp h with ⟨a, rfl, ha⟩ | ⟨c, rfl, hc⟩
  · obtain ⟨pre1, w, rfl, hw⟩ := h2 a post ha
    exact ⟨s1 ++ pre1, w, by simp, hw⟩
  · cases c with
    | nil =>
      simp only [List.nil_append] at hc
      obtain ⟨pre1, w, hpw, hw⟩ := h2 [] post hc.symm
      have : w = [] := by
        have := congrArg List.length hpw
        simp only [List.length_nil, List.length_append] at this
        exact List.length_eq_zero.mp (by omega)
      subst this
      exact ⟨pre, [], by simp, hw⟩
    | cons d c1 =>
      simp only [List.cons_append, List.cons.injEq] at hc
      obtain ⟨rfl, rfl⟩ := hc
      exact h1 pre c1 rfl

/-- The token `k` directly after `w`, when `w` satisfies `R`. -/
theorem precededBy_key {w s2 : List Token} {k : Token} {R : List Token → Prop}
    (hw : precededBy w k R) (hR : R w) (h2 : precededBy s2 k R) :
    precededBy (w ++ k :: s2) k R := by
  intro pre post h
  rcases List.append_eq_append_iff.mp h with ⟨a, rfl, ha⟩ | ⟨c, rfl, hc⟩
  · cases a with
    | nil => exact ⟨[], w, by simp, hR⟩
    | cons d a1 =>
      simp only [List.cons_append, List.cons.injEq] at ha
      obtain ⟨rfl, rfl⟩ := ha
      obtain ⟨pre1, w1, rfl, hw1⟩ := h2 a1 post rfl
      exact ⟨w ++ k :: pre1, w1, by simp, hw1⟩
  · cases c with
    | nil => exact ⟨[], pre, by simp, by simpa using hR⟩
    | cons d c1 =>
      simp only [List.cons_append, List.cons.injEq] at hc
      obtain ⟨rfl, _⟩ := hc
      exact hw pre c1 rfl

theorem lexicallyClean_nil : lexicallyClean [] :=
  ⟨by simp, precededBy_nil _ _, precededBy_nil _ _⟩

theorem lexicallyClean_append {s1 s2 : List Token} (h1 : lexicallyClean s1)
    (h2 : lexicallyClean s2) : lexicallyClean (s1 ++ s2) := by
  refine ⟨?_, precededBy_append h1.2.1 h2.2.1, precededBy_append h1.2.2 h2.2.2⟩
  intro t ht
  rcases List.mem_append.mp ht with h | h
  · exact h1.1 t h
  · exact h2.1 t h

/-- A token that is not UNKNOWN, not `:` or `,`, and neither `mut` nor `else`. -/
theorem lexicallyClean_singleton {t : Token} (h1 : t.type ≠ "UNKNOWN")
    (h2 : t ≠ punct ":") (h3 : t ≠ punct ",") (h4 : t ≠ kw "mut") (h5 : t ≠ kw "else") :
    lexicallyClean [t] := by
  refine ⟨?_, precededBy_of_not_mem _ (by simpa using Ne.symm h4),
    precededBy_of_not_mem _ (by simpa using Ne.symm h5)⟩
  intro u hu
  rw [List.mem_singleton.mp hu]
  exact ⟨h1, h2, h3⟩

theorem lexicallyClean_of_type {t : Token} (h1 : t.type ≠ "UNKNOWN")
    (h2 : t.type ≠ "PUNCTUATION") (h3 : t.type ≠ "KEYWORD") : lexicallyClean [t] :=
  lexicallyClean_singleton h1 (fun h => h2 (by rw [h]; rfl)) (fun h => h2 (by rw [h]; rfl))
    (fun h => h3 (by rw [h]; rfl)) (fun h => h3 (by rw [h]; rfl))

theorem lexicallyClean_primary {t : Token} (h : isPrimaryToken t = true) :
    lexicallyClean [t] := by
  have hne := isPrimaryToken_type_ne h
  refine lexicallyClean_of_type ?_ hne.2.2 hne.1
  simp only [isPrimaryToken, Bool.or_eq_true, beq_iff_eq] at h
  rcases h with (h | h) | h <;> rw [h] <;> decide

theorem lexicallyClean_chain (p0 : Token) (ops : List (Token × Token))
    (hc : isChain p0 ops) : lexicallyClean (chainTokens p0 ops) := by
  unfold chainTokens
  have : lexicallyClean (ops.flatMap (fun q => [q.1, q.2])) := by
    have hops := hc.2
    clear hc
    induction ops with
    | nil => exact lexicallyClean_nil
    | cons q ops ih =>
      have hq := hops q (List.mem_cons_self _ _)
      have h1 : lexicallyClean [q.1] :=
        lexicallyClean_of_type (by rw [hq.1]; decide) (by rw [hq.1]; decide)
          (by rw [hq.1]; decide)
      have := lexicallyClean_append h1 (lexicallyClean_append (lexicallyClean_primary hq.2)
        (ih (fun r hr => hops r (List.mem_cons_of_mem _ hr))))
      simpa [List.flatMap_cons] using this
  exact lexicallyClean_append (lexicallyClean_primary hc.1) this

theorem lexicallyClean_expression {e : List Token} {a : ASTNode}
    (h : Grammar.expression e a) : lexicallyClean e := by
  obtain ⟨p0, ops, hc, rfl, _⟩ := expression_iff_chain.mp h
  exact lexicallyClean_chain p0 ops hc

theorem lexicallyClean_word (t : Token) (h : t ∈ [kw "let", kw "fn", kw "if", kw "while",
    kw "return", punct "(", punct ")", punct "\x7b", punct "\x7d", punct ";", assign]) :
    lexicallyClean [t] := by
  simp only [List.mem_cons, List.mem_singleton, List.not_mem_nil, or_false] at h
  rcases h with h | h | h | h | h | h | h | h | h | h | h <;> subst h <;>
    exact lexicallyClean_singleton (by decide) (by decide) (by decide) (by decide) (by decide)

theorem lexicallyClean_identifier {x : Token} (h : x.type = "IDENTIFIER") :
    lexicallyClean [x] :=
  lexicallyClean_of_type (by rw [h]; decide) (by rw [h]; decide) (by rw [h]; decide)

/-- The keyword `mut` directly after `let`. -/
theorem lexicallyClean_let_mut {s : List Token} (h : lexicallyClean s) :
    lexicallyClean (kw "let" :: kw "mut" :: s) := by
  have hlet := lexicallyClean_word (kw "let") (by simp)
  refine ⟨?_, ?_, ?_⟩
  · intro t ht
    rcases List.mem_cons.mp ht with rfl | ht
    · exact hlet.1 _ (List.mem_singleton_self _)
    · rcases List.mem_cons.mp ht with rfl | ht
      · exact ⟨by decide, by decide, by decide⟩
      · exact h.1 t ht
  · exact precededBy_key hlet.2.1 rfl h.2.1
  · have : precededBy ([kw "let", kw "mut"] ++ s) (kw "else") isIfBlock :=
      precededBy_append (precededBy_of_not_mem _ (by decide)) h.2.2
    simpa using this

/-- The keyword `else` directly after the block of an `if`. -/
theorem lexicallyClean_if_else {c b1 b2 : List Token} {cond : ASTNode}
    {thenBody : List ASTNode} (hc : Grammar.expression c cond)
    (hb : Grammar.block b1 thenBody) (h1 : lexicallyClean b1) (h2 : lexicallyClean b2) :
    lexicallyClean (kw "if" :: c ++ b1 ++ kw "else" :: b2) := by
  have hw : lexicallyClean (kw "if" :: c ++ b1) := by
    have := lexicallyClean_append (lexicallyClean_word (kw "if") (by simp))
      (lexicallyClean_append (lexicallyClean_expression hc) h1)
    simpa using this
  refine ⟨?_, ?_, ?_⟩
  · intro t ht
    rcases List.mem_append.mp ht with ht | ht
    · exact hw.1 t ht
    · rcases List.mem_cons.mp ht with rfl | ht
      · exact ⟨by decide, by decide, by decide⟩
      · exact h2.1 t ht
  · have : precededBy ((kw "if" :: c ++ b1) ++ ([kw "else"] ++ b2)) (kw "mut") isLet :=
      precededBy_append hw.2.1
        (precededBy_append (precededBy_of_not_mem _ (by decide)) h2.2.1)
    simpa using this
  · exact precededBy_key hw.2.2 ⟨c, cond, b1, thenBody, rfl, hc, hb⟩ h2.2.2

/-- The tokens of every derivation of the grammar are lexically clean. -/
theorem lexicallyClean_of_statements {ts : List Token} {nodes : List ASTNode}
    (h : Grammar.statements ts nodes) : lexicallyClean ts :=
  @Grammar.statements.rec
    (fun s _ _ => lexicallyClean s) (fun b _ _ => lexicallyClean b)
    (fun ss _ _ => lexicallyClean ss)
    (fun x e v hx he => by
      have := lexicallyClean_append (lexicallyClean_word (kw "let") (by simp))
        (lexicallyClean_append (lexicallyClean_identifier hx)
          (lexicallyClean_append (lexicallyClean_word assign (by simp))
            (lexicallyClean_append (lexicallyClean_expression he)
              (lexicallyClean_word (punct ";") (by simp)))))
      simpa using this)
    (fun x e v hx he => by
      have := lexicallyClean_let_mut
        (lexicallyClean_append (lexicallyClean_identifier hx)
          (lexicallyClean_append (lexicallyClean_word assign (by simp))
            (lexicallyClean_append (lexicallyClean_expression he)
              (lexicallyClean_word (punct ";") (by simp)))))
      simpa using this)
    (fun f b body hf _ ih => by
      have := lexicallyClean_append (lexicallyClean_word (kw "fn") (by simp))
        (lexicallyClean_append (lexicallyClean_identifier hf)
          (lexicallyClean_append (lexicallyClean_word (punct "(") (by simp))
            (lexicallyClean_append (lexicallyClean_word (punct ")") (by simp)) ih)))
      simpa using this)
    (fun c cond b thenBody hc _ ih => by
      have := lexicallyClean_append (lexicallyClean_word (kw "if") (by simp))
        (lexicallyClean_append (lexicallyClean_expression hc) ih)
      simpa using this)
    (fun c cond b1 thenBody b2 elseBody hc hb1 _ ih1 ih2 =>
      lexicallyClean_if_else hc hb1 ih1 ih2)
    (fun c cond b body hc _ ih => by
      have := lexicallyClean_append (lexicallyClean_word (kw "while") (by simp))
        (lexicallyClean_append (lexicallyClean_expression hc) ih)
      simpa using this)
    (fun e v he => by
      have := lexicallyClean_append (lexicallyClean_word (kw "return") (by simp))
        (lexicallyClean_append (lexicallyClean_expression he)
          (lexicallyClean_word (punct ";") (by simp)))
      simpa using this)
    (fun e a he => lexicallyClean_expression he)
    (fun ss body _ ih => by
      have := lexicallyClean_append (lexicallyClean_word (punct "\x7b") (by simp))
        (lexicallyClean_append ih (lexicallyClean_word (punct "\x7d") (by simp)))
      simpa using this)
    lexicallyClean_nil
    (fun s a ss rest _ _ ih1 ih2 => lexicallyClean_append ih1 ih2)
    ts nodes h

/-- C26. A lexical error is never absorbed into a tree: on every token sequence that
contains a token of type UNKNOWN, or the punctuation `:` or `,`, or a keyword `mut`
that is not directly after `let`, or a keyword `else` that is not directly after the
closing brace of the block of an `if`, `parse` fails, with one of its own messages;
and every token sequence on which `parse` succeeds has no token of type UNKNOWN. -/
theorem parse_rejects_lexical_errors (tokens : List Token) :
    (¬ lexicallyClean tokens →
      ∃ msg, parse tokens = .error (.runtime_error msg) ∧ ThrownMessage tokens msg) ∧
    (∀ nodes, parse tokens = .ok nodes → ∀ t ∈ tokens, t.type ≠ "UNKNOWN") := by
  refine ⟨fun hclean => ?_, fun nodes h t ht =>
    ((lexicallyClean_of_statements (program_of_parse h)).1 t ht).1⟩
  cases h : parse tokens with
  | ok nodes => exact absurd (lexicallyClean_of_statements (program_of_parse h)) hclean
  | error e =>
    obtain ⟨msg, rfl, hmsg⟩ := parse_failure h
    exact ⟨msg, rfl, hmsg⟩

/-- Witness of C26: the tokens `x @`, the second of type UNKNOWN. -/
theorem parse_rejects_lexical_errors_witness :
    ¬ lexicallyClean [⟨"IDENTIFIER", "x"⟩, ⟨"UNKNOWN", "@"⟩] ∧
    parse [⟨"IDENTIFIER", "x"⟩, ⟨"UNKNOWN", "@"⟩]
      = .error (.runtime_error "Unexpected token: UNKNOWN '@'") ∧
    ∃ msg, parse [⟨"IDENTIFIER", "x"⟩, ⟨"UNKNOWN", "@"⟩] = .error (.runtime_error msg) ∧
      ThrownMessage [⟨"IDENTIFIER", "x"⟩, ⟨"UNKNOWN", "@"⟩] msg :=
  have h : ¬ lexicallyClean [⟨"IDENTIFIER", "x"⟩, ⟨"UNKNOWN", "@"⟩] :=
    fun hc => (hc.1 ⟨"UNKNOWN", "@"⟩ (by simp)).1 rfl
  ⟨h, rfl, (parse_rejects_lexical_errors [⟨"IDENTIFIER", "x"⟩, ⟨"UNKNOWN", "@"⟩]).1 h⟩

end Bystep

/-! ## The rendering of the syntax tree -/

namespace Bystep

theorem data_indentStr (k : Nat) : (indentStr k).data = List.replicate (k * 2) ' ' := rfl

theorem popBack_append_newline (s : String) : popBack (s ++ "\n") = s := by
  apply String.ext
  simp [popBack, String.data_append]

theorem endsWithNewline_append_newline (s : String) : endsWithNewline (s ++ "\n") = true := by
  simp [endsWithNewline, String.data_append]

/-- The loop over the statements, started on a text that ends with a newline. -/
theorem appendAll_newline (body : List ASTNode) (k : Nat) :
    ∀ result : String,
      ASTNode.appendAll body k (result ++ "\n") = result ++ below body k ++ "\n" := by
  induction body with
  | nil =>
    intro result
    rw [ASTNode.appendAll, below]
    simp
  | cons stmt rest ih =>
    intro result
    rw [ASTNode.appendAll, below]
    have : result ++ "\n" ++ (stmt.toString k ++ "\n")
        = (result ++ "\n" ++ stmt.toString k) ++ "\n" := by
      simp only [String.append_assoc]
    rw [this, ih]
    simp only [String.append_assoc]

end Bystep

namespace Bystep

/-- The closed form of every rendering, the empty `FunctionDecl` apart. -/
theorem ASTNode.layout_of_bodiesNonEmpty (n : ASTNode) (k : Nat)
    (h : n.bodiesNonEmpty = true) : n.layout k := by
  cases n with
  | NumberLiteral value => simp only [ASTNode.layout, ASTNode.toString]
  | Identifier name => simp only [ASTNode.layout, ASTNode.toString]
  | StringLiteral value => simp only [ASTNode.layout, ASTNode.toString]
  | BinaryExpr op left right =>
    simp only [ASTNode.layout, ASTNode.toString]
    rw [show ")\n" = ")" ++ "\n" from by decide]
    simp only [← String.append_assoc]
  | LetDecl name isMut value =>
    simp only [ASTNode.layout, ASTNode.toString]
    rw [show ")\n" = ")" ++ "\n" from by decide]
    simp only [← String.append_assoc]
  | FunctionDecl name body =>
    simp only [ASTNode.bodiesNonEmpty, Bool.and_eq_true] at h
    simp only [ASTNode.layout, ASTNode.toString, h.1, if_true]
    rw [show ")\n" = ")" ++ "\n" from by decide]
    simp only [← String.append_assoc]
    rw [appendAll_newline, popBack_append_newline]
  | IfStatement condition thenBody elseBody =>
    simp only [ASTNode.layout, ASTNode.toString]
    rw [show "IfStatement\n" = "IfStatement" ++ "\n" from by decide,
      show "Condition:\n" = "Condition:" ++ "\n" from by decide,
      show "Then:\n" = "Then:" ++ "\n" from by decide,
      show "Else:\n" = "Else:" ++ "\n" from by decide]
    simp only [← String.append_assoc]
    cases elseBody with
    | nil =>
      simp only [List.isEmpty_nil, Bool.not_true, Bool.false_eq_true, if_false, if_true,
        appendAll_newline, endsWithNewline_append_newline, popBack_append_newline,
        String.append_empty]
    | cons stmt rest =>
      simp only [List.isEmpty_cons, Bool.not_false, if_true, Bool.false_eq_true, if_false,
        appendAll_newline]
      simp only [← String.append_assoc]
      simp only [appendAll_newline, endsWithNewline_append_newline, popBack_append_newline,
        if_true]
  | WhileStatement condition body =>
    simp only [ASTNode.layout, ASTNode.toString]
    rw [show "WhileStatement\n" = "WhileStatement" ++ "\n" from by decide,
      show "Condition:\n" = "Condition:" ++ "\n" from by decide,
      show "Body:\n" = "Body:" ++ "\n" from by decide]
    simp only [← String.append_assoc]
    rw [appendAll_newline]
    simp only [endsWithNewline_append_newline, popBack_append_newline, if_true]
  | ReturnStatement value =>
    simp only [ASTNode.layout, ASTNode.toString]
    rw [show "ReturnStatement\n" = "ReturnStatement" ++ "\n" from by decide]
    simp only [← String.append_assoc]

end Bystep

namespace Bystep

theorem count_append (a b : String) : newlines (a ++ b) = newlines a + newlines b := by
  unfold newlines
  rw [String.data_append, List.count_append]

theorem count_indentStr (k : Nat) : newlines (indentStr k) = 0 := by
  unfold newlines
  rw [data_indentStr]
  exact List.count_eq_zero.mpr (fun h => absurd (List.eq_of_mem_replicate h) (by decide))

theorem count_of_oneLine {s : String} (h : oneLine s = true) : newlines s = 0 := by
  unfold newlines
  simp only [oneLine, Bool.not_eq_true', List.contains_eq_any_beq, List.any_eq_false,
    beq_iff_eq] at h
  exact List.count_eq_zero.mpr (fun hm => h _ hm rfl)

mutual

theorem ASTNode.count_toString : ∀ (n : ASTNode) (k : Nat), n.plain = true →
    n.bodiesNonEmpty = true → newlines (n.toString k) + 1 = n.size + n.labels
  | .NumberLiteral value, k, hp, _ => by
    simp only [ASTNode.plain] at hp
    simp only [ASTNode.toString, count_append, count_indentStr, count_of_oneLine hp,
      ASTNode.size, ASTNode.labels]
    decide
  | .Identifier name, k, hp, _ => by
    simp only [ASTNode.plain] at hp
    simp only [ASTNode.toString, count_append, count_indentStr, count_of_oneLine hp,
      ASTNode.size, ASTNode.labels]
    decide
  | .StringLiteral value, k, hp, _ => by
    simp only [ASTNode.plain] at hp
    simp only [ASTNode.toString, count_append, count_indentStr, count_of_oneLine hp,
      ASTNode.size, ASTNode.labels]
    decide
  | .BinaryExpr op left right, k, hp, hb => by
    have hl := ASTNode.layout_of_bodiesNonEmpty _ k hb
    simp only [ASTNode.plain, Bool.and_eq_true] at hp
    simp only [ASTNode.bodiesNonEmpty, Bool.and_eq_true] at hb
    have h1 := ASTNode.count_toString left (k + 1) hp.1.2 hb.1
    have h2 := ASTNode.count_toString right (k + 1) hp.2 hb.2
    simp only [ASTNode.layout] at hl
    rw [hl]
    simp only [count_append, count_indentStr, count_of_oneLine hp.1.1, ASTNode.size,
      ASTNode.labels]
    have e1 : newlines "BinaryExpr(" = 0 := by decide
    have e2 : newlines ")" = 0 := by decide
    have e3 : newlines "\n" = 1 := by decide
    omega
  | .LetDecl name isMut value, k, hp, hb => by
    have hl := ASTNode.layout_of_bodiesNonEmpty _ k hb
    simp only [ASTNode.plain, Bool.and_eq_true] at hp
    simp only [ASTNode.bodiesNonEmpty] at hb
    have h1 := ASTNode.count_toString value (k + 1) hp.2 hb
    simp only [ASTNode.layout] at hl
    rw [hl]
    simp only [count_append, count_indentStr, count_of_oneLine hp.1, ASTNode.size,
      ASTNode.labels]
    have e1 : newlines "LetDecl(" = 0 := by decide
    have e2 : newlines ")" = 0 := by decide
    have e3 : newlines "\n" = 1 := by decide
    have e4 : newlines (if isMut = true then "mut " else "") = 0 := by
      cases isMut <;> decide
    omega
  | .FunctionDecl name body, k, hp, hb => by
    have hl := ASTNode.layout_of_bodiesNonEmpty _ k hb
    simp only [ASTNode.plain, Bool.and_eq_true] at hp
    simp only [ASTNode.bodiesNonEmpty, Bool.and_eq_true] at hb
    have h1 := ASTNode.count_below body (k + 1) hp.2 hb.2
    simp only [ASTNode.layout] at hl
    rw [hl]
    simp only [count_append, count_indentStr, count_of_oneLine hp.1, ASTNode.size,
      ASTNode.labels]
    have e1 : newlines "FunctionDecl(" = 0 := by decide
    have e2 : newlines ")" = 0 := by decide
    omega
  | .IfStatement condition thenBody elseBody, k, hp, hb => by
    have hl := ASTNode.layout_of_bodiesNonEmpty _ k hb
    simp only [ASTNode.plain, Bool.and_eq_true] at hp
    simp only [ASTNode.bodiesNonEmpty, Bool.and_eq_true] at hb
    have h1 := ASTNode.count_toString condition (k + 2) hp.1.1 hb.1.1
    have h2 := ASTNode.count_below thenBody (k + 2) hp.1.2 hb.1.2
    have h3 := ASTNode.count_below elseBody (k + 2) hp.2 hb.2
    simp only [ASTNode.layout] at hl
    rw [hl]
    have e1 : newlines "IfStatement" = 0 := by decide
    have e2 : newlines "Condition:" = 0 := by decide
    have e3 : newlines "\n" = 1 := by decide
    have e4 : newlines "Then:" = 0 := by decide
    have e5 : newlines "Else:" = 0 := by decide
    have e6 : newlines "" = 0 := by decide
    cases elseBody with
    | nil =>
      simp only [List.isEmpty_nil, if_true, count_append, count_indentStr, ASTNode.size,
        ASTNode.labels, ASTNode.sizeAll, ASTNode.labelsAll]
      simp only [below, ASTNode.sizeAll, ASTNode.labelsAll] at h3
      omega
    | cons stmt rest =>
      simp only [List.isEmpty_cons, Bool.false_eq_true, if_false, count_append,
        count_indentStr, ASTNode.size, ASTNode.labels]
      omega
  | .WhileStatement condition body, k, hp, hb => by
    have hl := ASTNode.layout_of_bodiesNonEmpty _ k hb
    simp only [ASTNode.plain, Bool.and_eq_true] at hp
    simp only [ASTNode.bodiesNonEmpty, Bool.and_eq_true] at hb
    have h1 := ASTNode.count_toString condition (k + 2) hp.1 hb.1
    have h2 := ASTNode.count_below body (k + 2) hp.2 hb.2
    simp only [ASTNode.layout] at hl
    rw [hl]
    simp only [count_append, count_indentStr, ASTNode.size, ASTNode.labels]
    have e1 : newlines "WhileStatement" = 0 := by decide
    have e2 : newlines "Condition:" = 0 := by decide
    have e3 : newlines "\n" = 1 := by decide
    have e4 : newlines "Body:" = 0 := by decide
    omega
  | .ReturnStatement value, k, hp, hb => by
    have hl := ASTNode.layout_of_bodiesNonEmpty _ k hb
    simp only [ASTNode.plain] at hp
    simp only [ASTNode.bodiesNonEmpty] at hb
    have h1 := ASTNode.count_toString value (k + 1) hp hb
    simp only [ASTNode.layout] at hl
    rw [hl]
    simp only [count_append, count_indentStr, ASTNode.size, ASTNode.labels]
    have e1 : newlines "ReturnStatement" = 0 := by decide
    have e3 : newlines "\n" = 1 := by decide
    omega

theorem ASTNode.count_below : ∀ (body : List ASTNode) (k : Nat),
    ASTNode.plainAll body = true → ASTNode.bodiesNonEmptyAll body = true →
    newlines (below body k) = ASTNode.sizeAll body + ASTNode.labelsAll body
  | [], k, _, _ => by
    simp only [below, ASTNode.sizeAll, ASTNode.labelsAll]
    decide
  | stmt :: rest, k, hp, hb => by
    simp only [ASTNode.plainAll, Bool.and_eq_true] at hp
    simp only [ASTNode.bodiesNonEmptyAll, Bool.and_eq_true] at hb
    have h1 := ASTNode.count_toString stmt k hp.1 hb.1
    have h2 := ASTNode.count_below rest k hp.2 hb.2
    simp only [below, count_append, ASTNode.sizeAll, ASTNode.labelsAll]
    have e3 : newlines "\n" = 1 := by decide
    omega

end

end Bystep

namespace Bystep

theorem starts_with_indent (k : Nat) (name rest : String) (c : Char) (l : List Char)
    (h : name.data = c :: l) (hc : c ≠ ' ') :
    ∃ c1 r, (indentStr k ++ (name ++ rest)).data = List.replicate (2 * k) ' ' ++ c1 :: r ∧
      c1 ≠ ' ' := by
  refine ⟨c, l ++ rest.data, ?_, hc⟩
  rw [String.data_append, String.data_append, data_indentStr, h, Nat.mul_comm]
  rfl

/-- The first line of a rendering at level `k` starts with exactly `2 * k` spaces. -/
theorem ASTNode.toString_first_line (n : ASTNode) (k : Nat) (hb : n.bodiesNonEmpty = true) :
    ∃ c rest, (n.toString k).data = List.replicate (2 * k) ' ' ++ c :: rest ∧ c ≠ ' ' := by
  have hl := ASTNode.layout_of_bodiesNonEmpty n k hb
  cases n with
  | NumberLiteral value =>
    simp only [ASTNode.layout] at hl
    rw [hl]
    simp only [String.append_assoc]
    exact starts_with_indent k _ _ 'N' _ rfl (by decide)
  | Identifier name =>
    simp only [ASTNode.layout] at hl
    rw [hl]
    simp only [String.append_assoc]
    exact starts_with_indent k _ _ 'I' _ rfl (by decide)
  | StringLiteral value =>
    simp only [ASTNode.layout] at hl
    rw [hl]
    simp only [String.append_assoc]
    exact starts_with_indent k _ _ 'S' _ rfl (by decide)
  | BinaryExpr op left right =>
    simp only [ASTNode.layout] at hl
    rw [hl]
    simp only [String.append_assoc]
    exact starts_with_indent k _ _ 'B' _ rfl (by decide)
  | LetDecl name isMut value =>
    simp only [ASTNode.layout] at hl
    rw [hl]
    simp only [String.append_assoc]
    exact starts_with_indent k _ _ 'L' _ rfl (by decide)
  | FunctionDecl name body =>
    simp only [ASTNode.layout] at hl
    rw [hl]
    simp only [String.append_assoc]
    exact starts_with_indent k _ _ 'F' _ rfl (by decide)
  | IfStatement condition thenBody elseBody =>
    simp only [ASTNode.layout] at hl
    rw [hl]
    simp only [String.append_assoc]
    exact starts_with_indent k _ _ 'I' _ rfl (by decide)
  | WhileStatement condition body =>
    simp only [ASTNode.layout] at hl
    rw [hl]
    simp only [String.append_assoc]
    exact starts_with_indent k _ _ 'W' _ rfl (by decide)
  | ReturnStatement value =>
    simp only [ASTNode.layout] at hl
    rw [hl]
    simp only [String.append_assoc]
    exact starts_with_indent k _ _ 'R' _ rfl (by decide)

theorem endsInText_append {a b : String} (h : endsInText b) : endsInText (a ++ b) := by
  obtain ⟨h1, h2⟩ := h
  unfold endsInText
  rw [String.data_append]
  refine ⟨by simp [h1], ?_⟩
  rw [List.getLast?_append_of_ne_nil _ h1]
  exact h2

theorem endsInText_of_data {s : String} {l : List Char} {c : Char} (h : s.data = l ++ [c])
    (hc : c ≠ '\n') : endsInText s := by
  unfold endsInText
  rw [h]
  refine ⟨by simp, ?_⟩
  rw [List.getLast?_append_of_ne_nil _ (by simp)]
  simpa using hc

mutual

theorem ASTNode.toString_endsInText : ∀ (n : ASTNode) (k : Nat),
    n.bodiesNonEmpty = true → endsInText (n.toString k)
  | .NumberLiteral value, k, _ => by
    simp only [ASTNode.toString]
    exact endsInText_append (endsInText_of_data (l := []) (c := ')') rfl (by decide))
  | .Identifier name, k, _ => by
    simp only [ASTNode.toString]
    exact endsInText_append (endsInText_of_data (l := []) (c := ')') rfl (by decide))
  | .StringLiteral value, k, _ => by
    simp only [ASTNode.toString]
    exact endsInText_append (endsInText_of_data (l := ['"']) (c := ')') rfl (by decide))
  | .BinaryExpr op left right, k, hb => by
    have hl := ASTNode.layout_of_bodiesNonEmpty _ k hb
    simp only [ASTNode.bodiesNonEmpty, Bool.and_eq_true] at hb
    simp only [ASTNode.layout] at hl
    rw [hl]
    exact endsInText_append (ASTNode.toString_endsInText right (k + 1) hb.2)
  | .LetDecl name isMut value, k, hb => by
    have hl := ASTNode.layout_of_bodiesNonEmpty _ k hb
    simp only [ASTNode.bodiesNonEmpty] at hb
    simp only [ASTNode.layout] at hl
    rw [hl]
    exact endsInText_append (ASTNode.toString_endsInText value (k + 1) hb)
  | .FunctionDecl name body, k, hb => by
    have hl := ASTNode.layout_of_bodiesNonEmpty _ k hb
    simp only [ASTNode.bodiesNonEmpty, Bool.and_eq_true] at hb
    simp only [ASTNode.layout] at hl
    rw [hl]
    exact ASTNode.below_endsInText body (k + 1) _ hb.2
      (endsInText_append (endsInText_of_data (l := []) (c := ')') rfl (by decide)))
  | .IfStatement condition thenBody elseBody, k, hb => by
    have hl := ASTNode.layout_of_bodiesNonEmpty _ k hb
    simp only [ASTNode.bodiesNonEmpty, Bool.and_eq_true] at hb
    simp only [ASTNode.layout] at hl
    rw [hl]
    have h1 := ASTNode.below_endsInText thenBody (k + 2)
      (indentStr k ++ "IfStatement" ++ "\n" ++ indentStr (k + 1) ++ "Condition:" ++ "\n"
        ++ condition.toString (k + 2) ++ "\n" ++ indentStr (k + 1) ++ "Then:") hb.1.2
      (endsInText_append (endsInText_of_data (l := ['T', 'h', 'e', 'n']) (c := ':') rfl
        (by decide)))
    cases elseBody with
    | nil =>
      simp only [List.isEmpty_nil, if_true, String.append_empty]
      exact h1
    | cons stmt rest =>
      simp only [List.isEmpty_cons, Bool.false_eq_true, if_false]
      simp only [← String.append_assoc]
      exact ASTNode.below_endsInText (stmt :: rest) (k + 2) _ hb.2
        (endsInText_append (endsInText_of_data (l := ['E', 'l', 's', 'e']) (c := ':') rfl
          (by decide)))
  | .WhileStatement condition body, k, hb => by
    have hl := ASTNode.layout_of_bodiesNonEmpty _ k hb
    simp only [ASTNode.bodiesNonEmpty, Bool.and_eq_true] at hb
    simp only [ASTNode.layout] at hl
    rw [hl]
    exact ASTNode.below_endsInText body (k + 2) _ hb.2
      (endsInText_append (endsInText_of_data (l := ['B', 'o', 'd', 'y']) (c := ':') rfl
        (by decide)))
  | .ReturnStatement value, k, hb => by
    have hl := ASTNode.layout_of_bodiesNonEmpty _ k hb
    simp only [ASTNode.bodiesNonEmpty] at hb
    simp only [ASTNode.layout] at hl
    rw [hl]
    exact endsInText_append (ASTNode.toString_endsInText value (k + 1) hb)

theorem ASTNode.below_endsInText : ∀ (body : List ASTNode) (k : Nat) (before : String),
    ASTNode.bodiesNonEmptyAll body = true → endsInText before →
    endsInText (before ++ below body k)
  | [], k, before, _, h => by
    simp only [below, String.append_empty]
    exact h
  | stmt :: rest, k, before, hb, _ => by
    simp only [ASTNode.bodiesNonEmptyAll, Bool.and_eq_true] at hb
    simp only [below, ← String.append_assoc]
    exact ASTNode.below_endsInText rest k _ hb.2
      (endsInText_append (ASTNode.toString_endsInText stmt k hb.1))

end

end Bystep

namespace Bystep

/-- Counterexample to C21 as stated: the rendering of `while x { }` has four
lines for two nodes, two of them the label lines `Condition:` and `Body:`, and the
line of the child `Identifier(x)` starts with four spaces more than the line of its
parent; the rendering of a string literal whose value has a `'\n'` has two lines for
one node. -/
theorem toString_indented_tree_counterexample :
    (ASTNode.WhileStatement (.Identifier "x") []).toString 0
      = "WhileStatement\n  Condition:\n    Identifier(x)\n  Body:" ∧
    lineCount ((ASTNode.WhileStatement (.Identifier "x") []).toString 0) = 4 ∧
    (ASTNode.WhileStatement (.Identifier "x") []).size = 2 ∧
    (ASTNode.StringLiteral "a\nb").toString 0 = "StringLiteral(\"a\nb\")" ∧
    lineCount ((ASTNode.StringLiteral "a\nb").toString 0) = 2 ∧
    (ASTNode.StringLiteral "a\nb").size = 1 ∧
    ¬ (∀ (n : ASTNode) (k : Nat), lineCount (n.toString k) = n.size) := by
  refine ⟨by decide, by decide, by decide, by decide, by decide, by decide, fun h => ?_⟩
  have := h (ASTNode.WhileStatement (.Identifier "x") []) 0
  revert this
  decide

/-- C21, amended. The rendering is an indented tree: for every node `n` in which no
text (value, name, operator) has a `'\n'` and no `FunctionDecl` has an empty body, and
every level `k`, the text `toString n k` has one line for each node of the tree and
one for each label line (`Condition:` and `Then:` or `Body:` of every `IfStatement` and
`WhileStatement`, `Else:` of every `IfStatement` whose `else` body is not empty); its
first line starts with exactly `2 * k` spaces; and what `n` holds is rendered as
`layout` says: the children of `BinaryExpr`, `LetDecl`, `FunctionDecl` and
`ReturnStatement` at level `k + 1`, the label lines of `IfStatement` and
`WhileStatement` at level `k + 1` and their condition and statements at level `k + 2`. -/
theorem toString_indented_tree (n : ASTNode) (k : Nat) (hplain : n.plain = true)
    (hbodies : n.bodiesNonEmpty = true) :
    lineCount (n.toString k) = n.size + n.labels ∧
    (∃ c rest, (n.toString k).data = List.replicate (2 * k) ' ' ++ c :: rest ∧ c ≠ ' ') ∧
    n.layout k :=
  ⟨ASTNode.count_toString n k hplain hbodies, ASTNode.toString_first_line n k hbodies,
    ASTNode.layout_of_bodiesNonEmpty n k hbodies⟩

/-- Witness of C21, amended: `if x { return 1 ; }` inside a function `f`,
rendered at level 1: four nodes and two label lines. -/
theorem toString_indented_tree_witness :
    ((ASTNode.FunctionDecl "f" [.IfStatement (.Identifier "x")
        [.ReturnStatement (.NumberLiteral "1")] []]).plain = true ∧
      (ASTNode.FunctionDecl "f" [.IfStatement (.Identifier "x")
        [.ReturnStatement (.NumberLiteral "1")] []]).bodiesNonEmpty = true) ∧
    (ASTNode.FunctionDecl "f" [.IfStatement (.Identifier "x")
        [.ReturnStatement (.NumberLiteral "1")] []]).toString 1
      = "  FunctionDecl(f)\n    IfStatement\n      Condition:\n        Identifier(x)\n      Then:\n        ReturnStatement\n          NumberLiteral(1)" ∧
    lineCount ((ASTNode.FunctionDecl "f" [.IfStatement (.Identifier "x")
        [.ReturnStatement (.NumberLiteral "1")] []]).toString 1)
      = (ASTNode.FunctionDecl "f" [.IfStatement (.Identifier "x")
          [.ReturnStatement (.NumberLiteral "1")] []]).size
        + (ASTNode.FunctionDecl "f" [.IfStatement (.Identifier "x")
          [.ReturnStatement (.NumberLiteral "1")] []]).labels :=
  ⟨⟨by decide, by decide⟩, by decide,
    (toString_indented_tree (ASTNode.FunctionDecl "f" [.IfStatement (.Identifier "x")
      [.ReturnStatement (.NumberLiteral "1")] []]) 1 (by decide) (by decide)).1⟩

/-- C28, at the failing input. The rendering of a `FunctionDecl` with an empty body,
the tree of the tokens `fn f ( ) { }`, ends with `'\n'`, and so does the
rendering of a node whose last statement is one; the renderings of `IfStatement` and
`WhileStatement` with empty statement lists do not; and the rendering of every node in
which no `FunctionDecl` has an empty body is not empty and does not end with `'\n'`. -/
theorem toString_trailing_newline :
    parse [⟨"KEYWORD", "fn"⟩, ⟨"IDENTIFIER", "f"⟩, ⟨"PUNCTUATION", "("⟩,
      ⟨"PUNCTUATION", ")"⟩, ⟨"PUNCTUATION", "\x7b"⟩, ⟨"PUNCTUATION", "\x7d"⟩]
      = .ok [.FunctionDecl "f" []] ∧
    (ASTNode.FunctionDecl "f" []).toString 0 = "FunctionDecl(f)\n" ∧
    ¬ endsInText ((ASTNode.FunctionDecl "f" []).toString 0) ∧
    (ASTNode.WhileStatement (.Identifier "c") [.FunctionDecl "f" []]).toString 0
      = "WhileStatement\n  Condition:\n    Identifier(c)\n  Body:\n    FunctionDecl(f)\n" ∧
    (ASTNode.IfStatement (.Identifier "c") [] []).toString 0
      = "IfStatement\n  Condition:\n    Identifier(c)\n  Then:" ∧
    (ASTNode.WhileStatement (.Identifier "c") []).toString 0
      = "WhileStatement\n  Condition:\n    Identifier(c)\n  Body:" ∧
    (∀ (n : ASTNode) (k : Nat), n.bodiesNonEmpty = true → endsInText (n.toString k)) := by
  refine ⟨rfl, by decide, ?_, by decide, by decide, by decide,
    fun n k h => ASTNode.toString_endsInText n k h⟩
  intro h
  exact h.2 (by decide)

end Bystep

/-! ## One iteration of the tokenizer of `HW1_bystep` -/

namespace Bystep

theorem scanWhile_eq (p : Char → Bool) :
    ∀ (w : List Char) (fuel : Nat) (source : List Char) (pos : Nat) (text : String)
      (r : List Char),
      source.drop pos = w ++ r → (∀ c ∈ w, p c = true) →
      (∀ c r1, r = c :: r1 → p c = false) → w.length < fuel →
      scanWhile p fuel source pos text = some (String.mk (text.data ++ w), pos + w.length) := by
  intro w
  induction w with
  | nil =>
    intro fuel source pos text r h _ hr hf
    obtain ⟨f, rfl⟩ : ∃ f, fuel = f + 1 := ⟨fuel - 1, by simp at hf; omega⟩
    rw [scanWhile]
    cases r with
    | nil =>
      have : ¬ pos < source.length := by
        have := List.drop_eq_nil_iff.mp h
        omega
      simp [this]
    | cons c r1 =>
      have h1 : source.drop pos = c :: r1 := h
      simp [lt_length_of_drop h1, getElem?_of_drop h1, hr c r1 rfl]
  | cons c w ih =>
    intro fuel source pos text r h hw hr hf
    obtain ⟨f, rfl⟩ : ∃ f, fuel = f + 1 := ⟨fuel - 1, by simp at hf; omega⟩
    have h1 : source.drop pos = c :: (w ++ r) := h
    rw [scanWhile]
    simp only [lt_length_of_drop h1, if_true, getElem?_of_drop h1,
      hw c (List.mem_cons_self _ _)]
    rw [ih f source (pos + 1) (text.push c) r (drop_succ_of_drop h1)
      (fun d hd => hw d (List.mem_cons_of_mem _ hd)) hr
      (by simp only [List.length_cons] at hf; omega)]
    simp only [String.push, List.append_assoc, List.singleton_append, List.length_cons]
    congr 2
    omega

theorem nextIs_of_drop {source : List Char} {pos : Nat} {ch : Char} {r : List Char}
    (h : source.drop pos = ch :: r) (x : Char) :
    nextIs source pos x = (r.head? == some x) := by
  have h1 := drop_succ_of_drop h
  cases r with
  | nil =>
    have : ¬ pos + 1 < source.length := by
      have := List.drop_eq_nil_iff.mp h1
      omega
    simp [nextIs, this]
  | cons d r1 =>
    simp [nextIs, lt_length_of_drop h1, getElem?_of_drop h1]

/-- The loop returns the vector when the cursor is at or past the end. -/
theorem tokenizeLoop_end {source : List Char} {pos : Nat} (h : source.drop pos = [])
    (fuel : Nat) (tokens : List Token) :
    tokenizeLoop (fuel + 1) source pos tokens = some tokens := by
  have : ¬ pos < source.length := by
    have := List.drop_eq_nil_iff.mp h
    omega
  rw [tokenizeLoop, if_neg this]

/-- One iteration in front of the character `ch`. -/
theorem tokenizeLoop_cons {source : List Char} {pos : Nat} {ch : Char} {r : List Char}
    (h : source.drop pos = ch :: r) (fuel : Nat) (tokens : List Token) :
    tokenizeLoop (fuel + 1) source pos tokens =
      if isSpaceChar ch then tokenizeLoop fuel source (pos + 1) tokens
      else if isWordStart ch then
        match scanWhile isWordChar (source.length + 1) source pos "" with
        | none => none
        | some (word, pos1) =>
          if isKeyword word then
            tokenizeLoop fuel source pos1 (tokens ++ [⟨"KEYWORD", word⟩])
          else tokenizeLoop fuel source pos1 (tokens ++ [⟨"IDENTIFIER", word⟩])
      else if isDigitChar ch then
        match scanWhile isDigitChar (source.length + 1) source pos "" with
        | none => none
        | some (number, pos1) =>
          tokenizeLoop fuel source pos1 (tokens ++ [⟨"NUMBER", number⟩])
      else if ch = '"' then
        match scanWhile (fun c => c != '"') (source.length + 1) source (pos + 1) "" with
        | none => none
        | some (str, pos1) =>
          tokenizeLoop fuel source (pos1 + 1) (tokens ++ [⟨"STRING", str⟩])
      else if ch = '/' && (r.head? == some '/') then
        match scanWhile (fun c => c != '\n') (source.length + 1) source pos "" with
        | none => none
        | some (_, pos1) => tokenizeLoop fuel source pos1 tokens
      else if (r.head? == some '=') && startsComparison ch then
        tokenizeLoop fuel source (pos + 2) (tokens ++ [⟨"OPERATOR", String.mk [ch, '=']⟩])
      else if isOperatorChar ch then
        tokenizeLoop fuel source (pos + 1) (tokens ++ [⟨"OPERATOR", String.singleton ch⟩])
      else if isPunctuationChar ch then
        tokenizeLoop fuel source (pos + 1) (tokens ++ [⟨"PUNCTUATION", String.singleton ch⟩])
      else
        tokenizeLoop fuel source (pos + 1) (tokens ++ [⟨"UNKNOWN", String.singleton ch⟩]) := by
  rw [tokenizeLoop, if_pos (lt_length_of_drop h), getElem?_of_drop h]
  dsimp only
  rw [nextIs_of_drop h, nextIs_of_drop h]

end Bystep

namespace Bystep

theorem isWordChar_of_isWordStart {ch : Char} (h : isWordStart ch = true) :
    isWordChar ch = true := by
  simp only [isWordStart, isWordChar, Bool.or_eq_true, Bool.and_eq_true, decide_eq_true_eq]
    at h ⊢
  tauto

theorem comparison_facts {ch : Char} (h : startsComparison ch = true) :
    isSpaceChar ch = false ∧ isWordStart ch = false ∧ isDigitChar ch = false ∧ ch ≠ '"' ∧
      ch ≠ '/' ∧ isPunctuationChar ch = false := by
  simp only [startsComparison, Bool.or_eq_true, decide_eq_true_eq] at h
  rcases h with ((h | h) | h) | h <;> subst h <;> decide

theorem operator_facts {ch : Char} (h : isOperatorChar ch = true) :
    isSpaceChar ch = false ∧ isWordStart ch = false ∧ isDigitChar ch = false ∧ ch ≠ '"' ∧
      isPunctuationChar ch = false := by
  simp only [isOperatorChar, Bool.or_eq_true, decide_eq_true_eq] at h
  rcases h with (((((h | h) | h) | h) | h) | h) | h <;> subst h <;> decide

theorem punctuation_facts {ch : Char} (h : isPunctuationChar ch = true) :
    isSpaceChar ch = false ∧ isWordStart ch = false ∧ isDigitChar ch = false ∧ ch ≠ '"' ∧
      ch ≠ '/' ∧ startsComparison ch = false ∧ isOperatorChar ch = false := by
  simp only [isPunctuationChar, Bool.or_eq_true, decide_eq_true_eq] at h
  rcases h with (((((h | h) | h) | h) | h) | h) | h <;> subst h <;> decide

theorem char_le_iff (a b : Char) : a ≤ b ↔ a.toNat ≤ b.toNat := Iff.rfl

theorem digit_facts {ch : Char} (h : isDigitChar ch = true) :
    isSpaceChar ch = false ∧ isWordStart ch = false ∧ isWordChar ch = true := by
  simp only [isDigitChar, Bool.and_eq_true, decide_eq_true_eq] at h
  have h1 : 48 ≤ ch.toNat := (char_le_iff _ _).mp h.1
  have h2 : ch.toNat ≤ 57 := (char_le_iff _ _).mp h.2
  refine ⟨?_, ?_, ?_⟩
  · simp only [isSpaceChar, Bool.or_eq_false_iff, decide_eq_false_iff_not]
    refine ⟨⟨⟨?_, ?_⟩, ?_⟩, ?_⟩ <;> rintro rfl <;> revert h1 <;> decide
  · simp only [isWordStart, Bool.or_eq_false_iff, Bool.and_eq_false_iff,
      decide_eq_false_iff_not]
    refine ⟨⟨Or.inl ?_, Or.inl ?_⟩, ?_⟩
    · intro ha
      have h3 : 97 ≤ ch.toNat := (char_le_iff _ _).mp ha
      omega
    · intro ha
      have h3 : 65 ≤ ch.toNat := (char_le_iff _ _).mp ha
      omega
    · rintro rfl
      revert h2
      decide
  · simp only [isWordChar, Bool.or_eq_true, Bool.and_eq_true, decide_eq_true_eq]
    exact Or.inl (Or.inr h)

theorem wordStart_facts {ch : Char} (h : isWordStart ch = true) : isSpaceChar ch = false := by
  rcases hs : isSpaceChar ch with _ | _
  · rfl
  · simp only [isSpaceChar, Bool.or_eq_true, decide_eq_true_eq] at hs
    rcases hs with ((hs | hs) | hs) | hs <;> subst hs <;> revert h <;> decide

end Bystep

namespace Bystep

theorem step_space {source : List Char} {pos : Nat} {ch : Char} {r : List Char}
    (h : source.drop pos = ch :: r) (hs : isSpaceChar ch = true) (fuel : Nat)
    (tokens : List Token) :
    tokenizeLoop (fuel + 1) source pos tokens = tokenizeLoop fuel source (pos + 1) tokens := by
  rw [tokenizeLoop_cons h, if_pos hs]

theorem step_word {source : List Char} {pos : Nat} {ch : Char} {w r : List Char}
    (h : source.drop pos = ch :: (w ++ r)) (hw : isWordStart ch = true)
    (hall : ∀ c ∈ w, isWordChar c = true) (hr : ∀ c r1, r = c :: r1 → isWordChar c = false)
    (fuel : Nat) (tokens : List Token) :
    tokenizeLoop (fuel + 1) source pos tokens =
      tokenizeLoop fuel source (pos + (ch :: w).length)
        (tokens ++ [⟨if isKeyword (String.mk (ch :: w)) then "KEYWORD" else "IDENTIFIER",
          String.mk (ch :: w)⟩]) := by
  have hlen : (ch :: w).length < source.length + 1 := by
    have := congrArg List.length h
    simp only [List.length_drop, List.length_cons, List.length_append] at this
    simp only [List.length_cons]
    omega
  have hscan := scanWhile_eq isWordChar (ch :: w) (source.length + 1) source pos "" r h
    (fun c hc => by
      rcases List.mem_cons.mp hc with rfl | hc
      · exact isWordChar_of_isWordStart hw
      · exact hall c hc) hr hlen
  rw [tokenizeLoop_cons h, if_neg (by rw [wordStart_facts hw]; decide), if_pos hw, hscan]
  simp only [show ("" : String).data = [] from rfl, List.nil_append]
  by_cases hk : isKeyword (String.mk (ch :: w)) = true
  · simp only [hk, if_true]
  · simp only [hk, if_false, Bool.false_eq_true]

theorem step_number {source : List Char} {pos : Nat} {ch : Char} {w r : List Char}
    (h : source.drop pos = ch :: (w ++ r)) (hd : isDigitChar ch = true)
    (hall : ∀ c ∈ w, isDigitChar c = true) (hr : ∀ c r1, r = c :: r1 → isDigitChar c = false)
    (fuel : Nat) (tokens : List Token) :
    tokenizeLoop (fuel + 1) source pos tokens =
      tokenizeLoop fuel source (pos + (ch :: w).length)
        (tokens ++ [⟨"NUMBER", String.mk (ch :: w)⟩]) := by
  have hlen : (ch :: w).length < source.length + 1 := by
    have := congrArg List.length h
    simp only [List.length_drop, List.length_cons, List.length_append] at this
    simp only [List.length_cons]
    omega
  have hscan := scanWhile_eq isDigitChar (ch :: w) (source.length + 1) source pos "" r h
    (fun c hc => by
      rcases List.mem_cons.mp hc with rfl | hc
      · exact hd
      · exact hall c hc) hr hlen
  have hf := digit_facts hd
  rw [tokenizeLoop_cons h, if_neg (by rw [hf.1]; decide), if_neg (by rw [hf.2.1]; decide),
    if_pos hd, hscan]
  simp only [show ("" : String).data = [] from rfl, List.nil_append]

/-- The string branch: the closing quote is skipped, also when there is none. -/
theorem step_string {source : List Char} {pos : Nat} {s r : List Char}
    (h : source.drop pos = '"' :: (s ++ r)) (hs : '"' ∉ s)
    (hr : ∀ c r1, r = c :: r1 → c = '"') (fuel : Nat) (tokens : List Token) :
    tokenizeLoop (fuel + 1) source pos tokens =
      tokenizeLoop fuel source (pos + 1 + s.length + 1)
        (tokens ++ [⟨"STRING", String.mk s⟩]) := by
  have hlen : s.length < source.length + 1 := by
    have := congrArg List.length h
    simp only [List.length_drop, List.length_cons, List.length_append] at this
    omega
  have hscan := scanWhile_eq (fun c => c != '"') s (source.length + 1) source (pos + 1) "" r
    (drop_succ_of_drop h) (fun c hc => by
      have : c ≠ '"' := fun hq => hs (hq ▸ hc)
      simpa using this)
    (fun c r1 hc => by simp [hr c r1 hc]) hlen
  rw [tokenizeLoop_cons h, if_neg (by decide), if_neg (by decide), if_neg (by decide),
    if_pos rfl, hscan]
  simp only [show ("" : String).data = [] from rfl, List.nil_append]

theorem step_comment {source : List Char} {pos : Nat} {body r : List Char}
    (h : source.drop pos = '/' :: '/' :: (body ++ r)) (hbody : ∀ c ∈ body, c ≠ '\n')
    (hr : ∀ c r1, r = c :: r1 → c = '\n') (fuel : Nat) (tokens : List Token) :
    tokenizeLoop (fuel + 1) source pos tokens =
      tokenizeLoop fuel source (pos + ('/' :: '/' :: body).length) tokens := by
  have hlen : ('/' :: '/' :: body).length < source.length + 1 := by
    have := congrArg List.length h
    simp only [List.length_drop, List.length_cons, List.length_append] at this
    simp only [List.length_cons]
    omega
  have hscan := scanWhile_eq (fun c => c != '\n') ('/' :: '/' :: body) (source.length + 1)
    source pos "" r h (fun c hc => by
      rcases List.mem_cons.mp hc with rfl | hc
      · decide
      · rcases List.mem_cons.mp hc with rfl | hc
        · decide
        · simpa using hbody c hc)
    (fun c r1 hc => by simp [hr c r1 hc]) hlen
  rw [tokenizeLoop_cons h, if_neg (by decide), if_neg (by decide), if_neg (by decide),
    if_neg (by decide), if_pos (by simp), hscan]

theorem step_two {source : List Char} {pos : Nat} {ch : Char} {r : List Char}
    (h : source.drop pos = ch :: '=' :: r) (hc : startsComparison ch = true) (fuel : Nat)
    (tokens : List Token) :
    tokenizeLoop (fuel + 1) source pos tokens =
      tokenizeLoop fuel source (pos + 2) (tokens ++ [⟨"OPERATOR", String.mk [ch, '=']⟩]) := by
  have hf := comparison_facts hc
  rw [tokenizeLoop_cons h, if_neg (by rw [hf.1]; decide), if_neg (by rw [hf.2.1]; decide),
    if_neg (by rw [hf.2.2.1]; decide), if_neg hf.2.2.2.1,
    if_neg (by simp [hf.2.2.2.2.1]), if_pos (by simp [hc])]

theorem step_operator {source : List Char} {pos : Nat} {ch : Char} {r : List Char}
    (h : source.drop pos = ch :: r) (ho : isOperatorChar ch = true)
    (hcomment : ¬ (ch = '/' ∧ r.head? = some '/'))
    (htwo : ¬ (r.head? = some '=' ∧ startsComparison ch = true)) (fuel : Nat)
    (tokens : List Token) :
    tokenizeLoop (fuel + 1) source pos tokens =
      tokenizeLoop fuel source (pos + 1) (tokens ++ [⟨"OPERATOR", String.singleton ch⟩]) := by
  have hf := operator_facts ho
  rw [tokenizeLoop_cons h, if_neg (by rw [hf.1]; decide), if_neg (by rw [hf.2.1]; decide),
    if_neg (by rw [hf.2.2.1]; decide), if_neg hf.2.2.2.1,
    if_neg (by simpa using hcomment), if_neg (by simpa using htwo), if_pos ho]

theorem step_punctuation {source : List Char} {pos : Nat} {ch : Char} {r : List Char}
    (h : source.drop pos = ch :: r) (hp : isPunctuationChar ch = true) (fuel : Nat)
    (tokens : List Token) :
    tokenizeLoop (fuel + 1) source pos tokens =
      tokenizeLoop fuel source (pos + 1)
        (tokens ++ [⟨"PUNCTUATION", String.singleton ch⟩]) := by
  have hf := punctuation_facts hp
  rw [tokenizeLoop_cons h, if_neg (by rw [hf.1]; decide), if_neg (by rw [hf.2.1]; decide),
    if_neg (by rw [hf.2.2.1]; decide), if_neg hf.2.2.2.1,
    if_neg (by simp [hf.2.2.2.2.1]), if_neg (by simp [hf.2.2.2.2.2.1]),
    if_neg (by rw [hf.2.2.2.2.2.2]; decide), if_pos hp]

theorem step_unknown {source : List Char} {pos : Nat} {ch : Char} {r : List Char}
    (h : source.drop pos = ch :: r) (hs : isSpaceChar ch = false)
    (hw : isWordStart ch = false) (hd : isDigitChar ch = false) (hq : ch ≠ '"')
    (htwo : ¬ (r.head? = some '=' ∧ startsComparison ch = true))
    (ho : isOperatorChar ch = false) (hp : isPunctuationChar ch = false) (fuel : Nat)
    (tokens : List Token) :
    tokenizeLoop (fuel + 1) source pos tokens =
      tokenizeLoop fuel source (pos + 1) (tokens ++ [⟨"UNKNOWN", String.singleton ch⟩]) := by
  have hslash : ch ≠ '/' := by
    rintro rfl
    revert ho
    decide
  rw [tokenizeLoop_cons h, if_neg (by rw [hs]; decide), if_neg (by rw [hw]; decide),
    if_neg (by rw [hd]; decide), if_neg hq, if_neg (by simp [hslash]),
    if_neg (by simpa using htwo), if_neg (by rw [ho]; decide), if_neg (by rw [hp]; decide)]

end Bystep

/-! ## The two tokenizers agree -/

namespace Bystep

theorem isSpaceChar_eq (c : Char) : isSpaceChar c = HW1.isBlankChar c := by
  unfold isSpaceChar HW1.isBlankChar
  by_cases h1 : c = ' ' <;> by_cases h2 : c = '\n' <;> by_cases h3 : c = '\t' <;>
    by_cases h4 : c = '\r' <;> simp [h1, h2, h3, h4]

theorem isLower_eq (c : Char) : c.isLower = (decide ('a' ≤ c) && decide (c ≤ 'z')) := rfl

theorem isUpper_eq (c : Char) : c.isUpper = (decide ('A' ≤ c) && decide (c ≤ 'Z')) := rfl

theorem isDigit_eq (c : Char) : c.isDigit = (decide ('0' ≤ c) && decide (c ≤ '9')) := rfl

theorem isWordStart_eq (c : Char) : isWordStart c = HW1.isIdentStart c := by
  unfold isWordStart HW1.isIdentStart HW1.isalpha Char.isAlpha
  rw [isLower_eq, isUpper_eq, Bool.or_comm (decide ('A' ≤ c) && decide (c ≤ 'Z'))]

theorem isDigitChar_eq (c : Char) : isDigitChar c = HW1.isdigit c := by
  unfold isDigitChar HW1.isdigit
  rw [isDigit_eq]

theorem isWordChar_eq (c : Char) : isWordChar c = HW1.isIdentChar c := by
  unfold isWordChar HW1.isIdentChar HW1.isalnum Char.isAlphanum Char.isAlpha
  rw [isLower_eq, isUpper_eq, isDigit_eq,
    Bool.or_comm (decide ('A' ≤ c) && decide (c ≤ 'Z'))]

theorem kindName_wordType (s : String) :
    kindName (HW1.wordType s) = if isKeyword s then "KEYWORD" else "IDENTIFIER" := by
  rw [HW1.wordType_eq_expected]
  unfold HW1.expectedWordType isKeyword
  by_cases h1 : s = "fn"
  · subst h1; rfl
  by_cases h2 : s = "let"
  · subst h2; rfl
  by_cases h3 : s = "mut"
  · subst h3; rfl
  by_cases h4 : s = "if"
  · subst h4; rfl
  by_cases h5 : s = "else"
  · subst h5; rfl
  by_cases h6 : s = "while"
  · subst h6; rfl
  by_cases h7 : s = "return"
  · subst h7; rfl
  simp [h1, h2, h3, h4, h5, h6, h7, kindName]

end Bystep

namespace Bystep

theorem text_makeToken {type : HW1.TokenType} (lexeme : String) (l col : Nat)
    (h : type ≠ .STRING) : (HW1.makeToken type lexeme l col).text = lexeme.data := by
  simp [HW1.Token.text, HW1.makeToken, h]

/-- A token of one character. -/
theorem pushes_single {source : List Char} {pos : Nat} {c : Char} (kind : String)
    (hstep : ∀ (fuel : Nat) (tokens : List Token),
      tokenizeLoop (fuel + 1) source pos tokens =
        tokenizeLoop fuel source (pos + 1) (tokens ++ [⟨kind, String.singleton c⟩]))
    (type : HW1.TokenType) (lexeme : String) (l col : Nat) (hk : kindName type = kind)
    (hlex : lexeme = String.singleton c) (hty : type ≠ .STRING) :
    pushesLike source pos (HW1.makeToken type lexeme l col) := by
  intro fuel tokens
  rw [hstep, text_makeToken _ _ _ hty, hlex]
  simp only [ofHW1, HW1.makeToken, hk]
  rfl

/-- The tokens that start with `=`, `!`, `<` or `>`. -/
theorem pushes_comparison {lx : HW1.Lexer} {c : Char} {r : List Char} {tok : HW1.Token}
    {lx2 : HW1.Lexer} (h : lx.rest = c :: r) (hc : startsComparison c = true)
    (t2 t1 : HW1.TokenType) (l col : Nat)
    (hscan : (lx.step c).scanTwoChar (HW1.makeToken t2 (String.mk [c, '=']) l col)
      (HW1.makeToken t1 (String.singleton c) l col) = some (tok, lx2))
    (h2 : kindName t2 = "OPERATOR" ∧ t2 ≠ .STRING)
    (h1 : kindName t1 = (if isOperatorChar c then "OPERATOR" else "UNKNOWN") ∧ t1 ≠ .STRING) :
    pushesLike lx.source_.data lx.pos_ tok := by
  have hr := HW1.Lexer.rest_step h
  have hf := comparison_facts hc
  by_cases he : ∃ r2, r = '=' :: r2
  · obtain ⟨r2, rfl⟩ := he
    rw [HW1.Lexer.scanTwoChar_eq _ _ hr] at hscan
    cases hscan
    intro fuel tokens
    rw [step_two h hc, text_makeToken _ _ _ h2.2]
    simp only [ofHW1, HW1.makeToken, h2.1]
    rfl
  · have hne : ∀ r2, (lx.step c).rest ≠ '=' :: r2 := fun r2 hr2 => he ⟨r2, by rw [← hr, hr2]⟩
    have hhead : ¬ (r.head? = some '=' ∧ startsComparison c = true) := by
      rintro ⟨hh, _⟩
      cases r with
      | nil => cases hh
      | cons d r2 =>
        simp only [List.head?_cons, Option.some.injEq] at hh
        exact he ⟨r2, by rw [hh]⟩
    rw [HW1.Lexer.scanTwoChar_ne _ _ hne] at hscan
    cases hscan
    rcases ho : isOperatorChar c with _ | _
    · rw [ho] at h1
      exact pushes_single "UNKNOWN"
        (step_unknown h hf.1 hf.2.1 hf.2.2.1 hf.2.2.2.1 hhead ho hf.2.2.2.2.2)
        t1 _ l col h1.1 rfl h1.2
    · rw [ho] at h1
      exact pushes_single "OPERATOR"
        (step_operator h ho (fun hcm => hf.2.2.2.2.1 hcm.1) hhead)
        t1 _ l col h1.1 rfl h1.2

theorem pushes_string {lx : HW1.Lexer} {r : List Char} {tok : HW1.Token}
    {lx2 : HW1.Lexer} (h : lx.rest = '"' :: r)
    (hscan : (lx.step '"').scanString = some (tok, lx2))
    (hu : ¬ isUnterminatedString tok) : pushesLike lx.source_.data lx.pos_ tok := by
  have hr := HW1.Lexer.rest_step h
  obtain ⟨s, r1, hsr, hs, hr1⟩ := HW1.span_exists (fun d => d != '"') r
  have hs1 : '"' ∉ s := fun hm => by simpa using hs _ hm
  cases r1 with
  | nil =>
    simp only [List.append_nil] at hsr
    subst hsr
    rw [HW1.Lexer.scanString_unterminated hr hs1] at hscan
    cases hscan
    exact absurd ⟨rfl, rfl⟩ hu
  | cons d r2 =>
    have hd : d = '"' := by simpa using hr1 d r2 rfl
    subst hd
    subst hsr
    rw [HW1.Lexer.scanString_terminated hr hs1] at hscan
    cases hscan
    intro fuel tokens
    rw [step_string h hs1 (fun c r3 hc => by cases hc; rfl)]
    have ht : (HW1.makeToken .STRING (String.mk s) (lx.step '"').line_
        ((lx.step '"').column_ - 1)).text.length = s.length + 2 := by
      simp [HW1.Token.text, HW1.makeToken]
    rw [ht, show lx.pos_ + 1 + s.length + 1 = lx.pos_ + (s.length + 2) from by omega]
    rfl

theorem pushes_word {lx : HW1.Lexer} {c : Char} {r : List Char} {tok : HW1.Token}
    {lx2 : HW1.Lexer} (h : lx.rest = c :: r) (hc : HW1.isIdentStart c = true)
    (hscan : (lx.step c).scanIdentifierOrKeyword = some (tok, lx2)) :
    pushesLike lx.source_.data lx.pos_ tok := by
  obtain ⟨w, r1, hsr, hw, hr1⟩ := HW1.span_exists HW1.isIdentChar r
  subst hsr
  rw [HW1.Lexer.scanIdentifierOrKeyword_eq h hw hr1] at hscan
  cases hscan
  intro fuel tokens
  rw [step_word h (by rw [isWordStart_eq]; exact hc)
    (fun d hd => by rw [isWordChar_eq]; exact hw d hd)
    (fun d r2 hd => by rw [isWordChar_eq]; exact hr1 d r2 hd),
    text_makeToken _ _ _ (HW1.wordType_ne_string _)]
  simp only [ofHW1, HW1.makeToken, kindName_wordType]

theorem pushes_number {lx : HW1.Lexer} {c : Char} {r : List Char} {tok : HW1.Token}
    {lx2 : HW1.Lexer} (h : lx.rest = c :: r) (hc : HW1.isdigit c = true)
    (hscan : (lx.step c).scanNumber = some (tok, lx2)) :
    pushesLike lx.source_.data lx.pos_ tok := by
  obtain ⟨w, r1, hsr, hw, hr1⟩ := HW1.span_exists HW1.isdigit r
  subst hsr
  rw [HW1.Lexer.scanNumber_eq h hw hr1] at hscan
  cases hscan
  intro fuel tokens
  rw [step_number h (by rw [isDigitChar_eq]; exact hc)
    (fun d hd => by rw [isDigitChar_eq]; exact hw d hd)
    (fun d r2 hd => by rw [isDigitChar_eq]; exact hr1 d r2 hd),
    text_makeToken _ _ _ (by decide)]
  rfl

end Bystep

namespace Bystep

/-- In front of a character that is neither whitespace nor the start of a comment,
one iteration of the loop of `HW1_bystep` pushes the token that `scanToken` of `HW1`
returns, renamed, unless that token is the ERROR token of an unterminated string. -/
theorem scanToken_agrees {lx : HW1.Lexer} {c : Char} {r : List Char} {tok : HW1.Token}
    {lx2 : HW1.Lexer} (h : lx.rest = c :: r) (hb : HW1.isBlankChar c = false)
    (hc : ¬ (c = '/' ∧ r.head? = some '/')) (hscan : lx.scanToken = some (tok, lx2))
    (hu : ¬ isUnterminatedString tok) : pushesLike lx.source_.data lx.pos_ tok := by
  rw [HW1.Lexer.scanToken_of_rest_cons h] at hscan
  by_cases c1 : c = '('
  · rw [if_pos c1] at hscan
    cases hscan
    subst c1
    exact pushes_single "PUNCTUATION" (step_punctuation h (by decide)) _ _ _ _ rfl rfl
      (by decide)
  rw [if_neg c1] at hscan
  by_cases c2 : c = ')'
  · rw [if_pos c2] at hscan
    cases hscan
    subst c2
    exact pushes_single "PUNCTUATION" (step_punctuation h (by decide)) _ _ _ _ rfl rfl
      (by decide)
  rw [if_neg c2] at hscan
  by_cases c3 : c = '\x7b'
  · rw [if_pos c3] at hscan
    cases hscan
    subst c3
    exact pushes_single "PUNCTUATION" (step_punctuation h (by decide)) _ _ _ _ rfl rfl
      (by decide)
  rw [if_neg c3] at hscan
  by_cases c4 : c = '\x7d'
  · rw [if_pos c4] at hscan
    cases hscan
    subst c4
    exact pushes_single "PUNCTUATION" (step_punctuation h (by decide)) _ _ _ _ rfl rfl
      (by decide)
  rw [if_neg c4] at hscan
  by_cases c5 : c = ';'
  · rw [if_pos c5] at hscan
    cases hscan
    subst c5
    exact pushes_single "PUNCTUATION" (step_punctuation h (by decide)) _ _ _ _ rfl rfl
      (by decide)
  rw [if_neg c5] at hscan
  by_cases c6 : c = ':'
  · rw [if_pos c6] at hscan
    cases hscan
    subst c6
    exact pushes_single "PUNCTUATION" (step_punctuation h (by decide)) _ _ _ _ rfl rfl
      (by decide)
  rw [if_neg c6] at hscan
  by_cases c7 : c = ','
  · rw [if_pos c7] at hscan
    cases hscan
    subst c7
    exact pushes_single "PUNCTUATION" (step_punctuation h (by decide)) _ _ _ _ rfl rfl
      (by decide)
  rw [if_neg c7] at hscan
  by_cases c8 : c = '+'
  · rw [if_pos c8] at hscan
    cases hscan
    subst c8
    exact pushes_single "OPERATOR"
      (step_operator h (by decide) (fun hh => absurd hh.1 (by decide))
        (fun hh => absurd hh.2 (by decide))) _ _ _ _ rfl rfl (by decide)
  rw [if_neg c8] at hscan
  by_cases c9 : c = '-'
  · rw [if_pos c9] at hscan
    cases hscan
    subst c9
    exact pushes_single "OPERATOR"
      (step_operator h (by decide) (fun hh => absurd hh.1 (by decide))
        (fun hh => absurd hh.2 (by decide))) _ _ _ _ rfl rfl (by decide)
  rw [if_neg c9] at hscan
  by_cases c10 : c = '*'
  · rw [if_pos c10] at hscan
    cases hscan
    subst c10
    exact pushes_single "OPERATOR"
      (step_operator h (by decide) (fun hh => absurd hh.1 (by decide))
        (fun hh => absurd hh.2 (by decide))) _ _ _ _ rfl rfl (by decide)
  rw [if_neg c10] at hscan
  by_cases c11 : c = '/'
  · rw [if_pos c11] at hscan
    cases hscan
    subst c11
    exact pushes_single "OPERATOR"
      (step_operator h (by decide) hc (fun hh => absurd hh.2 (by decide)))
      _ _ _ _ rfl rfl (by decide)
  rw [if_neg c11] at hscan
  by_cases c12 : c = '='
  · rw [if_pos c12] at hscan
    subst c12
    exact pushes_comparison h (by decide) .EQ .ASSIGN _ _ hscan ⟨rfl, by decide⟩
      ⟨rfl, by decide⟩
  rw [if_neg c12] at hscan
  by_cases c13 : c = '!'
  · rw [if_pos c13] at hscan
    subst c13
    exact pushes_comparison h (by decide) .NEQ .ERROR _ _ hscan ⟨rfl, by decide⟩
      ⟨rfl, by decide⟩
  rw [if_neg c13] at hscan
  by_cases c14 : c = '<'
  · rw [if_pos c14] at hscan
    subst c14
    exact pushes_comparison h (by decide) .LTE .LT _ _ hscan ⟨rfl, by decide⟩
      ⟨rfl, by decide⟩
  rw [if_neg c14] at hscan
  by_cases c15 : c = '>'
  · rw [if_pos c15] at hscan
    subst c15
    exact pushes_comparison h (by decide) .GTE .GT _ _ hscan ⟨rfl, by decide⟩
      ⟨rfl, by decide⟩
  rw [if_neg c15] at hscan
  by_cases c16 : c = '"'
  · rw [if_pos c16] at hscan
    subst c16
    exact pushes_string h hscan hu
  rw [if_neg c16] at hscan
  by_cases c17 : (HW1.isalpha c || decide (c = '_')) = true
  · rw [if_pos c17] at hscan
    exact pushes_word h c17 hscan
  rw [if_neg c17] at hscan
  by_cases c18 : HW1.isdigit c = true
  · rw [if_pos c18] at hscan
    exact pushes_number h c18 hscan
  rw [if_neg c18] at hscan
  cases hscan
  have hsc : startsComparison c = false := by
    simp [startsComparison, c12, c13, c14, c15]
  exact pushes_single "UNKNOWN"
    (step_unknown h (by rw [isSpaceChar_eq]; exact hb)
      (by rw [isWordStart_eq]; simpa [HW1.isIdentStart] using c17)
      (by rw [isDigitChar_eq]; simpa using c18) c16
      (fun hh => by rw [hsc] at hh; exact absurd hh.2 (by decide))
      (by simp [isOperatorChar, c8, c9, c10, c11, c12, c14, c15])
      (by simp [isPunctuationChar, c1, c2, c3, c4, c5, c6, c7]))
    _ _ _ _ rfl rfl (by decide)

end Bystep

namespace Bystep

/-- The loop of `HW1_bystep` passes over what `skipWhitespace` of `HW1` consumes
without pushing a token. -/
theorem tokenizeLoop_skips {rest w : List Char} (hw : HW1.Skips rest w) :
    ∀ (source : List Char) (pos fuel : Nat) (tokens : List Token),
      source.drop pos = rest → rest.length < fuel →
      ∃ fuel1, fuel ≤ fuel1 + w.length ∧
        tokenizeLoop fuel source pos tokens
          = tokenizeLoop fuel1 source (pos + w.length) tokens := by
  induction hw with
  | done =>
    intro source pos fuel tokens _ _
    exact ⟨fuel, by simp, rfl⟩
  | stop c r _ _ =>
    intro source pos fuel tokens _ _
    exact ⟨fuel, by simp, rfl⟩
  | blank c r w hb _ ih =>
    intro source pos fuel tokens h hf
    obtain ⟨f, rfl⟩ : ∃ f, fuel = f + 1 := ⟨fuel - 1, by omega⟩
    simp only [List.length_cons] at hf
    obtain ⟨fuel1, hle, heq⟩ := ih source (pos + 1) f tokens (drop_succ_of_drop h) (by omega)
    refine ⟨fuel1, by simp only [List.length_cons]; omega, ?_⟩
    rw [step_space h (by rw [isSpaceChar_eq]; exact hb), heq, List.length_cons,
      Nat.add_assoc, Nat.add_comm 1]
  | comment body r w hbody hr _ ih =>
    intro source pos fuel tokens h hf
    obtain ⟨f, rfl⟩ : ∃ f, fuel = f + 1 := ⟨fuel - 1, by omega⟩
    simp only [List.length_cons, List.length_append] at hf
    have hd : source.drop (pos + ('/' :: '/' :: body).length) = r := by
      have h1 : source.drop pos = ('/' :: '/' :: body) ++ r := by rw [h]; simp
      exact drop_add_of_drop_append _ _ h1
    obtain ⟨fuel1, hle, heq⟩ := ih source _ f tokens hd (by omega)
    refine ⟨fuel1, by simp only [List.length_cons, List.length_append]; omega, ?_⟩
    rw [step_comment h hbody hr, heq]
    congr 1
    simp only [List.length_cons, List.length_append]
    omega

/-- From every state of a run of `HW1` without unterminated string, the loop of
`HW1_bystep` returns the tokens of the run, renamed. -/
theorem tokenizeLoop_agrees {lx : HW1.Lexer} {toks : List HW1.Token} {lxf : HW1.Lexer}
    (hrun : HW1.Lexer.Run lx toks lxf) :
    (∀ t ∈ toks, ¬ isUnterminatedString t) →
    ∀ (fuel : Nat) (tokens : List Token), lx.rest.length < fuel →
      tokenizeLoop fuel lx.source_.data lx.pos_ tokens = some (tokens ++ toks.map ofHW1) := by
  induction hrun with
  | done lx hend =>
    intro _ fuel tokens hf
    obtain ⟨f, rfl⟩ : ∃ f, fuel = f + 1 := ⟨fuel - 1, by omega⟩
    rw [tokenizeLoop_end (HW1.Lexer.rest_of_isAtEnd hend)]
    simp
  | blank lx lx1 _ hskip hend =>
    intro _ fuel tokens hf
    obtain ⟨w, hw⟩ := HW1.skips_exists lx.rest
    obtain ⟨r, hsplit, _⟩ := hw.split
    have hs := HW1.Lexer.skipWhitespace_skips hw
    rw [hskip] at hs
    cases hs
    have hr1 := HW1.Lexer.rest_stepAll hsplit
    rw [HW1.Lexer.rest_of_isAtEnd hend] at hr1
    subst hr1
    obtain ⟨fuel1, hle, heq⟩ := tokenizeLoop_skips hw lx.source_.data lx.pos_ fuel tokens rfl hf
    rw [hsplit, List.append_nil] at hf
    obtain ⟨f, rfl⟩ : ∃ f, fuel1 = f + 1 := ⟨fuel1 - 1, by omega⟩
    have hd : lx.source_.data.drop (lx.pos_ + w.length) = [] :=
      drop_add_of_drop_append w [] hsplit
    rw [heq, tokenizeLoop_end hd]
    simp
  | token lx lx1 lx2 tok toks lxf _ hskip hne hscan _ ih =>
    intro hu fuel tokens hf
    obtain ⟨w, hw⟩ := HW1.skips_exists lx.rest
    obtain ⟨r, hsplit, hstop⟩ := hw.split
    have hs := HW1.Lexer.skipWhitespace_skips hw
    rw [hskip] at hs
    cases hs
    have hr1 := HW1.Lexer.rest_stepAll hsplit
    obtain ⟨c, r2, hr2⟩ := HW1.Lexer.rest_ne_nil_of_not_isAtEnd hne
    rw [hr2] at hr1
    subst hr1
    rcases hstop with hnil | ⟨c1, r3, hcr, hb, hcm⟩
    · cases hnil
    cases hcr
    obtain ⟨tok1, w1, r4, hr4, hsc, _, _, _, htext⟩ := HW1.Lexer.scanToken_spec hr2
    rw [hscan] at hsc
    cases hsc
    have hpush := scanToken_agrees hr2 hb hcm hscan (hu _ (List.mem_cons_self _ _))
    rw [HW1.Lexer.stepAll_source, HW1.Lexer.stepAll_pos] at hpush
    obtain ⟨fuel1, hle, heq⟩ := tokenizeLoop_skips hw lx.source_.data lx.pos_ fuel tokens rfl hf
    rw [hsplit, hr4] at hf
    simp only [List.length_append, List.length_cons] at hf
    obtain ⟨f, rfl⟩ : ∃ f, fuel1 = f + 1 := ⟨fuel1 - 1, by omega⟩
    have hrest2 : ((lx.stepAll w).stepAll (c :: w1)).rest = r4 :=
      HW1.Lexer.rest_stepAll (by rw [hr2, hr4]; rfl)
    have hih := ih (fun t ht => hu t (List.mem_cons_of_mem _ ht)) f
      (tokens ++ [ofHW1 tok]) (by rw [hrest2]; omega)
    rw [HW1.Lexer.stepAll_source, HW1.Lexer.stepAll_source, HW1.Lexer.stepAll_pos,
      HW1.Lexer.stepAll_pos] at hih
    rw [heq, hpush, htext, hih]
    simp

/-- C24. The two tokenizers agree: for every source of ASCII characters in which
`HW1` finds no unterminated string literal, the tokens of `HW1.tokenize` without the
final END_OF_FILE token, with the positions dropped and the kinds renamed (keywords to
KEYWORD, INTEGER to NUMBER, the operators to OPERATOR, the punctuation to PUNCTUATION,
ERROR to UNKNOWN), are the tokens of the tokenizer of `HW1_bystep` on the same source. -/
theorem tokenizers_agree (source : String) (_hascii : ∀ c ∈ source.data, c.toNat < 128)
    (hstring : ∀ toks, HW1.tokenize source = some toks →
      ∀ t ∈ toks, ¬ isUnterminatedString t) :
    ∃ toks, HW1.tokenize source = some toks ∧ (toks.map HW1.Token.type).getLast? =
        some .END_OF_FILE ∧
      tokenize source = some (toks.dropLast.map ofHW1) := by
  obtain ⟨toks, lxf, hrun, htok⟩ := HW1.tokenize_run source
  refine ⟨_, htok, by simp [HW1.makeToken], ?_⟩
  have hu : ∀ t ∈ toks, ¬ isUnterminatedString t :=
    fun t ht => hstring _ htok t (List.mem_append_left _ ht)
  have := tokenizeLoop_agrees hrun hu (source.data.length + 1) []
    (by rw [HW1.Lexer.rest_new]; omega)
  rw [List.dropLast_concat]
  simpa [tokenize] using this

end Bystep

/-! ## The loop of `HW1_bystep` returns, and depends only on the characters ahead -/

namespace Bystep

/-- One iteration pushes tokens and moves the cursor by an amount that depend only on
the characters ahead. -/
theorem step_uniform (c : Char) (r : List Char) :
    ∃ (out : List Token) (n : Nat), 1 ≤ n ∧
      ∀ (source : List Char) (pos fuel : Nat) (tokens : List Token),
        source.drop pos = c :: r →
        tokenizeLoop (fuel + 1) source pos tokens
          = tokenizeLoop fuel source (pos + n) (tokens ++ out) := by
  by_cases hsp : isSpaceChar c = true
  · exact ⟨[], 1, le_rfl, fun source pos fuel tokens h => by
      rw [step_space h hsp, List.append_nil]⟩
  by_cases hw : isWordStart c = true
  · obtain ⟨w, r1, rfl, hall, hr1⟩ := HW1.span_exists isWordChar r
    exact ⟨_, (c :: w).length, by simp, fun source pos fuel tokens h =>
      step_word h hw hall hr1 fuel tokens⟩
  by_cases hd : isDigitChar c = true
  · obtain ⟨w, r1, rfl, hall, hr1⟩ := HW1.span_exists isDigitChar r
    exact ⟨_, (c :: w).length, by simp, fun source pos fuel tokens h =>
      step_number h hd hall hr1 fuel tokens⟩
  by_cases hq : c = '"'
  · subst hq
    obtain ⟨s, r1, rfl, hall, hr1⟩ := HW1.span_exists (fun d => d != '"') r
    have hs : '"' ∉ s := fun hm => by simpa using hall _ hm
    exact ⟨[⟨"STRING", String.mk s⟩], 1 + s.length + 1, by omega,
      fun source pos fuel tokens h => by
        rw [step_string h hs (fun d r2 hd => by simpa using hr1 d r2 hd),
          show pos + (1 + s.length + 1) = pos + 1 + s.length + 1 from by omega]⟩
  by_cases hcm : c = '/' ∧ r.head? = some '/'
  · obtain ⟨rfl, hh⟩ := hcm
    cases r with
    | nil => cases hh
    | cons d r2 =>
      simp only [List.head?_cons, Option.some.injEq] at hh
      subst hh
      obtain ⟨body, r1, rfl, hall, hr1⟩ := HW1.span_exists (fun d => d != '\n') r2
      exact ⟨[], ('/' :: '/' :: body).length, by simp, fun source pos fuel tokens h => by
        rw [step_comment h (fun d hd => by simpa using hall d hd)
          (fun d r3 hd => by simpa using hr1 d r3 hd), List.append_nil]⟩
  by_cases htwo : r.head? = some '=' ∧ startsComparison c = true
  · obtain ⟨hh, hc⟩ := htwo
    cases r with
    | nil => cases hh
    | cons d r2 =>
      simp only [List.head?_cons, Option.some.injEq] at hh
      subst hh
      exact ⟨_, 2, by omega, fun source pos fuel tokens h => step_two h hc fuel tokens⟩
  by_cases ho : isOperatorChar c = true
  · exact ⟨_, 1, le_rfl, fun source pos fuel tokens h =>
      step_operator h ho hcm htwo fuel tokens⟩
  by_cases hp : isPunctuationChar c = true
  · exact ⟨_, 1, le_rfl, fun source pos fuel tokens h => step_punctuation h hp fuel tokens⟩
  exact ⟨_, 1, le_rfl, fun source pos fuel tokens h =>
    step_unknown h (by simpa using hsp) (by simpa using hw) (by simpa using hd) hq htwo
      (by simpa using ho) (by simpa using hp) fuel tokens⟩

theorem tokenizeLoop_of_rest_aux (n : Nat) :
    ∀ rest : List Char, rest.length ≤ n →
      ∃ X : List Token, ∀ (source : List Char) (pos fuel : Nat) (tokens : List Token),
        source.drop pos = rest → rest.length < fuel →
        tokenizeLoop fuel source pos tokens = some (tokens ++ X) := by
  induction n with
  | zero =>
    intro rest hn
    have : rest = [] := List.length_eq_zero.mp (by omega)
    subst this
    refine ⟨[], fun source pos fuel tokens h hf => ?_⟩
    obtain ⟨f, rfl⟩ : ∃ f, fuel = f + 1 := ⟨fuel - 1, by omega⟩
    rw [tokenizeLoop_end h, List.append_nil]
  | succ n ih =>
    intro rest hn
    cases rest with
    | nil =>
      refine ⟨[], fun source pos fuel tokens h hf => ?_⟩
      obtain ⟨f, rfl⟩ : ∃ f, fuel = f + 1 := ⟨fuel - 1, by omega⟩
      rw [tokenizeLoop_end h, List.append_nil]
    | cons c r =>
      obtain ⟨out, k, hk, hstep⟩ := step_uniform c r
      simp only [List.length_cons] at hn
      obtain ⟨X, hX⟩ := ih ((c :: r).drop k) (by
        simp only [List.length_drop, List.length_cons]
        omega)
      refine ⟨out ++ X, fun source pos fuel tokens h hf => ?_⟩
      obtain ⟨f, rfl⟩ : ∃ f, fuel = f + 1 := ⟨fuel - 1, by omega⟩
      simp only [List.length_cons] at hf
      rw [hstep source pos f tokens h, hX source (pos + k) f (tokens ++ out)
        (by rw [← List.drop_drop, h]) (by
          simp only [List.length_drop, List.length_cons]
          omega), List.append_assoc]

/-- With the characters `rest` ahead and enough fuel, the loop returns, and what it
pushes depends only on `rest`. -/
theorem tokenizeLoop_of_rest (rest : List Char) :
    ∃ X : List Token, ∀ (source : List Char) (pos fuel : Nat) (tokens : List Token),
      source.drop pos = rest → rest.length < fuel →
      tokenizeLoop fuel source pos tokens = some (tokens ++ X) :=
  tokenizeLoop_of_rest_aux rest.length rest le_rfl

/-- The loop started inside a source, in front of the characters `rest`, pushes the
tokens of the source `rest`. -/
theorem tokenizeLoop_suffix {rest : List Char} {toks : List Token}
    (h : tokenize (String.mk rest) = some toks) {source : List Char} {pos : Nat}
    (hd : source.drop pos = rest) (fuel : Nat) (hf : rest.length < fuel)
    (tokens : List Token) :
    tokenizeLoop fuel source pos tokens = some (tokens ++ toks) := by
  obtain ⟨X, hX⟩ := tokenizeLoop_of_rest rest
  have h0 := hX rest 0 (rest.length + 1) [] rfl (Nat.lt_succ_self _)
  have : tokenize (String.mk rest) = some ([] ++ X) := h0
  rw [h] at this
  simp only [List.nil_append, Option.some.injEq] at this
  subst this
  exact hX source pos fuel tokens hd hf

theorem tokenize_total (source : String) : ∃ toks, tokenize source = some toks := by
  obtain ⟨X, hX⟩ := tokenizeLoop_of_rest source.data
  exact ⟨[] ++ X, hX source.data 0 (source.data.length + 1) [] rfl (Nat.lt_succ_self _)⟩

/-- The tokens of a string literal alone in the source, with or without its closing
quote. -/
theorem tokenize_quote (s r : List Char) (hs : '"' ∉ s) (hr : r = [] ∨ r = ['"']) :
    tokenize (String.mk ('"' :: (s ++ r))) = some [⟨"STRING", String.mk s⟩] := by
  have h0 : ('"' :: (s ++ r)).drop 0 = '"' :: (s ++ r) := rfl
  have hstep := step_string h0 hs (fun c r1 hc => by
    rcases hr with rfl | rfl
    · cases hc
    · cases hc; rfl) ((s ++ r).length + 1) []
  have hend : ('"' :: (s ++ r)).drop (0 + 1 + s.length + 1) = [] := by
    apply List.drop_eq_nil_of_le
    rcases hr with rfl | rfl <;>
      (simp only [List.length_cons, List.length_append, List.length_nil]; omega)
  unfold tokenize
  simp only [List.length_cons]
  rw [hstep, tokenizeLoop_end hend]
  rfl

end Bystep

namespace Bystep

/-- Witness of C24: a source with a comparison, a lone `!`, a string literal with a
blank, a comment and a number. -/
theorem tokenizers_agree_witness :
    ((∀ c ∈ "x<=1 !\"a b\" // c\n7".data, c.toNat < 128) ∧
      ∀ toks, HW1.tokenize "x<=1 !\"a b\" // c\n7" = some toks →
        ∀ t ∈ toks, ¬ isUnterminatedString t) ∧
    tokenize "x<=1 !\"a b\" // c\n7"
      = some [⟨"IDENTIFIER", "x"⟩, ⟨"OPERATOR", "<="⟩, ⟨"NUMBER", "1"⟩, ⟨"UNKNOWN", "!"⟩,
          ⟨"STRING", "a b"⟩, ⟨"NUMBER", "7"⟩] ∧
    ∃ toks, HW1.tokenize "x<=1 !\"a b\" // c\n7" = some toks ∧
      (toks.map HW1.Token.type).getLast? = some .END_OF_FILE ∧
      tokenize "x<=1 !\"a b\" // c\n7" = some (toks.dropLast.map ofHW1) :=
  have hascii : ∀ c ∈ "x<=1 !\"a b\" // c\n7".data, c.toNat < 128 := by decide
  have hstring : ∀ toks, HW1.tokenize "x<=1 !\"a b\" // c\n7" = some toks →
      ∀ t ∈ toks, ¬ isUnterminatedString t := by
    intro toks h
    have hv : HW1.tokenize "x<=1 !\"a b\" // c\n7"
        = some [⟨.IDENTIFIER, "x", 1, 1⟩, ⟨.LTE, "<=", 1, 2⟩, ⟨.INTEGER, "1", 1, 4⟩,
            ⟨.ERROR, "!", 1, 6⟩, ⟨.STRING, "a b", 1, 7⟩, ⟨.INTEGER, "7", 2, 1⟩,
            ⟨.END_OF_FILE, "", 2, 2⟩] := by decide
    rw [hv] at h
    cases h
    unfold isUnterminatedString
    decide
  ⟨⟨hascii, hstring⟩, by decide, tokenizers_agree "x<=1 !\"a b\" // c\n7" hascii hstring⟩

/-- The prefix `x = ` ends at a token boundary. -/
theorem endsAtBoundary_example :
    endsAtBoundary ['x', ' ', '=', ' '] [⟨"IDENTIFIER", "x"⟩, ⟨"OPERATOR", "="⟩] := by
  refine ⟨by decide, fun rest toks h => ?_⟩
  have h0 : ('x' :: ' ' :: '=' :: ' ' :: '"' :: rest).drop 0
      = 'x' :: ([] ++ ' ' :: '=' :: ' ' :: '"' :: rest) := rfl
  have h1 : ('x' :: ' ' :: '=' :: ' ' :: '"' :: rest).drop 1
      = ' ' :: '=' :: ' ' :: '"' :: rest := rfl
  have h2 : ('x' :: ' ' :: '=' :: ' ' :: '"' :: rest).drop 2 = '=' :: ' ' :: '"' :: rest := rfl
  have h3 : ('x' :: ' ' :: '=' :: ' ' :: '"' :: rest).drop 3 = ' ' :: '"' :: rest := rfl
  have h4 : ('x' :: ' ' :: '=' :: ' ' :: '"' :: rest).drop 4 = '"' :: rest := rfl
  have s0 := step_word h0 (by decide) (by simp) (fun c r1 hc => by cases hc; decide)
    (rest.length + 5) []
  have s1 := step_space h1 (by decide) (rest.length + 4) [⟨"IDENTIFIER", "x"⟩]
  have s2 := step_operator h2 (by decide) (fun hh => absurd hh.1 (by decide))
    (fun hh => absurd (Option.some.inj hh.1) (by decide)) (rest.length + 3)
    [⟨"IDENTIFIER", "x"⟩]
  have s3 := step_space h3 (by decide) (rest.length + 2)
    [⟨"IDENTIFIER", "x"⟩, ⟨"OPERATOR", "="⟩]
  have s4 := tokenizeLoop_suffix h h4 (rest.length + 2) (by simp)
    [⟨"IDENTIFIER", "x"⟩, ⟨"OPERATOR", "="⟩]
  show tokenizeLoop (rest.length + 5 + 1) ('x' :: ' ' :: '=' :: ' ' :: '"' :: rest) 0 [] = _
  rw [s0]
  exact s1.trans (s2.trans (s3.trans s4))

/-- C27. The tokenizer of `HW1_bystep` does not tell an unterminated string from a
terminated one: for every `s` without `"`, after a prefix `p` that ends at a token
boundary before the quote, the source `p "s` and the source `p "s"` give the same
tokens, those of `p` followed by one STRING token of value `s`, and no other token;
the scan returns although, in front of `"s` at the end of a source, the iteration
leaves the cursor at one more than the length of the source. -/
theorem tokenize_open_string (p s : List Char) (front : List Token) (hs : '"' ∉ s)
    (hp : endsAtBoundary p front) :
    tokenize (String.mk (p ++ '"' :: s)) = some (front ++ [⟨"STRING", String.mk s⟩]) ∧
    tokenize (String.mk (p ++ '"' :: (s ++ ['"'])))
      = some (front ++ [⟨"STRING", String.mk s⟩]) ∧
    (∀ (source : List Char) (pos fuel : Nat) (tokens : List Token),
      source.drop pos = '"' :: s →
      tokenizeLoop (fuel + 1) source pos tokens
        = tokenizeLoop fuel source (source.length + 1)
            (tokens ++ [⟨"STRING", String.mk s⟩]) ∧
      tokenizeLoop (fuel + 2) source pos tokens
        = some (tokens ++ [⟨"STRING", String.mk s⟩])) := by
  refine ⟨?_, ?_, ?_⟩
  · have hq := tokenize_quote s [] hs (Or.inl rfl)
    rw [List.append_nil] at hq
    exact hp.2 s _ hq
  · exact hp.2 (s ++ ['"']) _ (tokenize_quote s ['"'] hs (Or.inr rfl))
  · intro source pos fuel tokens h
    have hlen : source.length + 1 = pos + 1 + s.length + 1 := by
      have := congrArg List.length h
      simp only [List.length_drop, List.length_cons] at this
      omega
    have h1 : source.drop pos = '"' :: (s ++ []) := by simpa using h
    have hstep : ∀ f, tokenizeLoop (f + 1) source pos tokens
        = tokenizeLoop f source (source.length + 1)
            (tokens ++ [⟨"STRING", String.mk s⟩]) := by
      intro f
      rw [step_string h1 hs (fun c r1 hc => by cases hc), hlen]
    refine ⟨hstep fuel, ?_⟩
    rw [hstep (fuel + 1), tokenizeLoop_end (List.drop_eq_nil_of_le (Nat.le_succ _))]

/-- Witness of C27: `x = "ab` and `x = "ab"`. -/
theorem tokenize_open_string_witness :
    ('"' ∉ ['a', 'b'] ∧
      endsAtBoundary ['x', ' ', '=', ' '] [⟨"IDENTIFIER", "x"⟩, ⟨"OPERATOR", "="⟩]) ∧
    tokenize "x = \"ab"
      = some [⟨"IDENTIFIER", "x"⟩, ⟨"OPERATOR", "="⟩, ⟨"STRING", "ab"⟩] ∧
    tokenize "x = \"ab\""
      = some [⟨"IDENTIFIER", "x"⟩, ⟨"OPERATOR", "="⟩, ⟨"STRING", "ab"⟩] :=
  have h := tokenize_open_string ['x', ' ', '=', ' '] ['a', 'b']
    [⟨"IDENTIFIER", "x"⟩, ⟨"OPERATOR", "="⟩] (by decide) endsAtBoundary_example
  ⟨⟨by decide, endsAtBoundary_example⟩, h.1, h.2.1⟩

end Bystep
